import Mathlib

/-!
# Ymir event scheduler

A shallow embedding of `ymir::core::Scheduler`
(`libs/ymir-core/include/ymir/core/scheduler.hpp`) and theorems about it, followed by
embeddings of the code that drives it or stands beside it: `Saturn::LoadState`,
`Saturn::Run` and the two single-step methods (`sys/saturn.cpp`), the DMA of the SCU
DSP (`hw/scu/scu_dsp.cpp`), the way replacement of the SH-2 cache
(`hw/sh2/sh2_cache.hpp`) and the slopes of the VDP rasteriser (`hw/vdp/slope.hpp`).

* `uint64` values are natural numbers; every arithmetic operation of the source
  that can wrap is written with `add64`, `sub64`, `mul64` (reduction modulo `2 ^ 64`).
* The fixed-size array `m_events` is a list; `kNumScheduledEvents` is its length.
* A callback together with its `userContext` is a function on a world `W`
  (the state of the component behind the opaque pointer) that returns the final
  `EventContext` and the new world.  Callbacks do not call back into the scheduler.
* The `while` loop of `Execute` is bounded by a fuel argument; the result is `none`
  when the fuel runs out or when the source would index `m_events` out of range.
* A division of the source is the division of natural numbers.  Where the divisor is
  zero the C++ code has no defined behaviour; the value 0 that the division has here
  then describes no run of the code.
-/

namespace Ymir

/-! ## 64-bit arithmetic -/

/-- Addition of two `uint64` values. -/
def add64 (a b : Nat) : Nat := (a + b) % 18446744073709551616

/-- Subtraction of two `uint64` values. -/
def sub64 (a b : Nat) : Nat :=
  (a + (18446744073709551616 - b % 18446744073709551616)) % 18446744073709551616

/-- Multiplication of two `uint64` values. -/
def mul64 (a b : Nat) : Nat := (a * b) % 18446744073709551616

/-- Value of a `uint64` bit pattern read as `sint64` (`static_cast<sint64>`). -/
def toSint64 (x : Nat) : Int :=
  if x % 18446744073709551616 < 9223372036854775808 then ((x % 18446744073709551616 : Nat) : Int)
  else ((x % 18446744073709551616 : Nat) : Int) - 18446744073709551616

/-- Bit pattern of a `sint64` value obtained from wrapping signed arithmetic. -/
def ofSint64 (z : Int) : Nat := (z % 18446744073709551616).toNat

/-! ## Data model -/

/-- Constant `Scheduler::kNoDeadline`: the cycle count that stands for "not scheduled". -/
def kNoDeadline : Nat := 18446744073709551615

/-- Struct `EventContext`: what a callback leaves behind (`Reschedule` sets both fields). -/
structure EventContext where
  reschedule : Bool
  interval : Nat

/-- Struct `Scheduler::Event`.  The pair `userContext`, `callback` is one function on the world. -/
structure Event (W : Type) where
  target : Nat
  countNumerator : Nat
  countDenominator : Nat
  callback : W → EventContext × W

/-- Method `Event::CalcTargetScaledByReciprocal`:
`(target * countDenominator + countNumerator - 1) / countNumerator` in `uint64`.  For
`countNumerator = 0` the division of the C++ code is undefined; the value 0 that this
definition then has describes no run of the code. -/
def Event.CalcTargetScaledByReciprocal {W : Type} (e : Event W) : Nat :=
  sub64 (add64 (mul64 e.target e.countDenominator) e.countNumerator) 1 / e.countNumerator

/-- The expression `m_currCount * event.countNumerator / event.countDenominator` that
`ScheduleFromNow`, `IsScheduled`, `SetEventCountFactor` and `Execute` all compute.  For
`countDenominator = 0` the division of the C++ code is undefined; the value 0 that this
definition then has describes no run of the code. -/
def Event.scaledCount {W : Type} (e : Event W) (currCount : Nat) : Nat :=
  mul64 currCount e.countNumerator / e.countDenominator

/-- One invocation of a callback, as recorded in the trace of `Execute`:
the index of the fired event and the value of `CalcTargetScaledByReciprocal`
it had when its callback was invoked. -/
structure Fired where
  id : Nat
  deadline : Nat
deriving DecidableEq, Repr

/-- Modelled from the spec: `state::SchedulerState::EventState` of
`ymir/state/state_scheduler.hpp`, which is not among the sources; the fields are the
ones `SaveState` writes. -/
structure EventState where
  id : Nat
  target : Nat
  countNumerator : Nat
  countDenominator : Nat
deriving DecidableEq, Repr

/-- Modelled from the spec: `state::SchedulerState` of `ymir/state/state_scheduler.hpp`,
which is not among the sources: the base counter and one entry per event slot. -/
structure SchedulerState where
  currCount : Nat
  events : List EventState
deriving DecidableEq, Repr

/-- The data members of `Scheduler`. -/
structure Scheduler (W : Type) where
  m_currCount : Nat
  m_nextCount : Nat
  m_nextEvent : Nat
  m_events : List (Event W)
  m_userIDs : List Nat
  m_nextEventIndex : Nat
  m_eventPtrs : List Nat

namespace Scheduler

variable {W : Type}

/-- Constant `kNumScheduledEvents`, the size of `m_events` (its value is declared in
`scheduler_defs.hpp`, which is not among the sources). -/
def kNumScheduledEvents (s : Scheduler W) : Nat := s.m_events.length

/-- Body of the `for` loop of `RecalcSchedule`, run over the remaining slots
starting at `index`, with the current values of `m_nextCount` and `m_nextEvent`. -/
def RecalcLoop : List (Event W) → Nat → Nat → Nat → Nat × Nat
  | [], _, nextCount, nextEvent => (nextCount, nextEvent)
  | event :: rest, index, nextCount, nextEvent =>
    if event.target = kNoDeadline then RecalcLoop rest (index + 1) nextCount nextEvent
    else if event.CalcTargetScaledByReciprocal < nextCount then
      RecalcLoop rest (index + 1) event.CalcTargetScaledByReciprocal index
    else RecalcLoop rest (index + 1) nextCount nextEvent

/-- Method `Scheduler::RecalcSchedule`. -/
def RecalcSchedule (s : Scheduler W) : Scheduler W :=
  { s with
    m_nextCount := (RecalcLoop s.m_events 0 kNoDeadline s.m_events.length).1
    m_nextEvent := (RecalcLoop s.m_events 0 kNoDeadline s.m_events.length).2 }

/-- Method `Scheduler::Reset`. -/
def Reset (s : Scheduler W) : Scheduler W :=
  RecalcSchedule
    { s with
      m_currCount := 0
      m_events := s.m_events.map (fun event => { event with target := kNoDeadline }) }

/-- Constructor `Scheduler::Scheduler()`.  The constructor initialises neither `m_events` nor
`m_userIDs`, so their initial contents are arguments; `kInvalidEvent` and the size
of `m_eventPtrs` depend on the types of `scheduler_defs.hpp`. -/
def create (kInvalidEvent numUserIDs : Nat) (events : List (Event W)) (userIDs : List Nat) :
    Scheduler W :=
  Reset
    { m_currCount := 0
      m_nextCount := 0
      m_nextEvent := 0
      m_events := events
      m_userIDs := userIDs
      m_nextEventIndex := 0
      m_eventPtrs := List.replicate numUserIDs kInvalidEvent }

/-- Method `Scheduler::RegisterEvent`, returning the new state and the event ID.  The result
is `none` when the first assertion fails or when a store would leave `m_eventPtrs` or
`m_events`.  The second assertion compares `m_nextEventIndex` with the largest value of
`EventID`, a type of `scheduler_defs.hpp`; it is not part of this definition, and the
conversion of `m_nextEventIndex` to `EventID` is taken to be exact. -/
def RegisterEvent (kInvalidEvent : Nat) (s : Scheduler W) (userID : Nat)
    (callback : W → EventContext × W) : Option (Scheduler W × Nat) :=
  match s.m_eventPtrs[userID]?, s.m_events[s.m_nextEventIndex]? with
  | some ptr, some event =>
    if ptr = kInvalidEvent then
      some
        ({ s with
           m_eventPtrs := s.m_eventPtrs.set userID s.m_nextEventIndex
           m_events := s.m_events.set s.m_nextEventIndex
             { event with callback := callback, countNumerator := 1, countDenominator := 1 }
           m_userIDs := s.m_userIDs.set s.m_nextEventIndex userID
           m_nextEventIndex := s.m_nextEventIndex + 1 },
         s.m_nextEventIndex)
    else none
  | _, _ => none

/-- Method `Scheduler::SetEventCallback`. -/
def SetEventCallback (s : Scheduler W) (id : Nat) (callback : W → EventContext × W) :
    Scheduler W :=
  match s.m_events[id]? with
  | some event => { s with m_events := s.m_events.set id { event with callback := callback } }
  | none => s

/-- Method `Scheduler::SetEventCountFactor` (for `id` in range; the asserted preconditions are
`numerator > 0` and `denominator > 0`). -/
def SetEventCountFactor (s : Scheduler W) (id numerator denominator : Nat) : Scheduler W :=
  match s.m_events[id]? with
  | none => s
  | some event =>
    if event.target ≠ kNoDeadline then
      let oldTarget := event.target
      let oldScaledCount := event.scaledCount s.m_currCount
      let remaining := sub64 oldTarget oldScaledCount
      let rescaledCount := mul64 s.m_currCount numerator / denominator
      let s1 : Scheduler W :=
        { s with
          m_events := s.m_events.set id
            { event with
              target := add64 rescaledCount remaining
              countNumerator := numerator
              countDenominator := denominator } }
      if toSint64 remaining ≤ 0 then RecalcSchedule s1 else s1
    else
      { s with
        m_events := s.m_events.set id
          { event with countNumerator := numerator, countDenominator := denominator } }

/-- Method `Scheduler::CurrentCount`. -/
def CurrentCount (s : Scheduler W) : Nat := s.m_currCount

/-- Method `Scheduler::NextCount`. -/
def NextCount (s : Scheduler W) : Nat := s.m_nextCount

/-- Method `Scheduler::RemainingCount`: the difference of the two counters as `sint64`
(two's complement wrapping). -/
def RemainingCount (s : Scheduler W) : Int :=
  toSint64 (ofSint64 (toSint64 s.m_nextCount - toSint64 s.m_currCount))

/-- Method `Scheduler::ScheduleEvent` (for `id` in range). -/
def ScheduleEvent (s : Scheduler W) (id target : Nat) : Scheduler W :=
  match s.m_events[id]? with
  | none => s
  | some event =>
    let event1 : Event W := { event with target := target }
    let scaledTarget := event1.CalcTargetScaledByReciprocal
    if scaledTarget < s.m_nextCount then
      { s with m_events := s.m_events.set id event1, m_nextCount := scaledTarget, m_nextEvent := id }
    else { s with m_events := s.m_events.set id event1 }

/-- Method `Scheduler::ScheduleFromNow` (asserted precondition: `id < kNumScheduledEvents`). -/
def ScheduleFromNow (s : Scheduler W) (id interval : Nat) : Scheduler W :=
  match s.m_events[id]? with
  | none => s
  | some event => ScheduleEvent s id (add64 (event.scaledCount s.m_currCount) interval)

/-- Method `Scheduler::ScheduleAt` (asserted precondition: `id < kNumScheduledEvents`). -/
def ScheduleAt (s : Scheduler W) (id target : Nat) : Scheduler W :=
  ScheduleEvent s id target

/-- Method `Scheduler::GetScheduleTarget`; `kNoDeadline` stands in for a read out of range. -/
def GetScheduleTarget (s : Scheduler W) (id : Nat) : Nat :=
  match s.m_events[id]? with
  | some event => event.target
  | none => kNoDeadline

/-- Method `Scheduler::Cancel` (asserted precondition: `id < kNumScheduledEvents`). -/
def Cancel (s : Scheduler W) (id : Nat) : Scheduler W :=
  match s.m_events[id]? with
  | some event => { s with m_events := s.m_events.set id { event with target := kNoDeadline } }
  | none => s

/-- Method `Scheduler::IsScheduled`; `false` stands in for a read out of range. -/
def IsScheduled (s : Scheduler W) (id : Nat) : Bool :=
  match s.m_events[id]? with
  | some event =>
    if event.target = kNoDeadline then false
    else decide (event.scaledCount s.m_currCount < event.target)
  | none => false

/-- Body of the `while` loop of `Scheduler::Execute`: the new state, the new world and
the callback invocation made, if any.  `none` when `m_nextEvent` is out of range.
The assertion `event.target != kNoDeadline` is not checked (release build). -/
def ExecuteBody (s : Scheduler W) (w : W) : Option (Scheduler W × W × List Fired) :=
  match s.m_events[s.m_nextEvent]? with
  | none => none
  | some event =>
    let currCount := s.m_currCount
    let target := event.target
    let scaledCurrCount := event.scaledCount currCount
    if scaledCurrCount ≥ target then
      let r := event.callback w
      let target1 := if r.1.reschedule then add64 target r.1.interval else kNoDeadline
      some
        (RecalcSchedule
           { s with m_events := s.m_events.set s.m_nextEvent { event with target := target1 } },
         r.2, [{ id := s.m_nextEvent, deadline := event.CalcTargetScaledByReciprocal }])
    else some (RecalcSchedule s, w, [])

/-- Method `Scheduler::Execute` with at most `fuel` evaluations of the loop condition.
Returns the final state and world and the callback invocations in order; `none` when
the fuel does not suffice or `ExecuteBody` has no result. -/
def Execute : Nat → Scheduler W → W → Option (Scheduler W × W × List Fired)
  | 0, _, _ => none
  | fuel + 1, s, w =>
    if s.m_currCount ≥ s.m_nextCount then
      match ExecuteBody s w with
      | none => none
      | some (s1, w1, fired) =>
        match Execute fuel s1 w1 with
        | none => none
        | some (s2, w2, log) => some (s2, w2, fired ++ log)
    else some (s, w, [])

/-- Method `Scheduler::Advance`. -/
def Advance (fuel count : Nat) (s : Scheduler W) (w : W) :
    Option (Scheduler W × W × List Fired) :=
  if add64 s.m_currCount count ≥ s.m_nextCount then
    Execute fuel { s with m_currCount := add64 s.m_currCount count } w
  else some ({ s with m_currCount := add64 s.m_currCount count }, w, [])

/-- The entries that the loop of `SaveState` writes, one per slot, from `m_events` and
`m_userIDs`. -/
def SaveEvents : List (Event W) → List Nat → List EventState
  | event :: events, userID :: userIDs =>
    { id := userID, target := event.target, countNumerator := event.countNumerator,
      countDenominator := event.countDenominator } :: SaveEvents events userIDs
  | _, _ => []

/-- Method `Scheduler::SaveState`. -/
def SaveState (s : Scheduler W) : SchedulerState :=
  { currCount := s.m_currCount, events := SaveEvents s.m_events s.m_userIDs }

/-- Method `Scheduler::ValidateState`; an entry whose `id` is outside `m_eventPtrs` is rejected. -/
def ValidateState (kInvalidEvent : Nat) (s : Scheduler W) (state : SchedulerState) : Bool :=
  state.events.all (fun entry =>
    match s.m_eventPtrs[entry.id]? with
    | some eventIndex => decide (eventIndex ≠ kInvalidEvent)
    | none => false)

/-- The `for` loop of `LoadState` over the remaining entries; `none` when an entry
names no registered event or its slot index is out of range. -/
def LoadEvents (kInvalidEvent : Nat) (eventPtrs : List Nat) :
    List EventState → List (Event W) → Option (List (Event W))
  | [], events => some events
  | entry :: entries, events =>
    match eventPtrs[entry.id]? with
    | none => none
    | some eventIndex =>
      if eventIndex = kInvalidEvent then none
      else
        match events[eventIndex]? with
        | none => none
        | some event =>
          LoadEvents kInvalidEvent eventPtrs entries
            (events.set eventIndex
              { event with
                target := entry.target
                countNumerator := entry.countNumerator
                countDenominator := entry.countDenominator })

/-- Method `Scheduler::LoadState`. -/
def LoadState (kInvalidEvent : Nat) (s : Scheduler W) (state : SchedulerState) :
    Option (Scheduler W) :=
  match LoadEvents kInvalidEvent s.m_eventPtrs state.events s.m_events with
  | none => none
  | some events =>
    some (RecalcSchedule { s with m_currCount := state.currCount, m_events := events })

/-! ## Specification vocabulary -/

/-- The minimum, over all events whose target is not `kNoDeadline`, of the base-clock
deadline `CalcTargetScaledByReciprocal`; `kNoDeadline` when there is no such event. -/
def minDeadline : List (Event W) → Nat
  | [] => kNoDeadline
  | event :: rest =>
    if event.target = kNoDeadline then minDeadline rest
    else if event.CalcTargetScaledByReciprocal ≤ minDeadline rest then
      event.CalcTargetScaledByReciprocal
    else minDeadline rest

/-- The cache is a lower bound: `m_nextCount` is not above the base-clock deadline of
any event that has a deadline. -/
def CacheLowerBound (s : Scheduler W) : Prop :=
  ∀ (i : Nat) (e : Event W), s.m_events[i]? = some e → e.target ≠ kNoDeadline →
    s.m_nextCount ≤ e.CalcTargetScaledByReciprocal

/-- The cache is exact: `m_nextCount` is the least base-clock deadline and `m_nextEvent`
is the first slot that has it, or `m_nextCount` is `kNoDeadline` and `m_nextEvent` is
`m_events.size()`. -/
def CacheExact (s : Scheduler W) : Prop :=
  CacheLowerBound s ∧ s.m_nextCount ≤ kNoDeadline ∧
  (s.m_nextCount = kNoDeadline → s.m_nextEvent = s.m_events.length) ∧
  (s.m_nextCount < kNoDeadline →
    ∃ e : Event W, s.m_events[s.m_nextEvent]? = some e ∧ e.target ≠ kNoDeadline ∧
      e.CalcTargetScaledByReciprocal = s.m_nextCount ∧
      ∀ (j : Nat) (e1 : Event W), j < s.m_nextEvent → s.m_events[j]? = some e1 → e1.target ≠ kNoDeadline →
        s.m_nextCount < e1.CalcTargetScaledByReciprocal)

/-- An event of slot `i` that `Execute` can read: it has a deadline, or it is the slot
the cached index points to. -/
def Relevant (s : Scheduler W) (i : Nat) (e : Event W) : Prop :=
  s.m_events[i]? = some e ∧ (e.target ≠ kNoDeadline ∨ i = s.m_nextEvent)

/-- No 64-bit overflow for event `e` at base count `c`: the ratio is positive, the
scaled count stays below the sentinel, the ceiling conversion of the target does not
wrap, and neither does it after any reschedule the callback can request. -/
def EventFits (c : Nat) (e : Event W) : Prop :=
  0 < e.countNumerator ∧ 0 < e.countDenominator ∧
  c * e.countNumerator < kNoDeadline ∧
  (e.target ≠ kNoDeadline →
    e.target * e.countDenominator + e.countNumerator - 1 < 18446744073709551616) ∧
  ∀ w : W, (e.callback w).1.reschedule = true →
    (e.scaledCount c + (e.callback w).1.interval) * e.countDenominator + e.countNumerator - 1
      < 18446744073709551616

/-- No 64-bit overflow up to base count `C`: the base counter has not passed `C`, `C`
is below the sentinel, and every event `Execute` can read fits at base count `C`. -/
def NoOverflow (C : Nat) (s : Scheduler W) : Prop :=
  s.m_currCount ≤ C ∧ C < kNoDeadline ∧
  ∀ (i : Nat) (e : Event W), Relevant s i e → EventFits C e

/-- Every callback `Execute` can invoke requests either no reschedule or an interval
greater than zero. -/
def CallbacksProgress (s : Scheduler W) : Prop :=
  ∀ (i : Nat) (e : Event W), Relevant s i e →
    ∀ w : W, (e.callback w).1.reschedule = true → 0 < (e.callback w).1.interval

/-- Number of component-local cycles by which an event is overdue at base count `c`,
plus one; zero when it has no deadline or is not due. -/
def slack (c : Nat) (e : Event W) : Nat :=
  if e.target = kNoDeadline then 0
  else if e.target ≤ e.scaledCount c then e.scaledCount c - e.target + 1
  else 0

/-- Sum of `slack` over the table: a bound on the callback invocations still to come. -/
def overdue (c : Nat) : List (Event W) → Nat
  | [] => 0
  | e :: rest => slack c e + overdue c rest

/-- Order of the trace: earlier base-clock deadline first, lower slot index first among
equal deadlines. -/
def FiredLE (a b : Fired) : Prop :=
  a.deadline < b.deadline ∨ (a.deadline = b.deadline ∧ a.id ≤ b.id)

/-- Number of invocations of the callback of slot `h` recorded in a trace. -/
def invocations (h : Nat) (log : List Fired) : Nat :=
  log.countP (fun f => decide (f.id = h))

/-- The base-clock deadlines with which slot `h` fired, in the order of the trace. -/
def deadlinesOf (h : Nat) (log : List Fired) : List Nat :=
  (log.filter (fun f => decide (f.id = h))).map (fun f => f.deadline)

/-- Number of invocations of the callback of slot `h` over the traces of several calls. -/
def totalInvocations (h : Nat) : List (List Fired) → Nat
  | [] => 0
  | log :: logs => invocations h log + totalInvocations h logs

/-- A sequence of `Advance` calls with the given counts, each run with the same fuel;
returns the final state and world and the trace of every call, in order. -/
def AdvanceSeq (fuel : Nat) : List Nat → Scheduler W → W →
    Option (Scheduler W × W × List (List Fired))
  | [], s, w => some (s, w, [])
  | count :: counts, s, w =>
    match Advance fuel count s w with
    | none => none
    | some (s1, w1, log) =>
      match AdvanceSeq fuel counts s1 w1 with
      | none => none
      | some (s2, w2, logs) => some (s2, w2, log :: logs)

/-- The cached index is in range whenever the cached deadline is not the sentinel. -/
def CacheIndexOk (s : Scheduler W) : Prop :=
  s.m_nextCount < kNoDeadline → s.m_nextEvent < s.m_events.length

/-- The scheduler states reachable from construction through the public operations on
slots in range, where the clock ratio of a slot changes only while the slot has no
deadline: `RegisterEvent` takes a slot that was never scheduled and
`SetEventCountFactor` is called on an unscheduled event.  `kInvalidEvent` is the
constant of that name. -/
inductive Reachable (kInvalidEvent : Nat) : Scheduler W → Prop
  | create (numUserIDs : Nat) (events : List (Event W)) (userIDs : List Nat) :
    Reachable kInvalidEvent (create kInvalidEvent numUserIDs events userIDs)
  | registerEvent (s s1 : Scheduler W) (userID id : Nat) (callback : W → EventContext × W) :
    Reachable kInvalidEvent s →
    RegisterEvent kInvalidEvent s userID callback = some (s1, id) →
    GetScheduleTarget s s.m_nextEventIndex = kNoDeadline →
    Reachable kInvalidEvent s1
  | setEventCallback (s : Scheduler W) (id : Nat) (callback : W → EventContext × W) :
    Reachable kInvalidEvent s → id < kNumScheduledEvents s →
    Reachable kInvalidEvent (SetEventCallback s id callback)
  | setEventCountFactor (s : Scheduler W) (id numerator denominator : Nat) :
    Reachable kInvalidEvent s → id < kNumScheduledEvents s →
    0 < numerator → 0 < denominator → GetScheduleTarget s id = kNoDeadline →
    Reachable kInvalidEvent (SetEventCountFactor s id numerator denominator)
  | scheduleFromNow (s : Scheduler W) (id interval : Nat) :
    Reachable kInvalidEvent s → id < kNumScheduledEvents s →
    Reachable kInvalidEvent (ScheduleFromNow s id interval)
  | scheduleAt (s : Scheduler W) (id target : Nat) :
    Reachable kInvalidEvent s → id < kNumScheduledEvents s →
    Reachable kInvalidEvent (ScheduleAt s id target)
  | cancel (s : Scheduler W) (id : Nat) :
    Reachable kInvalidEvent s → id < kNumScheduledEvents s →
    Reachable kInvalidEvent (Cancel s id)
  | reset (s : Scheduler W) :
    Reachable kInvalidEvent s → Reachable kInvalidEvent (Reset s)
  | advance (s s1 : Scheduler W) (w w1 : W) (fuel count : Nat) (log : List Fired) :
    Reachable kInvalidEvent s → Advance fuel count s w = some (s1, w1, log) →
    Reachable kInvalidEvent s1
  | loadState (s s1 : Scheduler W) (state : SchedulerState) :
    Reachable kInvalidEvent s → LoadState kInvalidEvent s state = some s1 →
    Reachable kInvalidEvent s1

/-- The event that `SetEventCountFactor` writes back for an event with a deadline: the
new target `rescaledCount + remaining` and the new ratio. -/
def rescaled (e : Event W) (currCount numerator denominator : Nat) : Event W :=
  { e with target := add64 (mul64 currCount numerator / denominator)
                       (sub64 e.target (e.scaledCount currCount))
           countNumerator := numerator
           countDenominator := denominator }

/-- Condition of the `assert` at the top of the loop body of `Scheduler::Execute`:
`event.target != kNoDeadline` for the event the cached index points to; `false` stands
in for a read out of range. -/
def ExecuteAssert (s : Scheduler W) : Bool :=
  match s.m_events[s.m_nextEvent]? with
  | some event => decide (event.target ≠ kNoDeadline)
  | none => false

/-- The two assertions at the top of `Scheduler::RegisterEvent`:
`m_eventPtrs[userID] == kInvalidEvent` and
`m_nextEventIndex <= std::numeric_limits<EventID>::max()`.  The largest value of the
type `EventID` of `scheduler_defs.hpp` is the parameter `maxEventID`; `false` stands in
for a read outside `m_eventPtrs`. -/
def RegisterEventAsserts (kInvalidEvent maxEventID : Nat) (s : Scheduler W) (userID : Nat) :
    Bool :=
  match s.m_eventPtrs[userID]? with
  | some ptr => decide (ptr = kInvalidEvent) && decide (s.m_nextEventIndex ≤ maxEventID)
  | none => false

/-- Method `Scheduler::RegisterEvent` with its assertions compiled in: the state when the
call ends and the handle when it returns one.  A failed assertion ends the call before
any store; so does, in this model, a store outside `m_events`. -/
def RegisterEventChecked (kInvalidEvent maxEventID : Nat) (s : Scheduler W) (userID : Nat)
    (callback : W → EventContext × W) : Scheduler W × Option Nat :=
  if RegisterEventAsserts kInvalidEvent maxEventID s userID = true then
    match RegisterEvent kInvalidEvent s userID callback with
    | some (s1, id) => (s1, some id)
    | none => (s, none)
  else (s, none)

/-- The scheduler states reachable from construction when the scheduler is used only
through registered handles: every call that takes an event ID is given a handle that
`RegisterEvent` has returned, that is an index below `m_nextEventIndex`. -/
inductive HandleReachable (kInvalidEvent : Nat) : Scheduler W → Prop
  | create (numUserIDs : Nat) (events : List (Event W)) (userIDs : List Nat) :
    HandleReachable kInvalidEvent (create kInvalidEvent numUserIDs events userIDs)
  | registerEvent (s s1 : Scheduler W) (userID id : Nat) (callback : W → EventContext × W) :
    HandleReachable kInvalidEvent s →
    RegisterEvent kInvalidEvent s userID callback = some (s1, id) →
    HandleReachable kInvalidEvent s1
  | setEventCallback (s : Scheduler W) (id : Nat) (callback : W → EventContext × W) :
    HandleReachable kInvalidEvent s → id < s.m_nextEventIndex →
    HandleReachable kInvalidEvent (SetEventCallback s id callback)
  | setEventCountFactor (s : Scheduler W) (id numerator denominator : Nat) :
    HandleReachable kInvalidEvent s → id < s.m_nextEventIndex →
    HandleReachable kInvalidEvent (SetEventCountFactor s id numerator denominator)
  | scheduleFromNow (s : Scheduler W) (id interval : Nat) :
    HandleReachable kInvalidEvent s → id < s.m_nextEventIndex →
    HandleReachable kInvalidEvent (ScheduleFromNow s id interval)
  | scheduleAt (s : Scheduler W) (id target : Nat) :
    HandleReachable kInvalidEvent s → id < s.m_nextEventIndex →
    HandleReachable kInvalidEvent (ScheduleAt s id target)
  | cancel (s : Scheduler W) (id : Nat) :
    HandleReachable kInvalidEvent s → id < s.m_nextEventIndex →
    HandleReachable kInvalidEvent (Cancel s id)
  | reset (s : Scheduler W) :
    HandleReachable kInvalidEvent s → HandleReachable kInvalidEvent (Reset s)
  | advance (s s1 : Scheduler W) (w w1 : W) (fuel count : Nat) (log : List Fired) :
    HandleReachable kInvalidEvent s → Advance fuel count s w = some (s1, w1, log) →
    HandleReachable kInvalidEvent s1
  | loadState (s s1 : Scheduler W) (state : SchedulerState) :
    HandleReachable kInvalidEvent s → LoadState kInvalidEvent s state = some s1 →
    HandleReachable kInvalidEvent s1

/-- Invariant of a scheduler used only through registered handles: no slot from
`m_nextEventIndex` on has a deadline, the cached index is a registered slot or outside
the table, and `m_eventPtrs` names registered slots only. -/
def HandleInv (kInvalidEvent : Nat) (s : Scheduler W) : Prop :=
  (∀ (i : Nat) (e : Event W), s.m_nextEventIndex ≤ i → s.m_events[i]? = some e →
    e.target = kNoDeadline) ∧
  (s.m_nextEvent < s.m_nextEventIndex ∨ s.m_events.length ≤ s.m_nextEvent) ∧
  (∀ (u idx : Nat), s.m_eventPtrs[u]? = some idx → idx ≠ kInvalidEvent →
    idx < s.m_nextEventIndex)

/-- What a call on slot `id` may do to the rest of the table and to the cached index. -/
def SlotEffect (s s1 : Scheduler W) (id : Nat) : Prop :=
  (∀ j, j ≠ id → s1.m_events[j]? = s.m_events[j]?) ∧
  (s1.m_nextEvent = s.m_nextEvent ∨ s1.m_nextEvent = id ∨ CacheExact s1)

/-! ## Registration and save states: vocabulary -/

/-- The user ID `u` is registered: its entry of `m_eventPtrs` holds an event ID and not
`kInvalidEvent`.  This is the test `RegisterEvent` asserts to fail before it registers
`u`, and the one `ValidateState` makes. -/
def IsRegistered (kInvalidEvent : Nat) (s : Scheduler W) (u : Nat) : Prop :=
  ∃ idx : Nat, s.m_eventPtrs[u]? = some idx ∧ idx ≠ kInvalidEvent

/-- Two states have the same registrations: the same user-ID tables, the same number
of registered events and the same number of slots. -/
def SameRegistration (s s1 : Scheduler W) : Prop :=
  s1.m_eventPtrs = s.m_eventPtrs ∧ s1.m_userIDs = s.m_userIDs ∧
  s1.m_nextEventIndex = s.m_nextEventIndex ∧ s1.m_events.length = s.m_events.length

/-- The two user-ID tables agree: `m_eventPtrs` maps a user ID to a registered slot
exactly when `m_userIDs` of that slot is the user ID, and no more slots are registered
than there are. -/
def RegistrationInv (kInvalidEvent : Nat) (s : Scheduler W) : Prop :=
  s.m_nextEventIndex ≤ s.m_events.length ∧
  (∀ (u idx : Nat), s.m_eventPtrs[u]? = some idx → idx ≠ kInvalidEvent →
    idx < s.m_nextEventIndex ∧ s.m_userIDs[idx]? = some u) ∧
  (∀ (i u : Nat), i < s.m_nextEventIndex → s.m_userIDs[i]? = some u →
    s.m_eventPtrs[u]? = some i)

/-! ## Example schedulers -/

/-- A callback that requests no reschedule. -/
def oneShot : Unit → EventContext × Unit :=
  fun w => ({ reschedule := false, interval := 0 }, w)

/-- A callback that always calls `Reschedule(interval)`. -/
def periodic (interval : Nat) : Unit → EventContext × Unit :=
  fun w => ({ reschedule := true, interval := interval }, w)

/-- An event on a 1:1 clock. -/
def unitEvent (target : Nat) (callback : Unit → EventContext × Unit) : Event Unit :=
  { target := target, countNumerator := 1, countDenominator := 1, callback := callback }

/-- A freshly constructed scheduler with two event slots and four user IDs
(`kInvalidEvent = 255`), the uninitialised memory being zero. -/
def demoFresh : Scheduler Unit :=
  create 255 4
    [{ target := 0, countNumerator := 0, countDenominator := 0, callback := oneShot },
     { target := 0, countNumerator := 0, countDenominator := 0, callback := oneShot }]
    [0, 0]

/-- State `demoFresh` after `RegisterEvent(1, ..)` with a callback that requests no
reschedule: event A is slot 0. -/
def demoOne : Scheduler Unit :=
  match RegisterEvent 255 demoFresh 1 oneShot with
  | none => demoFresh
  | some (s1, _) => s1

/-- State `demoOne` after `RegisterEvent(2, ..)` with a callback that requests no reschedule:
event A is slot 0, event B is slot 1. -/
def demoTwo : Scheduler Unit :=
  match RegisterEvent 255 demoOne 2 oneShot with
  | none => demoOne
  | some (s2, _) => s2

/-- An event with target 10 on a clock of ratio 3/7. -/
def demoRatioEvent : Event Unit :=
  { target := 10, countNumerator := 3, countDenominator := 7, callback := oneShot }

/-- State `demoTwo` after `ScheduleAt(A, 100)`. -/
def demoPending : Scheduler Unit := ScheduleAt demoTwo 0 100

/-- State `demoTwo` after `ScheduleAt(A, 10)` and then `ScheduleAt(A, 100)`: event A was
rescheduled to a later time. -/
def demoLater : Scheduler Unit := ScheduleAt (ScheduleAt demoTwo 0 10) 0 100

/-- State `demoLater` after `ScheduleAt(B, 50)`: A (slot 0) has target 100 and B (slot 1) has
target 50, while the cache still holds A with deadline 10. -/
def demoOutOfOrder : Scheduler Unit := ScheduleAt demoLater 1 50

/-- State `demoTwo` after `ScheduleAt(B, 10)` and then `ScheduleAt(A, 10)`: equal deadlines,
scheduled in the order B, A. -/
def demoTie : Scheduler Unit := ScheduleAt (ScheduleAt demoTwo 1 10) 0 10

/-- State `demoFresh` after `RegisterEvent(1, ..)` with a callback that always calls
`Reschedule(10)`; slot 1 stays unregistered. -/
def demoTimer : Scheduler Unit :=
  match RegisterEvent 255 demoFresh 1 (periodic 10) with
  | none => demoFresh
  | some (s1, _) => s1

/-- State `demoTimer` after `RegisterEvent(2, ..)` with a callback that requests no
reschedule: event A (slot 0) always calls `Reschedule(10)`, event B (slot 1) fires
once. -/
def demoTimerTwo : Scheduler Unit :=
  match RegisterEvent 255 demoTimer 2 oneShot with
  | none => demoTimer
  | some (s1, _) => s1

/-- State `demoTimerTwo` after `ScheduleAt(A, 10)` and `ScheduleAt(B, 25)`; the cache
holds A with deadline 10. -/
def demoMixed : Scheduler Unit := ScheduleAt (ScheduleAt demoTimerTwo 0 10) 1 25

/-- State `demoTimerTwo` after `ScheduleAt(A, 10)`, `ScheduleAt(A, 100)` and
`ScheduleAt(B, 50)`: A was rescheduled to a later time, and the cache still holds A
with deadline 10. -/
def demoMixedStale : Scheduler Unit :=
  ScheduleAt (ScheduleAt (ScheduleAt demoTimerTwo 0 10) 0 100) 1 50

/-- State `demoTimer` after `RegisterEvent(2, ..)` with a callback that always calls
`Reschedule(10)`: both events are periodic. -/
def demoTimerBoth : Scheduler Unit :=
  match RegisterEvent 255 demoTimer 2 (periodic 10) with
  | none => demoTimer
  | some (s1, _) => s1

/-- State `demoTimerBoth` after `ScheduleAt(A, 10)` and then `ScheduleAt(B, 10)`: equal
deadlines, and the cache holds A (slot 0). -/
def demoBothTie : Scheduler Unit := ScheduleAt (ScheduleAt demoTimerBoth 0 10) 1 10

/-- State `demoTimerBoth` after `ScheduleAt(B, 10)` and then `ScheduleAt(A, 10)`: equal
deadlines, and the cache holds B (slot 1). -/
def demoBothTieReversed : Scheduler Unit := ScheduleAt (ScheduleAt demoTimerBoth 1 10) 0 10

/-- A call made by a client of the scheduler. -/
inductive Op where
  | advance (count : Nat)
  | scheduleFromNow (id interval : Nat)
  | scheduleAt (id target : Nat)
  | cancel (id : Nat)
  | setEventCountFactor (id numerator denominator : Nat)
  | reset

/-- The call schedules slot `h` or changes its clock ratio. -/
def Op.touches (h : Nat) : Op → Prop
  | Op.scheduleFromNow id _ => id = h
  | Op.scheduleAt id _ => id = h
  | Op.setEventCountFactor id _ _ => id = h
  | _ => False

/-- Number of cycles the call adds to the base counter. -/
def Op.count : Op → Nat
  | Op.advance count => count
  | _ => 0

/-- Effect of one call; only `Advance` invokes callbacks and can fail to return. -/
def applyOp (fuel : Nat) (op : Op) (s : Scheduler W) (w : W) :
    Option (Scheduler W × W × List Fired) :=
  match op with
  | Op.advance count => Advance fuel count s w
  | Op.scheduleFromNow id interval => some (ScheduleFromNow s id interval, w, [])
  | Op.scheduleAt id target => some (ScheduleAt s id target, w, [])
  | Op.cancel id => some (Cancel s id, w, [])
  | Op.setEventCountFactor id numerator denominator =>
    some (SetEventCountFactor s id numerator denominator, w, [])
  | Op.reset => some (Reset s, w, [])

/-- A sequence of calls; returns the final state and world and the trace of every call. -/
def runOps (fuel : Nat) : List Op → Scheduler W → W →
    Option (Scheduler W × W × List (List Fired))
  | [], s, w => some (s, w, [])
  | op :: ops, s, w =>
    match applyOp fuel op s w with
    | none => none
    | some (s1, w1, log) =>
      match runOps fuel ops s1 w1 with
      | none => none
      | some (s2, w2, logs) => some (s2, w2, log :: logs)

/-- State `demoTwo` after `ScheduleAt(A, 10)` and `Cancel(A)`: the nearest event was cancelled. -/
def demoCancelled : Scheduler Unit := Cancel (ScheduleAt demoTwo 0 10) 0

/-- Base count obtained from the base count `c` by converting it to cycles of the
component clock with the expression `scaledCount` (as `ScheduleFromNow` does) and
converting the result back with `CalcTargetScaledByReciprocal`. -/
def roundTrip (e : Event W) (c : Nat) : Nat :=
  ({ e with target := e.scaledCount c } : Event W).CalcTargetScaledByReciprocal

/-- An event on a clock of ratio 1/10. -/
def demoSlowEvent : Event Unit :=
  { target := 0, countNumerator := 1, countDenominator := 10, callback := oneShot }

/-- A snapshot for `demoTwo` with denominator 0 for user ID 1 and numerator 0 for user
ID 2. -/
def demoZeroRatioSnapshot : SchedulerState :=
  { currCount := 7
    events := [{ id := 1, target := 30, countNumerator := 1, countDenominator := 0 },
               { id := 2, target := 20, countNumerator := 0, countDenominator := 1 }] }

/-- A snapshot for `demoTwo`: base count 7, target 30 for user ID 1 and target 20 for
user ID 2, both on 1:1 clocks. -/
def demoSnapshot : SchedulerState :=
  { currCount := 7
    events := [{ id := 1, target := 30, countNumerator := 1, countDenominator := 1 },
               { id := 2, target := 20, countNumerator := 1, countDenominator := 1 }] }

/-- A snapshot for `demoTwo` with two entries for user ID 1, targets 30 and 40. -/
def demoDuplicateSnapshot : SchedulerState :=
  { currCount := 7
    events := [{ id := 1, target := 30, countNumerator := 1, countDenominator := 1 },
               { id := 1, target := 40, countNumerator := 1, countDenominator := 1 }] }

/-- State `demoPending` after `SetEventCountFactor(A, 2, 1)`: the clock of the pending
event A (target 100) now runs twice as fast. -/
def demoFaster : Scheduler Unit := SetEventCountFactor demoPending 0 2 1

/-- State `demoTwo` after `Advance(100)`. -/
def demoAt100 : Scheduler Unit := { demoTwo with m_currCount := 100 }

/-- State `demoAt100` after `ScheduleAt(A, 50)`: event A is overdue by 50 cycles. -/
def demoOverdue : Scheduler Unit := ScheduleAt demoAt100 0 50

/-- State `demoOverdue` after `SetEventCountFactor(A, 1, 4)`: the clock of the overdue
event A is slowed to a quarter. -/
def demoSlower : Scheduler Unit := SetEventCountFactor demoOverdue 0 1 4

/-- State `demoOverdue` after `ScheduleAt(A, 500)`: at count 100 event A was scheduled
at 50 and then at 500, and the cache still holds the deadline 50. -/
def demoPostponed : Scheduler Unit := ScheduleAt demoOverdue 0 500

/-- The value of `m_nextEvent` at each entry of the loop body of `Scheduler::Execute`, in
order, over at most `fuel` evaluations of the loop condition: the indices with which
the body reads `m_events`. -/
def ExecuteReads : Nat → Scheduler W → W → List Nat
  | 0, _, _ => []
  | fuel + 1, s, w =>
    if s.m_currCount ≥ s.m_nextCount then
      s.m_nextEvent ::
        (match ExecuteBody s w with
         | none => []
         | some (s1, w1, _) => ExecuteReads fuel s1 w1)
    else []

/-- The indices with which `Execute` reads `m_events` during `Advance(count)`; none when
`Advance` does not call `Execute`. -/
def AdvanceReads (fuel count : Nat) (s : Scheduler W) (w : W) : List Nat :=
  if add64 s.m_currCount count ≥ s.m_nextCount then
    ExecuteReads fuel { s with m_currCount := add64 s.m_currCount count } w
  else []

/-- A freshly constructed scheduler with two event slots and four user IDs
(`kInvalidEvent = 255`) whose uninitialised `m_userIDs` entries hold `u`. -/
def demoBlank (u : Nat) : Scheduler Unit :=
  create 255 4
    [{ target := 0, countNumerator := 0, countDenominator := 0, callback := oneShot },
     { target := 0, countNumerator := 0, countDenominator := 0, callback := oneShot }]
    [u, u]

/-- State `demoBlank u` after `RegisterEvent(1, ..)`: slot 0 is registered with user ID 1,
slot 1 is not registered. -/
def demoPartial (u : Nat) : Scheduler Unit :=
  match RegisterEvent 255 (demoBlank u) 1 oneShot with
  | none => demoBlank u
  | some (s1, _) => s1

end Scheduler

/-! ## The save-state loader of the system -/

/-- The objects whose `ValidateState` and `LoadState` methods `Saturn::LoadState` calls,
in the order of the calls. -/
inductive Component where
  | scheduler | system | mem | masterSH2 | slaveSH2 | SCU | SMPC | VDP | SCSP | CDBlock
deriving DecidableEq, Repr

/-- The `ValidateState` and `LoadState` methods of the components other than the
scheduler, whose code is not among the sources: arbitrary functions on the joint state
`R` of those components and the part `σ` of the snapshot they read.  The entry for
`Component.scheduler` is not used. -/
structure ComponentOps (R σ : Type) where
  validate : Component → R → σ → Bool
  load : Component → R → σ → R

/-- Modelled from the spec: `state::State` of `ymir/state/state.hpp`, which is not among
the sources; the fields are the ones `Saturn::LoadState` reads, `rest` standing for the
snapshots of the other components. -/
structure State (σ : Type) where
  scheduler : SchedulerState
  slaveSH2Enabled : Bool
  msh2SpilloverCycles : Nat
  ssh2SpilloverCycles : Nat
  rest : σ

/-- The data members of `Saturn` that `Saturn::LoadState` and `Saturn::Run` use;
`components` is the joint state of `m_system`, `mem`, `masterSH2`, `slaveSH2`, `SCU`,
`SMPC`, `VDP`, `SCSP`, `CDBlock`, `SH1` and the debug break manager. -/
structure Saturn (W R : Type) where
  m_scheduler : Scheduler W
  slaveSH2Enabled : Bool
  m_msh2SpilloverCycles : Nat
  m_ssh2SpilloverCycles : Nat
  m_sh1SpilloverCycles : Nat
  components : R

namespace Saturn

variable {W R σ : Type}

/-- Method `Saturn::LoadState`: the returned flag, the new state, and the `LoadState`
calls made, in order.  `none` when `Scheduler::LoadState` has no result. -/
def LoadState (kInvalidEvent : Nat) (ops : ComponentOps R σ) (sat : Saturn W R)
    (state : State σ) : Option (Bool × Saturn W R × List Component) :=
  if Scheduler.ValidateState kInvalidEvent sat.m_scheduler state.scheduler = false then
    some (false, sat, [])
  else if ops.validate Component.system sat.components state.rest = false then
    some (false, sat, [])
  else if ops.validate Component.mem sat.components state.rest = false then
    some (false, sat, [])
  else if ops.validate Component.masterSH2 sat.components state.rest = false then
    some (false, sat, [])
  else if ops.validate Component.slaveSH2 sat.components state.rest = false then
    some (false, sat, [])
  else if ops.validate Component.SCU sat.components state.rest = false then
    some (false, sat, [])
  else if ops.validate Component.SMPC sat.components state.rest = false then
    some (false, sat, [])
  else if ops.validate Component.VDP sat.components state.rest = false then
    some (false, sat, [])
  else if ops.validate Component.SCSP sat.components state.rest = false then
    some (false, sat, [])
  else if ops.validate Component.CDBlock sat.components state.rest = false then
    some (false, sat, [])
  else
    match Scheduler.LoadState kInvalidEvent sat.m_scheduler state.scheduler with
    | none => none
    | some scheduler =>
      let c1 := ops.load Component.system sat.components state.rest
      let c2 := ops.load Component.mem c1 state.rest
      let c3 := ops.load Component.masterSH2 c2 state.rest
      let c4 := ops.load Component.slaveSH2 c3 state.rest
      let c5 := ops.load Component.SCU c4 state.rest
      let c6 := ops.load Component.SMPC c5 state.rest
      let c7 := ops.load Component.VDP c6 state.rest
      let c8 := ops.load Component.SCSP c7 state.rest
      let c9 := ops.load Component.CDBlock c8 state.rest
      some (true,
        { sat with
          m_scheduler := scheduler
          slaveSH2Enabled := state.slaveSH2Enabled
          m_msh2SpilloverCycles := state.msh2SpilloverCycles
          m_ssh2SpilloverCycles := state.ssh2SpilloverCycles
          components := c9 },
        [Component.scheduler, Component.system, Component.mem, Component.masterSH2,
         Component.slaveSH2, Component.SCU, Component.SMPC, Component.VDP, Component.SCSP,
         Component.CDBlock])

/-- Every one of the ten `ValidateState` calls of `Saturn::LoadState` accepts the
snapshot. -/
def AllValid (kInvalidEvent : Nat) (ops : ComponentOps R σ) (sat : Saturn W R)
    (state : State σ) : Bool :=
  Scheduler.ValidateState kInvalidEvent sat.m_scheduler state.scheduler &&
  ops.validate Component.system sat.components state.rest &&
  ops.validate Component.mem sat.components state.rest &&
  ops.validate Component.masterSH2 sat.components state.rest &&
  ops.validate Component.slaveSH2 sat.components state.rest &&
  ops.validate Component.SCU sat.components state.rest &&
  ops.validate Component.SMPC sat.components state.rest &&
  ops.validate Component.VDP sat.components state.rest &&
  ops.validate Component.SCSP sat.components state.rest &&
  ops.validate Component.CDBlock sat.components state.rest

/-- Component methods that accept every snapshot except that the VDP rejects, and whose
`LoadState` does nothing. -/
def demoOps : ComponentOps Unit Unit :=
  { validate := fun c _ _ => decide (c ≠ Component.VDP), load := fun _ r _ => r }

/-- A system whose scheduler is `demoPending`. -/
def demoSaturn : Saturn Unit Unit :=
  { m_scheduler := Scheduler.demoPending, slaveSH2Enabled := false,
    m_msh2SpilloverCycles := 3, m_ssh2SpilloverCycles := 4, m_sh1SpilloverCycles := 0,
    components := () }

/-- A snapshot whose scheduler part is `demoSnapshot`. -/
def demoState : State Unit :=
  { scheduler := Scheduler.demoSnapshot, slaveSH2Enabled := true, msh2SpilloverCycles := 0,
    ssh2SpilloverCycles := 0, rest := () }

end Saturn

namespace static_config

/-- Constant `static_config::max_timing_granularity` of `saturn.cpp`. -/
def max_timing_granularity : Bool := false

/-- Constant `static_config::use_cdblock_lle` of `saturn.cpp`. -/
def use_cdblock_lle : Bool := true

end static_config

/-- The template parameter `debug` of `Saturn::Run`.  The other template parameter,
`enableSH2Cache`, is only passed on to the `Advance` methods of the two SH-2. -/
structure RunConfig where
  debug : Bool

/-- The methods of the components that `Saturn::Run` calls, whose code is not among the
sources: arbitrary functions on the joint state `R`.  The `Advance` methods of the
three processors take a target and a start position and return the position reached;
`cdblockNum` and `cdblockDen` are the two values read from `GetClockRatios()`. -/
structure RunOps (R : Type) where
  masterSH2Advance : R → Nat → Nat → Nat × R
  slaveSH2Advance : R → Nat → Nat → Nat × R
  scuAdvance : R → Nat → R
  vdpAdvance : R → Nat → R
  sh1Advance : R → Nat → Nat → Nat × R
  isDebugBreakRaised : R → Bool
  lowerDebugBreak : R → Bool × R
  cdblockNum : R → Nat
  cdblockDen : R → Nat

/-- A call that `Saturn::Run` makes, with its arguments. -/
inductive Call where
  | masterSH2Advance (target start : Nat)
  | slaveSH2Advance (target start : Nat)
  | scuAdvance (cycles : Nat)
  | vdpAdvance (cycles : Nat)
  | sh1Advance (cycles spillover : Nat)
  | schedulerAdvance (count : Nat)
deriving DecidableEq, Repr

/-- The call is one of those made inside the slice loop. -/
def Call.isSlice : Call → Bool
  | Call.masterSH2Advance _ _ => true
  | Call.slaveSH2Advance _ _ => true
  | Call.scuAdvance _ => true
  | _ => false

/-- The call is `Scheduler::Advance`. -/
def Call.isSchedulerAdvance : Call → Bool
  | Call.schedulerAdvance _ => true
  | _ => false

namespace Saturn

variable {R : Type}

/-- Constant `kSH2SyncMaxStep` of `Saturn::Run`. -/
def kSH2SyncMaxStep : Nat := 32

/-- The value `targetCycles = std::min(execCycles + kSH2SyncMaxStep, cycles)`. -/
def sliceTarget (cycles execCycles : Nat) : Nat :=
  if cycles < add64 execCycles kSH2SyncMaxStep then cycles
  else add64 execCycles kSH2SyncMaxStep

/-- Body of the `do ... while` loops of `Saturn::Run` up to the test of the debug
break, the two loops differing only in the call of `slaveSH2.Advance` (`withSlave`):
the new `execCycles` and `slaveCycles`, the state of the components and the calls
made. -/
def sliceBody (withSlave : Bool) (ops : RunOps R) (cycles execCycles slaveCycles : Nat)
    (r : R) : Nat × Nat × R × List Call :=
  let prevExecCycles := execCycles
  let targetCycles := sliceTarget cycles execCycles
  let m := ops.masterSH2Advance r targetCycles execCycles
  let sl := if withSlave then ops.slaveSH2Advance m.2 m.1 slaveCycles else (slaveCycles, m.2)
  (m.1, sl.1, ops.scuAdvance sl.2 (sub64 m.1 prevExecCycles),
    Call.masterSH2Advance targetCycles execCycles ::
      ((if withSlave then [Call.slaveSH2Advance m.1 slaveCycles] else []) ++
        [Call.scuAdvance (sub64 m.1 prevExecCycles)]))

/-- The `do ... while (execCycles < cycles)` loops of `Saturn::Run` with at most `fuel`
runs of the body.  Returns the final `execCycles` and `slaveCycles`, the state of the
components and the calls made; `none` when the fuel does not suffice. -/
def sliceLoop (debug withSlave : Bool) (ops : RunOps R) (cycles : Nat) :
    Nat → Nat → Nat → R → Option (Nat × Nat × R × List Call)
  | 0, _, _, _ => none
  | fuel + 1, execCycles, slaveCycles, r =>
    let b := sliceBody withSlave ops cycles execCycles slaveCycles r
    if (debug && ops.isDebugBreakRaised b.2.2.1) = true then some b
    else if b.1 < cycles then
      match sliceLoop debug withSlave ops cycles fuel b.1 b.2.1 b.2.2.1 with
      | none => none
      | some (e, sc, r4, rest) => some (e, sc, r4, b.2.2.2 ++ rest)
    else some b

/-- The cycle budget `cycles` of `Saturn::Run`. -/
def runBudget (sat : Saturn R R) : Nat :=
  if static_config.max_timing_granularity = true then 1
  else (max (Scheduler.RemainingCount sat.m_scheduler) 0).toNat

/-- The block of `Saturn::Run` that advances the SH-1 (`use_cdblock_lle`), after
`VDP.Advance` left the components in state `r2`: the new `m_sh1SpilloverCycles`, the
state of the components and the calls made. -/
def sh1Step (ops : RunOps R) (sat : Saturn R R) (r2 : R)
    (execCycles : Nat) : Nat × R × List Call :=
  let sh1CycleCount := mul64 execCycles (ops.cdblockNum r2) / ops.cdblockDen r2
  if (static_config.use_cdblock_lle && decide (sh1CycleCount > 0)) = true then
    let a := ops.sh1Advance r2 sh1CycleCount sat.m_sh1SpilloverCycles
    (sub64 a.1 sh1CycleCount, a.2, [Call.sh1Advance sh1CycleCount sat.m_sh1SpilloverCycles])
  else (sat.m_sh1SpilloverCycles, r2, [])

/-- The values of `m_msh2SpilloverCycles` and `m_ssh2SpilloverCycles` that `Saturn::Run`
stores after the slice loop. -/
def spillover (cfg : RunConfig) (sat : Saturn R R) (execCycles slaveCycles : Nat) :
    Nat × Nat :=
  (if (sat.slaveSH2Enabled && cfg.debug) = true then
      if slaveCycles > execCycles then 0 else sub64 execCycles slaveCycles
    else 0,
   if sat.slaveSH2Enabled = true then
      if cfg.debug = true then
        if slaveCycles > execCycles then sub64 slaveCycles execCycles
        else sat.m_ssh2SpilloverCycles
      else sub64 slaveCycles execCycles
    else sat.m_ssh2SpilloverCycles)

/-- Method `Saturn::Run`, the callbacks of the scheduler acting on the components.
Returns the flag, the new state, the calls made in order and the callbacks invoked by
`Scheduler::Advance`; `none` when the fuel does not suffice for the slice loop or for
`Scheduler::Advance`. -/
def Run (cfg : RunConfig) (ops : RunOps R) (fuel : Nat) (sat : Saturn R R) :
    Option (Bool × Saturn R R × List Call × List Fired) :=
  let cycles := runBudget sat
  match sliceLoop cfg.debug sat.slaveSH2Enabled ops cycles fuel sat.m_msh2SpilloverCycles
      sat.m_ssh2SpilloverCycles sat.components with
  | none => none
  | some (execCycles, slaveCycles, r1, calls) =>
    let spill := spillover cfg sat execCycles slaveCycles
    let r2 := ops.vdpAdvance r1 execCycles
    let sh1 := sh1Step ops sat r2 execCycles
    match Scheduler.Advance fuel execCycles sat.m_scheduler sh1.2.1 with
    | none => none
    | some (scheduler, r3, log) =>
      let lowered := if cfg.debug = true then ops.lowerDebugBreak r3 else (false, r3)
      some (!lowered.1,
        { sat with
          m_scheduler := scheduler
          m_msh2SpilloverCycles := spill.1
          m_ssh2SpilloverCycles := spill.2
          m_sh1SpilloverCycles := sh1.1
          components := lowered.2 },
        calls ++ [Call.vdpAdvance execCycles] ++ sh1.2.2 ++ [Call.schedulerAdvance execCycles],
        log)

/-- The instantiation of `Saturn::Run` without debugging. -/
def demoConfig : RunConfig :=
  { debug := false }

end Saturn

/-! ## Single steps of the two SH-2 -/

/-- The `Step` methods of the two SH-2, whose code is not among the sources: the cycles
the instruction took and the new state of the components. -/
structure StepOps (R : Type) where
  masterSH2Step : R → Nat × R
  slaveSH2Step : R → Nat × R

namespace Saturn

variable {R : Type}

/-- Method `Saturn::StepMasterSH2Impl`, the callbacks of the scheduler acting on the
components.  Returns the value returned, the new state, the `Advance` calls made in
order and the callbacks invoked by `Scheduler::Advance`; `none` when the fuel does not
suffice for `Scheduler::Advance`. -/
def StepMasterSH2Impl (ops : RunOps R) (steps : StepOps R) (fuel : Nat)
    (sat : Saturn R R) : Option (Nat × Saturn R R × List Call × List Fired) :=
  let st := steps.masterSH2Step sat.components
  if st.1 ≥ sat.m_msh2SpilloverCycles then
    let masterCycles := sub64 st.1 sat.m_msh2SpilloverCycles
    let sl :=
      if sat.slaveSH2Enabled = true then
        ops.slaveSH2Advance st.2 masterCycles sat.m_ssh2SpilloverCycles
      else (0, st.2)
    let ssh2 :=
      if sat.slaveSH2Enabled = true then sub64 sl.1 masterCycles
      else sat.m_ssh2SpilloverCycles
    let r1 := ops.scuAdvance sl.2 masterCycles
    let r2 := ops.vdpAdvance r1 masterCycles
    let sh1 := sh1Step ops sat r2 masterCycles
    match Scheduler.Advance fuel masterCycles sat.m_scheduler sh1.2.1 with
    | none => none
    | some (scheduler, r3, log) =>
      some (masterCycles,
        { sat with
          m_scheduler := scheduler
          m_msh2SpilloverCycles := 0
          m_ssh2SpilloverCycles := ssh2
          m_sh1SpilloverCycles := sh1.1
          components := r3 },
        (if sat.slaveSH2Enabled = true then
            [Call.slaveSH2Advance masterCycles sat.m_ssh2SpilloverCycles] else []) ++
          [Call.scuAdvance masterCycles, Call.vdpAdvance masterCycles] ++ sh1.2.2 ++
          [Call.schedulerAdvance masterCycles],
        log)
  else
    some (st.1,
      { sat with
        m_msh2SpilloverCycles := sub64 sat.m_msh2SpilloverCycles st.1
        components := st.2 },
      [], [])

/-- Method `Saturn::StepSlaveSH2Impl`, with the same results as `StepMasterSH2Impl`. -/
def StepSlaveSH2Impl (ops : RunOps R) (steps : StepOps R) (fuel : Nat)
    (sat : Saturn R R) : Option (Nat × Saturn R R × List Call × List Fired) :=
  if sat.slaveSH2Enabled = false then some (0, sat, [], [])
  else
    let st := steps.slaveSH2Step sat.components
    if st.1 ≥ sat.m_ssh2SpilloverCycles then
      let slaveCycles := sub64 st.1 sat.m_ssh2SpilloverCycles
      let m := ops.masterSH2Advance st.2 slaveCycles sat.m_msh2SpilloverCycles
      let r1 := ops.scuAdvance m.2 slaveCycles
      let r2 := ops.vdpAdvance r1 slaveCycles
      let sh1 := sh1Step ops sat r2 slaveCycles
      match Scheduler.Advance fuel slaveCycles sat.m_scheduler sh1.2.1 with
      | none => none
      | some (scheduler, r3, log) =>
        some (slaveCycles,
          { sat with
            m_scheduler := scheduler
            m_msh2SpilloverCycles := sub64 m.1 slaveCycles
            m_ssh2SpilloverCycles := 0
            m_sh1SpilloverCycles := sh1.1
            components := r3 },
          [Call.masterSH2Advance slaveCycles sat.m_msh2SpilloverCycles,
            Call.scuAdvance slaveCycles, Call.vdpAdvance slaveCycles] ++ sh1.2.2 ++
            [Call.schedulerAdvance slaveCycles],
          log)
    else
      some (st.1,
        { sat with
          m_ssh2SpilloverCycles := sub64 sat.m_ssh2SpilloverCycles st.1
          components := st.2 },
        [], [])

/-- The total count that a list of calls passes to `Scheduler::Advance`. -/
def schedulerCycles : List Call → Nat
  | [] => 0
  | Call.schedulerAdvance count :: rest => count + schedulerCycles rest
  | _ :: rest => schedulerCycles rest

/-- The assumption on the SH-2 under which cycles are accounted: `executed` is the total
of cycles the master SH-2 has executed; its `Advance(target, start)` returns a position
`end` with `end >= target` and `end >= start` and executes `end - start` cycles, its
`Step` executes the cycles it returns (a 64-bit value), and no other component method
changes the total. -/
def MasterAccounting (ops : RunOps R) (steps : StepOps R) (executed : R → Nat) : Prop :=
  (∀ r t st, t ≤ (ops.masterSH2Advance r t st).1 ∧ st ≤ (ops.masterSH2Advance r t st).1 ∧
    executed (ops.masterSH2Advance r t st).2
      = executed r + ((ops.masterSH2Advance r t st).1 - st)) ∧
  (∀ r, (steps.masterSH2Step r).1 < 18446744073709551616 ∧
    executed (steps.masterSH2Step r).2 = executed r + (steps.masterSH2Step r).1) ∧
  (∀ r t st, executed (ops.slaveSH2Advance r t st).2 = executed r) ∧
  (∀ r, executed (steps.slaveSH2Step r).2 = executed r) ∧
  (∀ r n, executed (ops.scuAdvance r n) = executed r) ∧
  (∀ r n, executed (ops.vdpAdvance r n) = executed r) ∧
  (∀ r t st, executed (ops.sh1Advance r t st).2 = executed r)

/-- No callback of the scheduler changes the total of cycles the master SH-2 has
executed. -/
def CallbacksKeep (executed : R → Nat) (s : Scheduler R) : Prop :=
  ∀ (i : Nat) (e : Event R), s.m_events[i]? = some e →
    ∀ w, executed (e.callback w).2 = executed w

/-- The relation `M = S + m_msh2SpilloverCycles` between the cycles `M` the master SH-2
has executed and the cycles `S` passed to `Scheduler::Advance` so far. -/
def Balanced (executed : R → Nat) (S : Nat) (sat : Saturn R R) : Prop :=
  executed sat.components = S + sat.m_msh2SpilloverCycles

/-- Component methods on a state that counts the cycles of the master SH-2: its
`Advance` ends 2 cycles beyond a target it has not reached, the slave SH-2 stops at its
target, and nothing else has an effect. -/
def demoCountingOps : RunOps Nat :=
  { masterSH2Advance := fun r target start =>
      if start < target then (target + 2, r + (target + 2 - start)) else (start, r)
    slaveSH2Advance := fun r target start => (if start < target then target else start, r)
    scuAdvance := fun r _ => r
    vdpAdvance := fun r _ => r
    sh1Advance := fun r target start => (if start < target then target else start, r)
    isDebugBreakRaised := fun _ => false
    lowerDebugBreak := fun r => (false, r)
    cdblockNum := fun _ => 1
    cdblockDen := fun _ => 1 }

/-- Every instruction of either SH-2 takes one cycle. -/
def demoStepOps : StepOps Nat :=
  { masterSH2Step := fun r => (1, r + 1)
    slaveSH2Step := fun r => (1, r) }

/-- A system with the slave SH-2 enabled, no spillover cycles, a scheduler with two
unscheduled events and a master SH-2 that has executed no cycle. -/
def demoStepSaturn : Saturn Nat Nat :=
  { m_scheduler :=
      Scheduler.create 255 4
        [{ target := 0, countNumerator := 1, countDenominator := 1,
           callback := fun w => ({ reschedule := false, interval := 0 }, w) },
         { target := 0, countNumerator := 1, countDenominator := 1,
           callback := fun w => ({ reschedule := false, interval := 0 }, w) }]
        [0, 0]
    slaveSH2Enabled := true
    m_msh2SpilloverCycles := 0, m_ssh2SpilloverCycles := 0, m_sh1SpilloverCycles := 0
    components := 0 }

/-- State `demoStepSaturn` after `StepSlaveSH2Impl`: the slave SH-2 has stepped one
cycle and the master SH-2 has run 3 cycles to catch up, 2 more than the scheduler. -/
def demoAfterSlaveStep : Saturn Nat Nat :=
  match StepSlaveSH2Impl demoCountingOps demoStepOps 2 demoStepSaturn with
  | some (_, sat1, _, _) => sat1
  | none => demoStepSaturn

/-- State `demoAfterSlaveStep` after `StepMasterSH2Impl`. -/
def demoAfterMasterStep : Saturn Nat Nat :=
  match StepMasterSH2Impl demoCountingOps demoStepOps 2
      demoAfterSlaveStep with
  | some (_, sat1, _, _) => sat1
  | none => demoAfterSlaveStep

end Saturn

/-! ## The SH-2 cache: least-recently-used replacement -/

namespace Cache

/-- Constant `kCacheWays`. -/
def kCacheWays : Nat := 4

/-- Constant `kCacheEntries`. -/
def kCacheEntries : Nat := 64

/-- Function `IsValidCacheWay`. -/
def IsValidCacheWay (way : Nat) : Bool := decide (way < kCacheWays)

/-- Modelled from the spec: `bit::extract<lo, hi>` of `ymir/util/bit_ops.hpp`, which is
not among the sources: the bits `lo` to `hi` of the value, moved down to bit 0. -/
def extract (lo hi value : Nat) : Nat := (value / 2 ^ lo) % 2 ^ (hi - lo + 1)

/-- The first `n` mask bits of a bit deposit: the low bits of `value` go to the set bits
of `mask`, lowest first. -/
def scatterBits : Nat → Nat → Nat → Nat
  | 0, _, _ => 0
  | n + 1, mask, value =>
    if mask % 2 = 1 then value % 2 + 2 * scatterBits n (mask / 2) (value / 2)
    else 2 * scatterBits n (mask / 2) value

/-- Modelled from the spec: `bit::scatter<mask>` of `ymir/util/bit_ops.hpp`, which is not
among the sources: the bit deposit that the pattern comments of `kCacheLRUWaySelect`
describe, on 8-bit values. -/
def scatter (mask value : Nat) : Nat := scatterBits 8 mask value

/-- Struct `CacheLRUUpdateBits`. -/
structure CacheLRUUpdateBits where
  andMask : Nat
  orMask : Nat

/-- Table `Cache::kCacheLRUUpdateBits`, indexed by way. -/
def kCacheLRUUpdateBits : List CacheLRUUpdateBits :=
  [{ andMask := 0b000111, orMask := 0b000000 },
   { andMask := 0b011001, orMask := 0b100000 },
   { andMask := 0b101010, orMask := 0b010100 },
   { andMask := 0b110100, orMask := 0b001011 }]

/-- Body of the `for` loop that fills `kCacheLRUWaySelect`: the four stores of round `i`. -/
def waySelectRound (arr : List Nat) (i : Nat) : List Nat :=
  (((arr.set (0b111000 ||| scatter 0b000111 i) 0).set (0b000110 ||| scatter 0b011001 i) 1).set
    (0b000001 ||| scatter 0b101010 i) 2).set (0b000000 ||| scatter 0b110100 i) 3

/-- Table `Cache::kCacheLRUWaySelect`: 64 entries filled with `kCacheWays`, then the
stores of rounds 0 to 7. -/
def kCacheLRUWaySelect : List Nat :=
  (List.range 8).foldl waySelectRound (List.replicate 64 kCacheWays)

end Cache

/-- The members of `Cache` that way replacement uses: the LRU bits of each cache index
and the replacement masks.  `m_replaceORMask` holds the 8-bit pattern of each `sint8`
element (`0xFF` for `-1`), indexed by `instrFetch`. -/
structure Cache where
  m_lru : List Nat
  m_replaceANDMask : Nat
  m_replaceORMask : Bool → Nat

namespace Cache

/-- Method `Cache::Reset`, on the members of the model. -/
def Reset (_c : Cache) : Cache :=
  { m_lru := List.replicate kCacheEntries 0
    m_replaceANDMask := 0x3F
    m_replaceORMask := fun _ => 0 }

/-- Method `Cache::GetWayFromLRU<instrFetch>`; `kCacheWays` stands in for a read outside
the table (asserted precondition: `lru <= 63`). -/
def GetWayFromLRU (c : Cache) (instrFetch : Bool) (lru : Nat) : Nat :=
  ((kCacheLRUWaySelect[lru &&& c.m_replaceANDMask]?).getD kCacheWays
    ||| c.m_replaceORMask instrFetch) % 256

/-- Method `Cache::GetLRU`; 0 stands in for a read out of range. -/
def GetLRU (c : Cache) (index : Nat) : Nat := (c.m_lru[index]?).getD 0

/-- The two compound assignments of `UpdateLRU` applied to one LRU value:
`lru &= andMask; lru |= orMask` with the masks of `way`; a way outside the table leaves
the value alone. -/
def updatedLRU (lru way : Nat) : Nat :=
  match kCacheLRUUpdateBits[way]? with
  | some bits => (lru &&& bits.andMask) ||| bits.orMask
  | none => lru

/-- Method `Cache::UpdateLRU`. -/
def UpdateLRU (c : Cache) (address way : Nat) : Cache :=
  match c.m_lru[extract 4 9 address]? with
  | some lru => { c with m_lru := c.m_lru.set (extract 4 9 address) (updatedLRU lru way) }
  | none => c

/-- The cache after a sequence of `UpdateLRU(address, way)` calls, oldest first. -/
def updateAll (c : Cache) (calls : List (Nat × Nat)) : Cache :=
  calls.foldl (fun c1 call => UpdateLRU c1 call.1 call.2) c

/-- The ways of the calls that address cache index `index`, oldest first. -/
def waysAt (index : Nat) (calls : List (Nat × Nat)) : List Nat :=
  (calls.filter (fun call => decide (extract 4 9 call.1 = index))).map (fun call => call.2)

/-- Position, counted from 1, of the most recent occurrence of `way` in a list of ways
given most recent first and of which `older.length + 1` is the length; 0 when `way`
does not occur. -/
def lastUpdateRev : List Nat → Nat → Nat
  | [], _ => 0
  | x :: older, way => if x = way then older.length + 1 else lastUpdateRev older way

/-- Position, counted from 1, of the most recent `UpdateLRU(way)` in a sequence of
updates given oldest first; 0 when `way` was never updated since reset. -/
def lastUpdate (ws : List Nat) (way : Nat) : Nat := lastUpdateRev ws.reverse way

/-- Recency of a way after the updates `ws`: a way never updated since reset ranks
below every updated way, way 3 lowest; an updated way ranks by the position of its most
recent update. -/
def recency (ws : List Nat) (way : Nat) : Nat :=
  if lastUpdate ws way = 0 then 3 - way else 3 + lastUpdate ws way

/-- The least recently used way after the updates `ws`: the valid way whose most recent
update is older than that of every other valid way. -/
def IsLeastRecentlyUsed (ws : List Nat) (way : Nat) : Prop :=
  way < kCacheWays ∧ ∀ other, other < kCacheWays → other ≠ way → recency ws way < recency ws other

/-- The six bits of an LRU value from the order of each pair of ways: bit 5 for ways
(0,1), bit 4 for (0,2), bit 3 for (0,3), bit 2 for (1,2), bit 1 for (1,3) and bit 0 for
(2,3), a bit being set when the second way of the pair was used more recently. -/
def lruBits (b01 b02 b03 b12 b13 b23 : Bool) : Nat :=
  32 * b01.toNat + 16 * b02.toNat + 8 * b03.toNat + 4 * b12.toNat + 2 * b13.toNat + b23.toNat

end Cache

/-! ## Slopes of the VDP line rasteriser -/

/-- Modelled from the spec: `CoordS32` of `ymir/hw/vdp/vdp_defs.hpp`, which is not among
the sources: a pair of `sint32` coordinates. -/
structure CoordS32 where
  x : Int
  y : Int

/-- The data members of `Slope`. -/
structure Slope where
  dmaj : Int
  majinc : Int
  mininc : Int
  xmajor : Bool
  majcounter : Int
  majcounterend : Int
  mincounter : Int

/-- Value of an integer reduced to `sint32` (two's complement wrapping). -/
def wrapS32 (z : Int) : Int := (z + 2147483648) % 4294967296 - 2147483648

/-- Value of an integer reduced to `sint64` (two's complement wrapping). -/
def wrapS64 (z : Int) : Int :=
  (z + 9223372036854775808) % 18446744073709551616 - 9223372036854775808

/-- Function `SafeDiv` on `sint64` operands: the quotient rounded toward zero, or 0 for a
zero divisor. -/
def SafeDiv (dividend divisor : Int) : Int :=
  if divisor ≠ 0 then wrapS64 (Int.tdiv dividend divisor) else 0

namespace Slope

/-- Constant `Slope::kFracBits`. -/
def kFracBits : Nat := 24

/-- Constant `Slope::kFracOne`, `1ll << kFracBits`. -/
def kFracOne : Int := 16777216

/-- Function `Slope::ToFrac`: `static_cast<sint64>(value) << kFracBits`. -/
def ToFrac (value : Int) : Int := wrapS64 (value * 2 ^ kFracBits)

/-- Function `Slope::ToFracHalfBias`:
`((static_cast<sint64>(value) << 1) + 1) << (kFracBits - 1)`. -/
def ToFracHalfBias (value : Int) : Int :=
  wrapS64 (wrapS64 (wrapS64 (value * 2) + 1) * 2 ^ (kFracBits - 1))

/-- The call `abs(v)` on a `sint32` value. -/
def absS32 (v : Int) : Int := wrapS32 |v|

/-- Constructor `Slope::Slope(coord1, coord2)`. -/
def create (coord1 coord2 : CoordS32) : Slope :=
  let dx := wrapS32 (coord2.x - coord1.x)
  let dy := wrapS32 (coord2.y - coord1.y)
  let dmaj := if absS32 dx ≥ absS32 dy then absS32 dx else absS32 dy
  let xmajor := decide (absS32 dx ≥ absS32 dy)
  if xmajor then
    let majinc := if dx ≥ 0 then kFracOne else wrapS64 (-kFracOne)
    { dmaj := dmaj
      majinc := majinc
      mininc := SafeDiv (ToFrac dy) dmaj
      xmajor := xmajor
      majcounter := ToFrac coord1.x
      majcounterend := wrapS64 (ToFrac coord2.x + majinc)
      mincounter := ToFracHalfBias coord1.y }
  else
    let majinc := if dy ≥ 0 then kFracOne else wrapS64 (-kFracOne)
    { dmaj := dmaj
      majinc := majinc
      mininc := SafeDiv (ToFrac dx) dmaj
      xmajor := xmajor
      majcounter := ToFrac coord1.y
      majcounterend := wrapS64 (ToFrac coord2.y + majinc)
      mincounter := ToFracHalfBias coord1.x }

/-- Method `Slope::Step`. -/
def Step (s : Slope) : Slope :=
  { s with
    majcounter := wrapS64 (s.majcounter + s.majinc)
    mincounter := wrapS64 (s.mincounter + s.mininc) }

/-- Method `Slope::CanStep`. -/
def CanStep (s : Slope) : Bool := decide (s.majcounter ≠ s.majcounterend)

/-- Method `Slope::X`: the counter of the X axis shifted right arithmetically, as `sint32`. -/
def X (s : Slope) : Int :=
  wrapS32 ((if s.xmajor then s.majcounter else s.mincounter) >>> kFracBits)

/-- Method `Slope::Y`: the counter of the Y axis shifted right arithmetically, as `sint32`. -/
def Y (s : Slope) : Int :=
  wrapS32 ((if s.xmajor then s.mincounter else s.majcounter) >>> kFracBits)

/-- Method `Slope::Coord`. -/
def Coord (s : Slope) : CoordS32 := { x := X s, y := Y s }

/-- The coordinate along the major axis. -/
def major (s : Slope) : Int := if s.xmajor then X s else Y s

end Slope

/-! ## The DMA of the SCU DSP -/

/-- Modelled from the spec: `BusID` of `ymir/hw/scu/scu_defs.hpp`, which is not among the
sources: the values `RunDMA` compares with. -/
inductive BusID where
  | ABus
  | BBus
  | WRAM
  | None
deriving DecidableEq, Repr

/-- What `RunDMA` uses of the bus and of `scu_defs.hpp`, neither of which is among the
sources: `GetBusID`, `m_bus.IsBusWait(address, size, write)` and the 32-bit and 16-bit
reads and writes of `m_bus`, acting on a bus state `B`. -/
structure DSPBus (B : Type) where
  GetBusID : Nat → BusID
  IsBusWait : B → Nat → Nat → Bool → Bool
  Read32 : B → Nat → Nat × B
  Read16 : B → Nat → Nat × B
  Write32 : B → Nat → Nat → B
  Write16 : B → Nat → Nat → B

/-- The data members of `SCUDSP` that `Run` and `RunDMA` use.  The class is declared in
`scu_dsp.hpp`, which is not among the sources: addresses and RAM words are taken as
`uint32`, `PC`, `dmaPC` and the `CT` entries as `uint8`, and instructions by their
`u32` value. -/
structure SCUDSP where
  programExecuting : Bool
  programPaused : Bool
  programStep : Bool
  PC : Nat
  loopTop : Nat
  nextInstr : Nat
  programRAM : List Nat
  dataRAM : List (List Nat)
  CT : List Nat
  dmaRun : Bool
  dmaToD0 : Bool
  dmaHold : Bool
  dmaCount : Nat
  dmaSrc : Nat
  dmaDst : Nat
  dmaReadAddr : Nat
  dmaWriteAddr : Nat
  dmaAddrInc : Nat
  dmaAddrD0 : Nat
  dmaPC : Nat

namespace SCUDSP

variable {B : Type}

/-- Addition of two `uint32` values. -/
def add32 (a b : Nat) : Nat := (a + b) % 4294967296

/-- Subtraction of two `uint32` values. -/
def sub32 (a b : Nat) : Nat := (a + (4294967296 - b % 4294967296)) % 4294967296

/-- Body of the `do` loop of `RunDMA`, one transfer unit: `none` when the bus wait signal
stalls the transfer (`RunDMA` then returns `true`), otherwise the new DSP state, bus
state and `programRAMIndex`.  The locals `toD0`, `bus`, `ctIndex`, `useDataRAM` and
`useProgramRAM` are arguments. -/
def dmaUnit (ops : DSPBus B) (toD0 : Bool) (bus : BusID) (ctIndex : Nat)
    (useDataRAM useProgramRAM : Bool) (programRAMIndex : Nat) (d : SCUDSP) (b : B) :
    Option (SCUDSP × B × Nat) :=
  let ct := d.CT.getD ctIndex 0
  let finish := fun (d1 : SCUDSP) (b1 : B) (index1 : Nat) =>
    let d2 := { d1 with dmaAddrD0 := d1.dmaAddrD0 &&& 0x7FFFFFF }
    if useDataRAM then
      (({ d2 with CT := d2.CT.set ctIndex (((d2.CT.getD ctIndex 0 + 1) % 256) &&& 0x3F) },
        b1, index1) : SCUDSP × B × Nat)
    else (d2, b1, index1)
  if toD0 then
    if ops.IsBusWait b d.dmaAddrD0 4 true then none
    else
      let value := if useDataRAM then (d.dataRAM.getD ctIndex []).getD ct 0 else 0xFFFFFFFF
      match bus with
      | BusID.ABus =>
        some (finish { d with dmaAddrD0 := add32 d.dmaAddrD0 d.dmaAddrInc }
          (ops.Write32 b d.dmaAddrD0 value) programRAMIndex)
      | BusID.BBus =>
        let b1 := ops.Write16 b d.dmaAddrD0 (value / 65536)
        let addr1 := add32 d.dmaAddrD0 d.dmaAddrInc
        let b2 := ops.Write16 b1 addr1 (value % 65536)
        some (finish { d with dmaAddrD0 := add32 addr1 d.dmaAddrInc } b2 programRAMIndex)
      | BusID.WRAM =>
        some (finish { d with dmaAddrD0 := add32 d.dmaAddrD0 d.dmaAddrInc }
          (ops.Write32 b (d.dmaAddrD0 &&& 0xFFFFFFFC) value) programRAMIndex)
      | BusID.None => some (finish d b programRAMIndex)
  else
    if ops.IsBusWait b d.dmaAddrD0 4 false then none
    else
      let r : Nat × B × Nat :=
        match bus with
        | BusID.ABus =>
          ((ops.Read32 b d.dmaAddrD0).1, (ops.Read32 b d.dmaAddrD0).2,
            add32 d.dmaAddrD0 d.dmaAddrInc)
        | BusID.BBus =>
          let hi := ops.Read16 b (d.dmaAddrD0 ||| 0)
          let lo := ops.Read16 hi.2 (d.dmaAddrD0 ||| 2)
          (((hi.1 * 65536) % 4294967296) ||| lo.1, lo.2, add32 d.dmaAddrD0 4)
        | BusID.WRAM =>
          ((ops.Read32 b d.dmaAddrD0).1, (ops.Read32 b d.dmaAddrD0).2,
            add32 d.dmaAddrD0 d.dmaAddrInc)
        | BusID.None => (0, b, d.dmaAddrD0)
      let d1 := { d with dmaAddrD0 := r.2.2 }
      if useDataRAM then
        some (finish
          { d1 with dataRAM := d1.dataRAM.set ctIndex ((d1.dataRAM.getD ctIndex []).set ct r.1) }
          r.2.1 programRAMIndex)
      else if useProgramRAM then
        some (finish { d1 with programRAM := d1.programRAM.set programRAMIndex r.1 }
          r.2.1 ((programRAMIndex + 1) % 256))
      else some (finish d1 r.2.1 programRAMIndex)

/-- The `do ... while (--dmaCount != 0 && --cycles != 0)` loop of `RunDMA` with at most
`fuel` transfer units: whether the transfer stalled, the new states, and the D0 address
of every unit transferred, in order.  `countMod` is the number of values of the type of
`dmaCount` (declared in `scu_dsp.hpp`); `cycles` is a `uint64`. -/
def dmaLoop (countMod : Nat) (ops : DSPBus B) (toD0 : Bool) (bus : BusID) (ctIndex : Nat)
    (useDataRAM useProgramRAM : Bool) :
    Nat → Nat → Nat → SCUDSP → B → Option (Bool × SCUDSP × B × List Nat)
  | 0, _, _, _, _ => none
  | fuel + 1, cycles, programRAMIndex, d, b =>
    match dmaUnit ops toD0 bus ctIndex useDataRAM useProgramRAM programRAMIndex d b with
    | none => some (true, d, b, [])
    | some (d1, b1, index1) =>
      let d2 := { d1 with dmaCount := (d1.dmaCount + countMod - 1) % countMod }
      if d2.dmaCount ≠ 0 ∧ sub64 cycles 1 ≠ 0 then
        match dmaLoop countMod ops toD0 bus ctIndex useDataRAM useProgramRAM fuel
            (sub64 cycles 1) index1 d2 b1 with
        | none => none
        | some (stalled, d3, b3, trace) => some (stalled, d3, b3, d.dmaAddrD0 :: trace)
      else some (false, d2, b1, [d.dmaAddrD0])

/-- The block of `RunDMA` that follows the loop, entered when `dmaCount == 0`. -/
def dmaFinish (toD0 : Bool) (bus : BusID) (useProgramRAM : Bool) (d : SCUDSP) : SCUDSP :=
  let d1 : SCUDSP :=
    if ¬ d.dmaHold then
      if d.dmaAddrInc = 0 then
        if toD0 then { d with dmaWriteAddr := add32 d.dmaWriteAddr 4 }
        else { d with dmaReadAddr := add32 d.dmaReadAddr 4 }
      else if toD0 then
        let addr :=
          if bus = BusID.BBus then sub32 d.dmaAddrD0 ((d.dmaAddrInc * 2) % 4294967296)
          else sub32 d.dmaAddrD0 d.dmaAddrInc
        { d with dmaAddrD0 := addr, dmaWriteAddr := (add32 addr 4) &&& 0xFFFFFFFC }
      else { d with dmaReadAddr := d.dmaAddrD0 }
    else d
  let d2 := { d1 with dmaRun := false }
  if useProgramRAM then { d2 with nextInstr := 0, PC := d2.loopTop } else d2

/-- Method `SCUDSP::RunDMA(cycles)`: the returned flag, the new states and the D0 address
of every unit transferred; `none` when `fuel` transfer units do not suffice. -/
def RunDMA (countMod : Nat) (ops : DSPBus B) (fuel cycles : Nat) (d : SCUDSP) (b : B) :
    Option (Bool × SCUDSP × B × List Nat) :=
  if ¬ d.dmaRun then some (false, d, b, [])
  else
    let toD0 := d.dmaToD0
    let bus := ops.GetBusID d.dmaAddrD0
    if bus = BusID.None then some (false, { d with dmaRun := false }, b, [])
    else
      let ctIndex := if toD0 then d.dmaSrc else d.dmaDst
      let useDataRAM := decide (ctIndex ≤ 3)
      let useProgramRAM := !toD0 && decide (ctIndex = 4)
      match dmaLoop countMod ops toD0 bus ctIndex useDataRAM useProgramRAM fuel cycles
          d.dmaPC d b with
      | none => none
      | some (true, d1, b1, trace) => some (true, d1, b1, trace)
      | some (false, d1, b1, trace) =>
        if d1.dmaCount = 0 then some (false, dmaFinish toD0 bus useProgramRAM d1, b1, trace)
        else some (false, d1, b1, trace)

/-- Body of the `for` loop of `SCUDSP::Run`, one DSP cycle: whether the loop goes on
(`false` for each `return`), the new states and the D0 addresses of the DMA units
transferred.  The three `Cmd_` functions are the argument `execute`, applied to the
instruction fetched before the DMA ran. -/
def RunCycle (countMod : Nat) (ops : DSPBus B) (execute : Nat → SCUDSP → B → SCUDSP × B)
    (fuel : Nat) (d : SCUDSP) (b : B) : Option (Bool × SCUDSP × B × List Nat) :=
  if !d.programExecuting && !d.programStep then
    (RunDMA countMod ops fuel 0 d b).map (fun r => (false, r.2.1, r.2.2.1, r.2.2.2))
  else if d.programPaused then
    (RunDMA countMod ops fuel 0 d b).map (fun r => (false, r.2.1, r.2.2.1, r.2.2.2))
  else
    let instruction := d.nextInstr
    let d1 := { d with nextInstr := d.programRAM.getD d.PC 0 }
    if d1.dmaRun then
      match RunDMA countMod ops fuel 0 { d1 with dmaPC := d1.PC } b with
      | none => none
      | some (true, d2, b2, trace) => some (false, d2, b2, trace)
      | some (false, d2, b2, trace) =>
        some (true, { (execute instruction d2 b2).1 with programStep := false },
          (execute instruction d2 b2).2, trace)
    else
      some (true, { (execute instruction d1 b).1 with programStep := false },
        (execute instruction d1 b).2, [])

/-- One pass through the body of the `do` loop of `RunDMA` with the decrement of
`dmaCount` of its exit test, on the DSP state, the bus state and `programRAMIndex`; a
stalled unit changes nothing. -/
def transferUnit (countMod : Nat) (ops : DSPBus B) (toD0 : Bool) (bus : BusID)
    (ctIndex : Nat) (useDataRAM useProgramRAM : Bool) (x : SCUDSP × B × Nat) :
    SCUDSP × B × Nat :=
  match dmaUnit ops toD0 bus ctIndex useDataRAM useProgramRAM x.2.2 x.1 x.2.1 with
  | none => x
  | some (d1, b1, index1) =>
    ({ d1 with dmaCount := (d1.dmaCount + countMod - 1) % countMod }, b1, index1)

/-- The entire pending transfer, as the specification words it: `dmaCount` transfer
units one after the other, then the block of `RunDMA` that ends the transfer.  To be
compared with `RunDMA`, which is the code. -/
def entireTransfer (countMod : Nat) (ops : DSPBus B) (d : SCUDSP) (b : B) : SCUDSP × B :=
  let toD0 := d.dmaToD0
  let bus := ops.GetBusID d.dmaAddrD0
  let ctIndex := if toD0 then d.dmaSrc else d.dmaDst
  let useDataRAM := decide (ctIndex ≤ 3)
  let useProgramRAM := !toD0 && decide (ctIndex = 4)
  let r := (transferUnit countMod ops toD0 bus ctIndex useDataRAM useProgramRAM)^[d.dmaCount]
    (d, b, d.dmaPC)
  (dmaFinish toD0 bus useProgramRAM r.1, r.2.1)

/-- The amount by which one transfer unit advances `dmaAddrD0` before the mask: twice
`dmaAddrInc` for the two 16-bit writes to the B-Bus, 4 for the two 16-bit reads from
the B-Bus, and `dmaAddrInc` otherwise. -/
def unitStride (toD0 : Bool) (bus : BusID) (dmaAddrInc : Nat) : Nat :=
  if bus = BusID.BBus then (if toD0 then 2 * dmaAddrInc else 4) else dmaAddrInc

/-- The D0 address of transfer unit `k` of a transfer that starts at `start`: every unit
leaves the address masked to 27 bits. -/
def unitAddr (start stride k : Nat) : Nat :=
  if k = 0 then start else (start + k * stride) % 134217728

/-- A bus on which every address is on the A-Bus and nothing stalls; a read gives the
address plus 1000, and the bus state is the list of the writes made, each with address
and value. -/
def demoBus : DSPBus (List (Nat × Nat)) :=
  { GetBusID := fun _ => BusID.ABus
    IsBusWait := fun _ _ _ _ => false
    Read32 := fun b a => (a + 1000, b)
    Read16 := fun b a => (a + 1000, b)
    Write32 := fun b a v => b ++ [(a, v)]
    Write16 := fun b a v => b ++ [(a, v)] }

/-- A running DSP whose next instruction is 7, with a pending DMA of 3 units from the
A-Bus address 256 to data RAM bank 0. -/
def demoDSP : SCUDSP :=
  { programExecuting := true, programPaused := false, programStep := false
    PC := 0, loopTop := 0, nextInstr := 7
    programRAM := List.replicate 4 0
    dataRAM := List.replicate 4 (List.replicate 4 0)
    CT := [0, 0, 0, 0]
    dmaRun := true, dmaToD0 := false, dmaHold := false
    dmaCount := 3, dmaSrc := 0, dmaDst := 0
    dmaReadAddr := 256, dmaWriteAddr := 0, dmaAddrInc := 4, dmaAddrD0 := 256, dmaPC := 0 }

/-- A running DSP whose next instruction is 7, with a pending DMA of 3 units from data
RAM bank 1, which holds 11, 22, 33 and 44, to the A-Bus address 512. -/
def demoDSPOut : SCUDSP :=
  { programExecuting := true, programPaused := false, programStep := false
    PC := 0, loopTop := 0, nextInstr := 7
    programRAM := List.replicate 4 0
    dataRAM := [[0, 0, 0, 0], [11, 22, 33, 44], [0, 0, 0, 0], [0, 0, 0, 0]]
    CT := [0, 0, 0, 0]
    dmaRun := true, dmaToD0 := true, dmaHold := false
    dmaCount := 3, dmaSrc := 1, dmaDst := 0
    dmaReadAddr := 0, dmaWriteAddr := 512, dmaAddrInc := 4, dmaAddrD0 := 512, dmaPC := 0 }

/-- An instruction that stores its own value in `loopTop`. -/
def demoExecute (instruction : Nat) (d : SCUDSP) (b : List (Nat × Nat)) :
    SCUDSP × List (Nat × Nat) :=
  ({ d with loopTop := instruction }, b)

end SCUDSP

/-! ## Clock-ratio arithmetic -/

theorem add64_eq {a b : Nat} (h : a + b < 18446744073709551616) : add64 a b = a + b := by
  unfold add64; omega

theorem mul64_eq {a b : Nat} (h : a * b < 18446744073709551616) : mul64 a b = a * b := by
  unfold mul64; omega

theorem mul64_lt (a b : Nat) : mul64 a b < 18446744073709551616 := by
  unfold mul64; omega

theorem add64_lt (a b : Nat) : add64 a b < 18446744073709551616 := by
  unfold add64; omega

theorem sub64_lt (a b : Nat) : sub64 a b < 18446744073709551616 := by
  unfold sub64; omega

/-- The three wrapping steps of the ceiling formula give the exact value when it fits. -/
theorem reciprocal_numerator_eq {t q p : Nat} (hp : 0 < p)
    (h : t * q + p - 1 < 18446744073709551616) :
    sub64 (add64 (mul64 t q) p) 1 = t * q + p - 1 := by
  unfold sub64 add64 mul64
  generalize t * q = x at h ⊢
  omega

/-- Universal property of the ceiling `(x + p - 1) / p`. -/
theorem ceil_le_iff {p : Nat} (hp : 0 < p) (x b : Nat) :
    (x + p - 1) / p ≤ b ↔ x ≤ b * p := by
  rw [← Nat.lt_succ_iff, Nat.div_lt_iff_lt_mul hp, Nat.succ_mul]
  generalize b * p = y
  omega

/-- Floor of the scaled count against ceiling of the reciprocal, over the naturals. -/
theorem floor_ge_iff_ge_ceil {p q : Nat} (hp : 0 < p) (hq : 0 < q) (c t : Nat) :
    t ≤ c * p / q ↔ (t * q + p - 1) / p ≤ c := by
  rw [Nat.le_div_iff_mul_le hq, ceil_le_iff hp]

theorem ceil_mono {p : Nat} (x y : Nat) (h : x ≤ y) : (x + p - 1) / p ≤ (y + p - 1) / p :=
  Nat.div_le_div_right (by omega)

theorem scaledCount_eq {W : Type} (e : Event W) (c : Nat)
    (h : c * e.countNumerator < 18446744073709551616) :
    e.scaledCount c = c * e.countNumerator / e.countDenominator := by
  unfold Event.scaledCount; rw [mul64_eq h]

theorem calcTarget_eq {W : Type} (e : Event W) (hp : 0 < e.countNumerator)
    (h : e.target * e.countDenominator + e.countNumerator - 1 < 18446744073709551616) :
    e.CalcTargetScaledByReciprocal =
      (e.target * e.countDenominator + e.countNumerator - 1) / e.countNumerator := by
  unfold Event.CalcTargetScaledByReciprocal; rw [reciprocal_numerator_eq hp h]

/-- The due-check of `Execute` against the cached base-clock deadline. -/
theorem due_iff {W : Type} (e : Event W) (c : Nat)
    (hp : 0 < e.countNumerator) (hq : 0 < e.countDenominator)
    (hc : c * e.countNumerator < 18446744073709551616)
    (ht : e.target * e.countDenominator + e.countNumerator - 1 < 18446744073709551616) :
    e.target ≤ e.scaledCount c ↔ e.CalcTargetScaledByReciprocal ≤ c := by
  rw [scaledCount_eq e c hc, calcTarget_eq e hp ht]
  exact floor_ge_iff_ge_ceil hp hq c e.target

/-- C2: for a clock ratio with numerator and denominator positive, a base count `c`
and a component-local target, all without 64-bit overflow, the scaled count
`floor(c * numerator / denominator)` has reached the target exactly when `c` has
reached `CalcTargetScaledByReciprocal`; this value is the ceiling of
`target * denominator / numerator`; and the due-check of `Execute` succeeds at the
deadline itself and at no smaller base count. -/
theorem C2_due_check_iff_ceiling_deadline {W : Type} (e : Event W) (c : Nat)
    (hp : 0 < e.countNumerator) (hq : 0 < e.countDenominator)
    (hc : c * e.countNumerator < 18446744073709551616)
    (ht : e.target * e.countDenominator + e.countNumerator - 1 < 18446744073709551616) :
    (c * e.countNumerator / e.countDenominator ≥ e.target ↔
        c ≥ e.CalcTargetScaledByReciprocal) ∧
    (e.scaledCount c ≥ e.target ↔ c ≥ e.CalcTargetScaledByReciprocal) ∧
    (∀ b, e.CalcTargetScaledByReciprocal ≤ b ↔
        e.target * e.countDenominator ≤ b * e.countNumerator) ∧
    (e.CalcTargetScaledByReciprocal ≤ c →
        e.scaledCount e.CalcTargetScaledByReciprocal ≥ e.target ∧
        ∀ b, b < e.CalcTargetScaledByReciprocal → e.scaledCount b < e.target) := by
  have hd := due_iff e c hp hq hc ht
  refine ⟨?_, hd, ?_, ?_⟩
  · rw [← scaledCount_eq e c hc]; exact hd
  · intro b; rw [calcTarget_eq e hp ht]; exact ceil_le_iff hp _ b
  · intro hle
    have hmono : ∀ b, b ≤ c → b * e.countNumerator < 18446744073709551616 := fun b hb =>
      lt_of_le_of_lt (Nat.mul_le_mul_right _ hb) hc
    refine ⟨(due_iff e _ hp hq (hmono _ hle) ht).2 le_rfl, ?_⟩
    intro b hb
    have := due_iff e b hp hq (hmono b (by omega)) ht
    omega

/-! ## `RecalcSchedule` -/

namespace Scheduler

variable {W : Type}

theorem calcTarget_le (e : Event W) : e.CalcTargetScaledByReciprocal ≤ kNoDeadline := by
  unfold Event.CalcTargetScaledByReciprocal kNoDeadline
  have h := sub64_lt (add64 (mul64 e.target e.countDenominator) e.countNumerator) 1
  have h2 := Nat.div_le_self
    (sub64 (add64 (mul64 e.target e.countDenominator) e.countNumerator) 1) e.countNumerator
  omega

theorem minDeadline_inactive (x : Event W) (rest : List (Event W))
    (hx : x.target = kNoDeadline) : minDeadline (x :: rest) = minDeadline rest := by
  simp [minDeadline, hx]

theorem minDeadline_head (x : Event W) (rest : List (Event W))
    (hx : x.target ≠ kNoDeadline) (h : x.CalcTargetScaledByReciprocal ≤ minDeadline rest) :
    minDeadline (x :: rest) = x.CalcTargetScaledByReciprocal := by
  simp [minDeadline, hx, h]

theorem minDeadline_tail (x : Event W) (rest : List (Event W))
    (hx : x.target ≠ kNoDeadline) (h : minDeadline rest < x.CalcTargetScaledByReciprocal) :
    minDeadline (x :: rest) = minDeadline rest := by
  have h2 : ¬ x.CalcTargetScaledByReciprocal ≤ minDeadline rest := by omega
  simp [minDeadline, hx, h2]

theorem minDeadline_le_sentinel (es : List (Event W)) : minDeadline es ≤ kNoDeadline := by
  induction es with
  | nil => simp [minDeadline]
  | cons e rest ih =>
    by_cases hx : e.target = kNoDeadline
    · rw [minDeadline_inactive e rest hx]; exact ih
    · by_cases h : e.CalcTargetScaledByReciprocal ≤ minDeadline rest
      · rw [minDeadline_head e rest hx h]; exact calcTarget_le e
      · rw [minDeadline_tail e rest hx (by omega)]; exact ih

theorem minDeadline_le (es : List (Event W)) (i : Nat) (e : Event W)
    (he : es[i]? = some e) (ha : e.target ≠ kNoDeadline) :
    minDeadline es ≤ e.CalcTargetScaledByReciprocal := by
  induction es generalizing i with
  | nil => simp at he
  | cons x rest ih =>
    have hcons : minDeadline (x :: rest) ≤ minDeadline rest ∧
        (x.target ≠ kNoDeadline → minDeadline (x :: rest) ≤ x.CalcTargetScaledByReciprocal) := by
      by_cases hx : x.target = kNoDeadline
      · rw [minDeadline_inactive x rest hx]; exact ⟨le_rfl, fun h => absurd hx h⟩
      · by_cases h : x.CalcTargetScaledByReciprocal ≤ minDeadline rest
        · rw [minDeadline_head x rest hx h]; exact ⟨h, fun _ => le_rfl⟩
        · rw [minDeadline_tail x rest hx (by omega)]; exact ⟨le_rfl, fun _ => by omega⟩
    cases i with
    | zero =>
      simp at he
      subst he
      exact hcons.2 ha
    | succ k =>
      simp at he
      exact le_trans hcons.1 (ih k he)

/-- What the loop of `RecalcSchedule` computes from any intermediate cache value. -/
theorem RecalcLoop_spec (es : List (Event W)) (idx nc ne : Nat) (hnc : nc ≤ kNoDeadline) :
    (nc ≤ minDeadline es → RecalcLoop es idx nc ne = (nc, ne)) ∧
    (minDeadline es < nc → (RecalcLoop es idx nc ne).1 = minDeadline es ∧
      ∃ (k : Nat) (e : Event W), (RecalcLoop es idx nc ne).2 = idx + k ∧ es[k]? = some e ∧
        e.target ≠ kNoDeadline ∧ e.CalcTargetScaledByReciprocal = minDeadline es ∧
        ∀ (j : Nat) (e1 : Event W), j < k → es[j]? = some e1 → e1.target ≠ kNoDeadline →
          minDeadline es < e1.CalcTargetScaledByReciprocal) := by
  induction es generalizing idx nc ne with
  | nil =>
    refine ⟨fun _ => rfl, fun h => ?_⟩
    have h2 : minDeadline ([] : List (Event W)) = kNoDeadline := rfl
    omega
  | cons x rest ih =>
    by_cases hx : x.target = kNoDeadline
    · have hr : RecalcLoop (x :: rest) idx nc ne = RecalcLoop rest (idx + 1) nc ne := by
        simp [RecalcLoop, hx]
      rw [minDeadline_inactive x rest hx, hr]
      refine ⟨(ih (idx + 1) nc ne hnc).1, fun h => ?_⟩
      obtain ⟨h1, k, e, hk, hek, hea, hed, hfirst⟩ := (ih (idx + 1) nc ne hnc).2 h
      refine ⟨h1, k + 1, e, by omega, by simpa using hek, hea, hed, ?_⟩
      intro j e1 hj hej hea1
      cases j with
      | zero => simp at hej; subst hej; exact absurd hx hea1
      | succ j1 => exact hfirst j1 e1 (by omega) (by simpa using hej) hea1
    · by_cases hlt : x.CalcTargetScaledByReciprocal < nc
      · have hr : RecalcLoop (x :: rest) idx nc ne =
            RecalcLoop rest (idx + 1) x.CalcTargetScaledByReciprocal idx := by
          simp [RecalcLoop, hx, hlt]
        rw [hr]
        have hih := ih (idx + 1) x.CalcTargetScaledByReciprocal idx (calcTarget_le x)
        by_cases hle : x.CalcTargetScaledByReciprocal ≤ minDeadline rest
        · rw [minDeadline_head x rest hx hle, hih.1 hle]
          refine ⟨fun h => by omega, fun _ => ⟨rfl, 0, x, rfl, by simp, hx, rfl, ?_⟩⟩
          intro j e1 hj
          omega
        · have hgt : minDeadline rest < x.CalcTargetScaledByReciprocal := by omega
          rw [minDeadline_tail x rest hx hgt]
          refine ⟨fun h => by omega, fun _ => ?_⟩
          obtain ⟨h1, k, e, hk, hek, hea, hed, hfirst⟩ := hih.2 hgt
          refine ⟨h1, k + 1, e, by omega, by simpa using hek, hea, hed, ?_⟩
          intro j e1 hj hej hea1
          cases j with
          | zero => simp at hej; subst hej; exact hgt
          | succ j1 => exact hfirst j1 e1 (by omega) (by simpa using hej) hea1
      · have hr : RecalcLoop (x :: rest) idx nc ne = RecalcLoop rest (idx + 1) nc ne := by
          simp [RecalcLoop, hx, hlt]
        rw [hr]
        have hih := ih (idx + 1) nc ne hnc
        by_cases hle : x.CalcTargetScaledByReciprocal ≤ minDeadline rest
        · rw [minDeadline_head x rest hx hle]
          exact ⟨fun _ => hih.1 (by omega), fun h => by omega⟩
        · have hgt : minDeadline rest < x.CalcTargetScaledByReciprocal := by omega
          rw [minDeadline_tail x rest hx hgt]
          refine ⟨hih.1, fun h => ?_⟩
          obtain ⟨h1, k, e, hk, hek, hea, hed, hfirst⟩ := hih.2 h
          refine ⟨h1, k + 1, e, by omega, by simpa using hek, hea, hed, ?_⟩
          intro j e1 hj hej hea1
          cases j with
          | zero => simp at hej; subst hej; exact hgt
          | succ j1 => exact hfirst j1 e1 (by omega) (by simpa using hej) hea1

theorem RecalcSchedule_nextCount (s : Scheduler W) :
    (RecalcSchedule s).m_nextCount = minDeadline s.m_events := by
  have h := RecalcLoop_spec s.m_events 0 kNoDeadline s.m_events.length le_rfl
  have h2 := minDeadline_le_sentinel s.m_events
  simp only [RecalcSchedule]
  by_cases hc : kNoDeadline ≤ minDeadline s.m_events
  · rw [h.1 hc]; omega
  · exact (h.2 (by omega)).1

theorem RecalcSchedule_events (s : Scheduler W) :
    (RecalcSchedule s).m_events = s.m_events := rfl

theorem RecalcSchedule_currCount (s : Scheduler W) :
    (RecalcSchedule s).m_currCount = s.m_currCount := rfl

/-- After `RecalcSchedule` the cache is exact. -/
theorem RecalcSchedule_exact (s : Scheduler W) : CacheExact (RecalcSchedule s) := by
  have hspec := RecalcLoop_spec s.m_events 0 kNoDeadline s.m_events.length le_rfl
  have hs := minDeadline_le_sentinel s.m_events
  have hnc := RecalcSchedule_nextCount s
  refine ⟨?_, ?_, ?_, ?_⟩
  · intro i e he ha
    rw [hnc]
    exact minDeadline_le s.m_events i e he ha
  · rw [hnc]; exact hs
  · intro h
    rw [hnc] at h
    have := hspec.1 (by omega)
    simp only [RecalcSchedule, this]
  · intro h
    rw [hnc] at h ⊢
    obtain ⟨_, k, e, hk, hek, hea, hed, hfirst⟩ := hspec.2 h
    have hk2 : (RecalcSchedule s).m_nextEvent = k := by
      simp only [RecalcSchedule]; omega
    rw [hk2]
    exact ⟨e, hek, hea, hed, hfirst⟩

end Scheduler

/-! ## One iteration of `Execute` -/

namespace Scheduler

variable {W : Type}

theorem set_same (es : List (Event W)) (i : Nat) (e : Event W) (h : es[i]? = some e) :
    es.set i e = es := by
  induction es generalizing i with
  | nil => rfl
  | cons x rest ih =>
    cases i with
    | zero => simp at h; subst h; rfl
    | succ k => simp at h; simp [ih k h]

theorem overdue_set (c : Nat) (es : List (Event W)) (i : Nat) (e e1 : Event W)
    (h : es[i]? = some e) :
    overdue c (es.set i e1) + slack c e = overdue c es + slack c e1 := by
  induction es generalizing i with
  | nil => simp at h
  | cons x rest ih =>
    cases i with
    | zero => simp at h; subst h; simp [overdue]; omega
    | succ k =>
      simp at h
      have := ih k h
      simp [overdue]
      omega

theorem slack_le_overdue (c : Nat) (es : List (Event W)) (i : Nat) (e : Event W)
    (h : es[i]? = some e) : slack c e ≤ overdue c es := by
  induction es generalizing i with
  | nil => simp at h
  | cons x rest ih =>
    cases i with
    | zero => simp at h; subst h; simp [overdue]
    | succ k =>
      simp at h
      have := ih k h
      simp [overdue]
      omega

/-- The two outcomes of one loop iteration, in one description: slot `m_nextEvent` is
replaced by an event with the same ratio and callback, the table is rescanned, and
either the callback ran and the target is the rescheduled one, or nothing changed. -/
theorem ExecuteBody_spec (s s1 : Scheduler W) (w w1 : W) (fired : List Fired)
    (h : ExecuteBody s w = some (s1, w1, fired)) :
    ∃ e e1 : Event W,
      s.m_events[s.m_nextEvent]? = some e ∧
      s1 = RecalcSchedule { s with m_events := s.m_events.set s.m_nextEvent e1 } ∧
      e1.countNumerator = e.countNumerator ∧ e1.countDenominator = e.countDenominator ∧
      e1.callback = e.callback ∧
      ((e.target ≤ e.scaledCount s.m_currCount ∧
          fired = [{ id := s.m_nextEvent, deadline := e.CalcTargetScaledByReciprocal }] ∧
          w1 = (e.callback w).2 ∧
          e1.target = (if (e.callback w).1.reschedule then
            add64 e.target (e.callback w).1.interval else kNoDeadline)) ∨
       (¬ e.target ≤ e.scaledCount s.m_currCount ∧ fired = [] ∧ w1 = w ∧ e1 = e)) := by
  unfold ExecuteBody at h
  cases he : s.m_events[s.m_nextEvent]? with
  | none => rw [he] at h; simp at h
  | some e =>
    rw [he] at h
    simp only [ge_iff_le] at h
    by_cases hdue : e.target ≤ e.scaledCount s.m_currCount
    · rw [if_pos hdue] at h
      simp only [Option.some.injEq, Prod.mk.injEq] at h
      obtain ⟨h1, h2, h3⟩ := h
      exact ⟨e, _, rfl, h1.symm, rfl, rfl, rfl, Or.inl ⟨hdue, h3.symm, h2.symm, rfl⟩⟩
    · rw [if_neg hdue] at h
      simp only [Option.some.injEq, Prod.mk.injEq] at h
      obtain ⟨h1, h2, h3⟩ := h
      refine ⟨e, e, rfl, ?_, rfl, rfl, rfl, Or.inr ⟨hdue, h3.symm, h2.symm, rfl⟩⟩
      rw [set_same _ _ _ he]
      exact h1.symm

end Scheduler

namespace Scheduler

variable {W : Type}

theorem scaledCount_lt_sentinel (c : Nat) (e : Event W) (hf : EventFits c e) :
    e.scaledCount c < kNoDeadline ∧
    c * e.countNumerator < 18446744073709551616 := by
  obtain ⟨_, _, hc, _, _⟩ := hf
  have hc2 : c * e.countNumerator < 18446744073709551616 := by
    unfold kNoDeadline at hc; omega
  refine ⟨?_, hc2⟩
  rw [scaledCount_eq e c hc2]
  exact lt_of_le_of_lt (Nat.div_le_self _ _) hc

/-- With no overflow, the due-check of `Execute` is the comparison of the base count
with the base-clock deadline. -/
theorem due_iff_of_fits (c : Nat) (e : Event W) (hf : EventFits c e)
    (ha : e.target ≠ kNoDeadline) :
    e.target ≤ e.scaledCount c ↔ e.CalcTargetScaledByReciprocal ≤ c :=
  due_iff e c hf.1 hf.2.1 (scaledCount_lt_sentinel c e hf).2 (hf.2.2.2.1 ha)

theorem exact_relevant_active (s : Scheduler W) (hx : CacheExact s) (i : Nat) (x : Event W)
    (hr : Relevant s i x) : x.target ≠ kNoDeadline := by
  obtain ⟨hix, hor⟩ := hr
  rcases hor with h | h
  · exact h
  · subst h
    obtain ⟨_, hle, hnone, hsome⟩ := hx
    by_cases hc : s.m_nextCount = kNoDeadline
    · have := hnone hc
      rw [this] at hix
      simp at hix
    · obtain ⟨e0, he0, ha, _⟩ := hsome (by omega)
      rw [he0] at hix
      cases hix
      exact ha

theorem scaledCount_mono (c C : Nat) (e : Event W) (hcC : c ≤ C)
    (hC : C * e.countNumerator < 18446744073709551616) :
    e.scaledCount c ≤ e.scaledCount C := by
  have hc : c * e.countNumerator ≤ C * e.countNumerator := Nat.mul_le_mul_right _ hcC
  rw [scaledCount_eq e C hC, scaledCount_eq e c (by omega)]
  exact Nat.div_le_div_right hc

/-- Fitting at a base count implies fitting at every smaller one. -/
theorem EventFits_mono (c C : Nat) (e : Event W) (hcC : c ≤ C) (hf : EventFits C e) :
    EventFits c e := by
  have hC := (scaledCount_lt_sentinel C e hf).2
  have hsc := scaledCount_mono c C e hcC hC
  obtain ⟨hp, hq, hc, htf, hcf⟩ := hf
  have hle : c * e.countNumerator ≤ C * e.countNumerator := Nat.mul_le_mul_right _ hcC
  refine ⟨hp, hq, by omega, htf, ?_⟩
  intro w hr
  have h1 := hcf w hr
  have h2 : (e.scaledCount c + (e.callback w).1.interval) * e.countDenominator ≤
      (e.scaledCount C + (e.callback w).1.interval) * e.countDenominator :=
    Nat.mul_le_mul_right _ (by omega)
  omega

theorem NoOverflow_fits {C : Nat} {s : Scheduler W} (hno : NoOverflow C s) (i : Nat)
    (e : Event W) (hr : Relevant s i e) : EventFits s.m_currCount e :=
  EventFits_mono _ C e hno.1 (hno.2.2 i e hr)

/-- The event written back by a loop iteration still fits. -/
theorem fired_event_fits (c C : Nat) (e e1 : Event W) (w : W) (hcC : c ≤ C)
    (hf : EventFits C e)
    (hn : e1.countNumerator = e.countNumerator) (hd : e1.countDenominator = e.countDenominator)
    (hcb : e1.callback = e.callback) (hdue : e.target ≤ e.scaledCount c)
    (ht : e1.target = (if (e.callback w).1.reschedule then
        add64 e.target (e.callback w).1.interval else kNoDeadline)) :
    EventFits C e1 ∧
    (e1.target ≠ kNoDeadline → (e.callback w).1.reschedule = true ∧
      e1.target = e.target + (e.callback w).1.interval) := by
  have hsc : e1.scaledCount C = e.scaledCount C := by
    unfold Event.scaledCount; rw [hn, hd]
  have hmono := scaledCount_mono c C e hcC (scaledCount_lt_sentinel C e hf).2
  obtain ⟨hp, hq, hc, htf, hcf⟩ := hf
  have hres : e1.target ≠ kNoDeadline → (e.callback w).1.reschedule = true ∧
      e1.target = e.target + (e.callback w).1.interval ∧
      e1.target * e.countDenominator + e.countNumerator - 1 < 18446744073709551616 := by
    intro ha
    by_cases hr : (e.callback w).1.reschedule = true
    · rw [if_pos hr] at ht
      have hfit := hcf w hr
      have hle : (e.target + (e.callback w).1.interval) * e.countDenominator ≤
          (e.scaledCount C + (e.callback w).1.interval) * e.countDenominator :=
        Nat.mul_le_mul_right _ (by omega)
      have hself : e.target + (e.callback w).1.interval ≤
          (e.target + (e.callback w).1.interval) * e.countDenominator :=
        Nat.le_mul_of_pos_right _ hq
      have hsum : e.target + (e.callback w).1.interval < 18446744073709551616 := by omega
      rw [add64_eq hsum] at ht
      refine ⟨hr, ht, ?_⟩
      rw [ht]
      omega
    · rw [if_neg hr] at ht
      exact absurd ht ha
  refine ⟨⟨by rw [hn]; exact hp, by rw [hd]; exact hq, by rw [hn]; exact hc, ?_, ?_⟩, ?_⟩
  · intro ha
    rw [hn, hd]
    exact (hres ha).2.2
  · intro w2 hr2
    rw [hcb] at hr2 ⊢
    rw [hsc, hn, hd]
    exact hcf w2 hr2
  · intro ha
    exact ⟨(hres ha).1, (hres ha).2.1⟩

/-- A loop iteration keeps the no-overflow condition. -/
theorem ExecuteBody_noOverflow (C : Nat) (s s1 : Scheduler W) (w w1 : W) (fired : List Fired)
    (h : ExecuteBody s w = some (s1, w1, fired)) (hno : NoOverflow C s) :
    NoOverflow C s1 ∧ CacheExact s1 ∧ s1.m_currCount = s.m_currCount := by
  obtain ⟨e, e1, he, hs1, hn, hd, hcb, hcase⟩ := ExecuteBody_spec s s1 w w1 fired h
  have hex : CacheExact s1 := by rw [hs1]; exact RecalcSchedule_exact _
  have hcur : s1.m_currCount = s.m_currCount := by rw [hs1]; rfl
  have hev : s1.m_events = s.m_events.set s.m_nextEvent e1 := by rw [hs1]; rfl
  have hfe : EventFits C e := hno.2.2 _ _ ⟨he, Or.inr rfl⟩
  have hfe1 : EventFits C e1 := by
    rcases hcase with ⟨hdue, _, _, ht⟩ | ⟨_, _, _, heq⟩
    · exact (fired_event_fits _ C e e1 w hno.1 hfe hn hd hcb hdue ht).1
    · rw [heq]; exact hfe
  refine ⟨⟨by rw [hcur]; exact hno.1, hno.2.1, ?_⟩, hex, hcur⟩
  intro i x hr
  have hact := exact_relevant_active s1 hex i x hr
  have hix := hr.1
  rw [hev] at hix
  by_cases hi : s.m_nextEvent = i
  · subst hi
    have hlen : s.m_nextEvent < s.m_events.length := by
      rcases List.getElem?_eq_some.1 he with ⟨hl, _⟩
      exact hl
    rw [List.getElem?_set_self hlen] at hix
    cases hix
    exact hfe1
  · rw [List.getElem?_set_ne hi] at hix
    exact hno.2.2 i x ⟨hix, Or.inl hact⟩

/-- A loop iteration keeps the progress condition on callbacks. -/
theorem ExecuteBody_progress (s s1 : Scheduler W) (w w1 : W) (fired : List Fired)
    (h : ExecuteBody s w = some (s1, w1, fired)) (hp : CallbacksProgress s) :
    CallbacksProgress s1 := by
  obtain ⟨e, e1, he, hs1, hn, hd, hcb, hcase⟩ := ExecuteBody_spec s s1 w w1 fired h
  have hex : CacheExact s1 := by rw [hs1]; exact RecalcSchedule_exact _
  have hev : s1.m_events = s.m_events.set s.m_nextEvent e1 := by rw [hs1]; rfl
  intro i x hr
  have hact := exact_relevant_active s1 hex i x hr
  have hix := hr.1
  rw [hev] at hix
  by_cases hi : s.m_nextEvent = i
  · subst hi
    have hlen : s.m_nextEvent < s.m_events.length := by
      rcases List.getElem?_eq_some.1 he with ⟨hl, _⟩
      exact hl
    rw [List.getElem?_set_self hlen] at hix
    cases hix
    rw [hcb]
    exact hp _ e ⟨he, Or.inr rfl⟩
  · rw [List.getElem?_set_ne hi] at hix
    exact hp i x ⟨hix, Or.inl hact⟩

/-- Every callback invocation lowers the bound `overdue` by at least one. -/
theorem ExecuteBody_overdue (s s1 : Scheduler W) (w w1 : W) (fired : List Fired)
    (h : ExecuteBody s w = some (s1, w1, fired)) (hno : NoOverflow s.m_currCount s)
    (hp : CallbacksProgress s) :
    overdue s1.m_currCount s1.m_events + fired.length ≤ overdue s.m_currCount s.m_events := by
  obtain ⟨e, e1, he, hs1, hn, hd, hcb, hcase⟩ := ExecuteBody_spec s s1 w w1 fired h
  have hcur : s1.m_currCount = s.m_currCount := by rw [hs1]; rfl
  have hev : s1.m_events = s.m_events.set s.m_nextEvent e1 := by rw [hs1]; rfl
  have hfe : EventFits s.m_currCount e := hno.2.2 _ _ ⟨he, Or.inr rfl⟩
  have hset := overdue_set s.m_currCount s.m_events s.m_nextEvent e e1 he
  rw [hcur, hev]
  rcases hcase with ⟨hdue, hfired, _, ht⟩ | ⟨_, hfired, _, heq⟩
  · have hsc : e1.scaledCount s.m_currCount = e.scaledCount s.m_currCount := by
      unfold Event.scaledCount; rw [hn, hd]
    have hlt := (scaledCount_lt_sentinel _ e hfe).1
    have hres := (fired_event_fits _ _ e e1 w le_rfl hfe hn hd hcb hdue ht).2
    have hse : slack s.m_currCount e = e.scaledCount s.m_currCount - e.target + 1 := by
      unfold slack
      rw [if_neg (by omega), if_pos hdue]
    have hse1 : slack s.m_currCount e1 + 1 ≤ slack s.m_currCount e := by
      rw [hse]
      unfold slack
      by_cases ha : e1.target = kNoDeadline
      · rw [if_pos ha]; omega
      · rw [if_neg ha]
        obtain ⟨hr, hte⟩ := hres ha
        have hpos := hp _ e ⟨he, Or.inr rfl⟩ w hr
        rw [hsc]
        split <;> omega
    rw [hfired]
    simp only [List.length_singleton]
    omega
  · rw [heq] at hset ⊢
    rw [hfired]
    simp only [List.length_nil]
    omega

end Scheduler

/-! ## The loop of `Execute` -/

namespace Scheduler

variable {W : Type}

theorem FiredLE_trans {a b c : Fired} (h1 : FiredLE a b) (h2 : FiredLE b c) : FiredLE a c := by
  unfold FiredLE at *
  omega

theorem ExecuteBody_some (s : Scheduler W) (w : W) (e : Event W)
    (he : s.m_events[s.m_nextEvent]? = some e) :
    ∃ s1 w1 fired, ExecuteBody s w = some (s1, w1, fired) := by
  unfold ExecuteBody
  rw [he]
  simp only
  split
  · exact ⟨_, _, _, rfl⟩
  · exact ⟨_, _, _, rfl⟩

/-- From a state with exact cache whose deadline is reached, the iteration invokes the
callback of the cached event, and the next cached pair is not smaller. -/
theorem ExecuteBody_of_exact (s : Scheduler W) (w : W) (hx : CacheExact s)
    (hno : NoOverflow s.m_currCount s) (hreach : s.m_nextCount ≤ s.m_currCount) :
    ∃ s1 w1, ExecuteBody s w =
        some (s1, w1, [{ id := s.m_nextEvent, deadline := s.m_nextCount }]) ∧
      FiredLE { id := s.m_nextEvent, deadline := s.m_nextCount }
        { id := s1.m_nextEvent, deadline := s1.m_nextCount } := by
  have hcl := hno.2.1
  obtain ⟨hlb, hle, hnone, hsome⟩ := hx
  obtain ⟨e, he, ha, hcalc, hfirst⟩ := hsome (by omega)
  have hfe : EventFits s.m_currCount e := hno.2.2 _ _ ⟨he, Or.inr rfl⟩
  have hdue : e.target ≤ e.scaledCount s.m_currCount :=
    (due_iff_of_fits _ e hfe ha).2 (by omega)
  obtain ⟨s1, w1, fired, hb⟩ := ExecuteBody_some s w e he
  obtain ⟨e0, e1, he0, hs1, hn, hd, hcb, hcase⟩ := ExecuteBody_spec s s1 w w1 fired hb
  rw [he] at he0
  cases he0
  have hfired : fired = [{ id := s.m_nextEvent, deadline := s.m_nextCount }] := by
    rcases hcase with ⟨_, hf, _, _⟩ | ⟨hnd, _, _, _⟩
    · rw [hf, hcalc]
    · exact absurd hdue hnd
  have ht1 : e1.target ≠ kNoDeadline →
      e.CalcTargetScaledByReciprocal ≤ e1.CalcTargetScaledByReciprocal := by
    intro ha1
    rcases hcase with ⟨_, _, _, ht⟩ | ⟨hnd, _, _, _⟩
    · obtain ⟨hfe1, hres⟩ := fired_event_fits _ _ e e1 w le_rfl hfe hn hd hcb hdue ht
      obtain ⟨_, hte⟩ := hres ha1
      rw [calcTarget_eq e hfe.1 (hfe.2.2.2.1 ha), calcTarget_eq e1 hfe1.1 (hfe1.2.2.2.1 ha1),
        hn, hd, hte]
      exact ceil_mono _ _ (Nat.mul_le_mul_right _ (by omega))
    · exact absurd hdue hnd
  refine ⟨s1, w1, by rw [hb, hfired], ?_⟩
  have hex1 : CacheExact s1 := by rw [hs1]; exact RecalcSchedule_exact _
  have hev : s1.m_events = s.m_events.set s.m_nextEvent e1 := by rw [hs1]; rfl
  obtain ⟨_, hle1, _, hsome1⟩ := hex1
  unfold FiredLE
  simp only
  by_cases hc1 : s1.m_nextCount = kNoDeadline
  · left; omega
  · obtain ⟨x, hx1, hxa, hxc, _⟩ := hsome1 (by omega)
    rw [hev] at hx1
    have hlen : s.m_nextEvent < s.m_events.length := by
      rcases List.getElem?_eq_some.1 he with ⟨hl, _⟩
      exact hl
    by_cases hi : s.m_nextEvent = s1.m_nextEvent
    · rw [← hi, List.getElem?_set_self hlen] at hx1
      cases hx1
      have := ht1 hxa
      omega
    · rw [List.getElem?_set_ne hi] at hx1
      have hge := hlb _ x hx1 hxa
      by_cases hlt : s1.m_nextEvent < s.m_nextEvent
      · have := hfirst _ x hlt hx1 hxa
        omega
      · omega

/-- More fuel does not change a result of `Execute`. -/
theorem Execute_fuel_succ (fuel : Nat) (s : Scheduler W) (w : W)
    (r : Scheduler W × W × List Fired) (h : Execute fuel s w = some r) :
    Execute (fuel + 1) s w = some r := by
  induction fuel generalizing s w r with
  | zero => simp [Execute] at h
  | succ n ih =>
    rw [Execute] at h
    rw [Execute]
    by_cases hc : s.m_currCount ≥ s.m_nextCount
    · rw [if_pos hc] at h ⊢
      cases hb : ExecuteBody s w with
      | none => rw [hb] at h; simp at h
      | some r1 =>
        obtain ⟨s1, w1, fired⟩ := r1
        rw [hb] at h
        simp only at h ⊢
        cases hr : Execute n s1 w1 with
        | none => rw [hr] at h; simp at h
        | some r2 =>
          rw [ih s1 w1 r2 hr]
          rw [hr] at h
          exact h
    · rw [if_neg hc] at h ⊢
      exact h

theorem Execute_fuel_mono (fuel extra : Nat) (s : Scheduler W) (w : W)
    (r : Scheduler W × W × List Fired) (h : Execute fuel s w = some r) :
    Execute (fuel + extra) s w = some r := by
  induction extra with
  | zero => exact h
  | succ k ih => exact Execute_fuel_succ _ s w r ih

/-- Unfolding of one evaluation of the loop condition that passes. -/
theorem Execute_step (fuel : Nat) (s s1 s2 : Scheduler W) (w w1 w2 : W)
    (fired log : List Fired) (hc : s.m_nextCount ≤ s.m_currCount)
    (hb : ExecuteBody s w = some (s1, w1, fired))
    (hr : Execute fuel s1 w1 = some (s2, w2, log)) :
    Execute (fuel + 1) s w = some (s2, w2, fired ++ log) := by
  rw [Execute, if_pos hc, hb]
  simp only
  rw [hr]

/-- Inversion of a successful run of `Execute`. -/
theorem Execute_inv (fuel : Nat) (s s2 : Scheduler W) (w w2 : W) (log : List Fired)
    (h : Execute fuel s w = some (s2, w2, log)) :
    (s.m_currCount < s.m_nextCount ∧ s2 = s ∧ w2 = w ∧ log = []) ∨
    (s.m_nextCount ≤ s.m_currCount ∧ ∃ n s1 w1 fired log1, fuel = n + 1 ∧
      ExecuteBody s w = some (s1, w1, fired) ∧ Execute n s1 w1 = some (s2, w2, log1) ∧
      log = fired ++ log1) := by
  cases fuel with
  | zero => simp [Execute] at h
  | succ n =>
    rw [Execute] at h
    by_cases hc : s.m_currCount ≥ s.m_nextCount
    · rw [if_pos hc] at h
      right
      refine ⟨hc, n, ?_⟩
      cases hb : ExecuteBody s w with
      | none => rw [hb] at h; simp at h
      | some r1 =>
        obtain ⟨s1, w1, fired⟩ := r1
        rw [hb] at h
        simp only at h
        cases hr : Execute n s1 w1 with
        | none => rw [hr] at h; simp at h
        | some r2 =>
          obtain ⟨s3, w3, log1⟩ := r2
          rw [hr] at h
          simp only [Option.some.injEq, Prod.mk.injEq] at h
          obtain ⟨h1, h2, h3⟩ := h
          subst h1 h2 h3
          exact ⟨s1, w1, fired, log1, rfl, rfl, hr, rfl⟩
    · rw [if_neg hc] at h
      simp only [Option.some.injEq, Prod.mk.injEq] at h
      obtain ⟨h1, h2, h3⟩ := h
      left
      exact ⟨by omega, h1.symm, h2.symm, h3.symm⟩

end Scheduler

namespace Scheduler

variable {W : Type}

theorem NoOverflow_curr {C : Nat} {s : Scheduler W} (hno : NoOverflow C s) :
    NoOverflow s.m_currCount s :=
  ⟨le_rfl, lt_of_le_of_lt hno.1 hno.2.1, fun i e hr => NoOverflow_fits hno i e hr⟩

/-- What a completed run of `Execute` leaves: the base counter is unchanged and below the
cached deadline, and either no iteration ran or the cache is exact. -/
theorem Execute_facts (fuel : Nat) (s s2 : Scheduler W) (w w2 : W) (log : List Fired)
    (h : Execute fuel s w = some (s2, w2, log)) :
    s2.m_currCount = s.m_currCount ∧ s2.m_currCount < s2.m_nextCount ∧
    ((s2 = s ∧ w2 = w ∧ log = []) ∨ CacheExact s2) ∧
    s2.m_events.length = s.m_events.length := by
  induction fuel generalizing s w log with
  | zero => simp [Execute] at h
  | succ n ih =>
    rcases Execute_inv _ s s2 w w2 log h with ⟨hlt, hs, hw, hl⟩ | ⟨hc, m, s1, w1, fired, log1, hm, hb, hr, hl⟩
    · subst hs
      exact ⟨rfl, hlt, Or.inl ⟨rfl, hw, hl⟩, rfl⟩
    · have hm2 : m = n := by omega
      subst hm2
      obtain ⟨e, e1, he, hs1, _⟩ := ExecuteBody_spec s s1 w w1 fired hb
      have hex1 : CacheExact s1 := by rw [hs1]; exact RecalcSchedule_exact _
      have hcur1 : s1.m_currCount = s.m_currCount := by rw [hs1]; rfl
      have hlen1 : s1.m_events.length = s.m_events.length := by
        rw [hs1]; simp [RecalcSchedule]
      obtain ⟨i1, i2, i3, i4⟩ := ih s1 w1 log1 hr
      refine ⟨by rw [i1, hcur1], i2, Or.inr ?_, by rw [i4, hlen1]⟩
      rcases i3 with ⟨hs2, _, _⟩ | hx
      · rw [hs2]; exact hex1
      · exact hx

theorem Execute_noOverflow (C fuel : Nat) (s s2 : Scheduler W) (w w2 : W) (log : List Fired)
    (h : Execute fuel s w = some (s2, w2, log)) (hno : NoOverflow C s) : NoOverflow C s2 := by
  induction fuel generalizing s w log with
  | zero => simp [Execute] at h
  | succ n ih =>
    rcases Execute_inv _ s s2 w w2 log h with ⟨hlt, hs, hw, hl⟩ | ⟨hc, m, s1, w1, fired, log1, hm, hb, hr, hl⟩
    · subst hs; exact hno
    · have hm2 : m = n := by omega
      subst hm2
      exact ih s1 w1 log1 hr (ExecuteBody_noOverflow C s s1 w w1 fired hb hno).1

theorem Execute_progress (fuel : Nat) (s s2 : Scheduler W) (w w2 : W) (log : List Fired)
    (h : Execute fuel s w = some (s2, w2, log)) (hp : CallbacksProgress s) :
    CallbacksProgress s2 := by
  induction fuel generalizing s w log with
  | zero => simp [Execute] at h
  | succ n ih =>
    rcases Execute_inv _ s s2 w w2 log h with ⟨hlt, hs, hw, hl⟩ | ⟨hc, m, s1, w1, fired, log1, hm, hb, hr, hl⟩
    · subst hs; exact hp
    · have hm2 : m = n := by omega
      subst hm2
      exact ih s1 w1 log1 hr (ExecuteBody_progress s s1 w w1 fired hb hp)

/-- Started with an exact cache, `Execute` invokes callbacks in the order of `FiredLE`,
and never below the cached pair it started from. -/
theorem Execute_sorted_of_exact (C fuel : Nat) (s s2 : Scheduler W) (w w2 : W)
    (log : List Fired) (h : Execute fuel s w = some (s2, w2, log)) (hx : CacheExact s)
    (hno : NoOverflow C s) :
    List.Pairwise FiredLE log ∧
    ∀ f ∈ log, FiredLE { id := s.m_nextEvent, deadline := s.m_nextCount } f := by
  induction fuel generalizing s w log with
  | zero => simp [Execute] at h
  | succ n ih =>
    rcases Execute_inv _ s s2 w w2 log h with ⟨hlt, hs, hw, hl⟩ | ⟨hc, m, s1, w1, fired, log1, hm, hb, hr, hl⟩
    · subst hl; simp
    · have hm2 : m = n := by omega
      subst hm2
      obtain ⟨s1b, w1b, hb2, hle⟩ := ExecuteBody_of_exact s w hx (NoOverflow_curr hno) hc
      rw [hb] at hb2
      simp only [Option.some.injEq, Prod.mk.injEq] at hb2
      obtain ⟨e1, e2, e3⟩ := hb2
      subst e1 e2 e3
      obtain ⟨hno1, hex1, _⟩ := ExecuteBody_noOverflow C s s1 w w1 _ hb hno
      obtain ⟨ihp, ihb⟩ := ih s1 w1 log1 hr hex1 hno1
      subst hl
      have hall : ∀ f ∈ log1,
          FiredLE { id := s.m_nextEvent, deadline := s.m_nextCount } f :=
        fun f hf => FiredLE_trans hle (ihb f hf)
      refine ⟨?_, ?_⟩
      · simp only [List.singleton_append, List.pairwise_cons]
        exact ⟨hall, ihp⟩
      · intro f hf
        simp only [List.singleton_append, List.mem_cons] at hf
        rcases hf with rfl | hf
        · right; exact ⟨rfl, le_rfl⟩
        · exact hall f hf

/-- Started with an exact cache, `overdue + 1` evaluations of the loop condition suffice. -/
theorem Execute_terminates_exact (C n : Nat) (s : Scheduler W) (w : W) (hx : CacheExact s)
    (hno : NoOverflow C s) (hp : CallbacksProgress s)
    (hn : overdue s.m_currCount s.m_events ≤ n) :
    ∃ r, Execute (n + 1) s w = some r := by
  induction n generalizing s w with
  | zero =>
    by_cases hc : s.m_nextCount ≤ s.m_currCount
    · obtain ⟨s1, w1, hb, _⟩ := ExecuteBody_of_exact s w hx (NoOverflow_curr hno) hc
      have := ExecuteBody_overdue s s1 w w1 _ hb (NoOverflow_curr hno) hp
      simp only [List.length_singleton] at this
      omega
    · exact ⟨(s, w, []), by rw [Execute, if_neg (by omega)]⟩
  | succ m ih =>
    by_cases hc : s.m_nextCount ≤ s.m_currCount
    · obtain ⟨s1, w1, hb, _⟩ := ExecuteBody_of_exact s w hx (NoOverflow_curr hno) hc
      have hdec := ExecuteBody_overdue s s1 w w1 _ hb (NoOverflow_curr hno) hp
      simp only [List.length_singleton] at hdec
      obtain ⟨hno1, hex1, _⟩ := ExecuteBody_noOverflow C s s1 w w1 _ hb hno
      have hp1 := ExecuteBody_progress s s1 w w1 _ hb hp
      obtain ⟨⟨s2, w2, log⟩, hr⟩ := ih s1 w1 hex1 hno1 hp1 (by omega)
      exact ⟨_, Execute_step (m + 1) s s1 s2 w w1 w2 _ log hc hb hr⟩
    · exact ⟨(s, w, []), by rw [Execute, if_neg (by omega)]⟩

/-- Termination of `Execute`: with no overflow, callbacks that request no reschedule or a
positive interval, and the cached index in range when the loop is entered, `overdue + 2`
evaluations of the loop condition suffice, and so does any larger fuel. -/
theorem Execute_terminates (C : Nat) (s : Scheduler W) (w : W) (hno : NoOverflow C s)
    (hp : CallbacksProgress s)
    (hidx : s.m_nextCount ≤ s.m_currCount → s.m_nextEvent < s.m_events.length)
    (fuel : Nat) (hfuel : overdue s.m_currCount s.m_events + 2 ≤ fuel) :
    ∃ r, Execute fuel s w = some r := by
  obtain ⟨k, hk⟩ : ∃ k, fuel = (overdue s.m_currCount s.m_events + 1) + 1 + k :=
    ⟨fuel - (overdue s.m_currCount s.m_events + 2), by omega⟩
  subst hk
  by_cases hc : s.m_nextCount ≤ s.m_currCount
  · have hlen := hidx hc
    obtain ⟨s1, w1, fired, hb⟩ :=
      ExecuteBody_some s w s.m_events[s.m_nextEvent] (List.getElem?_eq_getElem hlen)
    have hdec := ExecuteBody_overdue s s1 w w1 _ hb (NoOverflow_curr hno) hp
    obtain ⟨hno1, hex1, _⟩ := ExecuteBody_noOverflow C s s1 w w1 _ hb hno
    have hp1 := ExecuteBody_progress s s1 w w1 _ hb hp
    obtain ⟨⟨s2, w2, log⟩, hr⟩ := Execute_terminates_exact C (overdue s.m_currCount s.m_events)
      s1 w1 hex1 hno1 hp1 (by omega)
    exact ⟨_, Execute_fuel_mono _ k s w _
      (Execute_step _ s s1 s2 w w1 w2 _ log hc hb hr)⟩
  · exact ⟨(s, w, []), Execute_fuel_mono _ k s w _ (by rw [Execute, if_neg (by omega)])⟩

end Scheduler

/-! ## One event through the loop of `Execute` -/

namespace Scheduler

variable {W : Type}

theorem event_eta (e e1 : Event W) (hn : e1.countNumerator = e.countNumerator)
    (hd : e1.countDenominator = e.countDenominator) (hcb : e1.callback = e.callback) :
    e1 = { e with target := e1.target } := by
  cases e; cases e1; simp_all

theorem invocations_nil (h : Nat) : invocations h [] = 0 := rfl

theorem invocations_append (h : Nat) (a b : List Fired) :
    invocations h (a ++ b) = invocations h a + invocations h b := by
  unfold invocations; exact List.countP_append _ a b

theorem invocations_single (h i d : Nat) :
    invocations h [{ id := i, deadline := d }] = if i = h then 1 else 0 := by
  unfold invocations
  by_cases hi : i = h <;> simp [List.countP_cons, hi]

theorem deadlinesOf_append (h : Nat) (a b : List Fired) :
    deadlinesOf h (a ++ b) = deadlinesOf h a ++ deadlinesOf h b := by
  unfold deadlinesOf
  rw [List.filter_append, List.map_append]

theorem deadlinesOf_of_invocations_zero (h : Nat) (log : List Fired)
    (h0 : invocations h log = 0) : deadlinesOf h log = [] := by
  unfold invocations at h0
  unfold deadlinesOf
  rw [List.countP_eq_length_filter] at h0
  rw [List.length_eq_zero.1 h0]
  rfl

/-- Effect of one iteration on a slot other than the cached one. -/
theorem ExecuteBody_other (s s1 : Scheduler W) (w w1 : W) (fired : List Fired) (h : Nat)
    (hb : ExecuteBody s w = some (s1, w1, fired)) (hne : s.m_nextEvent ≠ h) :
    s1.m_events[h]? = s.m_events[h]? ∧ invocations h fired = 0 := by
  obtain ⟨e, e1, he, hs1, hn, hd, hcb, hcase⟩ := ExecuteBody_spec s s1 w w1 fired hb
  have hev : s1.m_events = s.m_events.set s.m_nextEvent e1 := by rw [hs1]; rfl
  refine ⟨by rw [hev, List.getElem?_set_ne hne], ?_⟩
  rcases hcase with ⟨_, hf, _, _⟩ | ⟨_, hf, _, _⟩
  · rw [hf, invocations_single, if_neg hne]
  · rw [hf]; rfl

/-- Effect of one iteration on the cached slot. -/
theorem ExecuteBody_self (s s1 : Scheduler W) (w w1 : W) (fired : List Fired) (e : Event W)
    (hb : ExecuteBody s w = some (s1, w1, fired)) (he : s.m_events[s.m_nextEvent]? = some e) :
    (e.target ≤ e.scaledCount s.m_currCount →
      invocations s.m_nextEvent fired = 1 ∧ w1 = (e.callback w).2 ∧
      s1.m_events[s.m_nextEvent]? = some { e with target :=
        (if (e.callback w).1.reschedule then add64 e.target (e.callback w).1.interval
         else kNoDeadline) }) ∧
    (¬ e.target ≤ e.scaledCount s.m_currCount →
      fired = [] ∧ w1 = w ∧ s1.m_events[s.m_nextEvent]? = some e) := by
  obtain ⟨e0, e1, he0, hs1, hn, hd, hcb, hcase⟩ := ExecuteBody_spec s s1 w w1 fired hb
  rw [he] at he0
  cases he0
  have hlen : s.m_nextEvent < s.m_events.length := by
    rcases List.getElem?_eq_some.1 he with ⟨hl, _⟩
    exact hl
  have hev : s1.m_events[s.m_nextEvent]? = some e1 := by
    rw [hs1]
    show (s.m_events.set s.m_nextEvent e1)[s.m_nextEvent]? = some e1
    rw [List.getElem?_set_self hlen]
  have heta := event_eta e e1 hn hd hcb
  rcases hcase with ⟨hdue, hf, hw, ht⟩ | ⟨hnd, hf, hw, heq⟩
  · refine ⟨fun _ => ⟨by rw [hf, invocations_single, if_pos rfl], hw, ?_⟩,
      fun h => absurd hdue h⟩
    rw [hev, heta, ht]
  · refine ⟨fun h => absurd h hnd, fun _ => ⟨hf, hw, ?_⟩⟩
    rw [hev, heq]

/-- An event that is not due is neither invoked nor changed by `Execute`. -/
theorem Execute_not_due (fuel : Nat) (s s2 : Scheduler W) (w w2 : W) (log : List Fired)
    (h : Nat) (e : Event W) (hr : Execute fuel s w = some (s2, w2, log))
    (he : s.m_events[h]? = some e) (hnd : ¬ e.target ≤ e.scaledCount s.m_currCount) :
    invocations h log = 0 ∧ s2.m_events[h]? = some e := by
  induction fuel generalizing s w log with
  | zero => simp [Execute] at hr
  | succ n ih =>
    rcases Execute_inv _ s s2 w w2 log hr with ⟨hlt, hs, hw, hl⟩ | ⟨hc, m, s1, w1, fired, log1, hm, hb, hr1, hl⟩
    · subst hs hl; exact ⟨rfl, he⟩
    · have hm2 : m = n := by omega
      subst hm2
      have hcur : s1.m_currCount = s.m_currCount := by
        obtain ⟨_, _, _, hs1, _⟩ := ExecuteBody_spec s s1 w w1 fired hb
        rw [hs1]; rfl
      have hstep : s1.m_events[h]? = some e ∧ invocations h fired = 0 := by
        by_cases hi : s.m_nextEvent = h
        · subst hi
          obtain ⟨hf, _, hev⟩ := (ExecuteBody_self s s1 w w1 fired e hb he).2 hnd
          exact ⟨hev, by rw [hf]; rfl⟩
        · obtain ⟨hev, hf⟩ := ExecuteBody_other s s1 w w1 fired h hb hi
          exact ⟨by rw [hev, he], hf⟩
      obtain ⟨i1, i2⟩ := ih s1 w1 log1 hr1 hstep.1 (by rw [hcur]; exact hnd)
      rw [hl, invocations_append]
      exact ⟨by omega, i2⟩

/-- An event whose callback requests no reschedule is invoked at most once by `Execute`,
and after the invocation its target is `kNoDeadline`. -/
theorem Execute_at_most_once (fuel : Nat) (s s2 : Scheduler W) (w w2 : W) (log : List Fired)
    (h : Nat) (e : Event W) (hr : Execute fuel s w = some (s2, w2, log))
    (he : s.m_events[h]? = some e) (hcb : ∀ w, (e.callback w).1.reschedule = false)
    (hsc : e.scaledCount s.m_currCount < kNoDeadline) :
    (invocations h log = 0 ∧ s2.m_events[h]? = some e) ∨
    (invocations h log = 1 ∧ e.target ≤ e.scaledCount s.m_currCount ∧
      s2.m_events[h]? = some { e with target := kNoDeadline }) := by
  induction fuel generalizing s w log with
  | zero => simp [Execute] at hr
  | succ n ih =>
    rcases Execute_inv _ s s2 w w2 log hr with ⟨hlt, hs, hw, hl⟩ | ⟨hc, m, s1, w1, fired, log1, hm, hb, hr1, hl⟩
    · subst hs hl; exact Or.inl ⟨rfl, he⟩
    · have hm2 : m = n := by omega
      subst hm2
      have hcur : s1.m_currCount = s.m_currCount := by
        obtain ⟨_, _, _, hs1, _⟩ := ExecuteBody_spec s s1 w w1 fired hb
        rw [hs1]; rfl
      by_cases hfire : s.m_nextEvent = h ∧ e.target ≤ e.scaledCount s.m_currCount
      · obtain ⟨hi, hdue⟩ := hfire
        subst hi
        obtain ⟨hf, _, hev⟩ := (ExecuteBody_self s s1 w w1 fired e hb he).1 hdue
        rw [hcb w] at hev
        simp only [Bool.false_eq_true, if_false] at hev
        obtain ⟨i1, i2⟩ := Execute_not_due _ s1 s2 w1 w2 log1 s.m_nextEvent _ hr1 hev
          (by
            show ¬ kNoDeadline ≤ _
            rw [hcur]
            exact Nat.not_le.2 hsc)
        right
        rw [hl, invocations_append]
        exact ⟨by omega, hdue, i2⟩
      · have hstep : s1.m_events[h]? = some e ∧ invocations h fired = 0 := by
          by_cases hi : s.m_nextEvent = h
          · subst hi
            obtain ⟨hf, _, hev⟩ := (ExecuteBody_self s s1 w w1 fired e hb he).2
              (fun hd => hfire ⟨rfl, hd⟩)
            exact ⟨hev, by rw [hf]; rfl⟩
          · obtain ⟨hev, hf⟩ := ExecuteBody_other s s1 w w1 fired h hb hi
            exact ⟨by rw [hev, he], hf⟩
        rcases ih s1 w1 log1 hr1 hstep.1 (by rw [hcur]; exact hsc) with ⟨i1, i2⟩ | ⟨i1, i2, i3⟩
        · left
          rw [hl, invocations_append]
          exact ⟨by omega, i2⟩
        · right
          rw [hl, invocations_append]
          exact ⟨by omega, by rw [← hcur]; exact i2, i3⟩

end Scheduler

namespace Scheduler

variable {W : Type}

theorem scaledCount_one (e : Event W) (c : Nat) (hn : e.countNumerator = 1)
    (hd : e.countDenominator = 1) (hc : c < 18446744073709551616) : e.scaledCount c = c := by
  unfold Event.scaledCount mul64
  rw [hn, hd, Nat.mul_one, Nat.div_one]
  omega

theorem calcTarget_one (e : Event W) (hn : e.countNumerator = 1)
    (hd : e.countDenominator = 1) (ht : e.target < 18446744073709551616) :
    e.CalcTargetScaledByReciprocal = e.target := by
  unfold Event.CalcTargetScaledByReciprocal sub64 add64 mul64
  rw [hn, hd, Nat.mul_one, Nat.div_one]
  omega

/-- A due event that requests no reschedule, and whose deadline the cache does not
exceed, is invoked exactly once by `Execute` and left without deadline. -/
theorem Execute_due_once (fuel : Nat) (s s2 : Scheduler W) (w w2 : W) (log : List Fired)
    (h : Nat) (e : Event W) (hr : Execute fuel s w = some (s2, w2, log))
    (he : s.m_events[h]? = some e) (hcb : ∀ w, (e.callback w).1.reschedule = false)
    (hsc : e.scaledCount s.m_currCount < kNoDeadline)
    (hdue : e.target ≤ e.scaledCount s.m_currCount)
    (hcalc : e.CalcTargetScaledByReciprocal ≤ s.m_currCount)
    (hcache : s.m_nextCount ≤ e.CalcTargetScaledByReciprocal) :
    invocations h log = 1 ∧ s2.m_events[h]? = some { e with target := kNoDeadline } := by
  rcases Execute_at_most_once fuel s s2 w w2 log h e hr he hcb hsc with ⟨_, hev⟩ | ⟨h1, _, h3⟩
  · exfalso
    obtain ⟨hcur, hlt, hor, _⟩ := Execute_facts fuel s s2 w w2 log hr
    have ha : e.target ≠ kNoDeadline := by omega
    rcases hor with ⟨hs, _, _⟩ | hx
    · subst hs; omega
    · have := hx.1 h e hev ha
      omega
  · exact ⟨h1, h3⟩

/-- A periodic event on a 1:1 clock: when `j` more reschedules by `I` bring the target
to the first value `E` beyond the base counter, `Execute` invokes the callback exactly
`j` times and leaves the target at `E`. -/
theorem Execute_periodic (fuel : Nat) (s s2 : Scheduler W) (w w2 : W) (log : List Fired)
    (h I E : Nat) (j : Nat) (e : Event W) (hI : 0 < I)
    (hr : Execute fuel s w = some (s2, w2, log)) (he : s.m_events[h]? = some e)
    (hn : e.countNumerator = 1) (hd : e.countDenominator = 1)
    (hcb : ∀ w, (e.callback w).1.reschedule = true ∧ (e.callback w).1.interval = I)
    (hcache : s.m_nextCount ≤ e.target) (hE : e.target + j * I = E)
    (hlo : s.m_currCount < E) (hhi : E ≤ s.m_currCount + I) (hEs : E < kNoDeadline) :
    invocations h log = j ∧ s2.m_events[h]? = some { e with target := E } := by
  have hk : kNoDeadline = 18446744073709551615 := rfl
  induction fuel generalizing s w log j e with
  | zero => simp [Execute] at hr
  | succ n ih =>
    cases j with
    | zero =>
      simp only [Nat.zero_mul, Nat.add_zero] at hE
      have hnd : ¬ e.target ≤ e.scaledCount s.m_currCount := by
        rw [scaledCount_one e _ hn hd (by omega)]; omega
      have := Execute_not_due _ s s2 w w2 log h e hr he hnd
      rw [← hE]
      exact this
    | succ j1 =>
      rw [Nat.succ_mul] at hE
      have hdue : e.target ≤ e.scaledCount s.m_currCount := by
        rw [scaledCount_one e _ hn hd (by omega)]; omega
      have hsc := scaledCount_one e s.m_currCount hn hd (by omega)
      rcases Execute_inv _ s s2 w w2 log hr with ⟨hlt, hs, hw, hl⟩ | ⟨hc, m, s1, w1, fired, log1, hm, hb, hr1, hl⟩
      · omega
      · have hm2 : m = n := by omega
        subst hm2
        obtain ⟨_, e1x, _, hs1, _⟩ := ExecuteBody_spec s s1 w w1 fired hb
        have hcur : s1.m_currCount = s.m_currCount := by rw [hs1]; rfl
        have hex1 : CacheExact s1 := by rw [hs1]; exact RecalcSchedule_exact _
        by_cases hi : s.m_nextEvent = h
        · subst hi
          obtain ⟨hf, _, hev⟩ := (ExecuteBody_self s s1 w w1 fired e hb he).1 hdue
          rw [(hcb w).1, (hcb w).2] at hev
          simp only [if_true] at hev
          rw [add64_eq (by omega)] at hev
          have hc1 : ({ e with target := e.target + I } : Event W).CalcTargetScaledByReciprocal
              = e.target + I := calcTarget_one _ hn hd (by simp only; omega)
          have hlb := hex1.1 _ _ hev (by simp only; omega)
          rw [hc1] at hlb
          obtain ⟨i1, i2⟩ := ih s1 w1 log1 j1 { e with target := e.target + I } hr1 hev hn hd hcb
            hlb (by simp only; omega) (by omega) (by omega)
          rw [hl, invocations_append]
          exact ⟨by omega, i2⟩
        · obtain ⟨hev, hf⟩ := ExecuteBody_other s s1 w w1 fired h hb hi
          rw [he] at hev
          have hlb := hex1.1 _ _ hev (by omega)
          rw [calcTarget_one e hn hd (by omega)] at hlb
          obtain ⟨i1, i2⟩ := ih s1 w1 log1 (j1 + 1) e hr1 hev hn hd hcb hlb
            (by rw [Nat.succ_mul]; omega) (by omega) (by omega)
          rw [hl, invocations_append]
          exact ⟨by omega, i2⟩

/-- The deadlines at which the periodic event of `Execute_periodic` fires: the target it
had on entry and then every `I` cycles, whatever the base count at which it runs. -/
theorem Execute_periodic_deadlines (fuel : Nat) (s s2 : Scheduler W) (w w2 : W)
    (log : List Fired) (h I E : Nat) (j : Nat) (e : Event W) (hI : 0 < I)
    (hr : Execute fuel s w = some (s2, w2, log)) (he : s.m_events[h]? = some e)
    (hn : e.countNumerator = 1) (hd : e.countDenominator = 1)
    (hcb : ∀ w, (e.callback w).1.reschedule = true ∧ (e.callback w).1.interval = I)
    (hcache : s.m_nextCount ≤ e.target) (hE : e.target + j * I = E)
    (hlo : s.m_currCount < E) (hhi : E ≤ s.m_currCount + I) (hEs : E < kNoDeadline) :
    deadlinesOf h log = (List.range j).map (fun m => e.target + m * I) := by
  have hk : kNoDeadline = 18446744073709551615 := rfl
  induction fuel generalizing s w log j e with
  | zero => simp [Execute] at hr
  | succ n ih =>
    cases j with
    | zero =>
      simp only [Nat.zero_mul, Nat.add_zero] at hE
      have hnd : ¬ e.target ≤ e.scaledCount s.m_currCount := by
        rw [scaledCount_one e _ hn hd (by omega)]; omega
      have := (Execute_not_due _ s s2 w w2 log h e hr he hnd).1
      rw [deadlinesOf_of_invocations_zero h log this]
      rfl
    | succ j1 =>
      rw [Nat.succ_mul] at hE
      have hdue : e.target ≤ e.scaledCount s.m_currCount := by
        rw [scaledCount_one e _ hn hd (by omega)]; omega
      rcases Execute_inv _ s s2 w w2 log hr with ⟨hlt, hs, hw, hl⟩ | ⟨hc, m, s1, w1, fired, log1, hm, hb, hr1, hl⟩
      · omega
      · have hm2 : m = n := by omega
        subst hm2
        obtain ⟨e0, e1x, he0, hs1, _, _, _, hcase⟩ := ExecuteBody_spec s s1 w w1 fired hb
        have hcur : s1.m_currCount = s.m_currCount := by rw [hs1]; rfl
        have hex1 : CacheExact s1 := by rw [hs1]; exact RecalcSchedule_exact _
        by_cases hi : s.m_nextEvent = h
        · subst hi
          rw [he] at he0
          cases he0
          have hf : fired =
              [{ id := s.m_nextEvent, deadline := e.CalcTargetScaledByReciprocal }] := by
            rcases hcase with ⟨_, hf, _, _⟩ | ⟨hnd, _, _, _⟩
            · exact hf
            · exact absurd hdue hnd
          obtain ⟨_, _, hev⟩ := (ExecuteBody_self s s1 w w1 fired e hb he).1 hdue
          rw [(hcb w).1, (hcb w).2] at hev
          simp only [if_true] at hev
          rw [add64_eq (by omega)] at hev
          have hc1 : ({ e with target := e.target + I } : Event W).CalcTargetScaledByReciprocal
              = e.target + I := calcTarget_one _ hn hd (by simp only; omega)
          have hlb := hex1.1 _ _ hev (by simp only; omega)
          rw [hc1] at hlb
          have i1 := ih s1 w1 log1 j1 { e with target := e.target + I } hr1 hev hn hd hcb
            hlb (by simp only; omega) (by omega) (by omega)
          rw [hl, deadlinesOf_append, i1, hf, calcTarget_one e hn hd (by omega),
            List.range_succ_eq_map]
          simp only [deadlinesOf, decide_True, List.filter_cons_of_pos, List.filter_nil,
            List.map_cons, List.map_nil, List.singleton_append, Nat.zero_mul, Nat.add_zero,
            List.map_map, List.cons.injEq, true_and]
          apply List.map_congr_left
          intro m _
          simp only [Function.comp_apply, Nat.succ_mul]
          omega
        · obtain ⟨hev, hf⟩ := ExecuteBody_other s s1 w w1 fired h hb hi
          rw [he] at hev
          have hlb := hex1.1 _ _ hev (by omega)
          rw [calcTarget_one e hn hd (by omega)] at hlb
          have i1 := ih s1 w1 log1 (j1 + 1) e hr1 hev hn hd hcb hlb
            (by rw [Nat.succ_mul]; omega) (by omega) (by omega)
          rw [hl, deadlinesOf_append, deadlinesOf_of_invocations_zero h fired hf, i1]
          rfl

end Scheduler

/-! ## `Advance` and sequences of `Advance` calls -/

namespace Scheduler

variable {W : Type}

/-- A completed `Advance` is a completed `Execute` on the state with the counter moved. -/
theorem Advance_inv (fuel n : Nat) (s s2 : Scheduler W) (w w2 : W) (log : List Fired)
    (h : Advance fuel n s w = some (s2, w2, log)) :
    ∃ fuel1, Execute fuel1 { s with m_currCount := add64 s.m_currCount n } w
      = some (s2, w2, log) := by
  unfold Advance at h
  by_cases hc : add64 s.m_currCount n ≥ s.m_nextCount
  · rw [if_pos hc] at h
    exact ⟨fuel, h⟩
  · rw [if_neg hc] at h
    refine ⟨1, ?_⟩
    rw [Execute, if_neg hc]
    exact h

theorem Advance_of_Execute (fuel n : Nat) (s : Scheduler W) (w : W)
    (r : Scheduler W × W × List Fired)
    (h : Execute fuel { s with m_currCount := add64 s.m_currCount n } w = some r) :
    Advance fuel n s w = some r := by
  unfold Advance
  by_cases hc : add64 s.m_currCount n ≥ s.m_nextCount
  · rw [if_pos hc]; exact h
  · rw [if_neg hc]
    cases fuel with
    | zero => simp [Execute] at h
    | succ k =>
      rw [Execute, if_neg hc] at h
      exact h

theorem Advance_fuel_mono (fuel extra n : Nat) (s : Scheduler W) (w : W)
    (r : Scheduler W × W × List Fired) (h : Advance fuel n s w = some r) :
    Advance (fuel + extra) n s w = some r := by
  unfold Advance at h ⊢
  by_cases hc : add64 s.m_currCount n ≥ s.m_nextCount
  · rw [if_pos hc] at h ⊢
    exact Execute_fuel_mono _ _ _ _ _ h
  · rw [if_neg hc] at h ⊢
    exact h

/-- What a completed `Advance` leaves, when the addition does not wrap. -/
theorem Advance_facts (fuel n : Nat) (s s2 : Scheduler W) (w w2 : W) (log : List Fired)
    (h : Advance fuel n s w = some (s2, w2, log))
    (hfit : s.m_currCount + n < 18446744073709551616) :
    s2.m_currCount = s.m_currCount + n ∧ s2.m_currCount < s2.m_nextCount ∧
    ((s2.m_nextCount = s.m_nextCount ∧ s2.m_nextEvent = s.m_nextEvent ∧
        s2.m_events = s.m_events ∧ w2 = w ∧ log = []) ∨ CacheExact s2) ∧
    s2.m_events.length = s.m_events.length := by
  obtain ⟨fuel1, hx⟩ := Advance_inv fuel n s s2 w w2 log h
  obtain ⟨h1, h2, h3, h4⟩ := Execute_facts _ _ _ _ _ _ hx
  refine ⟨by rw [h1]; exact add64_eq hfit, h2, ?_, h4⟩
  rcases h3 with ⟨hs, hw, hl⟩ | hex
  · left; subst hs; exact ⟨rfl, rfl, rfl, hw, hl⟩
  · exact Or.inr hex

theorem scaledCount_lt_of_le (e : Event W) (c C : Nat) (hc : c ≤ C)
    (hC : C * e.countNumerator < kNoDeadline) : e.scaledCount c < kNoDeadline := by
  unfold Event.scaledCount mul64
  have h1 : c * e.countNumerator ≤ C * e.countNumerator := Nat.mul_le_mul_right _ hc
  have h2 := Nat.mod_le (c * e.countNumerator) 18446744073709551616
  have h3 := Nat.div_le_self (c * e.countNumerator % 18446744073709551616) e.countDenominator
  omega

theorem AdvanceSeq_inv (fuel n : Nat) (counts : List Nat) (s s2 : Scheduler W) (w w2 : W)
    (logs : List (List Fired))
    (h : AdvanceSeq fuel (n :: counts) s w = some (s2, w2, logs)) :
    ∃ s1 w1 log logs1, Advance fuel n s w = some (s1, w1, log) ∧
      AdvanceSeq fuel counts s1 w1 = some (s2, w2, logs1) ∧ logs = log :: logs1 := by
  rw [AdvanceSeq] at h
  cases ha : Advance fuel n s w with
  | none => rw [ha] at h; simp at h
  | some r =>
    obtain ⟨s1, w1, log⟩ := r
    rw [ha] at h
    simp only at h
    cases hs : AdvanceSeq fuel counts s1 w1 with
    | none => rw [hs] at h; simp at h
    | some r2 =>
      obtain ⟨s3, w3, logs1⟩ := r2
      rw [hs] at h
      simp only [Option.some.injEq, Prod.mk.injEq] at h
      obtain ⟨h1, h2, h3⟩ := h
      subst h1 h2 h3
      exact ⟨s1, w1, log, logs1, rfl, hs, rfl⟩

/-- An event without deadline is never invoked by a sequence of `Advance` calls, as long
as its scaled count stays below the sentinel. -/
theorem AdvanceSeq_idle (fuel : Nat) (counts : List Nat) (s s2 : Scheduler W) (w w2 : W)
    (logs : List (List Fired)) (h C : Nat) (e : Event W)
    (hr : AdvanceSeq fuel counts s w = some (s2, w2, logs))
    (he : s.m_events[h]? = some e) (ht : e.target = kNoDeadline)
    (hC : s.m_currCount + counts.sum = C) (hCs : C < kNoDeadline)
    (hsc : C * e.countNumerator < kNoDeadline) :
    totalInvocations h logs = 0 ∧ s2.m_events[h]? = some e ∧ s2.m_currCount = C := by
  have hk : kNoDeadline = 18446744073709551615 := rfl
  induction counts generalizing s w logs with
  | nil =>
    simp only [AdvanceSeq, Option.some.injEq, Prod.mk.injEq] at hr
    obtain ⟨h1, _, h3⟩ := hr
    subst h1 h3
    simp only [List.sum_nil, Nat.add_zero] at hC
    exact ⟨rfl, he, hC⟩
  | cons n rest ih =>
    obtain ⟨s1, w1, log, logs1, ha, hs, hl⟩ := AdvanceSeq_inv fuel n rest s s2 w w2 logs hr
    simp only [List.sum_cons] at hC
    obtain ⟨hcur, _, _, _⟩ := Advance_facts fuel n s s1 w w1 log ha (by omega)
    obtain ⟨fuel1, hx⟩ := Advance_inv fuel n s s1 w w1 log ha
    have hnd : ¬ e.target ≤ e.scaledCount (add64 s.m_currCount n) := by
      have := scaledCount_lt_of_le e (add64 s.m_currCount n) C
        (by rw [add64_eq (by omega)]; omega) hsc
      omega
    obtain ⟨i1, i2⟩ := Execute_not_due _ _ _ _ _ _ h e hx he hnd
    obtain ⟨j1, j2, j3⟩ := ih s1 w1 logs1 hs i2 (by omega)
    rw [hl]
    exact ⟨by simp only [totalInvocations]; omega, j2, j3⟩

end Scheduler

namespace Scheduler

variable {W : Type}

theorem CacheExact_indexOk (s : Scheduler W) (hx : CacheExact s) : CacheIndexOk s := by
  intro hlt
  obtain ⟨e, he, _⟩ := hx.2.2.2 hlt
  rcases List.getElem?_eq_some.1 he with ⟨hl, _⟩
  exact hl

/-- A pending event that requests no reschedule, through a sequence of `Advance` calls:
it is not invoked while the base counter is below its base-clock deadline, and it has
been invoked exactly once as soon as a call has brought the counter to the deadline. -/
theorem AdvanceSeq_pending (fuel : Nat) (counts : List Nat) (s s2 : Scheduler W) (w w2 : W)
    (logs : List (List Fired)) (h C : Nat) (e : Event W)
    (hr : AdvanceSeq fuel counts s w = some (s2, w2, logs))
    (he : s.m_events[h]? = some e) (hcb : ∀ w, (e.callback w).1.reschedule = false)
    (hfit : EventFits C e) (ha : e.target ≠ kNoDeadline)
    (hcache : s.m_nextCount ≤ e.CalcTargetScaledByReciprocal)
    (hC : s.m_currCount + counts.sum = C) (hCs : C < kNoDeadline) :
    s2.m_currCount = C ∧
    (C < e.CalcTargetScaledByReciprocal →
      totalInvocations h logs = 0 ∧ s2.m_events[h]? = some e) ∧
    (e.CalcTargetScaledByReciprocal ≤ C → counts ≠ [] →
      totalInvocations h logs = 1 ∧ s2.m_events[h]? = some { e with target := kNoDeadline }) := by
  have hk : kNoDeadline = 18446744073709551615 := rfl
  induction counts generalizing s w logs with
  | nil =>
    simp only [AdvanceSeq, Option.some.injEq, Prod.mk.injEq] at hr
    obtain ⟨h1, _, h3⟩ := hr
    subst h1 h3
    simp only [List.sum_nil, Nat.add_zero] at hC
    exact ⟨hC, fun _ => ⟨rfl, he⟩, fun _ hne => absurd rfl hne⟩
  | cons n rest ih =>
    obtain ⟨s1, w1, log, logs1, hadv, hs, hl⟩ := AdvanceSeq_inv fuel n rest s s2 w w2 logs hr
    simp only [List.sum_cons] at hC
    obtain ⟨hcur, _, hor, _⟩ := Advance_facts fuel n s s1 w w1 log hadv (by omega)
    obtain ⟨fuel1, hx⟩ := Advance_inv fuel n s s1 w w1 log hadv
    have hadd : add64 s.m_currCount n = s.m_currCount + n := add64_eq (by omega)
    have hfit1 : EventFits (s.m_currCount + n) e := EventFits_mono _ C e (by omega) hfit
    have hdue := due_iff_of_fits _ e hfit1 ha
    have hscl := (scaledCount_lt_sentinel _ e hfit1).1
    by_cases hreach : e.CalcTargetScaledByReciprocal ≤ s.m_currCount + n
    · obtain ⟨i1, i2⟩ := Execute_due_once _ _ _ _ _ _ h e hx he hcb
        (by show e.scaledCount (add64 s.m_currCount n) < kNoDeadline
            rw [hadd]; exact hscl)
        (by show e.target ≤ e.scaledCount (add64 s.m_currCount n)
            rw [hadd]; exact hdue.2 hreach)
        (by show e.CalcTargetScaledByReciprocal ≤ add64 s.m_currCount n
            rw [hadd]; exact hreach)
        hcache
      obtain ⟨j1, j2, j3⟩ := AdvanceSeq_idle fuel rest s1 s2 w1 w2 logs1 h C _ hs i2 rfl
        (by omega) hCs hfit.2.2.1
      refine ⟨j3, fun hlt => by omega, fun _ _ => ?_⟩
      rw [hl]
      exact ⟨by simp only [totalInvocations]; omega, j2⟩
    · have hnd : ¬ e.target ≤ e.scaledCount (add64 s.m_currCount n) := by
        rw [hadd]; exact fun hd => hreach (hdue.1 hd)
      obtain ⟨i1, i2⟩ := Execute_not_due _ _ _ _ _ _ h e hx he hnd
      have hcache1 : s1.m_nextCount ≤ e.CalcTargetScaledByReciprocal := by
        rcases hor with ⟨hnc, _⟩ | hex
        · rw [hnc]; exact hcache
        · exact hex.1 h e i2 ha
      obtain ⟨j1, j2, j3⟩ := ih s1 w1 logs1 hs i2 hcache1 (by omega)
      refine ⟨j1, fun hlt => ?_, fun hge _ => ?_⟩
      · obtain ⟨k1, k2⟩ := j2 hlt
        rw [hl]
        exact ⟨by simp only [totalInvocations]; omega, k2⟩
      · have hrest : rest ≠ [] := by
          intro hnil
          rw [hnil] at hC
          simp only [List.sum_nil] at hC
          omega
        obtain ⟨k1, k2⟩ := j3 hge hrest
        rw [hl]
        exact ⟨by simp only [totalInvocations]; omega, k2⟩

/-- Every sequence of `Advance` calls terminates: with no overflow up to the final base
count and callbacks that request no reschedule or a positive interval, some fuel
suffices for every call, and so does any larger fuel. -/
theorem AdvanceSeq_terminates (C : Nat) (counts : List Nat) (s : Scheduler W) (w : W)
    (hno : NoOverflow C s) (hp : CallbacksProgress s) (hidx : CacheIndexOk s)
    (hC : s.m_currCount + counts.sum ≤ C) :
    ∃ fuel0, ∀ fuel, fuel0 ≤ fuel → ∃ r, AdvanceSeq fuel counts s w = some r := by
  have hk : kNoDeadline = 18446744073709551615 := rfl
  induction counts generalizing s w with
  | nil => exact ⟨0, fun fuel _ => ⟨_, rfl⟩⟩
  | cons n rest ih =>
    simp only [List.sum_cons] at hC
    have hCs := hno.2.1
    have hadd : add64 s.m_currCount n = s.m_currCount + n := add64_eq (by omega)
    have hno1 : NoOverflow C { s with m_currCount := add64 s.m_currCount n } :=
      ⟨by show add64 s.m_currCount n ≤ C
          rw [hadd]; omega, hCs, fun i e hr => hno.2.2 i e hr⟩
    have hp1 : CallbacksProgress { s with m_currCount := add64 s.m_currCount n } :=
      fun i e hr => hp i e hr
    obtain ⟨⟨s1, w1, log⟩, hx⟩ := Execute_terminates C _ w hno1 hp1
      (fun hle => hidx (by
        have : s.m_nextCount ≤ add64 s.m_currCount n := hle
        omega)) _ le_rfl
    have hno2 := Execute_noOverflow C _ _ _ _ _ _ hx hno1
    have hp2 := Execute_progress _ _ _ _ _ _ hx hp1
    obtain ⟨hcur, _, hor, _⟩ := Execute_facts _ _ _ _ _ _ hx
    have hidx2 : CacheIndexOk s1 := by
      rcases hor with ⟨hs, _, _⟩ | hex
      · rw [hs]; exact hidx
      · exact CacheExact_indexOk s1 hex
    have hcur2 : s1.m_currCount = s.m_currCount + n := by rw [hcur]; exact hadd
    obtain ⟨f2, hf2⟩ := ih s1 w1 hno2 hp2 hidx2 (by omega)
    refine ⟨overdue (add64 s.m_currCount n) s.m_events + 2 + f2, fun fuel hfuel => ?_⟩
    obtain ⟨k, hk2⟩ : ∃ k, fuel = overdue (add64 s.m_currCount n) s.m_events + 2 + k :=
      ⟨fuel - (overdue (add64 s.m_currCount n) s.m_events + 2), by omega⟩
    have hadv : Advance fuel n s w = some (s1, w1, log) := by
      rw [hk2]
      exact Advance_fuel_mono _ k n s w _ (Advance_of_Execute _ n s w _ hx)
    obtain ⟨⟨s2, w2, logs⟩, hr2⟩ := hf2 fuel (by omega)
    refine ⟨(s2, w2, log :: logs), ?_⟩
    rw [AdvanceSeq, hadv]
    simp only
    rw [hr2]

/-- Effect of `ScheduleEvent` on a slot in range. -/
theorem ScheduleEvent_spec (s : Scheduler W) (id target : Nat) (e : Event W)
    (he : s.m_events[id]? = some e) :
    (ScheduleEvent s id target).m_events = s.m_events.set id { e with target := target } ∧
    (ScheduleEvent s id target).m_currCount = s.m_currCount ∧
    (ScheduleEvent s id target).m_nextCount ≤
      ({ e with target := target } : Event W).CalcTargetScaledByReciprocal ∧
    (ScheduleEvent s id target).m_nextCount ≤ s.m_nextCount ∧
    (((ScheduleEvent s id target).m_nextCount = s.m_nextCount ∧
        (ScheduleEvent s id target).m_nextEvent = s.m_nextEvent) ∨
      ((ScheduleEvent s id target).m_nextCount =
          ({ e with target := target } : Event W).CalcTargetScaledByReciprocal ∧
        (ScheduleEvent s id target).m_nextEvent = id)) := by
  unfold ScheduleEvent
  rw [he]
  simp only
  split
  · exact ⟨rfl, rfl, le_rfl, by simp only; omega, Or.inr ⟨rfl, rfl⟩⟩
  · exact ⟨rfl, rfl, by simp only; omega, le_rfl, Or.inl ⟨rfl, rfl⟩⟩

theorem ScheduleEvent_indexOk (s : Scheduler W) (id target : Nat) (e : Event W)
    (he : s.m_events[id]? = some e) (hidx : CacheIndexOk s) :
    CacheIndexOk (ScheduleEvent s id target) := by
  obtain ⟨h1, _, _, h4, h5⟩ := ScheduleEvent_spec s id target e he
  have hlen : id < s.m_events.length := by
    rcases List.getElem?_eq_some.1 he with ⟨hl, _⟩
    exact hl
  intro hlt
  rw [h1, List.length_set]
  rcases h5 with ⟨hnc, hne⟩ | ⟨_, hne⟩
  · rw [hne]; exact hidx (by omega)
  · rw [hne]; exact hlen

end Scheduler

/-! ## Reachable states -/

namespace Scheduler

variable {W : Type}

theorem lowerBound_set (es : List (Event W)) (nc id : Nat) (e1 : Event W)
    (h : ∀ (i : Nat) (e : Event W), es[i]? = some e → e.target ≠ kNoDeadline →
      nc ≤ e.CalcTargetScaledByReciprocal)
    (h1 : e1.target ≠ kNoDeadline → nc ≤ e1.CalcTargetScaledByReciprocal) :
    ∀ (i : Nat) (e : Event W), (es.set id e1)[i]? = some e → e.target ≠ kNoDeadline →
      nc ≤ e.CalcTargetScaledByReciprocal := by
  intro i e hi ha
  rw [List.getElem?_set] at hi
  by_cases hid : id = i
  · rw [if_pos hid] at hi
    by_cases hl : id < es.length
    · rw [if_pos hl] at hi
      cases hi
      exact h1 ha
    · rw [if_neg hl] at hi
      cases hi
  · rw [if_neg hid] at hi
    exact h i e hi ha

theorem le_minDeadline (es : List (Event W)) (x : Nat) (hx : x ≤ kNoDeadline)
    (h : ∀ (i : Nat) (e : Event W), es[i]? = some e → e.target ≠ kNoDeadline →
      x ≤ e.CalcTargetScaledByReciprocal) : x ≤ minDeadline es := by
  induction es with
  | nil => exact hx
  | cons a rest ih =>
    have hrest := ih (fun i e hi ha => h (i + 1) e (by simpa using hi) ha)
    by_cases ha : a.target = kNoDeadline
    · rw [minDeadline_inactive a rest ha]; exact hrest
    · by_cases hle : a.CalcTargetScaledByReciprocal ≤ minDeadline rest
      · rw [minDeadline_head a rest ha hle]
        exact h 0 a (by simp) ha
      · rw [minDeadline_tail a rest ha (by omega)]; exact hrest

/-- An exact cache holds the minimum base-clock deadline. -/
theorem CacheExact_nextCount (s : Scheduler W) (hx : CacheExact s) :
    s.m_nextCount = minDeadline s.m_events := by
  obtain ⟨hlb, hle, _, hsome⟩ := hx
  have h1 := le_minDeadline s.m_events s.m_nextCount hle hlb
  have h2 := minDeadline_le_sentinel s.m_events
  by_cases hc : s.m_nextCount = kNoDeadline
  · omega
  · obtain ⟨e, he, ha, hcalc, _⟩ := hsome (by omega)
    have := minDeadline_le s.m_events _ e he ha
    omega

/-- The invariant of the reachable states: the cache is a lower bound of every
base-clock deadline, is at most the sentinel, and its index is in range. -/
theorem Reachable_invariant (k : Nat) (s : Scheduler W) (hr : Reachable k s) :
    CacheLowerBound s ∧ s.m_nextCount ≤ kNoDeadline ∧ CacheIndexOk s := by
  have hexact : ∀ x : Scheduler W, CacheExact x →
      CacheLowerBound x ∧ x.m_nextCount ≤ kNoDeadline ∧ CacheIndexOk x :=
    fun x hx => ⟨hx.1, hx.2.1, CacheExact_indexOk x hx⟩
  induction hr with
  | create n events userIDs => exact hexact _ (RecalcSchedule_exact _)
  | registerEvent s s1 userID id callback _ hreg hun ih =>
    obtain ⟨hlb, hle, hidx⟩ := ih
    unfold RegisterEvent at hreg
    cases hp : s.m_eventPtrs[userID]? with
    | none => rw [hp] at hreg; simp at hreg
    | some ptr =>
      cases hev : s.m_events[s.m_nextEventIndex]? with
      | none => rw [hp, hev] at hreg; simp at hreg
      | some event =>
        rw [hp, hev] at hreg
        simp only at hreg
        by_cases hk : ptr = k
        · rw [if_pos hk] at hreg
          simp only [Option.some.injEq, Prod.mk.injEq] at hreg
          obtain ⟨hs1, _⟩ := hreg
          have ht : event.target = kNoDeadline := by
            unfold GetScheduleTarget at hun
            rw [hev] at hun
            exact hun
          subst hs1
          refine ⟨?_, hle, ?_⟩
          · exact lowerBound_set s.m_events s.m_nextCount _ _ hlb (fun ha => absurd ht ha)
          · intro hlt
            show s.m_nextEvent < (s.m_events.set _ _).length
            rw [List.length_set]
            exact hidx hlt
        · rw [if_neg hk] at hreg
          simp at hreg
  | setEventCallback s id callback _ _ ih =>
    obtain ⟨hlb, hle, hidx⟩ := ih
    unfold SetEventCallback
    cases hev : s.m_events[id]? with
    | none => exact ⟨hlb, hle, hidx⟩
    | some event =>
      refine ⟨?_, hle, ?_⟩
      · exact lowerBound_set s.m_events s.m_nextCount _ _ hlb (fun ha => hlb id event hev ha)
      · intro hlt
        show s.m_nextEvent < (s.m_events.set _ _).length
        rw [List.length_set]
        exact hidx hlt
  | setEventCountFactor s id numerator denominator _ _ _ _ hun ih =>
    obtain ⟨hlb, hle, hidx⟩ := ih
    unfold SetEventCountFactor
    cases hev : s.m_events[id]? with
    | none => exact ⟨hlb, hle, hidx⟩
    | some event =>
      have ht : event.target = kNoDeadline := by
        unfold GetScheduleTarget at hun
        rw [hev] at hun
        exact hun
      simp only [ht, ne_eq, not_true_eq_false, if_false]
      refine ⟨?_, hle, ?_⟩
      · exact lowerBound_set s.m_events s.m_nextCount _ _ hlb (fun ha => absurd rfl ha)
      · intro hlt
        show s.m_nextEvent < (s.m_events.set _ _).length
        rw [List.length_set]
        exact hidx hlt
  | scheduleFromNow s id interval _ _ ih =>
    obtain ⟨hlb, hle, hidx⟩ := ih
    unfold ScheduleFromNow
    cases hev : s.m_events[id]? with
    | none => exact ⟨hlb, hle, hidx⟩
    | some event =>
      simp only
      obtain ⟨h1, _, h3, h4, _⟩ := ScheduleEvent_spec s id
        (add64 (event.scaledCount s.m_currCount) interval) event hev
      refine ⟨?_, le_trans h4 hle, ScheduleEvent_indexOk s id _ event hev hidx⟩
      intro i e hi ha
      rw [h1] at hi
      exact lowerBound_set s.m_events _ id _
        (fun i e hi ha => le_trans h4 (hlb i e hi ha)) (fun _ => h3) i e hi ha
  | scheduleAt s id target _ hid ih =>
    obtain ⟨hlb, hle, hidx⟩ := ih
    have hev : s.m_events[id]? = some s.m_events[id] := List.getElem?_eq_getElem hid
    obtain ⟨h1, _, h3, h4, _⟩ := ScheduleEvent_spec s id target _ hev
    refine ⟨?_, le_trans h4 hle, ScheduleEvent_indexOk s id _ _ hev hidx⟩
    intro i e hi ha
    have hi2 : (ScheduleEvent s id target).m_events[i]? = some e := hi
    rw [h1] at hi2
    exact lowerBound_set s.m_events _ id _
      (fun i e hi ha => le_trans h4 (hlb i e hi ha)) (fun _ => h3) i e hi2 ha
  | cancel s id _ _ ih =>
    obtain ⟨hlb, hle, hidx⟩ := ih
    unfold Cancel
    cases hev : s.m_events[id]? with
    | none => exact ⟨hlb, hle, hidx⟩
    | some event =>
      refine ⟨?_, hle, ?_⟩
      · exact lowerBound_set s.m_events s.m_nextCount _ _ hlb (fun ha => absurd rfl ha)
      · intro hlt
        show s.m_nextEvent < (s.m_events.set _ _).length
        rw [List.length_set]
        exact hidx hlt
  | reset s _ _ => exact hexact _ (RecalcSchedule_exact _)
  | advance s s1 w w1 fuel count log _ hadv ih =>
    obtain ⟨hlb, hle, hidx⟩ := ih
    obtain ⟨fuel1, hx⟩ := Advance_inv fuel count s s1 w w1 log hadv
    obtain ⟨_, _, hor, _⟩ := Execute_facts _ _ _ _ _ _ hx
    rcases hor with ⟨hs, _, _⟩ | hex
    · subst hs; exact ⟨hlb, hle, hidx⟩
    · exact hexact _ hex
  | loadState s s1 state _ hload _ =>
    unfold LoadState at hload
    cases hev : LoadEvents k s.m_eventPtrs state.events s.m_events with
    | none => rw [hev] at hload; simp at hload
    | some events =>
      rw [hev] at hload
      simp only [Option.some.injEq] at hload
      subst hload
      exact hexact _ (RecalcSchedule_exact _)

end Scheduler

/-! ## Claims -/

namespace Scheduler

variable {W : Type}

theorem NoOverflow_of_all (C : Nat) (s : Scheduler W) (h1 : s.m_currCount ≤ C)
    (h2 : C < kNoDeadline) (h3 : ∀ e ∈ s.m_events, EventFits C e) : NoOverflow C s :=
  ⟨h1, h2, fun _ e hr => h3 e (List.getElem?_mem hr.1)⟩

theorem CallbacksProgress_of_all (s : Scheduler W)
    (h : ∀ e ∈ s.m_events, ∀ w : W, (e.callback w).1.reschedule = true →
      0 < (e.callback w).1.interval) : CallbacksProgress s :=
  fun _ e hr => h e (List.getElem?_mem hr.1)

/-- C1 (no-early-fire): an event `h` on a 1:1 clock whose callback requests no
reschedule is scheduled with `ScheduleAt(h, T)`, and then any sequence of `Advance`
calls follows (no 64-bit overflow up to the final count `C`, callbacks of the other
events request no reschedule or a positive interval).  Then every call returns, the
counter ends at `C`, the callback of `h` has not been invoked at all if `C < T`, and it
has been invoked exactly once if `C >= T`.  Applied to every prefix of the sequence:
no call that ends below `T` invokes it, and the first call that reaches `T` invokes it
exactly once. -/
theorem C1_no_early_fire (s0 : Scheduler W) (w0 : W) (h T : Nat) (e : Event W)
    (counts : List Nat) (C : Nat)
    (he : s0.m_events[h]? = some e)
    (hn : e.countNumerator = 1) (hd : e.countDenominator = 1)
    (hcb : ∀ w, (e.callback w).1.reschedule = false)
    (hT : T < kNoDeadline)
    (hC : s0.m_currCount + counts.sum = C)
    (hno : NoOverflow C (ScheduleAt s0 h T))
    (hp : CallbacksProgress (ScheduleAt s0 h T))
    (hidx : CacheIndexOk s0) :
    ∃ fuel0, ∀ fuel, fuel0 ≤ fuel → ∃ s2 w2 logs,
      AdvanceSeq fuel counts (ScheduleAt s0 h T) w0 = some (s2, w2, logs) ∧
      s2.CurrentCount = C ∧
      (s2.CurrentCount < T → totalInvocations h logs = 0) ∧
      (T ≤ s2.CurrentCount → counts ≠ [] → totalInvocations h logs = 1) := by
  have hk : kNoDeadline = 18446744073709551615 := rfl
  obtain ⟨h1, h2, h3, _, _⟩ := ScheduleEvent_spec s0 h T e he
  have hlen : h < s0.m_events.length := by
    rcases List.getElem?_eq_some.1 he with ⟨hl, _⟩
    exact hl
  have he1 : (ScheduleAt s0 h T).m_events[h]? = some { e with target := T } := by
    show (ScheduleEvent s0 h T).m_events[h]? = _
    rw [h1, List.getElem?_set_self hlen]
  have hcalc : ({ e with target := T } : Event W).CalcTargetScaledByReciprocal = T :=
    calcTarget_one _ hn hd (by simp only; omega)
  have hact : ({ e with target := T } : Event W).target ≠ kNoDeadline := by
    show T ≠ kNoDeadline
    omega
  have hfit : EventFits C ({ e with target := T } : Event W) :=
    hno.2.2 h _ ⟨he1, Or.inl hact⟩
  obtain ⟨fuel0, hterm⟩ := AdvanceSeq_terminates C counts (ScheduleAt s0 h T) w0 hno hp
    (ScheduleEvent_indexOk s0 h T e he hidx)
    (by show (ScheduleEvent s0 h T).m_currCount + _ ≤ C
        rw [h2]; omega)
  refine ⟨fuel0, fun fuel hfuel => ?_⟩
  obtain ⟨⟨s2, w2, logs⟩, hr⟩ := hterm fuel hfuel
  obtain ⟨k1, k2, k3⟩ := AdvanceSeq_pending fuel counts (ScheduleAt s0 h T) s2 w0 w2 logs h C
    _ hr he1 hcb hfit hact
    (by rw [hcalc]
        have h3b := h3
        rw [hcalc] at h3b
        exact h3b)
    (by show (ScheduleEvent s0 h T).m_currCount + _ = C
        rw [h2]; exact hC)
    hno.2.1
  rw [hcalc] at k2 k3
  refine ⟨s2, w2, logs, hr, k1, ?_, ?_⟩
  · intro hlt
    exact (k2 (by unfold CurrentCount at hlt; omega)).1
  · intro hge hne
    exact (k3 (by unfold CurrentCount at hge; omega) hne).1

end Scheduler

namespace Scheduler

theorem oneShot_fits (C target : Nat) (hC : C < kNoDeadline)
    (ht : target < kNoDeadline ∨ target = kNoDeadline) :
    EventFits C (unitEvent target oneShot) := by
  have hk : kNoDeadline = 18446744073709551615 := rfl
  refine ⟨Nat.one_pos, Nat.one_pos, by simp only [unitEvent]; omega, ?_, ?_⟩
  · intro ha
    simp only [unitEvent] at ha ⊢
    omega
  · intro w hr
    simp [oneShot, unitEvent] at hr

theorem demoTwo_events :
    demoTwo.m_events = [unitEvent kNoDeadline oneShot, unitEvent kNoDeadline oneShot] :=
  rfl

theorem demoTwo_indexOk : CacheIndexOk demoTwo := by
  intro h
  exact absurd h (by decide)

theorem demoTwo_scheduled_fits (C t0 t1 : Nat) (s : Scheduler Unit)
    (hev : s.m_events = [unitEvent t0 oneShot, unitEvent t1 oneShot])
    (hc : s.m_currCount ≤ C) (hC : C < kNoDeadline)
    (h0 : t0 < kNoDeadline ∨ t0 = kNoDeadline) (h1 : t1 < kNoDeadline ∨ t1 = kNoDeadline) :
    NoOverflow C s ∧ CallbacksProgress s := by
  refine ⟨NoOverflow_of_all C s hc hC ?_, CallbacksProgress_of_all s ?_⟩
  · rw [hev]
    intro e he
    simp only [List.mem_cons, List.mem_singleton, List.not_mem_nil, or_false] at he
    rcases he with rfl | rfl
    · exact oneShot_fits C t0 hC h0
    · exact oneShot_fits C t1 hC h1
  · rw [hev]
    intro e he w hr
    simp only [List.mem_cons, List.mem_singleton, List.not_mem_nil, or_false] at he
    rcases he with rfl | rfl <;> simp [oneShot, unitEvent] at hr

/-- Witness for C1: event A of `demoTwo` scheduled at 100, then `Advance(50)` and
`Advance(60)`. -/
theorem C1_no_early_fire_witness :
    ∃ fuel0, ∀ fuel, fuel0 ≤ fuel → ∃ s2 w2 logs,
      AdvanceSeq fuel [50, 60] (ScheduleAt demoTwo 0 100) () = some (s2, w2, logs) ∧
      s2.CurrentCount = 110 ∧
      (s2.CurrentCount < 100 → totalInvocations 0 logs = 0) ∧
      (100 ≤ s2.CurrentCount → [50, 60] ≠ [] → totalInvocations 0 logs = 1) :=
  C1_no_early_fire demoTwo () 0 100 (unitEvent kNoDeadline oneShot)
    [50, 60] 110 rfl rfl rfl (fun _ => rfl) (by decide) rfl
    (demoTwo_scheduled_fits 110 100 kNoDeadline _ rfl (by decide) (by decide)
      (Or.inl (by decide)) (Or.inr rfl)).1
    (demoTwo_scheduled_fits 110 100 kNoDeadline _ rfl (by decide) (by decide)
      (Or.inl (by decide)) (Or.inr rfl)).2
    demoTwo_indexOk

end Scheduler

namespace Scheduler

variable {W : Type}

/-- Witness for C2: ratio 3/7, target 10, base count 24. -/
theorem C2_due_check_iff_ceiling_deadline_witness :
    (24 * 3 / 7 ≥ 10 ↔ 24 ≥ demoRatioEvent.CalcTargetScaledByReciprocal) ∧
    demoRatioEvent.CalcTargetScaledByReciprocal = 24 :=
  ⟨(C2_due_check_iff_ceiling_deadline demoRatioEvent 24
      (by decide) (by decide) (by decide) (by decide)).1, by decide⟩

theorem demoFresh_reachable : Reachable 255 demoFresh := Reachable.create 4 _ _

theorem demoOne_reachable : Reachable 255 demoOne :=
  Reachable.registerEvent demoFresh demoOne 1 0 oneShot demoFresh_reachable rfl rfl

theorem demoTwo_reachable : Reachable 255 demoTwo :=
  Reachable.registerEvent demoOne demoTwo 2 1 oneShot demoOne_reachable rfl rfl

theorem demoPending_reachable : Reachable 255 demoPending :=
  Reachable.scheduleAt demoTwo 0 100 demoTwo_reachable (by decide)

theorem demoLater_reachable : Reachable 255 demoLater :=
  Reachable.scheduleAt _ 0 100
    (Reachable.scheduleAt demoTwo 0 10 demoTwo_reachable (by decide)) (by decide)

/-- What a returning `Advance` leaves in a reachable state: `CurrentCount()` is below
`NextCount()`, and every event with a deadline whose ratio is positive and whose
conversions do not overflow 64 bits is not due. -/
theorem Advance_leaves_no_due_event (k : Nat) (s s1 : Scheduler W) (w w1 : W)
    (fuel count : Nat) (log : List Fired) (hreach : Reachable k s)
    (hadv : Advance fuel count s w = some (s1, w1, log)) :
    s1.CurrentCount < s1.NextCount ∧
    ∀ (i : Nat) (e : Event W), s1.m_events[i]? = some e → e.target ≠ kNoDeadline →
      0 < e.countNumerator → 0 < e.countDenominator →
      s1.CurrentCount * e.countNumerator < 18446744073709551616 →
      e.target * e.countDenominator + e.countNumerator - 1 < 18446744073709551616 →
      s1.CurrentCount * e.countNumerator / e.countDenominator < e.target ∧
      e.scaledCount s1.CurrentCount < e.target := by
  obtain ⟨hlb, _, _⟩ := Reachable_invariant k s1
    (Reachable.advance s s1 w w1 fuel count log hreach hadv)
  obtain ⟨fuel1, hx⟩ := Advance_inv fuel count s s1 w w1 log hadv
  obtain ⟨_, hlt, _, _⟩ := Execute_facts _ _ _ _ _ _ hx
  refine ⟨hlt, ?_⟩
  intro i e he ha hp hq hc ht
  have hd := due_iff e s1.m_currCount hp hq hc ht
  have hcache := hlb i e he ha
  have hnd : ¬ e.target ≤ e.scaledCount s1.m_currCount := fun h => by
    have := hd.1 h
    omega
  have hsc := scaledCount_eq e s1.m_currCount hc
  unfold CurrentCount
  rw [← hsc]
  omega

/-- Counterexample to C4 as stated: after `ScheduleAt(A, 10)` and `ScheduleAt(A, 100)`
the state is reachable, `NextCount()` is 10, and the minimum base-clock deadline of the
events with a deadline is 100. -/
theorem C4_cached_minimum_counterexample :
    Reachable 255 demoLater ∧ demoLater.NextCount = 10 ∧
    minDeadline demoLater.m_events = 100 :=
  ⟨demoLater_reachable, by decide, by decide⟩

/-- C4 (amended): in every reachable state (ratio of an event changed only while it has
no deadline) `NextCount()` is at most the minimum base-clock deadline of the events with
a deadline, the sentinel standing for "none"; and it equals that minimum right after
`Reset`, after `LoadState`, and after every `Advance` that ran the firing loop. -/
theorem C4_cache_lower_bound_and_exact_after_rescan (k : Nat) (s : Scheduler W)
    (hreach : Reachable k s) :
    s.NextCount ≤ minDeadline s.m_events ∧
    (Reset s).NextCount = minDeadline (Reset s).m_events ∧
    (∀ (state : SchedulerState) (s1 : Scheduler W), LoadState k s state = some s1 →
      s1.NextCount = minDeadline s1.m_events) ∧
    (∀ (fuel count : Nat) (w w1 : W) (s1 : Scheduler W) (log : List Fired),
      Advance fuel count s w = some (s1, w1, log) →
      s.NextCount ≤ add64 s.CurrentCount count →
      s1.NextCount = minDeadline s1.m_events) := by
  obtain ⟨hlb, hle, _⟩ := Reachable_invariant k s hreach
  refine ⟨le_minDeadline s.m_events _ hle hlb, ?_, ?_, ?_⟩
  · exact CacheExact_nextCount _ (RecalcSchedule_exact _)
  · intro state s1 hload
    unfold LoadState at hload
    cases hev : LoadEvents k s.m_eventPtrs state.events s.m_events with
    | none => rw [hev] at hload; simp at hload
    | some events =>
      rw [hev] at hload
      simp only [Option.some.injEq] at hload
      subst hload
      exact CacheExact_nextCount _ (RecalcSchedule_exact _)
  · intro fuel count w w1 s1 log hadv hran
    obtain ⟨fuel1, hx⟩ := Advance_inv fuel count s s1 w w1 log hadv
    obtain ⟨_, hlt, hor, _⟩ := Execute_facts _ _ _ _ _ _ hx
    rcases hor with ⟨hs, _, _⟩ | hex
    · exfalso
      subst hs
      have h1 : s.m_nextCount ≤ add64 s.m_currCount count := hran
      have h2 : add64 s.m_currCount count < s.m_nextCount := hlt
      omega
    · exact CacheExact_nextCount _ hex

/-- Witness for C4 (amended): the reachable state `demoLater`. -/
theorem C4_cache_lower_bound_and_exact_after_rescan_witness :
    demoLater.NextCount ≤ minDeadline demoLater.m_events ∧
    (Reset demoLater).NextCount = minDeadline (Reset demoLater).m_events :=
  ⟨(C4_cache_lower_bound_and_exact_after_rescan 255 demoLater demoLater_reachable).1,
   (C4_cache_lower_bound_and_exact_after_rescan 255 demoLater demoLater_reachable).2.1⟩

end Scheduler

namespace Scheduler

variable {W : Type}

/-- Order of the trace of one `Advance`: all invocations after the first one follow
`FiredLE`, and so does the whole trace when the cache is exact on entry. -/
theorem Advance_trace_order (C fuel count : Nat) (s s1 : Scheduler W) (w w1 : W)
    (log : List Fired) (hadv : Advance fuel count s w = some (s1, w1, log))
    (hno : NoOverflow C s) (hC : s.m_currCount + count ≤ C) :
    List.Pairwise FiredLE log.tail ∧ (CacheExact s → List.Pairwise FiredLE log) := by
  have hk : kNoDeadline = 18446744073709551615 := rfl
  have hCs := hno.2.1
  have hadd : add64 s.m_currCount count = s.m_currCount + count := add64_eq (by omega)
  have hno1 : NoOverflow C { s with m_currCount := add64 s.m_currCount count } :=
    ⟨by show add64 s.m_currCount count ≤ C
        rw [hadd]; exact hC, hCs, fun i e hr => hno.2.2 i e hr⟩
  obtain ⟨fuel1, hx⟩ := Advance_inv fuel count s s1 w w1 log hadv
  refine ⟨?_, fun hex => (Execute_sorted_of_exact C _ _ _ _ _ _ hx hex hno1).1⟩
  rcases Execute_inv _ _ _ _ _ _ hx with ⟨_, _, _, hl⟩ | ⟨_, m, sb, wb, fired, log1, _, hb, hr1, hl⟩
  · rw [hl]; exact List.Pairwise.nil
  · obtain ⟨hno2, hex2, _⟩ := ExecuteBody_noOverflow C _ sb w wb fired hb hno1
    have hsorted := (Execute_sorted_of_exact C _ _ _ _ _ _ hr1 hex2 hno2).1
    obtain ⟨_, _, _, _, _, _, _, hcase⟩ := ExecuteBody_spec _ sb w wb fired hb
    rcases hcase with ⟨_, hf, _, _⟩ | ⟨_, hf, _, _⟩
    · rw [hl, hf]
      exact hsorted
    · rw [hl, hf]
      exact hsorted.tail

/-- Counterexample to C5 as stated: in the reachable state `demoOutOfOrder` a single
`Advance(200)` invokes A with base-clock deadline 100 and then B with deadline 50. -/
theorem C5_deadline_order_counterexample :
    Reachable 255 demoOutOfOrder ∧
    (Advance 5 200 demoOutOfOrder ()).map (fun r => r.2.2) =
      some [{ id := 0, deadline := 100 }, { id := 1, deadline := 50 }] ∧
    ¬ List.Pairwise (fun a b : Fired => a.deadline ≤ b.deadline)
      [{ id := 0, deadline := 100 }, { id := 1, deadline := 50 }] :=
  ⟨Reachable.scheduleAt demoLater 1 50 demoLater_reachable (by decide), by decide,
    by simp⟩

/-- C5 (amended): within a single `Advance` call (no 64-bit overflow up to `C`), the
callbacks after the first invoked one are invoked in non-decreasing order of the
base-clock deadline the event had when it fired; when the cache is exact on entry, all
of them are. -/
theorem C5_deadline_order_after_first (C fuel count : Nat) (s s1 : Scheduler W) (w w1 : W)
    (log : List Fired) (hadv : Advance fuel count s w = some (s1, w1, log))
    (hno : NoOverflow C s) (hC : s.m_currCount + count ≤ C) :
    List.Pairwise (fun a b : Fired => a.deadline ≤ b.deadline) log.tail ∧
    (CacheExact s → List.Pairwise (fun a b : Fired => a.deadline ≤ b.deadline) log) := by
  obtain ⟨h1, h2⟩ := Advance_trace_order C fuel count s s1 w w1 log hadv hno hC
  have himp : ∀ {a b : Fired}, FiredLE a b → a.deadline ≤ b.deadline := by
    intro a b h
    unfold FiredLE at h
    omega
  exact ⟨h1.imp himp, fun hex => (h2 hex).imp himp⟩

/-- Counterexample to C6 as stated: in the reachable state `demoTie` both events have
base-clock deadline 10 and `Advance(10)` invokes B (slot 1) before A (slot 0). -/
theorem C6_tie_order_counterexample :
    Reachable 255 demoTie ∧
    (Advance 5 10 demoTie ()).map (fun r => r.2.2) =
      some [{ id := 1, deadline := 10 }, { id := 0, deadline := 10 }] ∧
    ¬ List.Pairwise (fun a b : Fired => a.deadline = b.deadline → a.id ≤ b.id)
      [{ id := 1, deadline := 10 }, { id := 0, deadline := 10 }] :=
  ⟨Reachable.scheduleAt _ 0 10
      (Reachable.scheduleAt demoTwo 1 10 demoTwo_reachable (by decide)) (by decide),
    by decide, by simp⟩

/-- C6 (amended): within a single `Advance` call (no 64-bit overflow up to `C`), among
the callbacks after the first invoked one, events that fire with equal base-clock
deadlines fire in increasing slot index; when the cache is exact on entry, this holds
for all invocations of the call. -/
theorem C6_tie_order_after_first (C fuel count : Nat) (s s1 : Scheduler W) (w w1 : W)
    (log : List Fired) (hadv : Advance fuel count s w = some (s1, w1, log))
    (hno : NoOverflow C s) (hC : s.m_currCount + count ≤ C) :
    List.Pairwise (fun a b : Fired => a.deadline = b.deadline → a.id ≤ b.id) log.tail ∧
    (CacheExact s →
      List.Pairwise (fun a b : Fired => a.deadline = b.deadline → a.id ≤ b.id) log) := by
  obtain ⟨h1, h2⟩ := Advance_trace_order C fuel count s s1 w w1 log hadv hno hC
  have himp : ∀ {a b : Fired}, FiredLE a b → a.deadline = b.deadline → a.id ≤ b.id := by
    intro a b h heq
    unfold FiredLE at h
    omega
  exact ⟨h1.imp himp, fun hex => (h2 hex).imp himp⟩

end Scheduler

namespace Scheduler

variable {W : Type}

/-- A state whose events are on 1:1 clocks with callbacks that request no reschedule or
always call `Reschedule(10)` has no 64-bit overflow up to `C`, and its callbacks
progress. -/
theorem unitEvents_fit (C : Nat) (s : Scheduler Unit) (hc : s.m_currCount ≤ C)
    (hC : C + 10 < kNoDeadline)
    (hev : ∀ e ∈ s.m_events, ∃ t cb, e = unitEvent t cb ∧ t ≤ kNoDeadline ∧
      (cb = oneShot ∨ cb = periodic 10)) :
    NoOverflow C s ∧ CallbacksProgress s := by
  have hk : kNoDeadline = 18446744073709551615 := rfl
  refine ⟨NoOverflow_of_all C s hc (by omega) ?_, CallbacksProgress_of_all s ?_⟩
  · intro e he
    obtain ⟨t, cb, rfl, ht, hcb⟩ := hev e he
    rcases hcb with rfl | rfl
    · exact oneShot_fits C t (by omega) (by omega)
    · refine ⟨Nat.one_pos, Nat.one_pos, by simp only [unitEvent]; omega, ?_, ?_⟩
      · intro ha
        simp only [unitEvent] at ha ⊢
        omega
      · intro w _
        have hm : mul64 C 1 = C := by unfold mul64; omega
        simp only [unitEvent, periodic, Event.scaledCount, hm]
        omega
  · intro e he w hr
    obtain ⟨t, cb, rfl, _, hcb⟩ := hev e he
    rcases hcb with rfl | rfl
    · simp [unitEvent, oneShot] at hr
    · simp [unitEvent, periodic]

/-- The log of an `Advance` whose result is known through its log. -/
theorem Advance_of_log (fuel count : Nat) (s : Scheduler W) (w : W) (log : List Fired)
    (h : (Advance fuel count s w).map (fun r => r.2.2) = some log) :
    ∃ s1 w1, Advance fuel count s w = some (s1, w1, log) := by
  cases hadv : Advance fuel count s w with
  | none => rw [hadv] at h; simp at h
  | some r =>
    rw [hadv] at h
    simp only [Option.map_some', Option.some.injEq] at h
    exact ⟨r.1, r.2.1, by rw [← h]⟩

/-- Witness for C5 (amended).  In `demoMixedStale` the cache is stale: `Advance(110)`
invokes A at 100, then B at 50, then A at 110, and the invocations after the first are
in non-decreasing order of deadline.  In `demoMixed` the cache is exact: `Advance(30)`
invokes A at 10 and 20, B at 25 and A at 30, all in non-decreasing order. -/
theorem C5_deadline_order_after_first_witness :
    ((Advance 10 110 demoMixedStale ()).map (fun r => r.2.2) =
        some [{ id := 0, deadline := 100 }, { id := 1, deadline := 50 },
          { id := 0, deadline := 110 }] ∧
      List.Pairwise (fun a b : Fired => a.deadline ≤ b.deadline)
        [{ id := 1, deadline := 50 }, { id := 0, deadline := 110 }]) ∧
    ((Advance 10 30 demoMixed ()).map (fun r => r.2.2) =
        some [{ id := 0, deadline := 10 }, { id := 0, deadline := 20 },
          { id := 1, deadline := 25 }, { id := 0, deadline := 30 }] ∧
      CacheExact demoMixed ∧
      List.Pairwise (fun a b : Fired => a.deadline ≤ b.deadline)
        [{ id := 0, deadline := 10 }, { id := 0, deadline := 20 },
          { id := 1, deadline := 25 }, { id := 0, deadline := 30 }]) := by
  have hlog1 : (Advance 10 110 demoMixedStale ()).map (fun r => r.2.2) =
      some [{ id := 0, deadline := 100 }, { id := 1, deadline := 50 },
        { id := 0, deadline := 110 }] := by decide
  have hlog2 : (Advance 10 30 demoMixed ()).map (fun r => r.2.2) =
      some [{ id := 0, deadline := 10 }, { id := 0, deadline := 20 },
        { id := 1, deadline := 25 }, { id := 0, deadline := 30 }] := by decide
  have hfit1 := unitEvents_fit 110 demoMixedStale (by decide) (by decide) (by
    rw [show demoMixedStale.m_events = [unitEvent 100 (periodic 10), unitEvent 50 oneShot]
      from rfl]
    intro e he
    simp only [List.mem_cons, List.mem_singleton, List.not_mem_nil, or_false] at he
    rcases he with rfl | rfl
    · exact ⟨_, _, rfl, by decide, Or.inr rfl⟩
    · exact ⟨_, _, rfl, by decide, Or.inl rfl⟩)
  have hfit2 := unitEvents_fit 30 demoMixed (by decide) (by decide) (by
    rw [show demoMixed.m_events = [unitEvent 10 (periodic 10), unitEvent 25 oneShot]
      from rfl]
    intro e he
    simp only [List.mem_cons, List.mem_singleton, List.not_mem_nil, or_false] at he
    rcases he with rfl | rfl
    · exact ⟨_, _, rfl, by decide, Or.inr rfl⟩
    · exact ⟨_, _, rfl, by decide, Or.inl rfl⟩)
  have hx : CacheExact demoMixed := by
    have h : RecalcSchedule demoMixed = demoMixed := rfl
    rw [← h]
    exact RecalcSchedule_exact _
  obtain ⟨s1, w1, hadv1⟩ := Advance_of_log _ _ _ _ _ hlog1
  obtain ⟨s2, w2, hadv2⟩ := Advance_of_log _ _ _ _ _ hlog2
  exact ⟨⟨hlog1,
      (C5_deadline_order_after_first 110 10 110 demoMixedStale s1 () w1 _ hadv1 hfit1.1
        (by decide)).1⟩,
    hlog2, hx,
    (C5_deadline_order_after_first 30 10 30 demoMixed s2 () w2 _ hadv2 hfit2.1
      (by decide)).2 hx⟩

/-- Witness for C6 (amended).  In `demoBothTieReversed` the cache holds B although A has
the same deadline: `Advance(20)` invokes B at 10, then A at 10, A at 20 and B at 20, and
among the invocations after the first, equal deadlines fire in increasing slot index.
In `demoBothTie` the cache is exact: `Advance(20)` invokes A and B at 10, then A and B
at 20, every tie in increasing slot index. -/
theorem C6_tie_order_after_first_witness :
    ((Advance 10 20 demoBothTieReversed ()).map (fun r => r.2.2) =
        some [{ id := 1, deadline := 10 }, { id := 0, deadline := 10 },
          { id := 0, deadline := 20 }, { id := 1, deadline := 20 }] ∧
      List.Pairwise (fun a b : Fired => a.deadline = b.deadline → a.id ≤ b.id)
        [{ id := 0, deadline := 10 }, { id := 0, deadline := 20 },
          { id := 1, deadline := 20 }]) ∧
    ((Advance 10 20 demoBothTie ()).map (fun r => r.2.2) =
        some [{ id := 0, deadline := 10 }, { id := 1, deadline := 10 },
          { id := 0, deadline := 20 }, { id := 1, deadline := 20 }] ∧
      CacheExact demoBothTie ∧
      List.Pairwise (fun a b : Fired => a.deadline = b.deadline → a.id ≤ b.id)
        [{ id := 0, deadline := 10 }, { id := 1, deadline := 10 },
          { id := 0, deadline := 20 }, { id := 1, deadline := 20 }]) := by
  have hlog1 : (Advance 10 20 demoBothTieReversed ()).map (fun r => r.2.2) =
      some [{ id := 1, deadline := 10 }, { id := 0, deadline := 10 },
        { id := 0, deadline := 20 }, { id := 1, deadline := 20 }] := by decide
  have hlog2 : (Advance 10 20 demoBothTie ()).map (fun r => r.2.2) =
      some [{ id := 0, deadline := 10 }, { id := 1, deadline := 10 },
        { id := 0, deadline := 20 }, { id := 1, deadline := 20 }] := by decide
  have hfit1 := unitEvents_fit 20 demoBothTieReversed (by decide) (by decide) (by
    rw [show demoBothTieReversed.m_events
      = [unitEvent 10 (periodic 10), unitEvent 10 (periodic 10)] from rfl]
    intro e he
    simp only [List.mem_cons, List.mem_singleton, List.not_mem_nil, or_false, or_self] at he
    subst he
    exact ⟨_, _, rfl, by decide, Or.inr rfl⟩)
  have hfit2 := unitEvents_fit 20 demoBothTie (by decide) (by decide) (by
    rw [show demoBothTie.m_events
      = [unitEvent 10 (periodic 10), unitEvent 10 (periodic 10)] from rfl]
    intro e he
    simp only [List.mem_cons, List.mem_singleton, List.not_mem_nil, or_false, or_self] at he
    subst he
    exact ⟨_, _, rfl, by decide, Or.inr rfl⟩)
  have hx : CacheExact demoBothTie := by
    have h : RecalcSchedule demoBothTie = demoBothTie := rfl
    rw [← h]
    exact RecalcSchedule_exact _
  obtain ⟨s1, w1, hadv1⟩ := Advance_of_log _ _ _ _ _ hlog1
  obtain ⟨s2, w2, hadv2⟩ := Advance_of_log _ _ _ _ _ hlog2
  exact ⟨⟨hlog1,
      (C6_tie_order_after_first 20 10 20 demoBothTieReversed s1 () w1 _ hadv1 hfit1.1
        (by decide)).1⟩,
    hlog2, hx,
    (C6_tie_order_after_first 20 10 20 demoBothTie s2 () w2 _ hadv2 hfit2.1
      (by decide)).2 hx⟩

/-- C7 (periodic phase preservation): an event `h` on a 1:1 clock whose callback always
calls `Reschedule(I)`, `I > 0`, is scheduled with `ScheduleFromNow(h, I)` at base count
`c0`, which sets its target to `c0 + I`.  A single `Advance(k * I)`, for every `k` and so
for `k >= 1` (no 64-bit overflow, callbacks of the other events request no reschedule
or a positive interval), returns, invokes the callback of `h` exactly `k` times, with the deadlines `c0 + I`,
`c0 + 2 * I`, ..., `c0 + k * I` (each reschedule adds `I` to the previous target), and
leaves its target at `c0 + (k + 1) * I`. -/
theorem C7_periodic_phase_preserved (s0 : Scheduler W) (w0 : W) (h I k : Nat) (e : Event W)
    (he : s0.m_events[h]? = some e)
    (hn : e.countNumerator = 1) (hd : e.countDenominator = 1)
    (hcb : ∀ w, (e.callback w).1.reschedule = true ∧ (e.callback w).1.interval = I)
    (hI : 0 < I)
    (hfit : s0.m_currCount + (k + 1) * I < kNoDeadline)
    (hno : NoOverflow (s0.m_currCount + k * I) (ScheduleFromNow s0 h I))
    (hp : CallbacksProgress (ScheduleFromNow s0 h I))
    (hidx : CacheIndexOk s0) :
    GetScheduleTarget (ScheduleFromNow s0 h I) h = s0.CurrentCount + I ∧
    ∃ fuel0, ∀ fuel, fuel0 ≤ fuel → ∃ s2 w2 log,
      Advance fuel (k * I) (ScheduleFromNow s0 h I) w0 = some (s2, w2, log) ∧
      invocations h log = k ∧
      deadlinesOf h log = (List.range k).map (fun m => s0.CurrentCount + I + m * I) ∧
      GetScheduleTarget s2 h = s0.CurrentCount + (k + 1) * I ∧
      s2.CurrentCount = s0.CurrentCount + k * I := by
  have hk : kNoDeadline = 18446744073709551615 := rfl
  have hmul : (k + 1) * I = k * I + I := Nat.succ_mul k I
  have hsc0 : e.scaledCount s0.m_currCount = s0.m_currCount :=
    scaledCount_one e _ hn hd (by omega)
  have hsfn : ScheduleFromNow s0 h I = ScheduleEvent s0 h (s0.m_currCount + I) := by
    unfold ScheduleFromNow
    rw [he]
    simp only
    rw [hsc0, add64_eq (by omega)]
  rw [hsfn] at hno hp ⊢
  obtain ⟨h1, h2, h3, _, _⟩ := ScheduleEvent_spec s0 h (s0.m_currCount + I) e he
  have hlen : h < s0.m_events.length := by
    rcases List.getElem?_eq_some.1 he with ⟨hl, _⟩
    exact hl
  have he1 : (ScheduleEvent s0 h (s0.m_currCount + I)).m_events[h]? =
      some { e with target := s0.m_currCount + I } := by
    rw [h1, List.getElem?_set_self hlen]
  have hcalc : ({ e with target := s0.m_currCount + I } : Event W).CalcTargetScaledByReciprocal
      = s0.m_currCount + I := calcTarget_one _ hn hd (by simp only; omega)
  rw [hcalc] at h3
  have hadd : add64 (ScheduleEvent s0 h (s0.m_currCount + I)).m_currCount (k * I) =
      s0.m_currCount + k * I := by
    rw [h2]; exact add64_eq (by omega)
  refine ⟨by unfold GetScheduleTarget CurrentCount; rw [he1], ?_⟩
  have hno1 : NoOverflow (s0.m_currCount + k * I)
      { ScheduleEvent s0 h (s0.m_currCount + I) with
        m_currCount := add64 (ScheduleEvent s0 h (s0.m_currCount + I)).m_currCount (k * I) } :=
    ⟨by show add64 _ _ ≤ _
        rw [hadd], hno.2.1, fun i x hr => hno.2.2 i x hr⟩
  have hidx1 := ScheduleEvent_indexOk s0 h (s0.m_currCount + I) e he hidx
  refine ⟨overdue (add64 (ScheduleEvent s0 h (s0.m_currCount + I)).m_currCount (k * I))
    (ScheduleEvent s0 h (s0.m_currCount + I)).m_events + 2, fun fuel hfuel => ?_⟩
  obtain ⟨⟨s2, w2, log⟩, hx⟩ := Execute_terminates _ _ w0 hno1 (fun i x hr => hp i x hr)
    (fun hle => hidx1 (by
      have h5 : (ScheduleEvent s0 h (s0.m_currCount + I)).m_nextCount ≤
          add64 (ScheduleEvent s0 h (s0.m_currCount + I)).m_currCount (k * I) := hle
      rw [hadd] at h5
      omega)) fuel hfuel
  obtain ⟨i1, i2⟩ := Execute_periodic fuel _ s2 w0 w2 log h I (s0.m_currCount + (k + 1) * I) k
    { e with target := s0.m_currCount + I } hI hx he1 hn hd hcb h3
    (by show s0.m_currCount + I + k * I = _
        omega)
    (by show add64 _ _ < _
        rw [hadd]; omega)
    (by show _ ≤ add64 _ _ + I
        rw [hadd]; omega)
    hfit
  have i3 := Execute_periodic_deadlines fuel _ s2 w0 w2 log h I (s0.m_currCount + (k + 1) * I) k
    { e with target := s0.m_currCount + I } hI hx he1 hn hd hcb h3
    (by show s0.m_currCount + I + k * I = _
        omega)
    (by show add64 _ _ < _
        rw [hadd]; omega)
    (by show _ ≤ add64 _ _ + I
        rw [hadd]; omega)
    hfit
  obtain ⟨hcur, _, _, _⟩ := Execute_facts _ _ _ _ _ _ hx
  refine ⟨s2, w2, log, Advance_of_Execute _ _ _ _ _ hx, i1, i3, ?_, ?_⟩
  · unfold GetScheduleTarget CurrentCount
    rw [i2]
  · unfold CurrentCount
    rw [hcur]
    exact hadd

end Scheduler

namespace Scheduler

variable {W : Type}

theorem demoTimer_scheduled_fits :
    NoOverflow (0 + 3 * 10) (ScheduleFromNow demoTimer 0 10) ∧
    CallbacksProgress (ScheduleFromNow demoTimer 0 10) := by
  have hev : (ScheduleFromNow demoTimer 0 10).m_events =
      [unitEvent 10 (periodic 10),
       { target := kNoDeadline, countNumerator := 0, countDenominator := 0,
         callback := oneShot }] := rfl
  have hne : (ScheduleFromNow demoTimer 0 10).m_nextEvent = 0 := rfl
  have hrel : ∀ (i : Nat) (x : Event Unit), Relevant (ScheduleFromNow demoTimer 0 10) i x →
      x = unitEvent 10 (periodic 10) := by
    intro i x hr
    obtain ⟨hi, hor⟩ := hr
    rw [hev] at hi
    rw [hne] at hor
    match i, hi, hor with
    | 0, hi, _ => simp at hi; exact hi.symm
    | 1, hi, hor =>
      simp at hi
      subst hi
      rcases hor with h | h
      · exact absurd rfl h
      · exact absurd h (by decide)
    | n + 2, hi, _ => simp at hi
  refine ⟨⟨by decide, by decide, ?_⟩, ?_⟩
  · intro i x hr
    rw [hrel i x hr]
    refine ⟨Nat.one_pos, Nat.one_pos, by decide, fun _ => by decide, fun w _ => ?_⟩
    simp [unitEvent, periodic, Event.scaledCount, mul64]
  · intro i x hr w _
    rw [hrel i x hr]
    simp [unitEvent, periodic]

/-- Witness for C7: the timer of `demoTimer` with interval 10, advanced by `3 * 10`. -/
theorem C7_periodic_phase_preserved_witness :
    GetScheduleTarget (ScheduleFromNow demoTimer 0 10) 0 = demoTimer.CurrentCount + 10 ∧
    ∃ fuel0, ∀ fuel, fuel0 ≤ fuel → ∃ s2 w2 log,
      Advance fuel (3 * 10) (ScheduleFromNow demoTimer 0 10) () = some (s2, w2, log) ∧
      invocations 0 log = 3 ∧
      deadlinesOf 0 log = (List.range 3).map (fun m => demoTimer.CurrentCount + 10 + m * 10) ∧
      GetScheduleTarget s2 0 = demoTimer.CurrentCount + (3 + 1) * 10 ∧
      s2.CurrentCount = demoTimer.CurrentCount + 3 * 10 :=
  C7_periodic_phase_preserved demoTimer () 0 10 3 (unitEvent kNoDeadline (periodic 10))
    rfl rfl rfl (fun _ => ⟨rfl, rfl⟩) (by decide) (by decide)
    demoTimer_scheduled_fits.1 demoTimer_scheduled_fits.2
    (fun h => absurd h (by decide))

/-- An event that requests no reschedule, through a sequence of `Advance` calls: it is
invoked at most once, and once invoked it has no deadline. -/
theorem AdvanceSeq_at_most_once (fuel : Nat) (counts : List Nat) (s s2 : Scheduler W)
    (w w2 : W) (logs : List (List Fired)) (h C : Nat) (e : Event W)
    (hr : AdvanceSeq fuel counts s w = some (s2, w2, logs))
    (he : s.m_events[h]? = some e) (hcb : ∀ w, (e.callback w).1.reschedule = false)
    (hC : s.m_currCount + counts.sum = C) (hCs : C < kNoDeadline)
    (hsc : C * e.countNumerator < kNoDeadline) :
    (totalInvocations h logs = 0 ∧ s2.m_events[h]? = some e) ∨
    (totalInvocations h logs = 1 ∧ s2.m_events[h]? = some { e with target := kNoDeadline }) := by
  have hk : kNoDeadline = 18446744073709551615 := rfl
  induction counts generalizing s w logs with
  | nil =>
    simp only [AdvanceSeq, Option.some.injEq, Prod.mk.injEq] at hr
    obtain ⟨h1, _, h3⟩ := hr
    subst h1 h3
    exact Or.inl ⟨rfl, he⟩
  | cons n rest ih =>
    obtain ⟨s1, w1, log, logs1, hadv, hs, hl⟩ := AdvanceSeq_inv fuel n rest s s2 w w2 logs hr
    simp only [List.sum_cons] at hC
    obtain ⟨hcur, _, _, _⟩ := Advance_facts fuel n s s1 w w1 log hadv (by omega)
    obtain ⟨fuel1, hx⟩ := Advance_inv fuel n s s1 w w1 log hadv
    have hscl : e.scaledCount (add64 s.m_currCount n) < kNoDeadline :=
      scaledCount_lt_of_le e _ C (by rw [add64_eq (by omega)]; omega) hsc
    rcases Execute_at_most_once _ _ _ _ _ _ h e hx he hcb hscl with ⟨i1, i2⟩ | ⟨i1, _, i3⟩
    · rcases ih s1 w1 logs1 hs i2 (by omega) with ⟨j1, j2⟩ | ⟨j1, j2⟩
      · left; rw [hl]
        exact ⟨by simp only [totalInvocations]; omega, j2⟩
      · right; rw [hl]
        exact ⟨by simp only [totalInvocations]; omega, j2⟩
    · obtain ⟨j1, j2, _⟩ := AdvanceSeq_idle fuel rest s1 s2 w1 w2 logs1 h C _ hs i3 rfl
        (by omega) hCs hsc
      right; rw [hl]
      exact ⟨by simp only [totalInvocations]; omega, j2⟩

/-- C8 (single fire per deadline): an event `h` whose callback never requests
rescheduling is scheduled with `ScheduleAt` or `ScheduleFromNow`; over every sequence
of `Advance` calls that follows, of any number and sizes (the scaled count of `h`
staying below the sentinel), its callback is invoked at most once, and once it has been
invoked its target is the no-deadline sentinel and `IsScheduled` is false. -/
theorem C8_single_fire_per_schedule (s0 s1 s2 : Scheduler W) (w0 w2 : W) (h x : Nat)
    (e : Event W) (counts : List Nat) (fuel : Nat) (logs : List (List Fired))
    (he : s0.m_events[h]? = some e) (hcb : ∀ w, (e.callback w).1.reschedule = false)
    (hs1 : s1 = ScheduleAt s0 h x ∨ s1 = ScheduleFromNow s0 h x)
    (hCs : s0.m_currCount + counts.sum < kNoDeadline)
    (hsc : (s0.m_currCount + counts.sum) * e.countNumerator < kNoDeadline)
    (hr : AdvanceSeq fuel counts s1 w0 = some (s2, w2, logs)) :
    totalInvocations h logs ≤ 1 ∧
    (totalInvocations h logs = 1 →
      GetScheduleTarget s2 h = kNoDeadline ∧ IsScheduled s2 h = false) := by
  have hlen : h < s0.m_events.length := by
    rcases List.getElem?_eq_some.1 he with ⟨hl, _⟩
    exact hl
  have hsched : ∃ t, s1 = ScheduleEvent s0 h t := by
    rcases hs1 with hs | hs
    · exact ⟨x, hs⟩
    · refine ⟨add64 (e.scaledCount s0.m_currCount) x, ?_⟩
      rw [hs]
      unfold ScheduleFromNow
      rw [he]
  obtain ⟨t, ht⟩ := hsched
  obtain ⟨h1, h2, _⟩ := ScheduleEvent_spec s0 h t e he
  have he1 : s1.m_events[h]? = some { e with target := t } := by
    rw [ht, h1, List.getElem?_set_self hlen]
  have hres := AdvanceSeq_at_most_once fuel counts s1 s2 w0 w2 logs h _ { e with target := t }
    hr he1 hcb (by rw [ht, h2]) hCs hsc
  rcases hres with ⟨j1, _⟩ | ⟨j1, j2⟩
  · exact ⟨by omega, fun h1 => by omega⟩
  · refine ⟨by omega, fun _ => ?_⟩
    unfold GetScheduleTarget IsScheduled
    rw [j2]
    exact ⟨rfl, by simp⟩

/-- Witness for C8: `demoPending`, then `Advance(50)`, `Advance(60)`, `Advance(1000)`. -/
theorem C8_single_fire_per_schedule_witness :
    totalInvocations 0 [[], [{ id := 0, deadline := 100 }], []] ≤ 1 ∧
    (totalInvocations 0 [[], [{ id := 0, deadline := 100 }], []] = 1 →
      GetScheduleTarget ({ demoTwo with m_currCount := 1110 } : Scheduler Unit) 0 = kNoDeadline ∧
      IsScheduled ({ demoTwo with m_currCount := 1110 } : Scheduler Unit) 0 = false) :=
  C8_single_fire_per_schedule demoTwo demoPending { demoTwo with m_currCount := 1110 } () ()
    0 100 (unitEvent kNoDeadline oneShot) [50, 60, 1000] 5 _ rfl (fun _ => rfl) (Or.inl rfl)
    (by decide) (by decide) rfl

end Scheduler

namespace Scheduler

variable {W : Type}

theorem ScheduleEvent_other (s : Scheduler W) (id target h : Nat) (hne : id ≠ h) :
    (ScheduleEvent s id target).m_events[h]? = s.m_events[h]? ∧
    (ScheduleEvent s id target).m_currCount = s.m_currCount := by
  cases hev : s.m_events[id]? with
  | none => unfold ScheduleEvent; rw [hev]; exact ⟨rfl, rfl⟩
  | some ev =>
    obtain ⟨h1, h2, _⟩ := ScheduleEvent_spec s id target ev hev
    exact ⟨by rw [h1, List.getElem?_set_ne hne], h2⟩

/-- A call that neither is an `Advance` nor touches slot `h` leaves an unscheduled
slot `h` as it is and does not raise the base counter. -/
theorem applyOp_idle (fuel : Nat) (op : Op) (s s1 : Scheduler W) (w w1 : W) (log : List Fired)
    (h C : Nat) (e : Event W) (hr : applyOp fuel op s w = some (s1, w1, log))
    (he : s.m_events[h]? = some e) (ht : e.target = kNoDeadline)
    (hop : ¬ Op.touches h op) (hC : s.m_currCount + op.count ≤ C) (hCs : C < kNoDeadline)
    (hsc : C * e.countNumerator < kNoDeadline) :
    invocations h log = 0 ∧ s1.m_events[h]? = some e ∧
    s1.m_currCount ≤ s.m_currCount + op.count := by
  have hk : kNoDeadline = 18446744073709551615 := rfl
  have heta : ({ e with target := kNoDeadline } : Event W) = e := by
    cases e; simp_all
  cases op with
  | advance count =>
    simp only [applyOp] at hr
    simp only [Op.count] at hC ⊢
    obtain ⟨hcur, _, _, _⟩ := Advance_facts fuel count s s1 w w1 log hr (by omega)
    obtain ⟨fuel1, hx⟩ := Advance_inv fuel count s s1 w w1 log hr
    have hnd : ¬ e.target ≤ e.scaledCount (add64 s.m_currCount count) := by
      have := scaledCount_lt_of_le e (add64 s.m_currCount count) C
        (by rw [add64_eq (by omega)]; omega) hsc
      omega
    obtain ⟨i1, i2⟩ := Execute_not_due _ _ _ _ _ _ h e hx he hnd
    exact ⟨i1, i2, by omega⟩
  | scheduleFromNow id interval =>
    simp only [applyOp, Option.some.injEq, Prod.mk.injEq] at hr
    obtain ⟨hs, _, hl⟩ := hr
    subst hs hl
    have hne : id ≠ h := fun hid => hop hid
    refine ⟨rfl, ?_, ?_⟩
    · unfold ScheduleFromNow
      cases hev : s.m_events[id]? with
      | none => exact he
      | some ev =>
        simp only
        rw [(ScheduleEvent_other s id _ h hne).1]; exact he
    · unfold ScheduleFromNow
      cases hev : s.m_events[id]? with
      | none => simp only; omega
      | some ev =>
        simp only
        rw [(ScheduleEvent_other s id _ h hne).2]; omega
  | scheduleAt id target =>
    simp only [applyOp, Option.some.injEq, Prod.mk.injEq] at hr
    obtain ⟨hs, _, hl⟩ := hr
    subst hs hl
    have hne : id ≠ h := fun hid => hop hid
    obtain ⟨h1, h2⟩ := ScheduleEvent_other s id target h hne
    exact ⟨rfl, by unfold ScheduleAt; rw [h1]; exact he, by unfold ScheduleAt; rw [h2]; omega⟩
  | cancel id =>
    simp only [applyOp, Option.some.injEq, Prod.mk.injEq] at hr
    obtain ⟨hs, _, hl⟩ := hr
    subst hs hl
    refine ⟨rfl, ?_, ?_⟩
    · unfold Cancel
      cases hev : s.m_events[id]? with
      | none => exact he
      | some ev =>
        simp only
        by_cases hid : id = h
        · subst hid
          rw [he] at hev
          cases hev
          have hlen : id < s.m_events.length := by
            rcases List.getElem?_eq_some.1 he with ⟨hl, _⟩
            exact hl
          rw [List.getElem?_set_self hlen, heta]
        · rw [List.getElem?_set_ne hid]; exact he
    · unfold Cancel
      cases hev : s.m_events[id]? with
      | none => simp only; omega
      | some ev => simp only; omega
  | setEventCountFactor id numerator denominator =>
    simp only [applyOp, Option.some.injEq, Prod.mk.injEq] at hr
    obtain ⟨hs, _, hl⟩ := hr
    subst hs hl
    have hne : id ≠ h := fun hid => hop hid
    unfold SetEventCountFactor
    cases hev : s.m_events[id]? with
    | none => exact ⟨rfl, he, by simp only; omega⟩
    | some ev =>
      simp only
      by_cases hta : ev.target ≠ kNoDeadline
      · rw [if_pos hta]
        split
        · exact ⟨rfl, by
            show (s.m_events.set id _)[h]? = some e
            rw [List.getElem?_set_ne hne]; exact he, by
            show s.m_currCount ≤ _
            omega⟩
        · exact ⟨rfl, by
            show (s.m_events.set id _)[h]? = some e
            rw [List.getElem?_set_ne hne]; exact he, by
            show s.m_currCount ≤ _
            omega⟩
      · rw [if_neg hta]
        exact ⟨rfl, by
          show (s.m_events.set id _)[h]? = some e
          rw [List.getElem?_set_ne hne]; exact he, by
          show s.m_currCount ≤ _
          omega⟩
  | reset =>
    simp only [applyOp, Option.some.injEq, Prod.mk.injEq] at hr
    obtain ⟨hs, _, hl⟩ := hr
    subst hs hl
    refine ⟨rfl, ?_, ?_⟩
    · show (s.m_events.map _)[h]? = some e
      rw [List.getElem?_map, he]
      simp only [Option.map_some']
      rw [heta]
    · show 0 ≤ _
      omega

theorem runOps_inv (fuel : Nat) (op : Op) (ops : List Op) (s s2 : Scheduler W) (w w2 : W)
    (logs : List (List Fired)) (h : runOps fuel (op :: ops) s w = some (s2, w2, logs)) :
    ∃ s1 w1 log logs1, applyOp fuel op s w = some (s1, w1, log) ∧
      runOps fuel ops s1 w1 = some (s2, w2, logs1) ∧ logs = log :: logs1 := by
  rw [runOps] at h
  cases ha : applyOp fuel op s w with
  | none => rw [ha] at h; simp at h
  | some r =>
    obtain ⟨s1, w1, log⟩ := r
    rw [ha] at h
    simp only at h
    cases hs : runOps fuel ops s1 w1 with
    | none => rw [hs] at h; simp at h
    | some r2 =>
      obtain ⟨s3, w3, logs1⟩ := r2
      rw [hs] at h
      simp only [Option.some.injEq, Prod.mk.injEq] at h
      obtain ⟨h1, h2, h3⟩ := h
      subst h1 h2 h3
      exact ⟨s1, w1, log, logs1, rfl, hs, rfl⟩

/-- An unscheduled slot stays unscheduled and uninvoked through every sequence of calls
that do not touch it. -/
theorem runOps_idle (fuel : Nat) (ops : List Op) (s s2 : Scheduler W) (w w2 : W)
    (logs : List (List Fired)) (h C : Nat) (e : Event W)
    (hr : runOps fuel ops s w = some (s2, w2, logs))
    (he : s.m_events[h]? = some e) (ht : e.target = kNoDeadline)
    (hops : ∀ op ∈ ops, ¬ Op.touches h op)
    (hC : s.m_currCount + (ops.map Op.count).sum ≤ C) (hCs : C < kNoDeadline)
    (hsc : C * e.countNumerator < kNoDeadline) :
    totalInvocations h logs = 0 ∧ s2.m_events[h]? = some e := by
  induction ops generalizing s w logs with
  | nil =>
    simp only [runOps, Option.some.injEq, Prod.mk.injEq] at hr
    obtain ⟨h1, _, h3⟩ := hr
    subst h1 h3
    exact ⟨rfl, he⟩
  | cons op rest ih =>
    obtain ⟨s1, w1, log, logs1, ha, hs, hl⟩ := runOps_inv fuel op rest s s2 w w2 logs hr
    simp only [List.map_cons, List.sum_cons] at hC
    obtain ⟨i1, i2, i3⟩ := applyOp_idle fuel op s s1 w w1 log h C e ha he ht
      (hops op (List.mem_cons_self _ _)) (by omega) hCs hsc
    obtain ⟨j1, j2⟩ := ih s1 w1 logs1 hs i2
      (fun o ho => hops o (List.mem_cons_of_mem _ ho)) (by omega)
    rw [hl]
    exact ⟨by simp only [totalInvocations]; omega, j2⟩

/-- C9 (cancel correctness): after `Cancel(h)`, in whatever state it was called, no
`Advance` call invokes the callback of `h` for as long as `h` is not scheduled again:
over every sequence of `Advance`, `ScheduleAt`, `ScheduleFromNow`, `Cancel`,
`SetEventCountFactor` and `Reset` calls none of which schedules `h` or changes its
ratio (the scaled count of `h` staying below the sentinel), the callback of `h` is
never invoked and its target stays the no-deadline sentinel. -/
theorem C9_cancelled_event_not_invoked (s0 s2 : Scheduler W) (w0 w2 : W) (h C : Nat)
    (e : Event W) (ops : List Op) (fuel : Nat) (logs : List (List Fired))
    (he : s0.m_events[h]? = some e)
    (hops : ∀ op ∈ ops, ¬ Op.touches h op)
    (hC : s0.m_currCount + (ops.map Op.count).sum ≤ C) (hCs : C < kNoDeadline)
    (hsc : C * e.countNumerator < kNoDeadline)
    (hr : runOps fuel ops (Cancel s0 h) w0 = some (s2, w2, logs)) :
    GetScheduleTarget (Cancel s0 h) h = kNoDeadline ∧
    totalInvocations h logs = 0 ∧ GetScheduleTarget s2 h = kNoDeadline := by
  have hlen : h < s0.m_events.length := by
    rcases List.getElem?_eq_some.1 he with ⟨hl, _⟩
    exact hl
  have he1 : (Cancel s0 h).m_events[h]? = some { e with target := kNoDeadline } := by
    unfold Cancel
    rw [he]
    simp only
    rw [List.getElem?_set_self hlen]
  have hcur : (Cancel s0 h).m_currCount = s0.m_currCount := by
    unfold Cancel
    rw [he]
  obtain ⟨j1, j2⟩ := runOps_idle fuel ops (Cancel s0 h) s2 w0 w2 logs h C _ hr he1 rfl hops
    (by rw [hcur]; exact hC) hCs hsc
  refine ⟨?_, j1, ?_⟩
  · unfold GetScheduleTarget; rw [he1]
  · unfold GetScheduleTarget; rw [j2]

/-- Witness for C9: in `demoPending` event A is cancelled; then `Advance(50)`,
`ScheduleAt(B, 70)`, `Advance(60)` invoke B only. -/
theorem C9_cancelled_event_not_invoked_witness :
    GetScheduleTarget (Cancel demoPending 0) 0 = kNoDeadline ∧
    totalInvocations 0 [[], [], [{ id := 1, deadline := 70 }]] = 0 ∧
    GetScheduleTarget ({ demoTwo with m_currCount := 110 } : Scheduler Unit) 0 = kNoDeadline :=
  C9_cancelled_event_not_invoked demoPending { demoTwo with m_currCount := 110 } () () 0 110
    (unitEvent 100 oneShot) [Op.advance 50, Op.scheduleAt 1 70, Op.advance 60] 5 _ rfl
    (by
      intro op hop
      simp only [List.mem_cons, List.mem_singleton, List.not_mem_nil, or_false] at hop
      rcases hop with rfl | rfl | rfl <;> simp [Op.touches])
    (by decide) (by decide) (by decide) rfl

/-- C10, the code at the failing input: after `ScheduleAt(A, 10)` the nearest event is A;
`Cancel(A)` leaves no event with a deadline, yet `NextCount()` is still 10, the cached
index is still A and `RemainingCount()` is still 10, where a rescan gives the sentinel;
and `Cancel` never changes the cache. -/
theorem C10_cancel_nearest_keeps_stale_cache :
    (ScheduleAt demoTwo 0 10).m_nextEvent = 0 ∧ (ScheduleAt demoTwo 0 10).NextCount = 10 ∧
    minDeadline demoCancelled.m_events = kNoDeadline ∧
    demoCancelled.NextCount = 10 ∧ demoCancelled.m_nextEvent = 0 ∧
    demoCancelled.RemainingCount = 10 ∧
    GetScheduleTarget demoCancelled 0 = kNoDeadline ∧
    (RecalcSchedule demoCancelled).NextCount = kNoDeadline ∧
    (∀ (s : Scheduler Unit) (id : Nat),
      (Cancel s id).NextCount = s.NextCount ∧ (Cancel s id).m_nextEvent = s.m_nextEvent) := by
  refine ⟨by decide, by decide, by decide, by decide, by decide, by decide, by decide,
    by decide, ?_⟩
  intro s id
  unfold Cancel NextCount
  cases s.m_events[id]? <;> exact ⟨rfl, rfl⟩

end Scheduler

/-! ## Registration tables -/

namespace Scheduler

variable {W : Type}

theorem SameRegistration_refl (s : Scheduler W) : SameRegistration s s :=
  ⟨rfl, rfl, rfl, rfl⟩

theorem SameRegistration_trans {s s1 s2 : Scheduler W} (h1 : SameRegistration s s1)
    (h2 : SameRegistration s1 s2) : SameRegistration s s2 :=
  ⟨h2.1.trans h1.1, h2.2.1.trans h1.2.1, h2.2.2.1.trans h1.2.2.1, h2.2.2.2.trans h1.2.2.2⟩

theorem RecalcSchedule_frame (s : Scheduler W) : SameRegistration s (RecalcSchedule s) :=
  ⟨rfl, rfl, rfl, rfl⟩

theorem ExecuteBody_frame (s s1 : Scheduler W) (w w1 : W) (fired : List Fired)
    (h : ExecuteBody s w = some (s1, w1, fired)) : SameRegistration s s1 := by
  obtain ⟨e, e1, _, hs1, _⟩ := ExecuteBody_spec s s1 w w1 fired h
  rw [hs1]
  exact ⟨rfl, rfl, rfl, by simp [RecalcSchedule]⟩

theorem Execute_frame (fuel : Nat) (s s2 : Scheduler W) (w w2 : W) (log : List Fired)
    (h : Execute fuel s w = some (s2, w2, log)) : SameRegistration s s2 := by
  induction fuel generalizing s w log with
  | zero => simp [Execute] at h
  | succ n ih =>
    rcases Execute_inv _ s s2 w w2 log h with ⟨_, hs, _, _⟩ | ⟨_, m, s1, w1, fired, log1, hm, hb, hr, _⟩
    · subst hs; exact SameRegistration_refl _
    · have hm2 : m = n := by omega
      subst hm2
      exact SameRegistration_trans (ExecuteBody_frame s s1 w w1 fired hb) (ih s1 w1 log1 hr)

theorem Advance_frame (fuel count : Nat) (s s2 : Scheduler W) (w w2 : W) (log : List Fired)
    (h : Advance fuel count s w = some (s2, w2, log)) : SameRegistration s s2 := by
  obtain ⟨fuel1, hx⟩ := Advance_inv fuel count s s2 w w2 log h
  exact Execute_frame fuel1 { s with m_currCount := add64 s.m_currCount count } s2 w w2 log hx

theorem ScheduleEvent_frame (s : Scheduler W) (id target : Nat) :
    SameRegistration s (ScheduleEvent s id target) := by
  unfold ScheduleEvent
  cases s.m_events[id]? with
  | none => exact SameRegistration_refl _
  | some e =>
    simp only
    split
    · exact ⟨rfl, rfl, rfl, by simp⟩
    · exact ⟨rfl, rfl, rfl, by simp⟩

theorem ScheduleFromNow_frame (s : Scheduler W) (id interval : Nat) :
    SameRegistration s (ScheduleFromNow s id interval) := by
  unfold ScheduleFromNow
  cases s.m_events[id]? with
  | none => exact SameRegistration_refl _
  | some e => exact ScheduleEvent_frame s id _

theorem Cancel_frame (s : Scheduler W) (id : Nat) : SameRegistration s (Cancel s id) := by
  unfold Cancel
  cases s.m_events[id]? with
  | none => exact SameRegistration_refl _
  | some e => exact ⟨rfl, rfl, rfl, by simp⟩

theorem SetEventCallback_frame (s : Scheduler W) (id : Nat) (cb : W → EventContext × W) :
    SameRegistration s (SetEventCallback s id cb) := by
  unfold SetEventCallback
  cases s.m_events[id]? with
  | none => exact SameRegistration_refl _
  | some e => exact ⟨rfl, rfl, rfl, by simp⟩

theorem SetEventCountFactor_frame (s : Scheduler W) (id numerator denominator : Nat) :
    SameRegistration s (SetEventCountFactor s id numerator denominator) := by
  unfold SetEventCountFactor
  cases s.m_events[id]? with
  | none => exact SameRegistration_refl _
  | some e =>
    simp only
    split
    · split
      · exact ⟨rfl, rfl, rfl, by simp [RecalcSchedule]⟩
      · exact ⟨rfl, rfl, rfl, by simp⟩
    · exact ⟨rfl, rfl, rfl, by simp⟩

theorem Reset_frame (s : Scheduler W) : SameRegistration s (Reset s) :=
  ⟨rfl, rfl, rfl, by simp [Reset, RecalcSchedule]⟩

theorem LoadEvents_length (k : Nat) (ptrs : List Nat) (entries : List EventState)
    (events events1 : List (Event W)) (h : LoadEvents k ptrs entries events = some events1) :
    events1.length = events.length := by
  induction entries generalizing events with
  | nil =>
    simp only [LoadEvents, Option.some.injEq] at h
    rw [← h]
  | cons entry rest ih =>
    rw [LoadEvents] at h
    cases hp : ptrs[entry.id]? with
    | none => rw [hp] at h; simp at h
    | some idx =>
      rw [hp] at h
      simp only at h
      by_cases hk : idx = k
      · rw [if_pos hk] at h; simp at h
      · rw [if_neg hk] at h
        cases he : events[idx]? with
        | none => rw [he] at h; simp at h
        | some e =>
          rw [he] at h
          simp only at h
          rw [ih _ h, List.length_set]

theorem LoadState_frame (k : Nat) (s s1 : Scheduler W) (state : SchedulerState)
    (h : LoadState k s state = some s1) : SameRegistration s s1 := by
  unfold LoadState at h
  cases hev : LoadEvents k s.m_eventPtrs state.events s.m_events with
  | none => rw [hev] at h; simp at h
  | some events =>
    rw [hev] at h
    simp only [Option.some.injEq] at h
    subst h
    exact ⟨rfl, rfl, rfl, LoadEvents_length k _ _ _ _ hev⟩

theorem RegistrationInv_frame (k : Nat) (s s1 : Scheduler W) (hf : SameRegistration s s1)
    (h : RegistrationInv k s) : RegistrationInv k s1 := by
  obtain ⟨h1, h2, h3, h4⟩ := hf
  unfold RegistrationInv
  rw [h1, h2, h3, h4]
  exact h

/-- Effect of a successful `RegisterEvent` on the tables. -/
theorem RegisterEvent_spec (k : Nat) (s s1 : Scheduler W) (userID id : Nat)
    (cb : W → EventContext × W) (h : RegisterEvent k s userID cb = some (s1, id)) :
    id = s.m_nextEventIndex ∧ s.m_eventPtrs[userID]? = some k ∧
    s.m_nextEventIndex < s.m_events.length ∧
    s1.m_eventPtrs = s.m_eventPtrs.set userID s.m_nextEventIndex ∧
    s1.m_userIDs = s.m_userIDs.set s.m_nextEventIndex userID ∧
    s1.m_nextEventIndex = s.m_nextEventIndex + 1 ∧
    s1.m_events.length = s.m_events.length ∧
    s1.m_currCount = s.m_currCount ∧ s1.m_nextCount = s.m_nextCount ∧
    s1.m_nextEvent = s.m_nextEvent ∧
    ∃ event : Event W, s.m_events[s.m_nextEventIndex]? = some event ∧
      s1.m_events = s.m_events.set s.m_nextEventIndex
        { event with callback := cb, countNumerator := 1, countDenominator := 1 } := by
  unfold RegisterEvent at h
  cases hp : s.m_eventPtrs[userID]? with
  | none => rw [hp] at h; simp at h
  | some ptr =>
    cases hev : s.m_events[s.m_nextEventIndex]? with
    | none => rw [hp, hev] at h; simp at h
    | some event =>
      rw [hp, hev] at h
      simp only at h
      by_cases hk : ptr = k
      · rw [if_pos hk] at h
        simp only [Option.some.injEq, Prod.mk.injEq] at h
        obtain ⟨hs1, hid⟩ := h
        subst hs1
        have hlen : s.m_nextEventIndex < s.m_events.length := by
          rcases List.getElem?_eq_some.1 hev with ⟨hl, _⟩
          exact hl
        exact ⟨hid.symm, by rw [hk], hlen, rfl, rfl, rfl, by simp, rfl, rfl, rfl,
          event, rfl, rfl⟩
      · rw [if_neg hk] at h
        simp at h

/-- The registration tables stay consistent in every reachable state of a scheduler
whose `m_userIDs` has one entry per slot and whose `kInvalidEvent` is no slot index. -/
theorem Reachable_registration (k : Nat) (s : Scheduler W) (hr : Reachable k s)
    (hlen : s.m_userIDs.length = s.m_events.length) (hk : s.m_events.length ≤ k) :
    RegistrationInv k s := by
  induction hr with
  | create n events userIDs =>
    refine ⟨Nat.zero_le _, ?_, ?_⟩
    · intro u idx hu hne
      have hu2 : (List.replicate n k)[u]? = some idx := hu
      rw [List.getElem?_replicate] at hu2
      split at hu2
      · simp only [Option.some.injEq] at hu2
        exact absurd hu2.symm hne
      · simp at hu2
    · intro i u hi _
      exact absurd hi (Nat.not_lt_zero _)
  | registerEvent s s1 userID id callback _ hreg _ ih =>
    obtain ⟨_, hold, hlt, hp, hu, hn, hl, _⟩ := RegisterEvent_spec k s s1 userID id callback hreg
    have hlen0 : s.m_userIDs.length = s.m_events.length := by
      rw [hu, List.length_set, hl] at hlen
      exact hlen
    rw [hl] at hk
    obtain ⟨i1, i2, i3⟩ := ih hlen0 hk
    have huser : userID < s.m_eventPtrs.length := by
      rcases List.getElem?_eq_some.1 hold with ⟨hl2, _⟩
      exact hl2
    refine ⟨by rw [hn, hl]; omega, ?_, ?_⟩
    · intro u idx hget hne
      rw [hp, List.getElem?_set] at hget
      rw [hn, hu]
      by_cases hu1 : userID = u
      · rw [if_pos hu1, if_pos huser] at hget
        simp only [Option.some.injEq] at hget
        subst hget
        refine ⟨by omega, ?_⟩
        rw [List.getElem?_set_self (by omega), hu1]
      · rw [if_neg hu1] at hget
        obtain ⟨j1, j2⟩ := i2 u idx hget hne
        refine ⟨by omega, ?_⟩
        rw [List.getElem?_set_ne (by omega)]
        exact j2
    · intro i u hi hget
      rw [hn] at hi
      rw [hu, List.getElem?_set] at hget
      rw [hp]
      by_cases hi1 : s.m_nextEventIndex = i
      · rw [if_pos hi1, if_pos (by omega)] at hget
        simp only [Option.some.injEq] at hget
        subst hget
        rw [List.getElem?_set_self huser, hi1]
      · rw [if_neg hi1] at hget
        have hold2 := i3 i u (by omega) hget
        by_cases hu1 : userID = u
        · subst hu1
          rw [hold] at hold2
          simp only [Option.some.injEq] at hold2
          omega
        · rw [List.getElem?_set_ne hu1]
          exact hold2
  | setEventCallback s id callback _ _ ih =>
    have hf := SetEventCallback_frame s id callback
    exact RegistrationInv_frame k _ _ hf (ih (by rw [← hf.2.1, ← hf.2.2.2]; exact hlen)
      (by rw [← hf.2.2.2]; exact hk))
  | setEventCountFactor s id numerator denominator _ _ _ _ _ ih =>
    have hf := SetEventCountFactor_frame s id numerator denominator
    exact RegistrationInv_frame k _ _ hf (ih (by rw [← hf.2.1, ← hf.2.2.2]; exact hlen)
      (by rw [← hf.2.2.2]; exact hk))
  | scheduleFromNow s id interval _ _ ih =>
    have hf := ScheduleFromNow_frame s id interval
    exact RegistrationInv_frame k _ _ hf (ih (by rw [← hf.2.1, ← hf.2.2.2]; exact hlen)
      (by rw [← hf.2.2.2]; exact hk))
  | scheduleAt s id target _ _ ih =>
    have hf : SameRegistration s (ScheduleAt s id target) := ScheduleEvent_frame s id target
    exact RegistrationInv_frame k _ _ hf (ih (by rw [← hf.2.1, ← hf.2.2.2]; exact hlen)
      (by rw [← hf.2.2.2]; exact hk))
  | cancel s id _ _ ih =>
    have hf := Cancel_frame s id
    exact RegistrationInv_frame k _ _ hf (ih (by rw [← hf.2.1, ← hf.2.2.2]; exact hlen)
      (by rw [← hf.2.2.2]; exact hk))
  | reset s _ ih =>
    have hf := Reset_frame s
    exact RegistrationInv_frame k _ _ hf (ih (by rw [← hf.2.1, ← hf.2.2.2]; exact hlen)
      (by rw [← hf.2.2.2]; exact hk))
  | advance s s1 w w1 fuel count log _ hadv ih =>
    have hf := Advance_frame fuel count s s1 w w1 log hadv
    exact RegistrationInv_frame k _ _ hf (ih (by rw [← hf.2.1, ← hf.2.2.2]; exact hlen)
      (by rw [← hf.2.2.2]; exact hk))
  | loadState s s1 state _ hload ih =>
    have hf := LoadState_frame k s s1 state hload
    exact RegistrationInv_frame k _ _ hf (ih (by rw [← hf.2.1, ← hf.2.2.2]; exact hlen)
      (by rw [← hf.2.2.2]; exact hk))

/-- In every reachable state an entry of `m_eventPtrs` is `kInvalidEvent` or a slot
index in range. -/
theorem Reachable_ptrs_in_range (k : Nat) (s : Scheduler W) (hr : Reachable k s) :
    ∀ (u idx : Nat), s.m_eventPtrs[u]? = some idx → idx ≠ k → idx < s.m_events.length := by
  induction hr with
  | create n events userIDs =>
    intro u idx hu hne
    have hu2 : (List.replicate n k)[u]? = some idx := hu
    rw [List.getElem?_replicate] at hu2
    split at hu2
    · simp only [Option.some.injEq] at hu2
      exact absurd hu2.symm hne
    · simp at hu2
  | registerEvent s s1 userID id callback _ hreg _ ih =>
    obtain ⟨_, hold, hlt, hp, _, _, hl, _⟩ := RegisterEvent_spec k s s1 userID id callback hreg
    intro u idx hget hne
    rw [hp, List.getElem?_set] at hget
    rw [hl]
    by_cases hu1 : userID = u
    · rw [if_pos hu1] at hget
      split at hget
      · simp only [Option.some.injEq] at hget
        omega
      · simp at hget
    · rw [if_neg hu1] at hget
      exact ih u idx hget hne
  | setEventCallback s id callback _ _ ih =>
    have hf := SetEventCallback_frame s id callback
    rw [hf.1, hf.2.2.2]; exact ih
  | setEventCountFactor s id numerator denominator _ _ _ _ _ ih =>
    have hf := SetEventCountFactor_frame s id numerator denominator
    rw [hf.1, hf.2.2.2]; exact ih
  | scheduleFromNow s id interval _ _ ih =>
    have hf := ScheduleFromNow_frame s id interval
    rw [hf.1, hf.2.2.2]; exact ih
  | scheduleAt s id target _ _ ih =>
    have hf : SameRegistration s (ScheduleAt s id target) := ScheduleEvent_frame s id target
    rw [hf.1, hf.2.2.2]; exact ih
  | cancel s id _ _ ih =>
    have hf := Cancel_frame s id
    rw [hf.1, hf.2.2.2]; exact ih
  | reset s _ ih =>
    have hf := Reset_frame s
    rw [hf.1, hf.2.2.2]; exact ih
  | advance s s1 w w1 fuel count log _ hadv ih =>
    have hf := Advance_frame fuel count s s1 w w1 log hadv
    rw [hf.1, hf.2.2.2]; exact ih
  | loadState s s1 state _ hload ih =>
    have hf := LoadState_frame k s s1 state hload
    rw [hf.1, hf.2.2.2]; exact ih

end Scheduler

/-! ## Save states -/

namespace Scheduler

variable {W : Type}

/-- The loop of `LoadState` succeeds when every entry names a slot in range. -/
theorem LoadEvents_some (k : Nat) (ptrs : List Nat) (entries : List EventState)
    (events : List (Event W))
    (h : ∀ entry ∈ entries, ∃ idx : Nat, ptrs[entry.id]? = some idx ∧ idx ≠ k ∧
      idx < events.length) :
    ∃ events1, LoadEvents k ptrs entries events = some events1 := by
  induction entries generalizing events with
  | nil => exact ⟨events, rfl⟩
  | cons entry rest ih =>
    obtain ⟨idx, hp, hk, hlt⟩ := h entry (List.mem_cons_self _ _)
    rw [LoadEvents, hp]
    simp only
    rw [if_neg hk, List.getElem?_eq_getElem hlt]
    simp only
    apply ih
    intro e2 he2
    obtain ⟨idx2, hp2, hk2, hlt2⟩ := h e2 (List.mem_cons_of_mem _ he2)
    exact ⟨idx2, hp2, hk2, by rw [List.length_set]; exact hlt2⟩

/-- What the loop of `LoadState` leaves in the table: every slot keeps its callback, a
slot no entry names is unchanged, and a slot has the target and ratio of the last entry
that names it. -/
theorem LoadEvents_spec (k : Nat) (ptrs : List Nat) (entries : List EventState)
    (events events1 : List (Event W)) (h : LoadEvents k ptrs entries events = some events1) :
    (∀ (idx : Nat) (e : Event W), events[idx]? = some e →
      ∃ e1, events1[idx]? = some e1 ∧ e1.callback = e.callback ∧
        ((∀ entry ∈ entries, ptrs[entry.id]? ≠ some idx) → e1 = e)) ∧
    (∀ (i : Nat) (entry : EventState) (idx : Nat), entries[i]? = some entry →
      ptrs[entry.id]? = some idx →
      (∀ (j : Nat) (entry2 : EventState), i < j → entries[j]? = some entry2 →
        ptrs[entry2.id]? ≠ some idx) →
      ∃ e1, events1[idx]? = some e1 ∧ e1.target = entry.target ∧
        e1.countNumerator = entry.countNumerator ∧
        e1.countDenominator = entry.countDenominator) := by
  induction entries generalizing events with
  | nil =>
    simp only [LoadEvents, Option.some.injEq] at h
    subst h
    refine ⟨fun idx e he => ⟨e, he, rfl, fun _ => rfl⟩, fun i entry idx hi => ?_⟩
    simp at hi
  | cons entry rest ih =>
    rw [LoadEvents] at h
    cases hp : ptrs[entry.id]? with
    | none => rw [hp] at h; simp at h
    | some idx0 =>
      rw [hp] at h
      simp only at h
      by_cases hk : idx0 = k
      · rw [if_pos hk] at h; simp at h
      · rw [if_neg hk] at h
        cases hev : events[idx0]? with
        | none => rw [hev] at h; simp at h
        | some ev =>
          rw [hev] at h
          simp only at h
          obtain ⟨ih1, ih2⟩ := ih _ h
          have hlen0 : idx0 < events.length := by
            rcases List.getElem?_eq_some.1 hev with ⟨hl, _⟩
            exact hl
          refine ⟨?_, ?_⟩
          · intro idx e he
            by_cases hi : idx0 = idx
            · subst hi
              rw [hev] at he
              cases he
              obtain ⟨e1, h1, h2, _⟩ := ih1 idx0 _ (List.getElem?_set_self hlen0)
              refine ⟨e1, h1, h2, fun hno => ?_⟩
              exact absurd hp (hno entry (List.mem_cons_self _ _))
            · obtain ⟨e1, h1, h2, h3⟩ := ih1 idx e (by rw [List.getElem?_set_ne hi]; exact he)
              exact ⟨e1, h1, h2, fun hno => h3 (fun e2 he2 => hno e2 (List.mem_cons_of_mem _ he2))⟩
          · intro i entry1 idx hi hmap hlater
            cases i with
            | zero =>
              simp only [List.getElem?_cons_zero, Option.some.injEq] at hi
              subst hi
              rw [hp] at hmap
              simp only [Option.some.injEq] at hmap
              subst hmap
              obtain ⟨e1, h1, _, h3⟩ := ih1 idx0 _ (List.getElem?_set_self hlen0)
              have hno : ∀ e2 ∈ rest, ptrs[e2.id]? ≠ some idx0 := by
                intro e2 he2
                obtain ⟨j, hj⟩ := List.mem_iff_getElem?.1 he2
                exact hlater (j + 1) e2 (Nat.succ_pos _) (by simpa using hj)
              rw [h3 hno] at h1
              exact ⟨_, h1, rfl, rfl, rfl⟩
            | succ i1 =>
              exact ih2 i1 entry1 idx (by simpa using hi) hmap
                (fun j e2 hj he2 => hlater (j + 1) e2 (by omega) (by simpa using he2))

/-- The meaning of `ValidateState` entry by entry. -/
theorem ValidateState_iff (k : Nat) (s : Scheduler W) (state : SchedulerState) :
    ValidateState k s state = true ↔ ∀ entry ∈ state.events, IsRegistered k s entry.id := by
  unfold ValidateState IsRegistered
  rw [List.all_eq_true]
  constructor
  · intro h entry he
    have := h entry he
    cases hp : s.m_eventPtrs[entry.id]? with
    | none => rw [hp] at this; simp at this
    | some idx =>
      rw [hp] at this
      exact ⟨idx, rfl, by simpa using this⟩
  · intro h entry he
    obtain ⟨idx, hp, hne⟩ := h entry he
    rw [hp]
    simpa using hne

/-- Unfolding of `RegisterEvent` for the question which user IDs are registered. -/
theorem RegisterEvent_isRegistered (k : Nat) (s s1 : Scheduler W) (userID id : Nat)
    (cb : W → EventContext × W) (h : RegisterEvent k s userID cb = some (s1, id))
    (hid : id ≠ k) (u : Nat) :
    IsRegistered k s1 u ↔ (u = userID ∨ IsRegistered k s u) := by
  obtain ⟨hid2, hold, _, hp, _⟩ := RegisterEvent_spec k s s1 userID id cb h
  have huser : userID < s.m_eventPtrs.length := by
    rcases List.getElem?_eq_some.1 hold with ⟨hl2, _⟩
    exact hl2
  unfold IsRegistered
  rw [hp]
  by_cases hu : userID = u
  · subst hu
    rw [List.getElem?_set_self huser]
    constructor
    · intro _; exact Or.inl rfl
    · intro _; exact ⟨_, rfl, by rw [← hid2]; exact hid⟩
  · rw [List.getElem?_set_ne hu]
    constructor
    · intro hx; exact Or.inr hx
    · intro hx
      rcases hx with hx | hx
      · exact absurd hx.symm hu
      · exact hx

/-- C13: `ValidateState(snapshot)` is a function of the scheduler and the snapshot that
returns a truth value and no new scheduler state; it returns true if and only if every
entry of the snapshot carries a registered user ID.  A user ID is registered from the
`RegisterEvent` call that took it on: none is after construction, `RegisterEvent` adds
its argument and no other, and in a reachable state the registered user IDs are the
user IDs of the slots below `m_nextEventIndex`. -/
theorem C13_validate_iff_all_registered (k : Nat) (s : Scheduler W)
    (state : SchedulerState) :
    (ValidateState k s state = true ↔ ∀ entry ∈ state.events, IsRegistered k s entry.id) ∧
    (∀ (n : Nat) (events : List (Event W)) (userIDs : List Nat) (u : Nat),
      ¬ IsRegistered k (create k n events userIDs) u) ∧
    (∀ (s1 : Scheduler W) (userID id : Nat) (cb : W → EventContext × W),
      RegisterEvent k s userID cb = some (s1, id) → id ≠ k →
      ∀ u, IsRegistered k s1 u ↔ (u = userID ∨ IsRegistered k s u)) ∧
    (Reachable k s → s.m_userIDs.length = s.m_events.length → s.m_events.length ≤ k →
      ∀ u, IsRegistered k s u ↔
        ∃ i, i < s.m_nextEventIndex ∧ s.m_userIDs[i]? = some u) := by
  refine ⟨ValidateState_iff k s state, ?_, ?_, ?_⟩
  · intro n events userIDs u hreg
    obtain ⟨idx, hp, hne⟩ := hreg
    have hp2 : (List.replicate n k)[u]? = some idx := hp
    rw [List.getElem?_replicate] at hp2
    split at hp2
    · simp only [Option.some.injEq] at hp2
      exact hne hp2.symm
    · simp at hp2
  · intro s1 userID id cb hreg hid u
    exact RegisterEvent_isRegistered k s s1 userID id cb hreg hid u
  · intro hr hlen hk u
    obtain ⟨h1, h2, h3⟩ := Reachable_registration k s hr hlen hk
    constructor
    · intro hreg
      obtain ⟨idx, hp, hne⟩ := hreg
      exact ⟨idx, h2 u idx hp hne⟩
    · intro hex
      obtain ⟨i, hi, hu⟩ := hex
      exact ⟨i, h3 i u hi hu, by omega⟩

/-- Witness for C13: `demoTwo` and `demoSnapshot`. -/
theorem C13_validate_iff_all_registered_witness :
    ValidateState 255 demoTwo demoSnapshot = true ∧
    (∀ u, IsRegistered 255 demoTwo u ↔
      ∃ i, i < demoTwo.m_nextEventIndex ∧ demoTwo.m_userIDs[i]? = some u) :=
  ⟨by decide,
   (C13_validate_iff_all_registered 255 demoTwo demoSnapshot).2.2.2 demoTwo_reachable
     (by decide) (by decide)⟩

/-- Counterexample to C12 as stated: `demoDuplicateSnapshot` is accepted by
`ValidateState` on `demoTwo`, its first entry names user ID 1 (slot 0) with target 30,
and after `LoadState` the event of user ID 1 has target 40, the target of the later
entry with the same user ID. -/
theorem C12_duplicate_entry_counterexample :
    ValidateState 255 demoTwo demoDuplicateSnapshot = true ∧
    demoDuplicateSnapshot.events[0]? =
      some { id := 1, target := 30, countNumerator := 1, countDenominator := 1 } ∧
    demoTwo.m_eventPtrs[1]? = some 0 ∧
    (LoadState 255 demoTwo demoDuplicateSnapshot).map (fun s1 => GetScheduleTarget s1 0)
      = some 40 :=
  ⟨by decide, rfl, rfl, by decide⟩

/-- The loop of `LoadState` keeps the numerator of every event with a deadline positive
when the entries and the events it starts from have it so. -/
theorem LoadEvents_positive (k : Nat) (ptrs : List Nat) (entries : List EventState)
    (events events1 : List (Event W)) (h : LoadEvents k ptrs entries events = some events1)
    (hnum : ∀ entry ∈ entries, entry.target ≠ kNoDeadline → 0 < entry.countNumerator)
    (hold : ∀ e ∈ events, e.target ≠ kNoDeadline → 0 < e.countNumerator) :
    ∀ e1 ∈ events1, e1.target ≠ kNoDeadline → 0 < e1.countNumerator := by
  induction entries generalizing events with
  | nil =>
    simp only [LoadEvents, Option.some.injEq] at h
    subst h
    exact hold
  | cons entry rest ih =>
    rw [LoadEvents] at h
    cases hp : ptrs[entry.id]? with
    | none => rw [hp] at h; simp at h
    | some idx0 =>
      rw [hp] at h
      simp only at h
      by_cases hk : idx0 = k
      · rw [if_pos hk] at h; simp at h
      · rw [if_neg hk] at h
        cases hev : events[idx0]? with
        | none => rw [hev] at h; simp at h
        | some ev =>
          rw [hev] at h
          simp only at h
          refine ih _ h (fun e he => hnum e (List.mem_cons_of_mem _ he)) ?_
          intro e he hne
          rcases List.mem_or_eq_of_mem_set he with hm | rfl
          · exact hold e hm hne
          · exact hnum entry (List.mem_cons_self _ _) hne

/-- C12 (amended): after `LoadState(snapshot)` of a snapshot that `ValidateState`
accepted (in a reachable scheduler state), where every snapshot entry with a deadline
and every event that has a deadline before the load has a positive numerator, so that
`RecalcSchedule` never divides by zero: `LoadState` returns, and `CurrentCount()` equals
the snapshot's count; the event named by a snapshot entry's user ID has that entry's
target, numerator and denominator when no later entry of the snapshot names the same
event (every entry when the user IDs are distinct); every event with a deadline has a
positive numerator after the load; `NextCount()` equals the minimum base-clock deadline
recomputed from the restored events and the cache is exact; and the loaded state is the
same whatever the cached deadline, cached index and counter were before the load. -/
theorem C12_load_state_restores_and_recomputes (k : Nat) (s : Scheduler W)
    (state : SchedulerState) (hr : Reachable k s)
    (hval : ValidateState k s state = true)
    (hnum : ∀ entry ∈ state.events, entry.target ≠ kNoDeadline → 0 < entry.countNumerator)
    (hold : ∀ e ∈ s.m_events, e.target ≠ kNoDeadline → 0 < e.countNumerator) :
    ∃ s1, LoadState k s state = some s1 ∧ s1.CurrentCount = state.currCount ∧
      (∀ e1 ∈ s1.m_events, e1.target ≠ kNoDeadline → 0 < e1.countNumerator) ∧
      (∀ (i : Nat) (entry : EventState) (idx : Nat), state.events[i]? = some entry →
        s.m_eventPtrs[entry.id]? = some idx →
        (∀ (j : Nat) (entry2 : EventState), i < j → state.events[j]? = some entry2 →
          s.m_eventPtrs[entry2.id]? ≠ some idx) →
        GetScheduleTarget s1 idx = entry.target ∧
        ∃ e1, s1.m_events[idx]? = some e1 ∧ e1.target = entry.target ∧
          e1.countNumerator = entry.countNumerator ∧
          e1.countDenominator = entry.countDenominator) ∧
      s1.NextCount = minDeadline s1.m_events ∧ CacheExact s1 ∧
      (∀ c nc ne : Nat,
        LoadState k { s with m_currCount := c, m_nextCount := nc, m_nextEvent := ne } state
          = some s1) := by
  have hptr := Reachable_ptrs_in_range k s hr
  have hreg := (ValidateState_iff k s state).1 hval
  obtain ⟨events1, hload⟩ := LoadEvents_some k s.m_eventPtrs state.events s.m_events
    (fun entry he => by
      obtain ⟨idx, hp, hne⟩ := hreg entry he
      exact ⟨idx, hp, hne, hptr _ idx hp hne⟩)
  obtain ⟨_, hspec⟩ := LoadEvents_spec k _ _ _ _ hload
  refine ⟨RecalcSchedule { s with m_currCount := state.currCount, m_events := events1 },
    by unfold LoadState; rw [hload], rfl,
    LoadEvents_positive k _ _ _ _ hload hnum hold, ?_, ?_, RecalcSchedule_exact _, ?_⟩
  · intro i entry idx hi hp hlater
    obtain ⟨e1, h1, h2, h3, h4⟩ := hspec i entry idx hi hp hlater
    have h1b : (RecalcSchedule
        { s with m_currCount := state.currCount, m_events := events1 }).m_events[idx]?
        = some e1 := h1
    refine ⟨?_, e1, h1b, h2, h3, h4⟩
    unfold GetScheduleTarget
    rw [h1b]
    exact h2
  · exact CacheExact_nextCount _ (RecalcSchedule_exact _)
  · intro c nc ne
    unfold LoadState
    simp only
    rw [hload]
    rfl

/-- Witness for C12: `demoSnapshot`, whose entries are on 1:1 clocks, loaded into
`demoPending`. -/
theorem C12_load_state_restores_and_recomputes_witness :
    ∃ s1, LoadState 255 demoPending demoSnapshot = some s1 ∧ s1.CurrentCount = 7 ∧
      s1.m_events.map (fun e => (e.target, e.countNumerator, e.countDenominator))
        = [(30, 1, 1), (20, 1, 1)] ∧
      GetScheduleTarget s1 0 = 30 ∧ GetScheduleTarget s1 1 = 20 ∧ s1.NextCount = 20 ∧
      s1.m_nextEvent = 1 := by
  obtain ⟨s1, h1, h2, _, h3, h4, _, _⟩ :=
    C12_load_state_restores_and_recomputes 255 demoPending demoSnapshot
      demoPending_reachable (by decide) (by decide) (by decide)
  have ha := (h3 0 { id := 1, target := 30, countNumerator := 1, countDenominator := 1 } 0
    rfl rfl (by
      intro j entry2 hj he2
      match j, hj, he2 with
      | 1, _, he2 =>
        simp only [demoSnapshot, List.getElem?_cons_succ, List.getElem?_cons_zero,
          Option.some.injEq] at he2
        subst he2
        decide
      | n + 2, _, he2 => simp [demoSnapshot] at he2)).1
  have hb := (h3 1 { id := 2, target := 20, countNumerator := 1, countDenominator := 1 } 1
    rfl rfl (by
      intro j entry2 hj he2
      match j, hj, he2 with
      | n + 2, _, he2 => simp [demoSnapshot] at he2)).1
  have hs1 : LoadState 255 demoPending demoSnapshot =
      some (RecalcSchedule { demoPending with
        m_currCount := 7
        m_events := [unitEvent 30 oneShot, unitEvent 20 oneShot] }) := rfl
  rw [hs1] at h1
  simp only [Option.some.injEq] at h1
  refine ⟨s1, by rw [hs1, h1], h2, ?_, ha, hb, ?_, ?_⟩ <;> rw [← h1] <;> decide

end Scheduler

/-! ## Termination and the counter -/

namespace Scheduler

variable {W : Type}

/-- A completed `Execute` has invoked fewer callbacks than it had fuel. -/
theorem Execute_log_length (fuel : Nat) (s s2 : Scheduler W) (w w2 : W) (log : List Fired)
    (h : Execute fuel s w = some (s2, w2, log)) : log.length < fuel := by
  induction fuel generalizing s w log with
  | zero => simp [Execute] at h
  | succ n ih =>
    rcases Execute_inv _ s s2 w w2 log h with
      ⟨_, _, _, hl⟩ | ⟨_, m, s1, w1, fired, log1, hm, hb, hr, hl⟩
    · rw [hl]; exact Nat.succ_pos _
    · have hm2 : m = n := by omega
      subst hm2
      have h1 := ih s1 w1 log1 hr
      obtain ⟨e, e1, _, _, _, _, _, hcase⟩ := ExecuteBody_spec s s1 w w1 fired hb
      have hf : fired.length ≤ 1 := by
        rcases hcase with ⟨_, hf, _⟩ | ⟨_, hf, _⟩
        · rw [hf]; exact Nat.le_refl _
        · rw [hf]; exact Nat.zero_le _
      rw [hl, List.length_append]
      omega

/-- A sequence of `Advance` calls that all return adds the sum of the counts. -/
theorem AdvanceSeq_count (fuel : Nat) (counts : List Nat) (s s2 : Scheduler W) (w w2 : W)
    (logs : List (List Fired)) (h : AdvanceSeq fuel counts s w = some (s2, w2, logs))
    (hfit : s.m_currCount + counts.sum < 18446744073709551616) :
    s2.m_currCount = s.m_currCount + counts.sum := by
  induction counts generalizing s w logs with
  | nil =>
    simp only [AdvanceSeq, Option.some.injEq, Prod.mk.injEq] at h
    rw [← h.1]
    simp
  | cons n rest ih =>
    simp only [List.sum_cons] at hfit ⊢
    obtain ⟨s1, w1, log, logs1, ha, hs, _⟩ := AdvanceSeq_inv fuel n rest s s2 w w2 logs h
    obtain ⟨h1, _⟩ := Advance_facts fuel n s s1 w w1 log ha (by omega)
    rw [ih s1 w1 logs1 hs (by rw [h1]; omega), h1]
    omega

/-- A sequence of `Advance` calls that returns is its first part followed by the rest. -/
theorem AdvanceSeq_append_inv (fuel : Nat) (pre post : List Nat) (s s2 : Scheduler W)
    (w w2 : W) (logs : List (List Fired))
    (h : AdvanceSeq fuel (pre ++ post) s w = some (s2, w2, logs)) :
    ∃ sm wm logs1 logs2, AdvanceSeq fuel pre s w = some (sm, wm, logs1) ∧
      AdvanceSeq fuel post sm wm = some (s2, w2, logs2) ∧ logs = logs1 ++ logs2 := by
  induction pre generalizing s w logs with
  | nil => exact ⟨s, w, [], logs, rfl, h, rfl⟩
  | cons n rest ih =>
    rw [List.cons_append] at h
    obtain ⟨s1, w1, log, logs1, ha, hs, hl⟩ :=
      AdvanceSeq_inv fuel n (rest ++ post) s s2 w w2 logs h
    obtain ⟨sm, wm, l1, l2, h1, h2, h3⟩ := ih s1 w1 logs1 hs
    refine ⟨sm, wm, log :: l1, l2, ?_, h2, by rw [hl, h3]; rfl⟩
    rw [AdvanceSeq, ha]
    simp only
    rw [h1]

/-- With enough fuel `Advance` returns, the same result for any larger fuel. -/
theorem Advance_terminates (C n : Nat) (s : Scheduler W) (w : W)
    (hno : NoOverflow C s) (hp : CallbacksProgress s) (hidx : CacheIndexOk s)
    (hC : s.m_currCount + n ≤ C) :
    ∃ fuel0 s1 w1 log, (∀ fuel, fuel0 ≤ fuel → Advance fuel n s w = some (s1, w1, log)) ∧
      log.length < fuel0 ∧ s1.CurrentCount < s1.NextCount := by
  have hk : kNoDeadline = 18446744073709551615 := rfl
  have hCs := hno.2.1
  have hadd : add64 s.m_currCount n = s.m_currCount + n := add64_eq (by omega)
  have hno1 : NoOverflow C { s with m_currCount := add64 s.m_currCount n } :=
    ⟨by show add64 s.m_currCount n ≤ C
        rw [hadd]; exact hC, hCs, fun i e hr => hno.2.2 i e hr⟩
  have hp1 : CallbacksProgress { s with m_currCount := add64 s.m_currCount n } :=
    fun i e hr => hp i e hr
  have hidx1 : ({ s with m_currCount := add64 s.m_currCount n } : Scheduler W).m_nextCount
      ≤ ({ s with m_currCount := add64 s.m_currCount n } : Scheduler W).m_currCount →
      ({ s with m_currCount := add64 s.m_currCount n } : Scheduler W).m_nextEvent
        < ({ s with m_currCount := add64 s.m_currCount n } : Scheduler W).m_events.length := by
    intro hle
    apply hidx
    have hle2 : s.m_nextCount ≤ add64 s.m_currCount n := hle
    rw [hadd] at hle2
    omega
  obtain ⟨r, hx⟩ := Execute_terminates C _ w hno1 hp1 hidx1
    (overdue (add64 s.m_currCount n) s.m_events + 2) (Nat.le_refl _)
  obtain ⟨s1, w1, log⟩ := r
  have hadv := Advance_of_Execute _ n s w _ hx
  obtain ⟨_, h2, h3, _⟩ := Advance_facts _ n s s1 w w1 log hadv (by omega)
  refine ⟨overdue (add64 s.m_currCount n) s.m_events + 2, s1, w1, log, ?_,
    Execute_log_length _ _ _ _ _ _ hx, h2⟩
  intro fuel hf
  obtain ⟨extra, rfl⟩ : ∃ extra, fuel = overdue (add64 s.m_currCount n) s.m_events + 2 + extra :=
    ⟨fuel - (overdue (add64 s.m_currCount n) s.m_events + 2), by omega⟩
  exact Advance_fuel_mono _ extra n s w _ hadv

/-- C19: `Advance` terminates.  When every callback the loop can invoke requests no
reschedule or an interval greater than zero, and counts and conversions stay below
`2^64 - 1` up to the count `C` that the call reaches, then there is a number `fuel0` of
evaluations of the loop condition of `Execute` with which `Advance(n)` returns (and it
returns the same result with any larger number); the loop has invoked fewer than
`fuel0` callbacks, and on return `CurrentCount() < NextCount()`, the first of the two
alternatives.  The cached index is in range when the cached deadline is not the
sentinel, as in every reachable state. -/
theorem C19_advance_terminates (C n : Nat) (s : Scheduler W) (w : W)
    (hno : NoOverflow C s) (hp : CallbacksProgress s) (hidx : CacheIndexOk s)
    (hC : s.m_currCount + n ≤ C) :
    ∃ fuel0 s1 w1 log, (∀ fuel, fuel0 ≤ fuel → Advance fuel n s w = some (s1, w1, log)) ∧
      log.length < fuel0 ∧ s1.CurrentCount < s1.NextCount :=
  Advance_terminates C n s w hno hp hidx hC

end Scheduler

namespace Scheduler

variable {W : Type}

/-- Witness for C19: `Advance(150)` on `demoPending` returns with any fuel from 3 on. -/
theorem C19_advance_terminates_witness :
    ∃ fuel0 s1 w1 log,
      (∀ fuel, fuel0 ≤ fuel → Advance fuel 150 demoPending () = some (s1, w1, log)) ∧
      log.length < fuel0 ∧ s1.CurrentCount < s1.NextCount :=
  C19_advance_terminates 150 150 demoPending ()
    (demoTwo_scheduled_fits 150 100 kNoDeadline _ rfl (by decide) (by decide)
      (Or.inl (by decide)) (Or.inr rfl)).1
    (demoTwo_scheduled_fits 150 100 kNoDeadline _ rfl (by decide) (by decide)
      (Or.inl (by decide)) (Or.inr rfl)).2
    (fun _ => by decide) (by decide)

/-- C20 (monotonicity): over any sequence of `Advance` calls (no 64-bit overflow up to
the final count, callbacks request no reschedule or a positive interval) every call
returns and `CurrentCount()` has grown by exactly the sum of the arguments, whatever
the callbacks did; the same holds after every initial part of the sequence, so each
call adds exactly its argument and `CurrentCount()` never decreases. -/
theorem C20_current_count_grows_by_sum (C : Nat) (counts : List Nat) (s : Scheduler W)
    (w : W) (hno : NoOverflow C s) (hp : CallbacksProgress s) (hidx : CacheIndexOk s)
    (hC : s.m_currCount + counts.sum ≤ C) :
    ∃ fuel0, ∀ fuel, fuel0 ≤ fuel → ∃ s2 w2 logs,
      AdvanceSeq fuel counts s w = some (s2, w2, logs) ∧
      s2.CurrentCount = s.CurrentCount + counts.sum ∧
      ∀ pre post : List Nat, counts = pre ++ post →
        ∃ sm wm logsm, AdvanceSeq fuel pre s w = some (sm, wm, logsm) ∧
          sm.CurrentCount = s.CurrentCount + pre.sum ∧
          s.CurrentCount ≤ sm.CurrentCount ∧ sm.CurrentCount ≤ s2.CurrentCount ∧
          ∀ n rest, post = n :: rest →
            ∃ sn wn logn, Advance fuel n sm wm = some (sn, wn, logn) ∧
              sn.CurrentCount = sm.CurrentCount + n := by
  have hk : kNoDeadline = 18446744073709551615 := rfl
  have hCs := hno.2.1
  obtain ⟨fuel0, hfuel⟩ := AdvanceSeq_terminates C counts s w hno hp hidx hC
  refine ⟨fuel0, fun fuel hf => ?_⟩
  obtain ⟨r, hr⟩ := hfuel fuel hf
  obtain ⟨s2, w2, logs⟩ := r
  have hsum := AdvanceSeq_count fuel counts s s2 w w2 logs hr (by omega)
  refine ⟨s2, w2, logs, hr, hsum, ?_⟩
  intro pre post hsplit
  subst hsplit
  rw [List.sum_append] at hC hsum
  obtain ⟨sm, wm, l1, l2, h1, h2, _⟩ := AdvanceSeq_append_inv fuel pre post s s2 w w2 logs hr
  have hpre := AdvanceSeq_count fuel pre s sm w wm l1 h1 (by omega)
  refine ⟨sm, wm, l1, h1, hpre, ?_, ?_, ?_⟩
  · show s.m_currCount ≤ sm.m_currCount
    omega
  · show sm.m_currCount ≤ s2.m_currCount
    omega
  · intro n rest hpost
    subst hpost
    obtain ⟨sn, wn, logn, _, ha, _, _⟩ := AdvanceSeq_inv fuel n rest sm s2 wm w2 l2 h2
    simp only [List.sum_cons] at hC
    exact ⟨sn, wn, logn, ha, (Advance_facts fuel n sm sn wm wn logn ha (by omega)).1⟩

/-- Witness for C20: `Advance(50)` then `Advance(60)` on `demoPending`. -/
theorem C20_current_count_grows_by_sum_witness :
    ∃ fuel0, ∀ fuel, fuel0 ≤ fuel → ∃ s2 w2 logs,
      AdvanceSeq fuel [50, 60] demoPending () = some (s2, w2, logs) ∧
      s2.CurrentCount = 110 := by
  obtain ⟨fuel0, h⟩ := C20_current_count_grows_by_sum 110 [50, 60] demoPending ()
    (demoTwo_scheduled_fits 110 100 kNoDeadline _ rfl (by decide) (by decide)
      (Or.inl (by decide)) (Or.inr rfl)).1
    (demoTwo_scheduled_fits 110 100 kNoDeadline _ rfl (by decide) (by decide)
      (Or.inl (by decide)) (Or.inr rfl)).2
    (fun _ => by decide) (by decide)
  refine ⟨fuel0, fun fuel hf => ?_⟩
  obtain ⟨s2, w2, logs, h1, h2, _⟩ := h fuel hf
  exact ⟨s2, w2, logs, h1, h2⟩

end Scheduler

/-! ## Changing the clock ratio of a pending event -/

namespace Scheduler

variable {W : Type}

/-- Unfolding of `SetEventCountFactor` on an event that has a deadline. -/
theorem SetEventCountFactor_pending (s : Scheduler W) (id num den : Nat) (e : Event W)
    (he : s.m_events[id]? = some e) (hpend : e.target ≠ kNoDeadline) :
    SetEventCountFactor s id num den =
      (if toSint64 (sub64 e.target (e.scaledCount s.m_currCount)) ≤ 0 then
        RecalcSchedule
          { s with m_events := s.m_events.set id (rescaled e s.m_currCount num den) }
      else { s with m_events := s.m_events.set id (rescaled e s.m_currCount num den) }) := by
  unfold SetEventCountFactor
  rw [he]
  simp only [ne_eq, hpend, not_false_eq_true, if_true]
  rfl

/-- An event that `Execute` did not invoke is unchanged. -/
theorem Execute_unfired (fuel : Nat) (s s2 : Scheduler W) (w w2 : W) (log : List Fired)
    (h : Nat) (hr : Execute fuel s w = some (s2, w2, log)) (h0 : invocations h log = 0) :
    s2.m_events[h]? = s.m_events[h]? := by
  induction fuel generalizing s w log with
  | zero => simp [Execute] at hr
  | succ n ih =>
    rcases Execute_inv _ s s2 w w2 log hr with
      ⟨_, hs, _, _⟩ | ⟨_, m, s1, w1, fired, log1, hm, hb, hr1, hl⟩
    · rw [hs]
    · have hm2 : m = n := by omega
      subst hm2
      rw [hl, invocations_append] at h0
      rw [ih s1 w1 log1 hr1 (by omega)]
      by_cases hi : s.m_nextEvent = h
      · subst hi
        obtain ⟨e, _, he, _⟩ := ExecuteBody_spec s s1 w w1 fired hb
        obtain ⟨hdue, hnot⟩ := ExecuteBody_self s s1 w w1 fired e hb he
        by_cases hd : e.target ≤ e.scaledCount s.m_currCount
        · have := (hdue hd).1
          omega
        · rw [(hnot hd).2.2, he]
      · exact (ExecuteBody_other s s1 w w1 fired h hb hi).1

/-- An event with a deadline that the base counter has reached, and that the cache does
not exceed, is invoked by `Execute`. -/
theorem Execute_due_fires (fuel : Nat) (s s2 : Scheduler W) (w w2 : W) (log : List Fired)
    (h : Nat) (e : Event W) (hr : Execute fuel s w = some (s2, w2, log))
    (he : s.m_events[h]? = some e) (ha : e.target ≠ kNoDeadline)
    (hcalc : e.CalcTargetScaledByReciprocal ≤ s.m_currCount)
    (hcache : s.m_nextCount ≤ e.CalcTargetScaledByReciprocal) :
    1 ≤ invocations h log := by
  by_contra hcon
  have h0 : invocations h log = 0 := by omega
  have hev := Execute_unfired fuel s s2 w w2 log h hr h0
  rw [he] at hev
  obtain ⟨hcur, hlt, hor, _⟩ := Execute_facts fuel s s2 w w2 log hr
  rcases hor with ⟨hs, _, _⟩ | hx
  · subst hs; omega
  · have := hx.1 h e hev ha
    omega

/-- An `Advance` that reaches the deadline of an event the cache does not exceed
returns and has invoked the event. -/
theorem Advance_due_fires (C n : Nat) (s : Scheduler W) (w : W) (id : Nat) (e : Event W)
    (hno : NoOverflow C s) (hp : CallbacksProgress s) (hidx : CacheIndexOk s)
    (hC : s.m_currCount + n ≤ C) (he : s.m_events[id]? = some e)
    (ha : e.target ≠ kNoDeadline)
    (hcache : s.m_nextCount ≤ e.CalcTargetScaledByReciprocal)
    (hreach : e.CalcTargetScaledByReciprocal ≤ s.m_currCount + n) :
    ∃ fuel0, ∀ fuel, fuel0 ≤ fuel → ∃ s2 w2 log,
      Advance fuel n s w = some (s2, w2, log) ∧ 1 ≤ invocations id log := by
  have hk : kNoDeadline = 18446744073709551615 := rfl
  have hCs := hno.2.1
  obtain ⟨fuel0, s2, w2, log, hall, _, _⟩ := Advance_terminates C n s w hno hp hidx hC
  refine ⟨fuel0, fun fuel hf => ⟨s2, w2, log, hall fuel hf, ?_⟩⟩
  obtain ⟨fuel1, hx⟩ := Advance_inv fuel n s s2 w w2 log (hall fuel hf)
  have hadd : add64 s.m_currCount n = s.m_currCount + n := add64_eq (by omega)
  exact Execute_due_fires fuel1 { s with m_currCount := add64 s.m_currCount n } s2 w w2 log
    id e hx he ha (by show _ ≤ add64 s.m_currCount n
                      rw [hadd]; exact hreach) hcache

theorem rescaled_target_eq (r t sc : Nat) (hr : r < 18446744073709551616)
    (hsc : sc < 18446744073709551616) (ht : t ≤ sc) (hd : sc - t ≤ r) :
    add64 r (sub64 t sc) = r - (sc - t) := by
  unfold add64 sub64
  omega

theorem rescaled_remaining_eq (r rem : Nat)
    (hrem : rem < 18446744073709551616) : sub64 (add64 r rem) r = rem := by
  unfold add64 sub64
  omega

end Scheduler

namespace Scheduler

variable {W : Type}

/-- C3: in every reachable state (clock ratios changed only while the event is
unscheduled), whenever `Advance(n)` returns, `CurrentCount() < NextCount()` and every
event with a deadline whose ratio is positive and whose conversions do not overflow 64
bits satisfies `floor(CurrentCount() * numerator / denominator) < target`, which is also
the value `IsScheduled` compares.  And with no 64-bit overflow up to the count reached
and callbacks that request no reschedule or a positive interval, `Advance(n)` does
return, with every sufficient fuel: on return the counter has grown by `n`,
`CurrentCount() < NextCount()`, and no due event is left unfired: every event that had
a deadline with `target <= floor((CurrentCount() + n) * numerator / denominator)`
before the call has had its callback invoked, and every event with a deadline after the
call satisfies `floor(CurrentCount() * numerator / denominator) < target`. -/
theorem C3_advance_leaves_no_due_event (k : Nat) (s : Scheduler W)
    (hreach : Reachable k s) :
    (∀ (fuel count : Nat) (w w1 : W) (s1 : Scheduler W) (log : List Fired),
      Advance fuel count s w = some (s1, w1, log) →
      s1.CurrentCount < s1.NextCount ∧
      ∀ (i : Nat) (e : Event W), s1.m_events[i]? = some e → e.target ≠ kNoDeadline →
        0 < e.countNumerator → 0 < e.countDenominator →
        s1.CurrentCount * e.countNumerator < 18446744073709551616 →
        e.target * e.countDenominator + e.countNumerator - 1 < 18446744073709551616 →
        s1.CurrentCount * e.countNumerator / e.countDenominator < e.target ∧
        e.scaledCount s1.CurrentCount < e.target) ∧
    (∀ (C count : Nat) (w : W), NoOverflow C s → CallbacksProgress s →
      s.m_currCount + count ≤ C →
      ∃ fuel0 s1 w1 log,
        (∀ fuel, fuel0 ≤ fuel → Advance fuel count s w = some (s1, w1, log)) ∧
        s1.CurrentCount = s.CurrentCount + count ∧
        s1.CurrentCount < s1.NextCount ∧
        (∀ (id : Nat) (e : Event W), s.m_events[id]? = some e → e.target ≠ kNoDeadline →
          e.target ≤ (s.CurrentCount + count) * e.countNumerator / e.countDenominator →
          1 ≤ invocations id log) ∧
        (∀ (i : Nat) (e : Event W), s1.m_events[i]? = some e → e.target ≠ kNoDeadline →
          s1.CurrentCount * e.countNumerator / e.countDenominator < e.target ∧
          e.scaledCount s1.CurrentCount < e.target)) := by
  refine ⟨fun fuel count w w1 s1 log hadv =>
    Advance_leaves_no_due_event k s s1 w w1 fuel count log hreach hadv, ?_⟩
  intro C count w hno hp hC
  have hk : kNoDeadline = 18446744073709551615 := rfl
  have hCs := hno.2.1
  obtain ⟨hlb, _, hidx⟩ := Reachable_invariant k s hreach
  obtain ⟨fuel0, s1, w1, log, hall, _, hlt⟩ := Advance_terminates C count s w hno hp hidx hC
  have hadv := hall fuel0 (Nat.le_refl _)
  have hfacts := Advance_facts fuel0 count s s1 w w1 log hadv (by omega)
  obtain ⟨fuel1, hx⟩ := Advance_inv fuel0 count s s1 w w1 log hadv
  have hadd : add64 s.m_currCount count = s.m_currCount + count := add64_eq (by omega)
  have hno1 : NoOverflow C { s with m_currCount := add64 s.m_currCount count } :=
    ⟨by show add64 s.m_currCount count ≤ C
        rw [hadd]; exact hC, hCs, fun i e hr => hno.2.2 i e hr⟩
  have hno2 := Execute_noOverflow C fuel1 _ s1 w w1 log hx hno1
  refine ⟨fuel0, s1, w1, log, hall, hfacts.1, hlt, ?_, ?_⟩
  · intro id e he ha hdue
    have hfit : EventFits (s.m_currCount + count) e :=
      EventFits_mono _ C e hC (hno.2.2 id e ⟨he, Or.inl ha⟩)
    have hsc := scaledCount_eq e (s.m_currCount + count) (scaledCount_lt_sentinel _ e hfit).2
    have hcalc := (due_iff_of_fits _ e hfit ha).1 (by rw [hsc]; exact hdue)
    exact Execute_due_fires fuel1 { s with m_currCount := add64 s.m_currCount count } s1 w w1
      log id e hx he ha (by show _ ≤ add64 s.m_currCount count
                            rw [hadd]; exact hcalc) (hlb id e he ha)
  · intro i e he ha
    have hfit : EventFits s1.m_currCount e :=
      EventFits_mono _ C e hno2.1 (hno2.2.2 i e ⟨he, Or.inl ha⟩)
    exact (Advance_leaves_no_due_event k s s1 w w1 fuel0 count log hreach hadv).2 i e he ha
      hfit.1 hfit.2.1 (scaledCount_lt_sentinel _ e hfit).2 (hfit.2.2.2.1 ha)

/-- Witness for C3: `Advance(150)` on `demoPending`, where event A is due at 100: the
call returns at count 150 having invoked A once, and no event has a deadline left. -/
theorem C3_advance_leaves_no_due_event_witness :
    ∃ (fuel0 : Nat) (s1 : Scheduler Unit) (log : List Fired),
      (∀ fuel, fuel0 ≤ fuel → Advance fuel 150 demoPending () = some (s1, (), log)) ∧
      GetScheduleTarget demoPending 0 = 100 ∧
      s1.CurrentCount = 150 ∧ s1.CurrentCount < s1.NextCount ∧
      log = [{ id := 0, deadline := 100 }] ∧ invocations 0 log = 1 ∧
      GetScheduleTarget s1 0 = kNoDeadline := by
  have hfits := demoTwo_scheduled_fits 200 100 kNoDeadline demoPending rfl (by decide)
    (by decide) (Or.inl (by decide)) (Or.inr rfl)
  obtain ⟨fuel0, s1, w1, log, hall, _, hlt, _, _⟩ :=
    (C3_advance_leaves_no_due_event 255 demoPending demoPending_reachable).2 200 150 ()
      hfits.1 hfits.2 (by decide)
  have hmap : (Advance 5 150 demoPending ()).map
      (fun r => (r.2.2, GetScheduleTarget r.1 0, r.1.CurrentCount))
      = some ([{ id := 0, deadline := 100 }], kNoDeadline, 150) := by decide
  cases h5 : Advance 5 150 demoPending () with
  | none => rw [h5] at hmap; simp at hmap
  | some r =>
    have h1 := Advance_fuel_mono 5 fuel0 150 demoPending () r h5
    rw [hall (5 + fuel0) (by omega)] at h1
    simp only [Option.some.injEq] at h1
    subst h1
    rw [h5] at hmap
    simp only [Option.map_some', Option.some.injEq, Prod.mk.injEq] at hmap
    obtain ⟨hlog, htar, hcur⟩ := hmap
    refine ⟨fuel0, s1, log, hall, by decide, hcur, hlt, hlog, ?_, htar⟩
    rw [hlog]
    decide

/-- Counterexample to C15 as stated: in `demoPending` event A has target 100 on a 1:1
clock at count 0, so its remaining interval is positive and its base-clock deadline is
100 cycles away; after `SetEventCountFactor(A, 2, 1)` the deadline is 50 cycles away. -/
theorem C15_base_cycles_counterexample :
    demoPending.m_events[0]?.map (fun e => (e.target, e.countNumerator, e.countDenominator))
      = some (100, 1, 1) ∧
    (0 : Int) < toSint64 (sub64 100 ((unitEvent 100 oneShot).scaledCount demoPending.CurrentCount)) ∧
    demoPending.m_events[0]?.map
      (fun e => e.CalcTargetScaledByReciprocal - demoPending.CurrentCount) = some 100 ∧
    demoFaster.m_events[0]?.map
      (fun e => e.CalcTargetScaledByReciprocal - demoFaster.CurrentCount) = some 50 :=
  ⟨by decide, by decide, by decide, by decide⟩

/-- C15 (amended): when `SetEventCountFactor` changes the ratio of a pending event whose
remaining interval is positive, the remaining interval in cycles of the component clock
is preserved: the new target minus the count scaled by the new ratio equals the old
target minus the count scaled by the old ratio (modulo `2^64`, and as plain numbers when
nothing wraps).  The event gets the new ratio and keeps its callback, and
`CurrentCount()`, `NextCount()` and the cached index are unchanged. -/
theorem C15_component_remaining_preserved (s : Scheduler W) (id num den : Nat)
    (e : Event W) (he : s.m_events[id]? = some e) (hpend : e.target ≠ kNoDeadline)
    (hrem : 0 < toSint64 (sub64 e.target (e.scaledCount s.m_currCount))) :
    ∃ e1, (SetEventCountFactor s id num den).m_events[id]? = some e1 ∧
      e1.countNumerator = num ∧ e1.countDenominator = den ∧ e1.callback = e.callback ∧
      sub64 e1.target (e1.scaledCount (SetEventCountFactor s id num den).CurrentCount)
        = sub64 e.target (e.scaledCount s.CurrentCount) ∧
      (e.scaledCount s.CurrentCount ≤ e.target → e.target < 18446744073709551616 →
        mul64 s.CurrentCount num / den + (e.target - e.scaledCount s.CurrentCount)
          < 18446744073709551616 →
        e1.target - e1.scaledCount (SetEventCountFactor s id num den).CurrentCount
          = e.target - e.scaledCount s.CurrentCount ∧
        e1.scaledCount (SetEventCountFactor s id num den).CurrentCount ≤ e1.target) ∧
      (SetEventCountFactor s id num den).CurrentCount = s.CurrentCount ∧
      (SetEventCountFactor s id num den).NextCount = s.NextCount ∧
      (SetEventCountFactor s id num den).m_nextEvent = s.m_nextEvent := by
  have hlen : id < s.m_events.length := by
    rcases List.getElem?_eq_some.1 he with ⟨hl, _⟩
    exact hl
  rw [SetEventCountFactor_pending s id num den e he hpend, if_neg (by omega)]
  refine ⟨rescaled e s.m_currCount num den, List.getElem?_set_self hlen, rfl, rfl, rfl,
    ?_, ?_, rfl, rfl, rfl⟩
  · exact rescaled_remaining_eq _ _ (sub64_lt _ _)
  · intro h1 h2 h3
    show (add64 (mul64 s.m_currCount num / den) (sub64 e.target (e.scaledCount s.m_currCount))
        - mul64 s.m_currCount num / den = e.target - e.scaledCount s.m_currCount) ∧
      mul64 s.m_currCount num / den
        ≤ add64 (mul64 s.m_currCount num / den) (sub64 e.target (e.scaledCount s.m_currCount))
    have h1b : e.scaledCount s.m_currCount ≤ e.target := h1
    have h3b : mul64 s.m_currCount num / den + (e.target - e.scaledCount s.m_currCount)
        < 18446744073709551616 := h3
    generalize mul64 s.m_currCount num / den = r at h3b ⊢
    generalize e.scaledCount s.m_currCount = sc at h1b h3b ⊢
    unfold add64 sub64
    omega

/-- Witness for C15: `SetEventCountFactor(A, 2, 1)` on `demoPending`. -/
theorem C15_component_remaining_preserved_witness :
    ∃ e1, (SetEventCountFactor demoPending 0 2 1).m_events[0]? = some e1 ∧
      e1.countNumerator = 2 ∧ e1.countDenominator = 1 ∧
      sub64 e1.target (e1.scaledCount (SetEventCountFactor demoPending 0 2 1).CurrentCount)
        = sub64 100 ((unitEvent 100 oneShot).scaledCount demoPending.CurrentCount) := by
  obtain ⟨e1, h1, h2, h3, _, h5, _⟩ :=
    C15_component_remaining_preserved demoPending 0 2 1 (unitEvent 100 oneShot) rfl
      (by decide) (by decide)
  exact ⟨e1, h1, h2, h3, h5⟩

/-- Counterexample to C16 as stated: after `SetEventCountFactor(A, 2, 1)` on
`demoPending` the base-clock deadline of A under the new ratio is 50 while
`NextCount()` is still 100, and `Advance(60)` returns at count 60 without invoking any
callback, A keeping its target. -/
theorem C16_stale_cache_counterexample :
    demoPending.m_events[0]?.map (fun e => e.target) = some 100 ∧
    demoFaster.NextCount = 100 ∧
    demoFaster.m_events[0]?.map (fun e => e.CalcTargetScaledByReciprocal) = some 50 ∧
    (Advance 5 60 demoFaster ()).map
      (fun r => (r.1.CurrentCount, GetScheduleTarget r.1 0, r.2.2)) = some (60, 100, []) :=
  ⟨by decide, by decide, by decide, by decide⟩

/-- C16 (amended): `SetEventCountFactor` on a pending event rescans the table only when
the remaining interval is zero or negative; then the cache is exact and `NextCount()` is
not greater than the event's base-clock deadline under the new ratio.  When the
remaining interval is positive, `NextCount()` and the cached index keep their values.
In either case, whenever `NextCount()` is not greater than the new deadline, an
`Advance` that reaches the new deadline returns and invokes the event (no 64-bit
overflow up to the count reached, callbacks request no reschedule or a positive
interval). -/
theorem C16_rescan_only_when_elapsed (s : Scheduler W) (id num den : Nat) (e : Event W)
    (he : s.m_events[id]? = some e) (hpend : e.target ≠ kNoDeadline) :
    (toSint64 (sub64 e.target (e.scaledCount s.m_currCount)) ≤ 0 →
      CacheExact (SetEventCountFactor s id num den) ∧
      ∀ e1, (SetEventCountFactor s id num den).m_events[id]? = some e1 →
        e1.target ≠ kNoDeadline →
        (SetEventCountFactor s id num den).NextCount ≤ e1.CalcTargetScaledByReciprocal) ∧
    (0 < toSint64 (sub64 e.target (e.scaledCount s.m_currCount)) →
      (SetEventCountFactor s id num den).NextCount = s.NextCount ∧
      (SetEventCountFactor s id num den).m_nextEvent = s.m_nextEvent) ∧
    (∀ (C n : Nat) (w : W) (e1 : Event W),
      (SetEventCountFactor s id num den).m_events[id]? = some e1 →
      e1.target ≠ kNoDeadline →
      (SetEventCountFactor s id num den).NextCount ≤ e1.CalcTargetScaledByReciprocal →
      e1.CalcTargetScaledByReciprocal ≤ (SetEventCountFactor s id num den).CurrentCount + n →
      NoOverflow C (SetEventCountFactor s id num den) →
      CallbacksProgress (SetEventCountFactor s id num den) →
      CacheIndexOk (SetEventCountFactor s id num den) →
      (SetEventCountFactor s id num den).CurrentCount + n ≤ C →
      ∃ fuel0, ∀ fuel, fuel0 ≤ fuel → ∃ s2 w2 log,
        Advance fuel n (SetEventCountFactor s id num den) w = some (s2, w2, log) ∧
        1 ≤ invocations id log) := by
  refine ⟨?_, ?_, ?_⟩
  · intro hrem
    have hx : CacheExact (SetEventCountFactor s id num den) := by
      rw [SetEventCountFactor_pending s id num den e he hpend, if_pos hrem]
      exact RecalcSchedule_exact _
    exact ⟨hx, fun e1 h1 ha => hx.1 id e1 h1 ha⟩
  · intro hrem
    rw [SetEventCountFactor_pending s id num den e he hpend, if_neg (by omega)]
    exact ⟨rfl, rfl⟩
  · intro C n w e1 h1 ha hcache hreach hno hp hidx hC
    exact Advance_due_fires C n _ w id e1 hno hp hidx hC h1 ha hcache hreach

/-- Witness for C16: `SetEventCountFactor(A, 2, 1)` on `demoPending` leaves the cache. -/
theorem C16_rescan_only_when_elapsed_witness :
    (SetEventCountFactor demoPending 0 2 1).NextCount = demoPending.NextCount ∧
    (SetEventCountFactor demoPending 0 2 1).m_nextEvent = demoPending.m_nextEvent :=
  (C16_rescan_only_when_elapsed demoPending 0 2 1 (unitEvent 100 oneShot) rfl
    (by decide)).2.1 (by decide)

end Scheduler

namespace Scheduler

variable {W : Type}

/-- C17, the code at the failing input: `demoOverdue` is `demoTwo` after `Advance(100)`
and `ScheduleAt(A, 50)`, so A is pending with the signed remaining interval -50, the
case for which `SetEventCountFactor` sets `reschedule`.  After
`SetEventCountFactor(A, 1, 4)` the target of A is `rescaledCount + remaining = 25 - 50`
stored in the unsigned target as `2^64 - 25`, `NextCount()` is `2^64 - 100`, and
`Advance(0)` returns without invoking any callback: the overdue event is lost. -/
theorem C17_negative_remaining_target_wraps :
    Advance 5 100 demoTwo () = some (demoAt100, (), []) ∧
    demoAt100.CurrentCount = 100 ∧
    demoOverdue.m_events[0]?.map (fun e => (e.target, e.countNumerator, e.countDenominator))
      = some (50, 1, 1) ∧
    toSint64 (sub64 50 ((unitEvent 50 oneShot).scaledCount demoOverdue.CurrentCount)) = -50 ∧
    GetScheduleTarget demoSlower 0 = 18446744073709551591 ∧
    demoSlower.NextCount = 18446744073709551516 ∧
    (Advance 5 0 demoSlower ()).map (fun r => (r.1.CurrentCount, r.2.2)) = some (100, []) :=
  ⟨rfl, by decide, by decide, by decide, by decide, by decide, by decide⟩

/-- If a pending event's remaining interval is zero or negative when
`SetEventCountFactor` is called, the whole table is recalculated: the cache is exact and
`NextCount()` equals the minimum base-clock deadline afterwards, and `CurrentCount()` is
unchanged.  When moreover the count scaled by the new ratio is not smaller than the
number of cycles by which the event is overdue (the new target does not wrap below
zero) and is below the sentinel, the event is due immediately: every following
`Advance(n)`, also `Advance(0)`, returns and invokes its callback (no 64-bit overflow up
to the count reached, callbacks request no reschedule or a positive interval). -/
theorem SetEventCountFactor_elapsed_fires (s : Scheduler W) (id num den : Nat)
    (e : Event W) (he : s.m_events[id]? = some e) (hpend : e.target ≠ kNoDeadline)
    (hrem : toSint64 (sub64 e.target (e.scaledCount s.m_currCount)) ≤ 0) :
    CacheExact (SetEventCountFactor s id num den) ∧
    (SetEventCountFactor s id num den).NextCount
      = minDeadline (SetEventCountFactor s id num den).m_events ∧
    (SetEventCountFactor s id num den).CurrentCount = s.CurrentCount ∧
    (e.target ≤ e.scaledCount s.m_currCount →
      e.scaledCount s.m_currCount - e.target ≤ mul64 s.m_currCount num / den →
      mul64 s.m_currCount num / den < kNoDeadline →
      ∀ (C n : Nat) (w : W), NoOverflow C (SetEventCountFactor s id num den) →
        CallbacksProgress (SetEventCountFactor s id num den) →
        s.m_currCount + n ≤ C →
        ∃ fuel0, ∀ fuel, fuel0 ≤ fuel → ∃ s2 w2 log,
          Advance fuel n (SetEventCountFactor s id num den) w = some (s2, w2, log) ∧
          1 ≤ invocations id log) := by
  have hk : kNoDeadline = 18446744073709551615 := rfl
  have hlen : id < s.m_events.length := by
    rcases List.getElem?_eq_some.1 he with ⟨hl, _⟩
    exact hl
  have hs1 := SetEventCountFactor_pending s id num den e he hpend
  rw [if_pos hrem] at hs1
  have hx : CacheExact (SetEventCountFactor s id num den) := by
    rw [hs1]; exact RecalcSchedule_exact _
  have hcur : (SetEventCountFactor s id num den).m_currCount = s.m_currCount := by
    rw [hs1]; rfl
  have hev : (SetEventCountFactor s id num den).m_events[id]?
      = some (rescaled e s.m_currCount num den) := by
    rw [hs1]
    exact List.getElem?_set_self hlen
  refine ⟨hx, CacheExact_nextCount _ hx, hcur, ?_⟩
  intro hdue hwrap hr C n w hno hp hC
  have hsc : e.scaledCount s.m_currCount < 18446744073709551616 := by
    unfold Event.scaledCount
    have := mul64_lt s.m_currCount e.countNumerator
    have := Nat.div_le_self (mul64 s.m_currCount e.countNumerator) e.countDenominator
    omega
  have htar : (rescaled e s.m_currCount num den).target
      = mul64 s.m_currCount num / den - (e.scaledCount s.m_currCount - e.target) :=
    rescaled_target_eq _ _ _ (by omega) hsc hdue hwrap
  have ha : (rescaled e s.m_currCount num den).target ≠ kNoDeadline := by
    rw [htar]; omega
  have hrel : Relevant (SetEventCountFactor s id num den) id
      (rescaled e s.m_currCount num den) := ⟨hev, Or.inl ha⟩
  have hfit := NoOverflow_fits hno id _ hrel
  rw [hcur] at hfit
  have hdue1 : (rescaled e s.m_currCount num den).target
      ≤ (rescaled e s.m_currCount num den).scaledCount s.m_currCount := by
    rw [htar]
    show _ ≤ mul64 s.m_currCount num / den
    omega
  have hcalc := (due_iff_of_fits s.m_currCount _ hfit ha).1 hdue1
  exact Advance_due_fires C n _ w id _ hno hp (CacheExact_indexOk _ hx)
    (by rw [hcur]; exact hC) hev ha (hx.1 id _ hev ha) (by rw [hcur]; omega)

/-- On `demoOverdue` the ratio 2:1 does not wrap the target: after
`SetEventCountFactor(A, 2, 1)` the event A fires in `Advance(0)`. -/
theorem SetEventCountFactor_elapsed_fires_demo :
    (SetEventCountFactor demoOverdue 0 2 1).NextCount = 75 ∧
    GetScheduleTarget (SetEventCountFactor demoOverdue 0 2 1) 0 = 150 ∧
    ∃ fuel0, ∀ fuel, fuel0 ≤ fuel → ∃ s2 w2 log,
      Advance fuel 0 (SetEventCountFactor demoOverdue 0 2 1) () = some (s2, w2, log) ∧
      1 ≤ invocations 0 log := by
  have hev : (SetEventCountFactor demoOverdue 0 2 1).m_events
      = [rescaled (unitEvent 50 oneShot) 100 2 1, unitEvent kNoDeadline oneShot] := rfl
  have hfits : ∀ e ∈ (SetEventCountFactor demoOverdue 0 2 1).m_events, EventFits 100 e := by
    rw [hev]
    intro e hmem
    simp only [List.mem_cons, List.mem_singleton, List.not_mem_nil, or_false] at hmem
    rcases hmem with rfl | rfl
    · refine ⟨by decide, by decide, by decide, fun _ => by decide, fun w hr => ?_⟩
      simp [rescaled, oneShot, unitEvent] at hr
    · exact oneShot_fits 100 kNoDeadline (by decide) (Or.inr rfl)
  have hprog : ∀ e ∈ (SetEventCountFactor demoOverdue 0 2 1).m_events, ∀ w : Unit,
      (e.callback w).1.reschedule = true → 0 < (e.callback w).1.interval := by
    rw [hev]
    intro e hmem w hr
    simp only [List.mem_cons, List.mem_singleton, List.not_mem_nil, or_false] at hmem
    rcases hmem with rfl | rfl <;> simp [rescaled, oneShot, unitEvent] at hr
  exact ⟨by decide, by decide,
    (SetEventCountFactor_elapsed_fires demoOverdue 0 2 1 (unitEvent 50 oneShot) rfl
      (by decide) (by decide)).2.2.2 (by decide) (by decide) (by decide) 100 0 ()
      (NoOverflow_of_all 100 _ (by decide) (by decide) hfits)
      (CallbacksProgress_of_all _ hprog) (by decide)⟩

end Scheduler

/-! ## The assertion of the firing loop -/

namespace Scheduler

variable {W : Type}

/-- C18, the code at the failing input: after `ScheduleAt(A, 10)` and `Cancel(A)` the
cache still names A with deadline 10; `Advance(10)` raises the counter to 10, which is
not below the cached deadline, so it calls `Execute` and the loop is entered, and there
the event the cached index points to has target `kNoDeadline`: the condition of the
assertion is false.  Before the `Cancel` the same `Advance(10)` meets the assertion. -/
theorem C18_cancel_then_advance_violates_assert :
    demoCancelled.m_nextEvent = 0 ∧ demoCancelled.NextCount = 10 ∧
    GetScheduleTarget demoCancelled 0 = kNoDeadline ∧
    add64 demoCancelled.m_currCount 10 ≥ demoCancelled.m_nextCount ∧
    ExecuteAssert { demoCancelled with m_currCount := add64 demoCancelled.m_currCount 10 }
      = false ∧
    ExecuteAssert
      { ScheduleAt demoTwo 0 10 with m_currCount := add64 (ScheduleAt demoTwo 0 10).m_currCount 10 }
      = true :=
  ⟨by decide, by decide, by decide, by decide, by decide, by decide⟩

end Scheduler

/-! ## All-or-nothing load of the system -/

namespace Scheduler

variable {W : Type}

/-- In a reachable state `LoadState` has a result for every snapshot that
`ValidateState` accepts. -/
theorem LoadState_some (k : Nat) (s : Scheduler W) (state : SchedulerState)
    (hr : Reachable k s) (hval : ValidateState k s state = true) :
    ∃ s1, LoadState k s state = some s1 := by
  have hptr := Reachable_ptrs_in_range k s hr
  have hreg := (ValidateState_iff k s state).1 hval
  obtain ⟨events1, hload⟩ := LoadEvents_some k s.m_eventPtrs state.events s.m_events
    (fun entry he => by
      obtain ⟨idx, hp, hne⟩ := hreg entry he
      exact ⟨idx, hp, hne, hptr _ idx hp hne⟩)
  exact ⟨_, by unfold LoadState; rw [hload]⟩

end Scheduler

namespace Saturn

variable {W R σ : Type}

/-- When a validation fails, `Saturn::LoadState` returns false at once. -/
theorem LoadState_of_invalid (k : Nat) (ops : ComponentOps R σ) (sat : Saturn W R)
    (state : State σ) (h : AllValid k ops sat state = false) :
    LoadState k ops sat state = some (false, sat, []) := by
  unfold LoadState
  by_cases h0 : Scheduler.ValidateState k sat.m_scheduler state.scheduler = false
  · rw [if_pos h0]
  rw [if_neg h0]
  by_cases h1 : ops.validate Component.system sat.components state.rest = false
  · rw [if_pos h1]
  rw [if_neg h1]
  by_cases h2 : ops.validate Component.mem sat.components state.rest = false
  · rw [if_pos h2]
  rw [if_neg h2]
  by_cases h3 : ops.validate Component.masterSH2 sat.components state.rest = false
  · rw [if_pos h3]
  rw [if_neg h3]
  by_cases h4 : ops.validate Component.slaveSH2 sat.components state.rest = false
  · rw [if_pos h4]
  rw [if_neg h4]
  by_cases h5 : ops.validate Component.SCU sat.components state.rest = false
  · rw [if_pos h5]
  rw [if_neg h5]
  by_cases h6 : ops.validate Component.SMPC sat.components state.rest = false
  · rw [if_pos h6]
  rw [if_neg h6]
  by_cases h7 : ops.validate Component.VDP sat.components state.rest = false
  · rw [if_pos h7]
  rw [if_neg h7]
  by_cases h8 : ops.validate Component.SCSP sat.components state.rest = false
  · rw [if_pos h8]
  rw [if_neg h8]
  by_cases h9 : ops.validate Component.CDBlock sat.components state.rest = false
  · rw [if_pos h9]
  rw [if_neg h9]
  exfalso
  simp only [Bool.not_eq_false] at h0 h1 h2 h3 h4 h5 h6 h7 h8 h9
  simp [AllValid, h0, h1, h2, h3, h4, h5, h6, h7, h8, h9] at h

/-- When every validation passes, a result of `Saturn::LoadState` has the flag true. -/
theorem LoadState_of_valid (k : Nat) (ops : ComponentOps R σ) (sat : Saturn W R)
    (state : State σ) (h : AllValid k ops sat state = true)
    (r : Bool × Saturn W R × List Component) (hr : LoadState k ops sat state = some r) :
    r.1 = true := by
  unfold AllValid at h
  simp only [Bool.and_eq_true] at h
  obtain ⟨⟨⟨⟨⟨⟨⟨⟨⟨h0, h1⟩, h2⟩, h3⟩, h4⟩, h5⟩, h6⟩, h7⟩, h8⟩, h9⟩ := h
  unfold LoadState at hr
  rw [if_neg (by simp [h0]), if_neg (by simp [h1]), if_neg (by simp [h2]),
    if_neg (by simp [h3]), if_neg (by simp [h4]), if_neg (by simp [h5]),
    if_neg (by simp [h6]), if_neg (by simp [h7]), if_neg (by simp [h8]),
    if_neg (by simp [h9])] at hr
  cases hs : Scheduler.LoadState k sat.m_scheduler state.scheduler with
  | none => rw [hs] at hr; simp at hr
  | some sched =>
    rw [hs] at hr
    simp only [Option.some.injEq] at hr
    rw [← hr]

/-- C14: `Saturn::LoadState` is all-or-nothing.  If the scheduler's or any other
component's `ValidateState` rejects the snapshot it returns false, no `LoadState` of any
component has been called and the state is the one before the call, so the scheduler
(count, deadlines, ratios), the slave-enable flag and the spillover counters are
unchanged; whenever it returns, it returns true exactly when all ten validations passed;
and it does return when the scheduler is in a reachable state. -/
theorem C14_saturn_load_state_all_or_nothing (k : Nat) (ops : ComponentOps R σ)
    (sat : Saturn W R) (state : State σ) :
    (AllValid k ops sat state = false → LoadState k ops sat state = some (false, sat, [])) ∧
    (∀ r, LoadState k ops sat state = some r →
      (r.1 = true ↔ AllValid k ops sat state = true)) ∧
    (∀ r, LoadState k ops sat state = some r → r.1 = false →
      r.2.2 = [] ∧ r.2.1 = sat ∧ r.2.1.m_scheduler = sat.m_scheduler ∧
      r.2.1.slaveSH2Enabled = sat.slaveSH2Enabled ∧
      r.2.1.m_msh2SpilloverCycles = sat.m_msh2SpilloverCycles ∧
      r.2.1.m_ssh2SpilloverCycles = sat.m_ssh2SpilloverCycles) ∧
    (Scheduler.Reachable k sat.m_scheduler → ∃ r, LoadState k ops sat state = some r) := by
  have hiff : ∀ r, LoadState k ops sat state = some r →
      (r.1 = true ↔ AllValid k ops sat state = true) := by
    intro r hr
    cases hv : AllValid k ops sat state with
    | false =>
      rw [LoadState_of_invalid k ops sat state hv] at hr
      simp only [Option.some.injEq] at hr
      rw [← hr]
    | true =>
      simp only [iff_true]
      exact LoadState_of_valid k ops sat state hv r hr
  refine ⟨LoadState_of_invalid k ops sat state, hiff, ?_, ?_⟩
  · intro r hr hfalse
    have hv : AllValid k ops sat state = false := by
      cases hv : AllValid k ops sat state with
      | false => rfl
      | true =>
        have := (hiff r hr).2 hv
        rw [hfalse] at this
        exact absurd this (by simp)
    rw [LoadState_of_invalid k ops sat state hv] at hr
    simp only [Option.some.injEq] at hr
    rw [← hr]
    exact ⟨rfl, rfl, rfl, rfl, rfl, rfl⟩
  · intro hreach
    cases hv : AllValid k ops sat state with
    | false => exact ⟨_, LoadState_of_invalid k ops sat state hv⟩
    | true =>
      have hv2 := hv
      unfold AllValid at hv2
      simp only [Bool.and_eq_true] at hv2
      obtain ⟨⟨⟨⟨⟨⟨⟨⟨⟨h0, h1⟩, h2⟩, h3⟩, h4⟩, h5⟩, h6⟩, h7⟩, h8⟩, h9⟩ := hv2
      obtain ⟨s1, hs1⟩ := Scheduler.LoadState_some k sat.m_scheduler state.scheduler hreach h0
      unfold LoadState
      rw [if_neg (by simp [h0]), if_neg (by simp [h1]), if_neg (by simp [h2]),
        if_neg (by simp [h3]), if_neg (by simp [h4]), if_neg (by simp [h5]),
        if_neg (by simp [h6]), if_neg (by simp [h7]), if_neg (by simp [h8]),
        if_neg (by simp [h9]), hs1]
      exact ⟨_, rfl⟩

/-- Witness for C14: the VDP rejects the snapshot, `demoSaturn` is left as it was. -/
theorem C14_saturn_load_state_all_or_nothing_witness :
    LoadState 255 demoOps demoSaturn demoState = some (false, demoSaturn, []) :=
  (C14_saturn_load_state_all_or_nothing 255 demoOps demoSaturn demoState).1 (by decide)

end Saturn

/-! ## Save-state round trip -/

namespace Scheduler

variable {W : Type}

/-- The entry `SaveState` writes for a slot. -/
theorem SaveEvents_getElem (events : List (Event W)) (userIDs : List Nat) (i : Nat)
    (e : Event W) (u : Nat) (he : events[i]? = some e) (hu : userIDs[i]? = some u) :
    (SaveEvents events userIDs)[i]? =
      some { id := u, target := e.target, countNumerator := e.countNumerator,
             countDenominator := e.countDenominator } := by
  induction events generalizing userIDs i with
  | nil => simp at he
  | cons e0 rest ih =>
    cases userIDs with
    | nil => simp at hu
    | cons u0 us =>
      cases i with
      | zero =>
        simp only [List.getElem?_cons_zero, Option.some.injEq] at he hu
        subst he hu
        simp [SaveEvents]
      | succ j =>
        simp only [List.getElem?_cons_succ] at he hu
        simp only [SaveEvents, List.getElem?_cons_succ]
        exact ih us j he hu

/-- An entry of the snapshot comes from the slot of the same index. -/
theorem SaveEvents_inv (events : List (Event W)) (userIDs : List Nat) (i : Nat)
    (entry : EventState) (h : (SaveEvents events userIDs)[i]? = some entry) :
    ∃ e u, events[i]? = some e ∧ userIDs[i]? = some u ∧ entry.id = u := by
  induction events generalizing userIDs i with
  | nil => simp [SaveEvents] at h
  | cons e0 rest ih =>
    cases userIDs with
    | nil => simp [SaveEvents] at h
    | cons u0 us =>
      cases i with
      | zero =>
        simp only [SaveEvents, List.getElem?_cons_zero, Option.some.injEq] at h
        exact ⟨e0, u0, by simp, by simp, by rw [← h]⟩
      | succ j =>
        simp only [SaveEvents, List.getElem?_cons_succ] at h
        obtain ⟨e, u, h1, h2, h3⟩ := ih us j h
        exact ⟨e, u, by simpa using h1, by simpa using h2, h3⟩

/-- An exact cache is determined by the event table. -/
theorem CacheExact_unique (a b : Scheduler W) (ha : CacheExact a) (hb : CacheExact b)
    (hev : a.m_events = b.m_events) :
    a.m_nextCount = b.m_nextCount ∧ a.m_nextEvent = b.m_nextEvent := by
  have hnc : a.m_nextCount = b.m_nextCount := by
    rw [CacheExact_nextCount a ha, CacheExact_nextCount b hb, hev]
  refine ⟨hnc, ?_⟩
  obtain ⟨_, hale, hasent, hafirst⟩ := ha
  obtain ⟨_, hble, hbsent, hbfirst⟩ := hb
  by_cases hs : a.m_nextCount = kNoDeadline
  · rw [hasent hs, hbsent (by rw [← hnc]; exact hs), hev]
  · have hlta : a.m_nextCount < kNoDeadline := by omega
    have hltb : b.m_nextCount < kNoDeadline := by omega
    obtain ⟨ea, hea, haa, hca, hfa⟩ := hafirst hlta
    obtain ⟨eb, heb, hab, hcb, hfb⟩ := hbfirst hltb
    rw [hev] at hea hfa
    rcases Nat.lt_trichotomy a.m_nextEvent b.m_nextEvent with hlt | heq | hgt
    · have := hfb a.m_nextEvent ea hlt hea haa
      omega
    · exact heq
    · have := hfa b.m_nextEvent eb hgt heb hab
      omega

theorem Scheduler_eq (a b : Scheduler W) (h1 : a.m_currCount = b.m_currCount)
    (h2 : a.m_nextCount = b.m_nextCount) (h3 : a.m_nextEvent = b.m_nextEvent)
    (h4 : a.m_events = b.m_events) (h5 : a.m_userIDs = b.m_userIDs)
    (h6 : a.m_nextEventIndex = b.m_nextEventIndex) (h7 : a.m_eventPtrs = b.m_eventPtrs) :
    a = b := by
  cases a
  cases b
  simp only at h1 h2 h3 h4 h5 h6 h7
  subst h1 h2 h3 h4 h5 h6 h7
  rfl

/-- When every slot is registered, the entry saved for slot `i` names slot `i`. -/
theorem SaveEvents_slot (k : Nat) (s : Scheduler W) (hinv : RegistrationInv k s)
    (hfull : s.m_nextEventIndex = s.m_events.length) :
    ∀ (i : Nat) (entry : EventState),
      (SaveEvents s.m_events s.m_userIDs)[i]? = some entry →
      s.m_eventPtrs[entry.id]? = some i ∧ i < s.m_events.length := by
  obtain ⟨_, _, hreg⟩ := hinv
  intro i entry hi
  obtain ⟨e, u, h1, h2, h3⟩ := SaveEvents_inv _ _ i entry hi
  have hil : i < s.m_events.length := by
    rcases List.getElem?_eq_some.1 h1 with ⟨hl, _⟩
    exact hl
  rw [h3]
  exact ⟨hreg i u (by omega) h2, hil⟩

/-- Loading the snapshot of `s` into a scheduler with the same registrations and the
same callbacks restores the event table of `s`, when every slot of `s` is registered. -/
theorem LoadEvents_SaveEvents (k : Nat) (s t : Scheduler W) (hinv : RegistrationInv k s)
    (hlen : s.m_userIDs.length = s.m_events.length) (hk : s.m_events.length ≤ k)
    (hfull : s.m_nextEventIndex = s.m_events.length) (hsame : SameRegistration s t)
    (hcb : t.m_events.map (fun e => e.callback) = s.m_events.map (fun e => e.callback)) :
    LoadEvents k t.m_eventPtrs (SaveEvents s.m_events s.m_userIDs) t.m_events
      = some s.m_events := by
  have hslot := SaveEvents_slot k s hinv hfull
  obtain ⟨hptrs, _, _, htlen⟩ := hsame
  rw [hptrs]
  obtain ⟨events1, hload⟩ := LoadEvents_some k s.m_eventPtrs
    (SaveEvents s.m_events s.m_userIDs) t.m_events
    (fun entry hmem => by
      obtain ⟨i, hi⟩ := List.mem_iff_getElem?.1 hmem
      obtain ⟨h1, h2⟩ := hslot i entry hi
      exact ⟨i, h1, by omega, by omega⟩)
  rw [hload]
  congr 1
  have hlen1 := LoadEvents_length k _ _ _ _ hload
  obtain ⟨hkeep, hlast⟩ := LoadEvents_spec k _ _ _ _ hload
  apply List.ext_getElem?
  intro i
  by_cases hi : i < s.m_events.length
  · have hie : s.m_events[i]? = some s.m_events[i] := List.getElem?_eq_getElem hi
    have hiu : s.m_userIDs[i]? = some (s.m_userIDs.get ⟨i, by omega⟩) :=
      List.getElem?_eq_getElem (by omega)
    have hentry := SaveEvents_getElem _ _ i _ _ hie hiu
    obtain ⟨h1, _⟩ := hslot i _ hentry
    obtain ⟨e1, he1, ht, hn, hd⟩ := hlast i _ i hentry h1 (by
      intro j entry2 hj hj2 hcon
      obtain ⟨h3, _⟩ := hslot j entry2 hj2
      rw [h3] at hcon
      simp only [Option.some.injEq] at hcon
      omega)
    have hit : t.m_events[i]? = some (t.m_events.get ⟨i, by omega⟩) :=
      List.getElem?_eq_getElem (by omega)
    obtain ⟨e2, he2, hc2, _⟩ := hkeep i _ hit
    rw [he1] at he2
    simp only [Option.some.injEq] at he2
    subst he2
    have hcbi : (t.m_events.map (fun e => e.callback))[i]?
        = (s.m_events.map (fun e => e.callback))[i]? := by rw [hcb]
    rw [List.getElem?_map, List.getElem?_map, hit, hie] at hcbi
    simp only [Option.map_some', Option.some.injEq] at hcbi
    rw [he1, hie]
    congr 1
    exact event_eta _ _ hn hd (by rw [hc2]; exact hcbi) |>.trans (by rw [ht])
  · rw [List.getElem?_eq_none (by omega), List.getElem?_eq_none (by omega)]

end Scheduler

namespace Scheduler

variable {W : Type}

/-- Counterexample to C11 as stated.  In `demoOutOfOrder` (cache earlier than every
deadline) `Advance(200)` invokes A and then B, while the scheduler loaded from its
snapshot invokes B and then A.  In `demoFaster` (`demoPending` after
`SetEventCountFactor(A, 2, 1)`, cache later than the deadline of A) `Advance(60)`
invokes nothing, while the scheduler loaded from its snapshot invokes A at count 60.
In `demoTimer`, where one of the two slots is not registered, the snapshot is rejected
by `ValidateState` and `LoadState` has no result. -/
theorem C11_round_trip_counterexample :
    Reachable 255 demoOutOfOrder ∧
    (Advance 5 200 demoOutOfOrder ()).map (fun r => (r.1.CurrentCount, r.2.2)) =
      some (200, [{ id := 0, deadline := 100 }, { id := 1, deadline := 50 }]) ∧
    (LoadState 255 (Reset demoOutOfOrder) (SaveState demoOutOfOrder)).bind
        (fun s1 => (Advance 5 200 s1 ()).map (fun r => (r.1.CurrentCount, r.2.2))) =
      some (200, [{ id := 1, deadline := 50 }, { id := 0, deadline := 100 }]) ∧
    (Advance 5 60 demoFaster ()).map (fun r => (r.1.CurrentCount, r.2.2)) = some (60, []) ∧
    (LoadState 255 (Reset demoFaster) (SaveState demoFaster)).bind
        (fun s1 => (Advance 5 60 s1 ()).map (fun r => (r.1.CurrentCount, r.2.2))) =
      some (60, [{ id := 0, deadline := 50 }]) ∧
    ValidateState 255 (Reset demoTimer) (SaveState demoTimer) = false ∧
    (LoadState 255 (Reset demoTimer) (SaveState demoTimer)).isNone = true :=
  ⟨Reachable.scheduleAt demoLater 1 50 demoLater_reachable (by decide), by decide,
    by decide, by decide, by decide, by decide, by decide⟩

/-- C11 (amended): for every scheduler state `s` in which every slot is registered (the
registration tables are inverse to each other, as in every reachable state) and whose
cache is exact (`NextCount()` is the minimum base-clock deadline and the cached index
its first slot, as after `Reset`, `LoadState` or an `Advance` that ran the firing loop),
the snapshot of `SaveState(s)` is accepted by `ValidateState`, and `LoadState` of it
into a scheduler with the same registrations and callbacks, freshly reset or not,
yields exactly the state `s`; so every sequence of `Advance` calls invokes the same
callbacks at the same `CurrentCount()` values as on `s`. -/
theorem C11_round_trip_exact_cache (k : Nat) (s t : Scheduler W)
    (hinv : RegistrationInv k s) (hlen : s.m_userIDs.length = s.m_events.length)
    (hk : s.m_events.length ≤ k) (hfull : s.m_nextEventIndex = s.m_events.length)
    (hx : CacheExact s) (hsame : SameRegistration s t)
    (hcb : t.m_events.map (fun e => e.callback) = s.m_events.map (fun e => e.callback)) :
    ValidateState k t (SaveState s) = true ∧
    LoadState k t (SaveState s) = some s ∧
    ∀ s1, LoadState k t (SaveState s) = some s1 →
      ∀ (fuel : Nat) (counts : List Nat) (w : W),
        AdvanceSeq fuel counts s1 w = AdvanceSeq fuel counts s w := by
  have hload : LoadState k t (SaveState s) = some s := by
    unfold LoadState SaveState
    simp only
    rw [LoadEvents_SaveEvents k s t hinv hlen hk hfull hsame hcb]
    simp only [Option.some.injEq]
    obtain ⟨hptrs, hids, hidx, _⟩ := hsame
    have hu := CacheExact_unique
      (RecalcSchedule { t with m_currCount := s.m_currCount, m_events := s.m_events }) s
      (RecalcSchedule_exact _) hx rfl
    exact Scheduler_eq _ _ rfl hu.1 hu.2 rfl hids hidx hptrs
  refine ⟨?_, hload, ?_⟩
  · rw [ValidateState_iff]
    intro entry hmem
    obtain ⟨i, hi⟩ := List.mem_iff_getElem?.1 hmem
    obtain ⟨h1, h2⟩ := SaveEvents_slot k s hinv hfull i entry hi
    exact ⟨i, by rw [hsame.1]; exact h1, by omega⟩
  · intro s1 hs1 fuel counts w
    rw [hload] at hs1
    simp only [Option.some.injEq] at hs1
    rw [hs1]

/-- Witness for C11: the snapshot of `demoPending` loaded into the reset scheduler. -/
theorem C11_round_trip_exact_cache_witness :
    ValidateState 255 (Reset demoPending) (SaveState demoPending) = true ∧
    LoadState 255 (Reset demoPending) (SaveState demoPending) = some demoPending :=
  have h := C11_round_trip_exact_cache 255 demoPending (Reset demoPending)
    (Reachable_registration 255 demoPending demoPending_reachable (by decide) (by decide))
    (by decide) (by decide) (by decide)
    (show CacheExact (RecalcSchedule demoPending) from RecalcSchedule_exact demoPending)
    (Reset_frame demoPending) rfl
  ⟨h.1, h.2.1⟩

end Scheduler

/-! ## Conversion round trip -/

namespace Scheduler

variable {W : Type}

/-- Bounds of ceiling after floor: with `f = floor(c * p / q)` and
`b = ceil(f * q / p)`, `b <= c` and `(c - b) * p < q`. -/
theorem ceil_floor_bounds {p q : Nat} (hp : 0 < p) (hq : 0 < q) (c : Nat) :
    (c * p / q * q + p - 1) / p ≤ c ∧ (c - (c * p / q * q + p - 1) / p) * p < q := by
  have h1 : c * p / q * q ≤ c * p := Nat.div_mul_le_self _ _
  have hb : (c * p / q * q + p - 1) / p ≤ c := (ceil_le_iff hp _ _).2 h1
  have h3 : c * p / q * q ≤ (c * p / q * q + p - 1) / p * p :=
    (ceil_le_iff hp _ _).1 le_rfl
  have h2 : c * p < q * (c * p / q + 1) := Nat.lt_mul_div_succ _ hq
  rw [Nat.mul_add, Nat.mul_one, Nat.mul_comm q] at h2
  refine ⟨hb, ?_⟩
  rw [Nat.sub_mul]
  generalize (c * p / q * q + p - 1) / p * p = y at h3
  generalize c * p / q * q = x at h1 h2 h3
  omega

/-- Counterexample to C21 as stated: with the ratio 1/10 the base count 9 converts to 0
component cycles and back to the base count 0, which is below `9 - 1`. -/
theorem C21_round_trip_counterexample :
    0 < demoSlowEvent.countNumerator ∧ 0 < demoSlowEvent.countDenominator ∧
    demoSlowEvent.scaledCount 9 = 0 ∧ roundTrip demoSlowEvent 9 = 0 ∧
    ¬ (9 - 1 ≤ roundTrip demoSlowEvent 9) :=
  ⟨by decide, by decide, by decide, by decide, by decide⟩

/-- C21 (amended): for every ratio `p/q` with `p > 0` and `q > 0` and every base count
`c` (no 64-bit overflow), converting to component cycles and back,
`b = ceil(floor(c*p/q)*q/p)`, satisfies `b <= c` and `(c - b) * p < q`: the loss is less
than one component cycle, which is `q/p` base cycles.  So `b = c` when `q <= p`, and
`c - 1 <= b <= c` when `q <= 2*p`. -/
theorem C21_round_trip_bounds (e : Event W) (c : Nat)
    (hp : 0 < e.countNumerator) (hq : 0 < e.countDenominator)
    (hc : c * e.countNumerator < 18446744073709551616)
    (ht : c * e.countNumerator / e.countDenominator * e.countDenominator
      + e.countNumerator - 1 < 18446744073709551616) :
    roundTrip e c =
      (c * e.countNumerator / e.countDenominator * e.countDenominator + e.countNumerator - 1)
        / e.countNumerator ∧
    roundTrip e c ≤ c ∧
    (c - roundTrip e c) * e.countNumerator < e.countDenominator ∧
    (e.countDenominator ≤ e.countNumerator → roundTrip e c = c) ∧
    (e.countDenominator ≤ 2 * e.countNumerator → c - 1 ≤ roundTrip e c) := by
  have heq : roundTrip e c =
      (c * e.countNumerator / e.countDenominator * e.countDenominator + e.countNumerator - 1)
        / e.countNumerator := by
    have hsc := scaledCount_eq e c hc
    have h0 := calcTarget_eq ({ e with target := e.scaledCount c } : Event W) hp
      (by show e.scaledCount c * e.countDenominator + e.countNumerator - 1 < _
          rw [hsc]; exact ht)
    unfold roundTrip
    rw [h0]
    show (e.scaledCount c * e.countDenominator + e.countNumerator - 1) / e.countNumerator = _
    rw [hsc]
  obtain ⟨h1, h2⟩ := ceil_floor_bounds hp hq c
  rw [← heq] at h1 h2
  refine ⟨heq, h1, h2, ?_, ?_⟩
  · intro hle
    by_contra hne
    have h3 : 1 ≤ c - roundTrip e c := by omega
    have h4 : 1 * e.countNumerator ≤ (c - roundTrip e c) * e.countNumerator :=
      Nat.mul_le_mul_right _ h3
    omega
  · intro hle
    by_contra hne
    have h3 : 2 ≤ c - roundTrip e c := by omega
    have h4 : 2 * e.countNumerator ≤ (c - roundTrip e c) * e.countNumerator :=
      Nat.mul_le_mul_right _ h3
    omega

/-- Witness for C21: ratio 3/7 at base count 25, which converts to 10 and back to 24. -/
theorem C21_round_trip_bounds_witness :
    roundTrip demoRatioEvent 25 = 24 ∧ roundTrip demoRatioEvent 25 ≤ 25 ∧
    (25 - roundTrip demoRatioEvent 25) * 3 < 7 :=
  have h := C21_round_trip_bounds demoRatioEvent 25 (by decide) (by decide) (by decide)
    (by decide)
  ⟨by decide, h.2.1, h.2.2.1⟩

end Scheduler

/-! ## Scheduling calls and reset -/

namespace Scheduler

variable {W : Type}

/-- Everything `ScheduleEvent` does: the slot gets the target, the cached deadline
becomes the minimum of its old value and the new base-clock deadline, and nothing else
changes. -/
theorem ScheduleEvent_full (s : Scheduler W) (id target : Nat) (e : Event W)
    (he : s.m_events[id]? = some e) :
    (ScheduleEvent s id target).m_events[id]? = some { e with target := target } ∧
    GetScheduleTarget (ScheduleEvent s id target) id = target ∧
    (ScheduleEvent s id target).NextCount =
      min s.NextCount ({ e with target := target } : Event W).CalcTargetScaledByReciprocal ∧
    (∀ j, j ≠ id → (ScheduleEvent s id target).m_events[j]? = s.m_events[j]?) ∧
    (ScheduleEvent s id target).CurrentCount = s.CurrentCount ∧
    (ScheduleEvent s id target).m_events.length = s.m_events.length := by
  have hlen : id < s.m_events.length := by
    rcases List.getElem?_eq_some.1 he with ⟨hl, _⟩
    exact hl
  obtain ⟨h1, h2, _, _, _⟩ := ScheduleEvent_spec s id target e he
  have hev : (ScheduleEvent s id target).m_events[id]? = some { e with target := target } := by
    rw [h1, List.getElem?_set_self hlen]
  refine ⟨hev, ?_, ?_, ?_, h2, by rw [h1, List.length_set]⟩
  · unfold GetScheduleTarget
    rw [hev]
  · unfold ScheduleEvent NextCount
    rw [he]
    simp only
    split
    · rename_i hlt
      exact (Nat.min_eq_right (Nat.le_of_lt hlt)).symm
    · rename_i hge
      exact (Nat.min_eq_left (Nat.le_of_not_lt hge)).symm
  · intro j hj
    rw [h1, List.getElem?_set_ne (Ne.symm hj)]

/-- C24: `ScheduleFromNow(h, interval)` sets the target of the event to
`floor(CurrentCount()*numerator/denominator) + interval` (64-bit arithmetic, the plain
value when nothing overflows) and `ScheduleAt(h, T)` sets it to `T`; in both cases
`NextCount()` afterwards is the minimum of the previous `NextCount()` and the base-clock
deadline `CalcTargetScaledByReciprocal` of the new target, which is
`ceil(target*denominator/numerator)` when nothing overflows; the event keeps its ratio
and callback, no other event changes, and `CurrentCount()` is unchanged. -/
theorem C24_schedule_sets_target_and_cache (s : Scheduler W) (id : Nat) (e : Event W)
    (he : s.m_events[id]? = some e) :
    (∀ interval : Nat,
      (ScheduleFromNow s id interval).m_events[id]? =
        some { e with target := add64 (e.scaledCount s.CurrentCount) interval } ∧
      GetScheduleTarget (ScheduleFromNow s id interval) id =
        add64 (e.scaledCount s.CurrentCount) interval ∧
      (s.CurrentCount * e.countNumerator < 18446744073709551616 →
        s.CurrentCount * e.countNumerator / e.countDenominator + interval
          < 18446744073709551616 →
        GetScheduleTarget (ScheduleFromNow s id interval) id =
          s.CurrentCount * e.countNumerator / e.countDenominator + interval) ∧
      (ScheduleFromNow s id interval).NextCount =
        min s.NextCount ({ e with target := add64 (e.scaledCount s.CurrentCount) interval }
          : Event W).CalcTargetScaledByReciprocal ∧
      (∀ j, j ≠ id → (ScheduleFromNow s id interval).m_events[j]? = s.m_events[j]?) ∧
      (ScheduleFromNow s id interval).CurrentCount = s.CurrentCount) ∧
    (∀ T : Nat,
      (ScheduleAt s id T).m_events[id]? = some { e with target := T } ∧
      GetScheduleTarget (ScheduleAt s id T) id = T ∧
      (ScheduleAt s id T).NextCount =
        min s.NextCount ({ e with target := T } : Event W).CalcTargetScaledByReciprocal ∧
      (∀ j, j ≠ id → (ScheduleAt s id T).m_events[j]? = s.m_events[j]?) ∧
      (ScheduleAt s id T).CurrentCount = s.CurrentCount) ∧
    (∀ T : Nat, 0 < e.countNumerator →
      T * e.countDenominator + e.countNumerator - 1 < 18446744073709551616 →
      ({ e with target := T } : Event W).CalcTargetScaledByReciprocal =
        (T * e.countDenominator + e.countNumerator - 1) / e.countNumerator) := by
  refine ⟨?_, ?_, ?_⟩
  · intro interval
    have hsfn : ScheduleFromNow s id interval =
        ScheduleEvent s id (add64 (e.scaledCount s.m_currCount) interval) := by
      unfold ScheduleFromNow
      rw [he]
    obtain ⟨h1, h2, h3, h4, h5, _⟩ :=
      ScheduleEvent_full s id (add64 (e.scaledCount s.m_currCount) interval) e he
    rw [hsfn]
    refine ⟨h1, h2, ?_, h3, h4, h5⟩
    intro hc hsum
    rw [h2]
    show add64 (e.scaledCount s.m_currCount) interval = _
    have hsc : e.scaledCount s.m_currCount
        = s.m_currCount * e.countNumerator / e.countDenominator := scaledCount_eq e _ hc
    rw [hsc]
    exact add64_eq hsum
  · intro T
    obtain ⟨h1, h2, h3, h4, h5, _⟩ := ScheduleEvent_full s id T e he
    exact ⟨h1, h2, h3, h4, h5⟩
  · intro T hp hfit
    exact calcTarget_eq ({ e with target := T } : Event W) hp hfit

/-- Witness for C24: `ScheduleFromNow(B, 40)` and `ScheduleAt(B, 400)` on `demoPending`. -/
theorem C24_schedule_sets_target_and_cache_witness :
    GetScheduleTarget (ScheduleFromNow demoPending 1 40) 1 = 40 ∧
    (ScheduleFromNow demoPending 1 40).NextCount = 40 ∧
    GetScheduleTarget (ScheduleAt demoPending 1 400) 1 = 400 ∧
    (ScheduleAt demoPending 1 400).NextCount = 100 :=
  have h := C24_schedule_sets_target_and_cache demoPending 1 (unitEvent kNoDeadline oneShot) rfl
  ⟨((h.1 40).2.1).trans (by decide), ((h.1 40).2.2.2.1).trans (by decide),
    (h.2.1 400).2.1, ((h.2.1 400).2.2.1).trans (by decide)⟩

theorem minDeadline_all_inactive (es : List (Event W))
    (h : ∀ e ∈ es, e.target = kNoDeadline) : minDeadline es = kNoDeadline := by
  induction es with
  | nil => rfl
  | cons x rest ih =>
    rw [minDeadline_inactive x rest (h x (List.mem_cons_self _ _))]
    exact ih (fun e he => h e (List.mem_cons_of_mem _ he))

/-- Everything `Reset` does. -/
theorem Reset_spec (k : Nat) (s : Scheduler W) :
    (Reset s).CurrentCount = 0 ∧ (Reset s).NextCount = kNoDeadline ∧
    (Reset s).m_nextEvent = s.m_events.length ∧
    (∀ i, GetScheduleTarget (Reset s) i = kNoDeadline) ∧
    (∀ i, IsScheduled (Reset s) i = false) ∧
    (∀ (i : Nat) (e : Event W), s.m_events[i]? = some e →
      (Reset s).m_events[i]? = some { e with target := kNoDeadline }) ∧
    (Reset s).m_events.length = s.m_events.length ∧
    (Reset s).m_eventPtrs = s.m_eventPtrs ∧ (Reset s).m_userIDs = s.m_userIDs ∧
    (Reset s).m_nextEventIndex = s.m_nextEventIndex ∧
    (∀ u, IsRegistered k (Reset s) u ↔ IsRegistered k s u) := by
  have hev : (Reset s).m_events
      = s.m_events.map (fun event => { event with target := kNoDeadline }) := rfl
  have hget : ∀ (i : Nat) (e1 : Event W), (Reset s).m_events[i]? = some e1 →
      e1.target = kNoDeadline := by
    intro i e1 h1
    rw [hev, List.getElem?_map] at h1
    cases h0 : s.m_events[i]? with
    | none => rw [h0] at h1; simp at h1
    | some e0 =>
      rw [h0] at h1
      simp only [Option.map_some', Option.some.injEq] at h1
      rw [← h1]
  have hall : ∀ e1 ∈ (Reset s).m_events, e1.target = kNoDeadline := by
    intro e1 hmem
    obtain ⟨i, hi⟩ := List.mem_iff_getElem?.1 hmem
    exact hget i e1 hi
  have hnc : (Reset s).m_nextCount = kNoDeadline := by
    have h1 : (Reset s).m_nextCount = minDeadline (Reset s).m_events :=
      RecalcSchedule_nextCount _
    rw [h1]
    exact minDeadline_all_inactive _ hall
  have hx : CacheExact (Reset s) := RecalcSchedule_exact _
  have hlen : (Reset s).m_events.length = s.m_events.length := by
    rw [hev, List.length_map]
  refine ⟨rfl, hnc, by rw [hx.2.2.1 hnc, hlen], ?_, ?_, ?_, hlen, rfl, rfl, rfl,
    fun u => Iff.rfl⟩
  · intro i
    unfold GetScheduleTarget
    cases h0 : (Reset s).m_events[i]? with
    | none => rfl
    | some e1 => exact hget i e1 h0
  · intro i
    unfold IsScheduled
    cases h0 : (Reset s).m_events[i]? with
    | none => rfl
    | some e1 =>
      simp only
      rw [if_pos (hget i e1 h0)]
  · intro i e h0
    rw [hev, List.getElem?_map, h0]
    rfl

/-- C28: `Reset` sets `CurrentCount()` to 0, the target of every event to the
no-deadline sentinel (`GetScheduleTarget` gives the sentinel and `IsScheduled` is false
for every slot) and `NextCount()` to the sentinel, and leaves the callback and clock
ratio of every event and the registration tables (`m_eventPtrs`, `m_userIDs`,
`m_nextEventIndex`) as they were, so every registered user ID stays registered. -/
theorem C28_reset_clears_deadlines_only (k : Nat) (s : Scheduler W) :
    (Reset s).CurrentCount = 0 ∧ (Reset s).NextCount = kNoDeadline ∧
    (Reset s).m_nextEvent = s.m_events.length ∧
    (∀ i, GetScheduleTarget (Reset s) i = kNoDeadline) ∧
    (∀ i, IsScheduled (Reset s) i = false) ∧
    (∀ (i : Nat) (e : Event W), s.m_events[i]? = some e →
      (Reset s).m_events[i]? = some { e with target := kNoDeadline }) ∧
    (Reset s).m_events.length = s.m_events.length ∧
    (Reset s).m_eventPtrs = s.m_eventPtrs ∧ (Reset s).m_userIDs = s.m_userIDs ∧
    (Reset s).m_nextEventIndex = s.m_nextEventIndex ∧
    (∀ u, IsRegistered k (Reset s) u ↔ IsRegistered k s u) :=
  Reset_spec k s

end Scheduler

/-! ## The remaining count -/

namespace Scheduler

variable {W : Type}

/-- Method `RemainingCount` computes the wrapped 64-bit difference read as signed. -/
theorem RemainingCount_eq (s : Scheduler W) :
    RemainingCount s = toSint64 (sub64 s.m_nextCount s.m_currCount) := by
  unfold RemainingCount toSint64 ofSint64 sub64
  split_ifs <;> omega

theorem RemainingCount_small (s : Scheduler W) (hn : s.m_nextCount < 9223372036854775808)
    (hc : s.m_currCount < 9223372036854775808) :
    RemainingCount s = (s.m_nextCount : Int) - (s.m_currCount : Int) := by
  unfold RemainingCount toSint64 ofSint64
  split_ifs <;> omega

/-- Counterexample to C22 as stated.  The freshly constructed scheduler with two
registered events, none of them scheduled, is reachable and has `RemainingCount()`
equal to -1, with no event that has a deadline.  State `demoPostponed` (at count 100,
`ScheduleAt(A, 50)` and then `ScheduleAt(A, 500)`) is reachable and has
`RemainingCount()` equal to -50, while the only event with a deadline is A with
base-clock deadline 500. -/
theorem C22_negative_without_overdue_counterexample :
    Reachable 255 demoTwo ∧ RemainingCount demoTwo = -1 ∧
    (∀ i, GetScheduleTarget demoTwo i = kNoDeadline) ∧
    Reachable 255 demoPostponed ∧ RemainingCount demoPostponed = -50 ∧
    demoPostponed.CurrentCount = 100 ∧
    demoPostponed.m_events.map (fun e => (e.target, e.CalcTargetScaledByReciprocal))
      = [(500, 500), (kNoDeadline, kNoDeadline)] := by
  refine ⟨demoTwo_reachable, by decide, ?_,
    Reachable.scheduleAt _ 0 500
      (Reachable.scheduleAt _ 0 50
        (Reachable.advance demoTwo demoAt100 () () 5 100 [] demoTwo_reachable rfl)
        (by decide)) (by decide),
    by decide, by decide, by decide⟩
  intro i
  match i with
  | 0 => decide
  | 1 => decide
  | n + 2 => rfl

/-- C22 (amended): `RemainingCount()` returns `NextCount() - CurrentCount()` as a signed
64-bit value (the wrapped difference; the plain difference when both counts are below
`2^63`).  When both counts are below `2^63`, so that `NextCount()` is not the sentinel,
it is negative exactly when `NextCount() < CurrentCount()`; and when moreover the cache
is exact (as after `Reset`, `LoadState` and every `Advance` that ran the firing loop, or
when the last scheduling call lowered the cached deadline of an exact cache), a negative
value means that an event is overdue: the event the cache names has a deadline and its
base-clock deadline is `NextCount()`, below `CurrentCount()`. -/
theorem C22_remaining_count_negative_means_overdue (s : Scheduler W)
    (hn : s.m_nextCount < 9223372036854775808) (hc : s.m_currCount < 9223372036854775808) :
    RemainingCount s = toSint64 (sub64 s.NextCount s.CurrentCount) ∧
    RemainingCount s = (s.NextCount : Int) - (s.CurrentCount : Int) ∧
    (RemainingCount s < 0 ↔ s.NextCount < s.CurrentCount) ∧
    (CacheExact s → RemainingCount s < 0 →
      ∃ e, s.m_events[s.m_nextEvent]? = some e ∧ e.target ≠ kNoDeadline ∧
        e.CalcTargetScaledByReciprocal = s.NextCount ∧
        e.CalcTargetScaledByReciprocal < s.CurrentCount) := by
  have hk : kNoDeadline = 18446744073709551615 := rfl
  have hsmall := RemainingCount_small s hn hc
  have hiff : RemainingCount s < 0 ↔ s.NextCount < s.CurrentCount := by
    rw [hsmall]
    show (s.m_nextCount : Int) - (s.m_currCount : Int) < 0 ↔ s.m_nextCount < s.m_currCount
    omega
  refine ⟨RemainingCount_eq s, hsmall, hiff, ?_⟩
  intro hx hneg
  have hlt : s.m_nextCount < s.m_currCount := hiff.1 hneg
  obtain ⟨e, he, ha, hcalc, _⟩ := hx.2.2.2 (by omega)
  exact ⟨e, he, ha, hcalc, by rw [hcalc]; exact hlt⟩

/-- Witness for C22: `demoOverdue`, at count 100 with event A scheduled at 50. -/
theorem C22_remaining_count_negative_means_overdue_witness :
    RemainingCount demoOverdue = -50 ∧
    ∃ e, demoOverdue.m_events[demoOverdue.m_nextEvent]? = some e ∧
      e.target ≠ kNoDeadline ∧ e.CalcTargetScaledByReciprocal = demoOverdue.NextCount ∧
      e.CalcTargetScaledByReciprocal < demoOverdue.CurrentCount :=
  have h := C22_remaining_count_negative_means_overdue demoOverdue (by decide) (by decide)
  ⟨by decide,
   h.2.2.2 (show CacheExact (RecalcSchedule demoOverdue) from RecalcSchedule_exact demoOverdue)
     (by decide)⟩

end Scheduler

/-! ## The example scenario -/

namespace Scheduler

variable {W : Type}

/-- The two `Advance` calls of the example, from a state in which slot 0 holds the only
deadline, 100 on a 1:1 clock, the counter is 0, and the cache names slot 0. -/
theorem scenario_core (s2 : Scheduler W) (cb : W → EventContext × W) (w : W)
    (hcb : ∀ w, (cb w).1.reschedule = false)
    (h0 : s2.m_events[0]? =
      some { target := 100, countNumerator := 1, countDenominator := 1, callback := cb })
    (hrest : ∀ (j : Nat) (e : Event W), j ≠ 0 → s2.m_events[j]? = some e →
      e.target = kNoDeadline)
    (hc : s2.m_currCount = 0) (hnc : s2.m_nextCount = 100) (hne : s2.m_nextEvent = 0) :
    ∃ s3, (∀ fuel, Advance fuel 50 s2 w = some (s3, w, [])) ∧ RemainingCount s3 = 50 ∧
      ∃ s4, (∀ fuel, 2 ≤ fuel →
          Advance fuel 60 s3 w = some (s4, (cb w).2, [{ id := 0, deadline := 100 }])) ∧
        s4.CurrentCount = 110 ∧ IsScheduled s4 0 = false ∧ s4.NextCount = kNoDeadline := by
  have hk : kNoDeadline = 18446744073709551615 := rfl
  have hlen : 0 < s2.m_events.length := by
    rcases List.getElem?_eq_some.1 h0 with ⟨hl, _⟩
    exact hl
  have h50 : add64 s2.m_currCount 50 = 50 := by rw [hc]; rfl
  refine ⟨{ s2 with m_currCount := add64 s2.m_currCount 50 }, ?_, ?_, ?_⟩
  · intro fuel
    unfold Advance
    rw [if_neg (by rw [h50, hnc]; decide)]
  · rw [RemainingCount_small _ (by show s2.m_nextCount < _; rw [hnc]; decide)
      (by show add64 s2.m_currCount 50 < _; rw [h50]; decide)]
    show (s2.m_nextCount : Int) - (add64 s2.m_currCount 50 : Nat) = 50
    rw [hnc, h50]
    rfl
  · have h110 : add64 (add64 s2.m_currCount 50) 60 = 110 := by rw [h50]; rfl
    obtain ⟨s4, w4, fired, hb⟩ := ExecuteBody_some
      ({ s2 with m_currCount := add64 (add64 s2.m_currCount 50) 60 } : Scheduler W) w _
      (by show s2.m_events[s2.m_nextEvent]? = _
          rw [hne]; exact h0)
    obtain ⟨e, e1, he, hs4, hn1, hd1, hcb1, hcase⟩ := ExecuteBody_spec _ _ _ _ _ hb
    have he2 : s2.m_events[s2.m_nextEvent]? = some e := he
    rw [hne, h0] at he2
    simp only [Option.some.injEq] at he2
    subst he2
    have hsc : Event.scaledCount
        ({ target := 100, countNumerator := 1, countDenominator := 1, callback := cb }
          : Event W) 110 = 110 := scaledCount_one _ _ rfl rfl (by decide)
    have hcalc : Event.CalcTargetScaledByReciprocal
        ({ target := 100, countNumerator := 1, countDenominator := 1, callback := cb }
          : Event W) = 100 :=
      calcTarget_one _ rfl rfl (show (100 : Nat) < 18446744073709551616 by decide)
    have hcur : ({ s2 with m_currCount := add64 (add64 s2.m_currCount 50) 60 }
        : Scheduler W).m_currCount = 110 := h110
    rw [hcur, hsc] at hcase
    rcases hcase with ⟨_, hf, hw, ht⟩ | ⟨hnd, _⟩
    swap
    · exact absurd (show (100 : Nat) ≤ 110 by decide) hnd
    rw [hcalc] at hf
    rw [hcb w] at ht
    simp only [Bool.false_eq_true, if_false] at ht
    have hne4 : ({ s2 with m_currCount := add64 (add64 s2.m_currCount 50) 60 }
        : Scheduler W).m_nextEvent = 0 := hne
    rw [hne4] at hs4 hf
    have hev4 : s4.m_events = s2.m_events.set 0 e1 := by rw [hs4]; rfl
    have hall : ∀ x ∈ s4.m_events, x.target = kNoDeadline := by
      intro x hx
      obtain ⟨j, hj⟩ := List.mem_iff_getElem?.1 hx
      rw [hev4] at hj
      by_cases hj0 : j = 0
      · subst hj0
        rw [List.getElem?_set_self hlen] at hj
        simp only [Option.some.injEq] at hj
        rw [← hj]; exact ht
      · rw [List.getElem?_set_ne (Ne.symm hj0)] at hj
        exact hrest j x hj0 hj
    have hnc4 : s4.m_nextCount = kNoDeadline := by
      have h1 : s4.m_nextCount = minDeadline s4.m_events := by
        rw [hs4]; exact RecalcSchedule_nextCount _
      rw [h1]
      exact minDeadline_all_inactive _ hall
    have hcur4 : s4.m_currCount = 110 := by rw [hs4]; exact h110
    refine ⟨s4, ?_, hcur4, ?_, hnc4⟩
    · intro fuel hfuel
      obtain ⟨f, rfl⟩ : ∃ f, fuel = f + 2 := ⟨fuel - 2, by omega⟩
      unfold Advance
      rw [if_pos (by rw [h110]; show s2.m_nextCount ≤ _; rw [hnc]; decide)]
      rw [Execute, if_pos (by show s2.m_nextCount ≤ add64 (add64 s2.m_currCount 50) 60
                              rw [hnc, h110]; decide), hb]
      simp only
      rw [Execute, if_neg (by rw [hnc4, hcur4]; decide)]
      simp only [hw, hf, List.append_nil]
    · unfold IsScheduled
      rw [hev4, List.getElem?_set_self hlen]
      simp only
      rw [if_pos ht]

/-- The example on any state `s0` that looks like a freshly constructed scheduler:
counter 0, no deadline in any slot, cached deadline the sentinel, no event registered
and user ID 1 free. -/
theorem scenario_from_fresh (k : Nat) (s0 : Scheduler W) (e0 : Event W)
    (cb : W → EventContext × W) (w : W) (hcb : ∀ w, (cb w).1.reschedule = false)
    (hc0 : s0.m_currCount = 0) (hnc0 : s0.m_nextCount = kNoDeadline)
    (hidx : s0.m_nextEventIndex = 0) (hptr : s0.m_eventPtrs[1]? = some k)
    (hslot : s0.m_events[0]? = some e0)
    (hidle : ∀ (j : Nat) (e : Event W), s0.m_events[j]? = some e → e.target = kNoDeadline) :
    ∃ s1, RegisterEvent k s0 1 cb = some (s1, 0) ∧ s1.CurrentCount = 0 ∧
      ∃ s3, (∀ fuel, Advance fuel 50 (ScheduleFromNow s1 0 100) w = some (s3, w, [])) ∧
        RemainingCount s3 = 50 ∧
        ∃ s4, (∀ fuel, 2 ≤ fuel →
            Advance fuel 60 s3 w = some (s4, (cb w).2, [{ id := 0, deadline := 100 }])) ∧
          invocations 0 [{ id := 0, deadline := 100 }] = 1 ∧
          s4.CurrentCount = 110 ∧ IsScheduled s4 0 = false := by
  have hk : kNoDeadline = 18446744073709551615 := rfl
  have hreg : ∃ s1, RegisterEvent k s0 1 cb = some (s1, 0) := by
    unfold RegisterEvent
    rw [hptr, hidx, hslot]
    simp
  obtain ⟨s1, hs1⟩ := hreg
  obtain ⟨_, _, _, _, _, _, _, hc1, hnc1, _, event, hevent, hev1⟩ :=
    RegisterEvent_spec k _ s1 1 0 cb hs1
  rw [hidx] at hevent hev1
  rw [hslot] at hevent
  simp only [Option.some.injEq] at hevent
  subst hevent
  have hlen1 : 0 < s0.m_events.length := by
    rcases List.getElem?_eq_some.1 hslot with ⟨hl, _⟩
    exact hl
  have ht0 : e0.target = kNoDeadline := hidle 0 e0 hslot
  have he1 : s1.m_events[0]? = some
      { target := kNoDeadline, countNumerator := 1, countDenominator := 1, callback := cb } := by
    rw [hev1, List.getElem?_set_self hlen1, ← ht0]
  have hrest1 : ∀ (j : Nat) (e : Event W), j ≠ 0 → s1.m_events[j]? = some e →
      e.target = kNoDeadline := by
    intro j e hj hje
    rw [hev1, List.getElem?_set_ne (Ne.symm hj)] at hje
    exact hidle j e hje
  have hcur1 : s1.m_currCount = 0 := by rw [hc1]; exact hc0
  have hsc0 : Event.scaledCount
      ({ target := kNoDeadline, countNumerator := 1, countDenominator := 1, callback := cb }
        : Event W) 0 = 0 :=
    scaledCount_one _ _ rfl rfl (show (0 : Nat) < 18446744073709551616 by decide)
  have hsfn : ScheduleFromNow s1 0 100 = ScheduleEvent s1 0 100 := by
    unfold ScheduleFromNow
    rw [he1]
    simp only
    rw [hcur1, hsc0]
    have h100 : add64 0 100 = 100 := by decide
    rw [h100]
  obtain ⟨g1, _, g3, g4, g5, _⟩ := ScheduleEvent_full s1 0 100 _ he1
  obtain ⟨_, _, _, _, g6⟩ := ScheduleEvent_spec s1 0 100 _ he1
  have hcalc : Event.CalcTargetScaledByReciprocal
      ({ target := 100, countNumerator := 1, countDenominator := 1, callback := cb }
        : Event W) = 100 :=
    calcTarget_one _ rfl rfl (show (100 : Nat) < 18446744073709551616 by decide)
  have hnc2 : (ScheduleEvent s1 0 100).m_nextCount = 100 := by
    have h3 : (ScheduleEvent s1 0 100).m_nextCount = min s1.m_nextCount
        (Event.CalcTargetScaledByReciprocal
          ({ target := 100, countNumerator := 1, countDenominator := 1, callback := cb }
            : Event W)) := g3
    rw [h3, hcalc, hnc1, hnc0]
    exact Nat.min_eq_right (show 100 ≤ kNoDeadline by decide)
  have hne2 : (ScheduleEvent s1 0 100).m_nextEvent = 0 := by
    rcases g6 with ⟨h1, _⟩ | ⟨_, h2⟩
    · rw [hnc2, hnc1, hnc0] at h1
      exact absurd h1 (by decide)
    · exact h2
  obtain ⟨s3, a1, a2, s4, a3, a4, a5, _⟩ := scenario_core (ScheduleEvent s1 0 100) cb w hcb g1
    (fun j e hj hje => hrest1 j e hj (by rw [← g4 j hj]; exact hje))
    (by rw [show (ScheduleEvent s1 0 100).m_currCount = s1.m_currCount from g5]; exact hcur1)
    hnc2 hne2
  refine ⟨s1, hs1, hcur1, s3, ?_, a2, s4, a3, ?_, a4, a5⟩
  · rw [hsfn]; exact a1
  · rw [invocations_single, if_pos rfl]

/-- C23 (example scenario): on a freshly constructed scheduler, whatever its table size
(at least one slot) and the uninitialised contents of its tables, `RegisterEvent(1, ..)`
with a callback that does not reschedule returns the handle A = 0 on a 1:1 clock at
`CurrentCount() == 0`; after `ScheduleFromNow(A, 100)`, `Advance(50)` returns without
invoking any callback and `RemainingCount() == 50`; the following `Advance(60)` returns
having invoked the callback of A exactly once and no other callback, with
`CurrentCount() == 110` and `IsScheduled(A) == false`. -/
theorem C23_example_scenario (k n : Nat) (events : List (Event W)) (userIDs : List Nat)
    (cb : W → EventContext × W) (w : W) (hn : 1 < n) (hev : events ≠ [])
    (hcb : ∀ w, (cb w).1.reschedule = false) :
    ∃ s1, RegisterEvent k (create k n events userIDs) 1 cb = some (s1, 0) ∧
      s1.CurrentCount = 0 ∧
      ∃ s3, (∀ fuel, Advance fuel 50 (ScheduleFromNow s1 0 100) w = some (s3, w, [])) ∧
        RemainingCount s3 = 50 ∧
        ∃ s4, (∀ fuel, 2 ≤ fuel →
            Advance fuel 60 s3 w = some (s4, (cb w).2, [{ id := 0, deadline := 100 }])) ∧
          invocations 0 [{ id := 0, deadline := 100 }] = 1 ∧
          s4.CurrentCount = 110 ∧ IsScheduled s4 0 = false := by
  have hpos : 0 < events.length := List.length_pos.2 hev
  have h0 : events[0]? = some (events.get ⟨0, hpos⟩) := List.getElem?_eq_getElem hpos
  obtain ⟨hc0, hnc0, _, hget0, _, hmap0, _, _, _, _, _⟩ := Reset_spec k
    ({ m_currCount := 0, m_nextCount := 0, m_nextEvent := 0, m_events := events,
       m_userIDs := userIDs, m_nextEventIndex := 0,
       m_eventPtrs := List.replicate n k } : Scheduler W)
  have hs0 : create k n events userIDs = Reset
    ({ m_currCount := 0, m_nextCount := 0, m_nextEvent := 0, m_events := events,
       m_userIDs := userIDs, m_nextEventIndex := 0,
       m_eventPtrs := List.replicate n k } : Scheduler W) := rfl
  rw [← hs0] at hc0 hnc0 hget0 hmap0
  unfold CurrentCount at hc0
  unfold NextCount at hnc0
  have hptr : (create k n events userIDs).m_eventPtrs[1]? = some k := by
    show (List.replicate n k)[1]? = some k
    rw [List.getElem?_replicate, if_pos hn]
  have hidle : ∀ (j : Nat) (e : Event W),
      (create k n events userIDs).m_events[j]? = some e → e.target = kNoDeadline := by
    intro j e hje
    have := hget0 j
    unfold GetScheduleTarget at this
    rw [hje] at this
    exact this
  have hidx : (create k n events userIDs).m_nextEventIndex = 0 := rfl
  have hslot := hmap0 0 _ h0
  exact scenario_from_fresh k (create k n events userIDs) _ cb w hcb hc0 hnc0 hidx hptr
    hslot hidle

/-- Witness for C23: the scenario on `demoFresh`, a scheduler with two slots. -/
theorem C23_example_scenario_witness :
    ∃ s1, RegisterEvent 255 demoFresh 1 oneShot = some (s1, 0) ∧ s1.CurrentCount = 0 ∧
      ∃ s3, (∀ fuel, Advance fuel 50 (ScheduleFromNow s1 0 100) () = some (s3, (), [])) ∧
        RemainingCount s3 = 50 ∧
        ∃ s4, (∀ fuel, 2 ≤ fuel →
            Advance fuel 60 s3 () = some (s4, (), [{ id := 0, deadline := 100 }])) ∧
          invocations 0 [{ id := 0, deadline := 100 }] = 1 ∧
          s4.CurrentCount = 110 ∧ IsScheduled s4 0 = false :=
  C23_example_scenario 255 4 _ [0, 0] oneShot () (by decide) (by simp) (fun _ => rfl)

end Scheduler

/-! ## Assertions of `RegisterEvent` -/

namespace Scheduler

variable {W : Type}

/-- Model `RegisterEvent` has a result exactly when the user ID is free and the next
slot index is inside the table. -/
theorem RegisterEvent_some (k : Nat) (s : Scheduler W) (userID : Nat)
    (cb : W → EventContext × W) (hp : s.m_eventPtrs[userID]? = some k)
    (hlt : s.m_nextEventIndex < s.m_events.length) :
    ∃ s1, RegisterEvent k s userID cb = some (s1, s.m_nextEventIndex) := by
  unfold RegisterEvent
  rw [hp, List.getElem?_eq_getElem hlt]
  simp

theorem RegisterEvent_of_registered (k : Nat) (s : Scheduler W) (userID : Nat)
    (cb : W → EventContext × W) (h : IsRegistered k s userID) :
    RegisterEvent k s userID cb = none := by
  obtain ⟨idx, hp, hne⟩ := h
  unfold RegisterEvent
  rw [hp]
  cases s.m_events[s.m_nextEventIndex]? with
  | none => rfl
  | some event =>
    simp only
    rw [if_neg hne]

theorem RegisterEvent_of_full (k : Nat) (s : Scheduler W) (userID : Nat)
    (cb : W → EventContext × W) (h : s.m_events.length ≤ s.m_nextEventIndex) :
    RegisterEvent k s userID cb = none := by
  unfold RegisterEvent
  rw [List.getElem?_eq_none h]
  cases s.m_eventPtrs[userID]? <;> rfl

/-- C25, the code at the failing input.  In `demoTwo` both slots of a table of size 2
are registered and user ID 3 is free; with `EventID` values up to 255 both assertions
of `RegisterEvent(3, ..)` hold, and the slot index the call goes on to store to is 2,
outside `m_events` and `m_userIDs`.  In general: whenever every slot is registered, the
user ID is free and the table size is at most the largest `EventID`, both assertions
hold and the index used is outside the table; the second assertion fails only once
`m_nextEventIndex` exceeds the largest `EventID`. -/
theorem C25_exhausted_table_passes_asserts :
    kNumScheduledEvents demoTwo = 2 ∧ demoTwo.m_nextEventIndex = 2 ∧
    demoTwo.m_eventPtrs[3]? = some 255 ∧
    RegisterEventAsserts 255 255 demoTwo 3 = true ∧
    demoTwo.m_events[demoTwo.m_nextEventIndex]? = none ∧
    demoTwo.m_userIDs[demoTwo.m_nextEventIndex]? = none ∧
    (∀ (k maxEventID userID : Nat) (s : Scheduler Unit),
      s.m_eventPtrs[userID]? = some k →
      s.m_nextEventIndex = kNumScheduledEvents s → kNumScheduledEvents s ≤ maxEventID →
      RegisterEventAsserts k maxEventID s userID = true ∧
      s.m_events[s.m_nextEventIndex]? = none) ∧
    (∀ (k maxEventID userID : Nat) (s : Scheduler Unit),
      RegisterEventAsserts k maxEventID s userID = true →
      s.m_nextEventIndex ≤ maxEventID) := by
  refine ⟨rfl, rfl, rfl, by decide, rfl, rfl, ?_, ?_⟩
  · intro k maxEventID userID s hp hfull hle
    refine ⟨?_, ?_⟩
    · unfold RegisterEventAsserts
      rw [hp]
      simp only [decide_True, Bool.true_and, decide_eq_true_eq]
      omega
    · rw [hfull]
      exact List.getElem?_eq_none (Nat.le_refl _)
  · intro k maxEventID userID s h
    unfold RegisterEventAsserts at h
    cases hp : s.m_eventPtrs[userID]? with
    | none => rw [hp] at h; simp at h
    | some ptr =>
      rw [hp] at h
      simp only [Bool.and_eq_true, decide_eq_true_eq] at h
      exact h.2

/-- C26: `RegisterEvent` fails its first assertion whenever the user ID is already
registered, and the call then ends with the scheduler as it was, so the existing
mapping of the user ID and the registered event are unchanged.  For a user ID that is
not registered, while a slot remains (and the slot index is a value of `EventID`), both
assertions hold and the call returns the next slot index as handle, maps the user ID to
it and leaves the mapping of every other user ID unchanged.  In a state with consistent
tables the user ID stored for any registered slot is registered in this sense. -/
theorem C26_duplicate_rejected_fresh_accepted (k maxEventID : Nat) (s : Scheduler W)
    (userID : Nat) (cb : W → EventContext × W) :
    (IsRegistered k s userID →
      RegisterEventAsserts k maxEventID s userID = false ∧
      RegisterEventChecked k maxEventID s userID cb = (s, none)) ∧
    (s.m_eventPtrs[userID]? = some k → s.m_nextEventIndex < kNumScheduledEvents s →
      s.m_nextEventIndex ≤ maxEventID →
      RegisterEventAsserts k maxEventID s userID = true ∧
      ∃ s1, RegisterEventChecked k maxEventID s userID cb = (s1, some s.m_nextEventIndex) ∧
        s1.m_eventPtrs[userID]? = some s.m_nextEventIndex ∧
        (∀ u, u ≠ userID → s1.m_eventPtrs[u]? = s.m_eventPtrs[u]?) ∧
        (∀ i, i ≠ s.m_nextEventIndex → s1.m_events[i]? = s.m_events[i]?)) ∧
    (RegistrationInv k s → s.m_events.length ≤ k →
      ∀ i, i < s.m_nextEventIndex → s.m_userIDs[i]? = some userID →
        IsRegistered k s userID) := by
  refine ⟨?_, ?_, ?_⟩
  · intro hreg
    obtain ⟨idx, hp, hne⟩ := hreg
    have ha : RegisterEventAsserts k maxEventID s userID = false := by
      unfold RegisterEventAsserts
      rw [hp]
      simp [hne]
    refine ⟨ha, ?_⟩
    unfold RegisterEventChecked
    rw [ha]
    simp
  · intro hp hlt hle
    have ha : RegisterEventAsserts k maxEventID s userID = true := by
      unfold RegisterEventAsserts
      rw [hp]
      simp [hle]
    obtain ⟨s1, hs1⟩ := RegisterEvent_some k s userID cb hp hlt
    obtain ⟨_, _, _, hptrs, _, _, _, _, _, _, event, _, hev⟩ :=
      RegisterEvent_spec k s s1 userID _ cb hs1
    have hu : userID < s.m_eventPtrs.length := by
      rcases List.getElem?_eq_some.1 hp with ⟨hl, _⟩
      exact hl
    refine ⟨ha, s1, ?_, ?_, ?_, ?_⟩
    · unfold RegisterEventChecked
      rw [ha, hs1]
      simp
    · rw [hptrs, List.getElem?_set_self hu]
    · intro u hne
      rw [hptrs, List.getElem?_set_ne (Ne.symm hne)]
    · intro i hne
      rw [hev, List.getElem?_set_ne (Ne.symm hne)]
  · intro hinv hk i hi hu
    obtain ⟨hle, _, h3⟩ := hinv
    exact ⟨i, h3 i userID hi hu, by omega⟩

/-- Witness for C26: in `demoTwo` user ID 1 is registered and is rejected; in `demoOne`
user ID 2 is free and is accepted with handle 1. -/
theorem C26_duplicate_rejected_fresh_accepted_witness :
    RegisterEventChecked 255 255 demoTwo 1 oneShot = (demoTwo, none) ∧
    ∃ s1, RegisterEventChecked 255 255 demoOne 2 oneShot = (s1, some 1) ∧
      s1.m_eventPtrs[2]? = some 1 :=
  ⟨((C26_duplicate_rejected_fresh_accepted 255 255 demoTwo 1 oneShot).1
      ⟨0, rfl, by decide⟩).2,
   by
    obtain ⟨_, s1, h1, h2, _⟩ :=
      (C26_duplicate_rejected_fresh_accepted 255 255 demoOne 2 oneShot).2.1 rfl
        (by decide) (by decide)
    exact ⟨s1, h1, h2⟩⟩

end Scheduler

/-! ## Use through registered handles -/

namespace Scheduler

variable {W : Type}

theorem SetEventCallback_effect (s : Scheduler W) (id : Nat) (cb : W → EventContext × W) :
    SlotEffect s (SetEventCallback s id cb) id := by
  unfold SetEventCallback
  cases s.m_events[id]? with
  | none => exact ⟨fun _ _ => rfl, Or.inl rfl⟩
  | some e =>
    refine ⟨fun j hj => ?_, Or.inl rfl⟩
    show (s.m_events.set id _)[j]? = _
    rw [List.getElem?_set_ne (Ne.symm hj)]

theorem Cancel_effect (s : Scheduler W) (id : Nat) : SlotEffect s (Cancel s id) id := by
  unfold Cancel
  cases s.m_events[id]? with
  | none => exact ⟨fun _ _ => rfl, Or.inl rfl⟩
  | some e =>
    refine ⟨fun j hj => ?_, Or.inl rfl⟩
    show (s.m_events.set id _)[j]? = _
    rw [List.getElem?_set_ne (Ne.symm hj)]

theorem ScheduleEvent_effect (s : Scheduler W) (id target : Nat) :
    SlotEffect s (ScheduleEvent s id target) id := by
  cases he : s.m_events[id]? with
  | none =>
    unfold ScheduleEvent
    rw [he]
    exact ⟨fun _ _ => rfl, Or.inl rfl⟩
  | some e =>
    obtain ⟨h1, _, _, _, h5⟩ := ScheduleEvent_spec s id target e he
    refine ⟨fun j hj => ?_, ?_⟩
    · rw [h1, List.getElem?_set_ne (Ne.symm hj)]
    · rcases h5 with ⟨_, h⟩ | ⟨_, h⟩
      · exact Or.inl h
      · exact Or.inr (Or.inl h)

theorem ScheduleFromNow_effect (s : Scheduler W) (id interval : Nat) :
    SlotEffect s (ScheduleFromNow s id interval) id := by
  unfold ScheduleFromNow
  cases s.m_events[id]? with
  | none => exact ⟨fun _ _ => rfl, Or.inl rfl⟩
  | some e => exact ScheduleEvent_effect s id _

theorem SetEventCountFactor_effect (s : Scheduler W) (id num den : Nat) :
    SlotEffect s (SetEventCountFactor s id num den) id := by
  cases he : s.m_events[id]? with
  | none =>
    unfold SetEventCountFactor
    rw [he]
    exact ⟨fun _ _ => rfl, Or.inl rfl⟩
  | some e =>
    by_cases hpend : e.target ≠ kNoDeadline
    · rw [SetEventCountFactor_pending s id num den e he hpend]
      split
      · refine ⟨fun j hj => ?_, Or.inr (Or.inr (RecalcSchedule_exact _))⟩
        show (s.m_events.set id _)[j]? = _
        rw [List.getElem?_set_ne (Ne.symm hj)]
      · refine ⟨fun j hj => ?_, Or.inl rfl⟩
        show (s.m_events.set id _)[j]? = _
        rw [List.getElem?_set_ne (Ne.symm hj)]
    · unfold SetEventCountFactor
      rw [he]
      simp only [hpend, if_false]
      refine ⟨fun j hj => ?_, Or.inl rfl⟩
      show (s.m_events.set id _)[j]? = _
      rw [List.getElem?_set_ne (Ne.symm hj)]

/-- One step of the invariant: the registration tables are kept, the slots from
`m_nextEventIndex` on are unchanged, and the cached index is the old one, a registered
slot, or the result of a rescan. -/
theorem HandleInv_step (k : Nat) (s s1 : Scheduler W) (hinv : HandleInv k s)
    (hframe : SameRegistration s s1)
    (hev : ∀ i, s.m_nextEventIndex ≤ i → s1.m_events[i]? = s.m_events[i]?)
    (hne : s1.m_nextEvent = s.m_nextEvent ∨ s1.m_nextEvent < s.m_nextEventIndex ∨
      CacheExact s1) : HandleInv k s1 := by
  obtain ⟨hidle, hcache, hptr⟩ := hinv
  obtain ⟨f1, _, f3, f4⟩ := hframe
  have hidle1 : ∀ (i : Nat) (e : Event W), s1.m_nextEventIndex ≤ i →
      s1.m_events[i]? = some e → e.target = kNoDeadline := by
    intro i e hi he
    rw [f3] at hi
    rw [hev i hi] at he
    exact hidle i e hi he
  refine ⟨hidle1, ?_, ?_⟩
  · rw [f3, f4]
    rcases hne with h | h | hx
    · rw [h]; exact hcache
    · exact Or.inl h
    · by_cases hs : s1.m_nextCount = kNoDeadline
      · right
        rw [hx.2.2.1 hs, f4]
      · left
        have hk : kNoDeadline = 18446744073709551615 := rfl
        have hle := hx.2.1
        obtain ⟨e, he, ha, _⟩ := hx.2.2.2 (by omega)
        by_contra hcon
        exact ha (hidle1 _ e (by rw [f3]; omega) he)
  · intro u idx hu hne2
    rw [f1] at hu
    rw [f3]
    exact hptr u idx hu hne2

theorem HandleInv_slot (k : Nat) (s s1 : Scheduler W) (id : Nat) (hinv : HandleInv k s)
    (hid : id < s.m_nextEventIndex) (hframe : SameRegistration s s1)
    (heff : SlotEffect s s1 id) : HandleInv k s1 := by
  refine HandleInv_step k s s1 hinv hframe (fun i hi => heff.1 i (by omega)) ?_
  rcases heff.2 with h | h | h
  · exact Or.inl h
  · exact Or.inr (Or.inl (by rw [h]; exact hid))
  · exact Or.inr (Or.inr h)

theorem HandleInv_reset (k : Nat) (s : Scheduler W)
    (hptr : ∀ (u idx : Nat), s.m_eventPtrs[u]? = some idx → idx ≠ k →
      idx < s.m_nextEventIndex) : HandleInv k (Reset s) := by
  obtain ⟨_, _, hne, hget, _, _, hlen, _, _, _, _⟩ := Reset_spec k s
  refine ⟨?_, Or.inr (by rw [hne, hlen]), hptr⟩
  intro i e _ he
  have := hget i
  unfold GetScheduleTarget at this
  rw [he] at this
  exact this

theorem Execute_handleInv (k fuel : Nat) (s s2 : Scheduler W) (w w2 : W) (log : List Fired)
    (hinv : HandleInv k s) (h : Execute fuel s w = some (s2, w2, log)) : HandleInv k s2 := by
  induction fuel generalizing s w log with
  | zero => simp [Execute] at h
  | succ n ih =>
    rcases Execute_inv _ s s2 w w2 log h with
      ⟨_, hs, _, _⟩ | ⟨_, m, s1, w1, fired, log1, hm, hb, hr, _⟩
    · rw [hs]; exact hinv
    · have hm2 : m = n := by omega
      subst hm2
      obtain ⟨e, e1, he, hs1, _⟩ := ExecuteBody_spec s s1 w w1 fired hb
      have hlt : s.m_nextEvent < s.m_events.length := by
        rcases List.getElem?_eq_some.1 he with ⟨hl, _⟩
        exact hl
      have hreg : s.m_nextEvent < s.m_nextEventIndex := by
        rcases hinv.2.1 with h1 | h1
        · exact h1
        · omega
      have hinv1 : HandleInv k s1 := by
        refine HandleInv_step k s s1 hinv (ExecuteBody_frame s s1 w w1 fired hb) ?_
          (Or.inr (Or.inr (by rw [hs1]; exact RecalcSchedule_exact _)))
        intro i hi
        rw [hs1]
        show (s.m_events.set s.m_nextEvent e1)[i]? = _
        rw [List.getElem?_set_ne (by omega)]
      exact ih s1 w1 log1 hinv1 hr

/-- A completed loop of `LoadState` found a registered event for every entry. -/
theorem LoadEvents_valid (k : Nat) (ptrs : List Nat) (entries : List EventState)
    (events events1 : List (Event W)) (h : LoadEvents k ptrs entries events = some events1) :
    ∀ entry ∈ entries, ∃ idx, ptrs[entry.id]? = some idx ∧ idx ≠ k := by
  induction entries generalizing events with
  | nil => intro entry hmem; simp at hmem
  | cons entry rest ih =>
    rw [LoadEvents] at h
    cases hp : ptrs[entry.id]? with
    | none => rw [hp] at h; simp at h
    | some idx0 =>
      rw [hp] at h
      simp only at h
      by_cases hk : idx0 = k
      · rw [if_pos hk] at h; simp at h
      · rw [if_neg hk] at h
        cases hev : events[idx0]? with
        | none => rw [hev] at h; simp at h
        | some ev =>
          rw [hev] at h
          simp only at h
          intro e2 hmem
          rcases List.mem_cons.1 hmem with rfl | hmem2
          · exact ⟨idx0, hp, hk⟩
          · exact ih _ h e2 hmem2

theorem LoadState_handleInv (k : Nat) (s s1 : Scheduler W) (state : SchedulerState)
    (hinv : HandleInv k s) (h : LoadState k s state = some s1) : HandleInv k s1 := by
  have hframe := LoadState_frame k s s1 state h
  unfold LoadState at h
  cases hev : LoadEvents k s.m_eventPtrs state.events s.m_events with
  | none => rw [hev] at h; simp at h
  | some events1 =>
    rw [hev] at h
    simp only [Option.some.injEq] at h
    have hvalid := LoadEvents_valid k _ _ _ _ hev
    have hlen := LoadEvents_length k _ _ _ _ hev
    obtain ⟨hkeep, _⟩ := LoadEvents_spec k _ _ _ _ hev
    refine HandleInv_step k s s1 hinv hframe ?_
      (Or.inr (Or.inr (by rw [← h]; exact RecalcSchedule_exact _)))
    intro i hi
    rw [← h]
    show events1[i]? = s.m_events[i]?
    cases hsi : s.m_events[i]? with
    | none =>
      have : s.m_events.length ≤ i := by
        by_contra hcon
        rw [List.getElem?_eq_getElem (by omega)] at hsi
        simp at hsi
      exact List.getElem?_eq_none (by omega)
    | some e =>
      obtain ⟨e1, h1, _, h3⟩ := hkeep i e hsi
      rw [h1, h3]
      intro entry hmem hcon
      obtain ⟨idx, hp, hne⟩ := hvalid entry hmem
      rw [hp] at hcon
      simp only [Option.some.injEq] at hcon
      subst hcon
      have := hinv.2.2 entry.id idx hp hne
      omega

theorem RegisterEvent_handleInv (k : Nat) (s s1 : Scheduler W) (userID id : Nat)
    (cb : W → EventContext × W) (hinv : HandleInv k s)
    (h : RegisterEvent k s userID cb = some (s1, id)) : HandleInv k s1 := by
  obtain ⟨hidle, hcache, hptr⟩ := hinv
  obtain ⟨_, hold, hlt, hptrs, _, hidx, hlen, _, _, hne, event, _, hev⟩ :=
    RegisterEvent_spec k s s1 userID id cb h
  have hu : userID < s.m_eventPtrs.length := by
    rcases List.getElem?_eq_some.1 hold with ⟨hl, _⟩
    exact hl
  refine ⟨?_, ?_, ?_⟩
  · intro i e hi he
    rw [hidx] at hi
    rw [hev, List.getElem?_set_ne (by omega)] at he
    exact hidle i e (by omega) he
  · rw [hne, hidx, hlen]
    rcases hcache with h1 | h1
    · exact Or.inl (by omega)
    · exact Or.inr h1
  · intro u idx hu2 hnek
    rw [hidx]
    rw [hptrs] at hu2
    by_cases huu : userID = u
    · subst huu
      rw [List.getElem?_set_self hu] at hu2
      simp only [Option.some.injEq] at hu2
      omega
    · rw [List.getElem?_set_ne huu] at hu2
      have := hptr u idx hu2 hnek
      omega

/-- The invariant holds in every state reached through registered handles. -/
theorem HandleReachable_inv (k : Nat) (s : Scheduler W) (hr : HandleReachable k s) :
    HandleInv k s := by
  induction hr with
  | create n events userIDs =>
    apply HandleInv_reset
    intro u idx hu hne
    have hu2 : (List.replicate n k)[u]? = some idx := hu
    rw [List.getElem?_replicate] at hu2
    split at hu2
    · simp only [Option.some.injEq] at hu2
      exact absurd hu2.symm hne
    · simp at hu2
  | registerEvent s s1 userID id cb _ hreg ih =>
    exact RegisterEvent_handleInv k s s1 userID id cb ih hreg
  | setEventCallback s id cb _ hid ih =>
    exact HandleInv_slot k s _ id ih hid (SetEventCallback_frame s id cb)
      (SetEventCallback_effect s id cb)
  | setEventCountFactor s id num den _ hid ih =>
    exact HandleInv_slot k s _ id ih hid (SetEventCountFactor_frame s id num den)
      (SetEventCountFactor_effect s id num den)
  | scheduleFromNow s id interval _ hid ih =>
    exact HandleInv_slot k s _ id ih hid (ScheduleFromNow_frame s id interval)
      (ScheduleFromNow_effect s id interval)
  | scheduleAt s id target _ hid ih =>
    exact HandleInv_slot k s _ id ih hid (ScheduleEvent_frame s id target)
      (ScheduleEvent_effect s id target)
  | cancel s id _ hid ih =>
    exact HandleInv_slot k s _ id ih hid (Cancel_frame s id) (Cancel_effect s id)
  | reset s _ ih => exact HandleInv_reset k s ih.2.2
  | advance s s1 w w1 fuel count log _ hadv ih =>
    obtain ⟨fuel1, hx⟩ := Advance_inv fuel count s s1 w w1 log hadv
    exact Execute_handleInv k fuel1 { s with m_currCount := add64 s.m_currCount count } s1
      w w1 log ih hx
  | loadState s s1 state _ hload ih =>
    exact LoadState_handleInv k s s1 state ih hload

/-- C27: on a scheduler used only through registered handles, immediately after
`RegisterEvent` returns the handle `h` the event `h` has the given callback and the clock
ratio 1:1 and is not scheduled: `GetScheduleTarget(h)` is the no-deadline sentinel and
`IsScheduled(h)` is false; `NextCount()` and `CurrentCount()` are unchanged. -/
theorem C27_registered_event_starts_unscheduled (k : Nat) (s s1 : Scheduler W)
    (userID h : Nat) (cb : W → EventContext × W) (hr : HandleReachable k s)
    (hreg : RegisterEvent k s userID cb = some (s1, h)) :
    (∃ e, s1.m_events[h]? = some e ∧ e.countNumerator = 1 ∧ e.countDenominator = 1 ∧
      e.callback = cb ∧ e.target = kNoDeadline) ∧
    GetScheduleTarget s1 h = kNoDeadline ∧ IsScheduled s1 h = false ∧
    s1.NextCount = s.NextCount ∧ s1.CurrentCount = s.CurrentCount := by
  obtain ⟨hidle, _, _⟩ := HandleReachable_inv k s hr
  obtain ⟨hid, _, hlt, _, _, _, _, hcur, hnc, _, event, hevent, hev⟩ :=
    RegisterEvent_spec k s s1 userID h cb hreg
  have ht : event.target = kNoDeadline := hidle _ event (Nat.le_refl _) hevent
  have he1 : s1.m_events[h]? = some
      { event with callback := cb, countNumerator := 1, countDenominator := 1 } := by
    rw [hev, hid, List.getElem?_set_self hlt]
  refine ⟨⟨_, he1, rfl, rfl, rfl, ht⟩, ?_, ?_, hnc, hcur⟩
  · unfold GetScheduleTarget
    rw [he1]
    exact ht
  · unfold IsScheduled
    rw [he1]
    simp only
    rw [if_pos ht]

/-- Witness for C27: the second registration on `demoOne`. -/
theorem C27_registered_event_starts_unscheduled_witness :
    GetScheduleTarget demoTwo 1 = kNoDeadline ∧ IsScheduled demoTwo 1 = false ∧
    demoTwo.NextCount = demoOne.NextCount :=
  have h := C27_registered_event_starts_unscheduled 255 demoOne demoTwo 2 1 oneShot
    (HandleReachable.registerEvent demoFresh demoOne 1 0 oneShot
      (HandleReachable.create 4 _ [0, 0]) rfl) rfl
  ⟨h.2.1, h.2.2.1, h.2.2.2.1⟩

end Scheduler

/-! ## The driving step `Saturn::Run` -/

namespace Saturn

variable {R : Type}

theorem sliceLoop_succ (debug withSlave : Bool) (ops : RunOps R) (cycles fuel e sc : Nat)
    (r : R) :
    sliceLoop debug withSlave ops cycles (fuel + 1) e sc r =
      if (debug && ops.isDebugBreakRaised (sliceBody withSlave ops cycles e sc r).2.2.1) = true
      then some (sliceBody withSlave ops cycles e sc r)
      else if (sliceBody withSlave ops cycles e sc r).1 < cycles then
        match sliceLoop debug withSlave ops cycles fuel
          (sliceBody withSlave ops cycles e sc r).1
          (sliceBody withSlave ops cycles e sc r).2.1
          (sliceBody withSlave ops cycles e sc r).2.2.1 with
        | none => none
        | some (e1, sc1, r4, rest) =>
          some (e1, sc1, r4, (sliceBody withSlave ops cycles e sc r).2.2.2 ++ rest)
      else some (sliceBody withSlave ops cycles e sc r) := rfl

theorem sliceTarget_le (cycles e : Nat) : sliceTarget cycles e ≤ cycles := by
  unfold sliceTarget
  split <;> omega

theorem sliceBody_calls (withSlave : Bool) (ops : RunOps R) (cycles e sc : Nat) (r : R) :
    (∀ c ∈ (sliceBody withSlave ops cycles e sc r).2.2.2, c.isSlice = true) ∧
    (∀ t st, Call.masterSH2Advance t st ∈ (sliceBody withSlave ops cycles e sc r).2.2.2 →
      t ≤ cycles) := by
  have ht := sliceTarget_le cycles e
  cases withSlave
  · refine ⟨?_, ?_⟩
    · intro c hc
      simp only [sliceBody, Bool.false_eq_true, if_false, List.nil_append, List.mem_cons,
        List.mem_singleton, List.not_mem_nil, or_false] at hc
      rcases hc with rfl | rfl <;> rfl
    · intro t st hc
      simp only [sliceBody, Bool.false_eq_true, if_false, List.nil_append, List.mem_cons,
        List.mem_singleton, List.not_mem_nil, or_false] at hc
      rcases hc with hc | hc
      · injection hc with h1 h2
        rw [h1]; exact ht
      · exact absurd hc (by simp)
  · refine ⟨?_, ?_⟩
    · intro c hc
      simp only [sliceBody, if_true, List.singleton_append, List.mem_cons,
        List.mem_singleton, List.not_mem_nil, or_false] at hc
      rcases hc with rfl | rfl | rfl <;> rfl
    · intro t st hc
      simp only [sliceBody, if_true, List.singleton_append, List.mem_cons,
        List.mem_singleton, List.not_mem_nil, or_false] at hc
      rcases hc with hc | hc | hc
      · injection hc with h1 h2
        rw [h1]; exact ht
      · exact absurd hc (by simp)
      · exact absurd hc (by simp)

/-- What a completed slice loop has done: only calls of the slice, every master target
within the budget, and the budget reached unless a debug break was raised. -/
theorem sliceLoop_spec (debug withSlave : Bool) (ops : RunOps R) (cycles fuel e sc : Nat)
    (r : R) (e1 sc1 : Nat) (r1 : R) (calls : List Call)
    (h : sliceLoop debug withSlave ops cycles fuel e sc r = some (e1, sc1, r1, calls)) :
    (∀ c ∈ calls, c.isSlice = true) ∧
    (∀ t st, Call.masterSH2Advance t st ∈ calls → t ≤ cycles) ∧
    (cycles ≤ e1 ∨ debug = true) := by
  induction fuel generalizing e sc r calls with
  | zero => simp [sliceLoop] at h
  | succ n ih =>
    obtain ⟨hb1, hb2⟩ := sliceBody_calls withSlave ops cycles e sc r
    rw [sliceLoop_succ] at h
    split at h
    · rename_i hb
      simp only [Option.some.injEq] at h
      have hd : debug = true := by
        cases debug
        · simp at hb
        · rfl
      rw [h] at hb1 hb2
      exact ⟨hb1, hb2, Or.inr hd⟩
    · split at h
      · cases hrec : sliceLoop debug withSlave ops cycles n
            (sliceBody withSlave ops cycles e sc r).1
            (sliceBody withSlave ops cycles e sc r).2.1
            (sliceBody withSlave ops cycles e sc r).2.2.1 with
        | none => rw [hrec] at h; simp at h
        | some res1 =>
          obtain ⟨e2, sc2, r2, rest⟩ := res1
          rw [hrec] at h
          simp only [Option.some.injEq, Prod.mk.injEq] at h
          obtain ⟨h1, h2, h3, h4⟩ := h
          subst h1 h2 h3 h4
          obtain ⟨i1, i2, i3⟩ := ih _ _ _ _ hrec
          refine ⟨?_, ?_, i3⟩
          · intro c hc
            rcases List.mem_append.1 hc with hc | hc
            · exact hb1 c hc
            · exact i1 c hc
          · intro t st hc
            rcases List.mem_append.1 hc with hc | hc
            · exact hb2 t st hc
            · exact i2 t st hc
      · rename_i hlt
        simp only [Option.some.injEq] at h
        rw [h] at hb1 hb2 hlt
        exact ⟨hb1, hb2, Or.inl (by omega)⟩

end Saturn

namespace Saturn

variable {R : Type}

end Saturn

namespace Saturn

variable {R : Type}

end Saturn

namespace Saturn

variable {R : Type}

end Saturn

namespace Scheduler

variable {W : Type}

/-- C29, the code at the failing input: `demoZeroRatioSnapshot` names the two registered
user IDs of the reachable state `demoTwo` and is accepted by `ValidateState`; after
`LoadState` the event of user ID 1 has denominator 0 and the event of user ID 2 has
numerator 0.  `ValidateState` never reads the ratio of an entry. -/
theorem C29_load_state_accepts_zero_ratio :
    Reachable 255 demoTwo ∧ IsRegistered 255 demoTwo 1 ∧ IsRegistered 255 demoTwo 2 ∧
    ValidateState 255 demoTwo demoZeroRatioSnapshot = true ∧
    (LoadState 255 demoTwo demoZeroRatioSnapshot).map
        (fun s1 => s1.m_events.map (fun e => (e.countNumerator, e.countDenominator)))
      = some [(1, 0), (0, 1)] ∧
    (∀ (k : Nat) (s : Scheduler Unit) (c : Nat) (entries : List EventState),
      ValidateState k s { currCount := c, events := entries } =
        ValidateState k s
          { currCount := c
            events := entries.map
              (fun entry => { entry with countNumerator := 0, countDenominator := 0 }) }) := by
  refine ⟨demoTwo_reachable, ⟨0, rfl, by decide⟩, ⟨1, rfl, by decide⟩, by decide,
    by decide, ?_⟩
  intro k s c entries
  unfold ValidateState
  simp only [List.all_map]
  rfl

end Scheduler

/-! ## Ratio changes: the remaining component cycles -/

namespace Scheduler

variable {W : Type}

/-- C33: `SetEventCountFactor` on an event that has a deadline writes the new ratio and a
target whose distance from the count scaled by the new ratio is, modulo `2^64`, the
distance the old target had from the count scaled by the old ratio (the scaled count
being the plain quotient `CurrentCount() * numerator / denominator` when the product
fits 64 bits); callback and `CurrentCount()` are unchanged.  On an event without a
deadline it writes the ratio only: the target stays `kNoDeadline`, every other slot and
`NextCount()`, the cached index and `CurrentCount()` are unchanged. -/
theorem C33_ratio_change_keeps_remaining (s : Scheduler W) (id numerator denominator : Nat)
    (e : Event W) (he : s.m_events[id]? = some e) :
    (e.target ≠ kNoDeadline →
      ∃ e1, (SetEventCountFactor s id numerator denominator).m_events[id]? = some e1 ∧
        e1.countNumerator = numerator ∧ e1.countDenominator = denominator ∧
        e1.callback = e.callback ∧
        (SetEventCountFactor s id numerator denominator).CurrentCount = s.CurrentCount ∧
        sub64 e1.target (mul64 s.CurrentCount numerator / denominator)
          = sub64 e.target (mul64 s.CurrentCount e.countNumerator / e.countDenominator) ∧
        (s.CurrentCount * numerator < 18446744073709551616 →
          s.CurrentCount * e.countNumerator < 18446744073709551616 →
          sub64 e1.target (s.CurrentCount * numerator / denominator)
            = sub64 e.target (s.CurrentCount * e.countNumerator / e.countDenominator))) ∧
    (e.target = kNoDeadline →
      SetEventCountFactor s id numerator denominator =
        { s with m_events := s.m_events.set id
                   { e with countNumerator := numerator, countDenominator := denominator } } ∧
      GetScheduleTarget (SetEventCountFactor s id numerator denominator) id = kNoDeadline ∧
      (∀ j, j ≠ id → (SetEventCountFactor s id numerator denominator).m_events[j]?
        = s.m_events[j]?) ∧
      (SetEventCountFactor s id numerator denominator).NextCount = s.NextCount ∧
      (SetEventCountFactor s id numerator denominator).m_nextEvent = s.m_nextEvent ∧
      (SetEventCountFactor s id numerator denominator).CurrentCount = s.CurrentCount) := by
  have hlen : id < s.m_events.length := by
    rcases List.getElem?_eq_some.1 he with ⟨hl, _⟩
    exact hl
  constructor
  · intro hpend
    have hrem : sub64 (add64 (mul64 s.m_currCount numerator / denominator)
        (sub64 e.target (e.scaledCount s.m_currCount)))
        (mul64 s.m_currCount numerator / denominator)
        = sub64 e.target (mul64 s.m_currCount e.countNumerator / e.countDenominator) :=
      rescaled_remaining_eq _ _ (sub64_lt _ _)
    have hev : (SetEventCountFactor s id numerator denominator).m_events[id]?
        = some (rescaled e s.m_currCount numerator denominator) := by
      rw [SetEventCountFactor_pending s id numerator denominator e he hpend]
      split
      · exact List.getElem?_set_self hlen
      · exact List.getElem?_set_self hlen
    have hcur : (SetEventCountFactor s id numerator denominator).m_currCount = s.m_currCount := by
      rw [SetEventCountFactor_pending s id numerator denominator e he hpend]
      split <;> rfl
    refine ⟨rescaled e s.m_currCount numerator denominator, hev, rfl, rfl, rfl, hcur, hrem, ?_⟩
    intro h1 h2
    have e1 : mul64 s.m_currCount numerator = s.m_currCount * numerator :=
      Nat.mod_eq_of_lt h1
    have e2 : mul64 s.m_currCount e.countNumerator = s.m_currCount * e.countNumerator :=
      Nat.mod_eq_of_lt h2
    have := hrem
    rw [e1, e2] at this
    show sub64 (add64 (mul64 s.m_currCount numerator / denominator)
        (sub64 e.target (e.scaledCount s.m_currCount)))
        (s.m_currCount * numerator / denominator) = _
    rw [e1]
    exact this
  · intro hun
    have heq : SetEventCountFactor s id numerator denominator =
        { s with m_events := s.m_events.set id
                   { e with countNumerator := numerator, countDenominator := denominator } } := by
      unfold SetEventCountFactor
      rw [he]
      simp only [ne_eq, hun, not_true_eq_false, if_false]
    refine ⟨heq, ?_, ?_, ?_, ?_, ?_⟩
    · rw [heq]
      unfold GetScheduleTarget
      show (match (s.m_events.set id _)[id]? with
        | some event => event.target
        | none => kNoDeadline) = kNoDeadline
      rw [List.getElem?_set_self hlen]
      exact hun
    · intro j hj
      rw [heq]
      exact List.getElem?_set_ne (Ne.symm hj)
    · rw [heq]; rfl
    · rw [heq]
    · rw [heq]; rfl

/-- Witness for C33: `SetEventCountFactor(A, 2, 1)` on `demoPending`, where event A has
target 100 on a 1:1 clock. -/
theorem C33_ratio_change_keeps_remaining_witness :
    ∃ e1, (SetEventCountFactor demoPending 0 2 1).m_events[0]? = some e1 ∧
      e1.countNumerator = 2 ∧ e1.countDenominator = 1 ∧
      sub64 e1.target (mul64 demoPending.CurrentCount 2 / 1)
        = sub64 100 (mul64 demoPending.CurrentCount 1 / 1) := by
  obtain ⟨e1, h1, h2, h3, _, _, h6, _⟩ :=
    (C33_ratio_change_keeps_remaining demoPending 0 2 1 (unitEvent 100 oneShot) rfl).1
      (by decide)
  exact ⟨e1, h1, h2, h3, h6⟩

end Scheduler

/-! ## The cache as a lower bound, operation by operation -/

namespace Scheduler

variable {W : Type}

/-- The wrapping ceiling formula never exceeds the ceiling taken over the naturals. -/
theorem calcTarget_le_ceil (e : Event W) (hp : 0 < e.countNumerator) :
    e.CalcTargetScaledByReciprocal ≤
      (e.target * e.countDenominator + e.countNumerator - 1) / e.countNumerator := by
  unfold Event.CalcTargetScaledByReciprocal
  apply Nat.div_le_div_right
  unfold sub64 add64 mul64
  generalize e.target * e.countDenominator = x
  omega

theorem Reset_lowerBound (s : Scheduler W) : CacheLowerBound (Reset s) :=
  (RecalcSchedule_exact _).1

theorem RegisterEvent_lowerBound (k : Nat) (s s1 : Scheduler W) (userID id : Nat)
    (callback : W → EventContext × W) (hlb : CacheLowerBound s)
    (hreg : RegisterEvent k s userID callback = some (s1, id))
    (hun : GetScheduleTarget s s.m_nextEventIndex = kNoDeadline) : CacheLowerBound s1 := by
  unfold RegisterEvent at hreg
  cases hp : s.m_eventPtrs[userID]? with
  | none => rw [hp] at hreg; simp at hreg
  | some ptr =>
    cases hev : s.m_events[s.m_nextEventIndex]? with
    | none => rw [hp, hev] at hreg; simp at hreg
    | some event =>
      rw [hp, hev] at hreg
      simp only at hreg
      by_cases hk : ptr = k
      · rw [if_pos hk] at hreg
        simp only [Option.some.injEq, Prod.mk.injEq] at hreg
        obtain ⟨hs1, _⟩ := hreg
        have ht : event.target = kNoDeadline := by
          unfold GetScheduleTarget at hun
          rw [hev] at hun
          exact hun
        subst hs1
        exact lowerBound_set s.m_events s.m_nextCount _ _ hlb (fun ha => absurd ht ha)
      · rw [if_neg hk] at hreg
        simp at hreg

theorem ScheduleEvent_lowerBound (s : Scheduler W) (id target : Nat)
    (hlb : CacheLowerBound s) : CacheLowerBound (ScheduleEvent s id target) := by
  cases hev : s.m_events[id]? with
  | none =>
    have : ScheduleEvent s id target = s := by
      unfold ScheduleEvent
      rw [hev]
    rw [this]
    exact hlb
  | some event =>
    obtain ⟨h1, _, h3, h4, _⟩ := ScheduleEvent_spec s id target event hev
    intro i e hi ha
    rw [h1] at hi
    exact lowerBound_set s.m_events _ id _
      (fun i e hi ha => le_trans h4 (hlb i e hi ha)) (fun _ => h3) i e hi ha

theorem ScheduleFromNow_lowerBound (s : Scheduler W) (id interval : Nat)
    (hlb : CacheLowerBound s) : CacheLowerBound (ScheduleFromNow s id interval) := by
  unfold ScheduleFromNow
  cases hev : s.m_events[id]? with
  | none => exact hlb
  | some event => exact ScheduleEvent_lowerBound s id _ hlb

theorem Cancel_lowerBound (s : Scheduler W) (id : Nat) (hlb : CacheLowerBound s) :
    CacheLowerBound (Cancel s id) := by
  unfold Cancel
  cases hev : s.m_events[id]? with
  | none => exact hlb
  | some event =>
    exact lowerBound_set s.m_events s.m_nextCount _ _ hlb (fun ha => absurd rfl ha)

theorem Advance_lowerBound (fuel count : Nat) (s s1 : Scheduler W) (w w1 : W)
    (log : List Fired) (hlb : CacheLowerBound s)
    (hadv : Advance fuel count s w = some (s1, w1, log)) : CacheLowerBound s1 := by
  obtain ⟨fuel1, hx⟩ := Advance_inv fuel count s s1 w w1 log hadv
  obtain ⟨_, _, hor, _⟩ := Execute_facts _ _ _ _ _ _ hx
  rcases hor with ⟨hs, _, _⟩ | hex
  · subst hs; exact hlb
  · exact hex.1

theorem LoadState_exact (k : Nat) (s s1 : Scheduler W) (state : SchedulerState)
    (hload : LoadState k s state = some s1) : CacheExact s1 := by
  unfold LoadState at hload
  cases hev : LoadEvents k s.m_eventPtrs state.events s.m_events with
  | none => rw [hev] at hload; simp at hload
  | some events =>
    rw [hev] at hload
    simp only [Option.some.injEq] at hload
    subst hload
    exact RecalcSchedule_exact _

/-- C34: in a state whose cached deadline is not above the base-clock deadline of any
event with a deadline, the same holds after `Reset`, after `RegisterEvent` (on a slot
that has no deadline, as every slot not yet registered has when event IDs are used only
once `RegisterEvent` has returned them), after `ScheduleAt`, `ScheduleFromNow` and
`Cancel`, after every `Advance` that returns (and an `Advance` returns when nothing
overflows and callbacks reschedule by positive intervals) and after `LoadState`;
`RecalcSchedule` keeps the events and makes the cache exact, `NextCount()` being the
minimum deadline.  The deadline of the code is at most the ceiling of
`target * denominator / numerator`, so the cache is not above that ceiling either. -/
theorem C34_cache_lower_bound_preserved (k : Nat) (s : Scheduler W)
    (hlb : CacheLowerBound s) :
    CacheLowerBound (Reset s) ∧
    (∀ (userID id : Nat) (callback : W → EventContext × W) (s1 : Scheduler W),
      RegisterEvent k s userID callback = some (s1, id) →
      GetScheduleTarget s s.m_nextEventIndex = kNoDeadline → CacheLowerBound s1) ∧
    (∀ id target, CacheLowerBound (ScheduleAt s id target)) ∧
    (∀ id interval, CacheLowerBound (ScheduleFromNow s id interval)) ∧
    (∀ id, CacheLowerBound (Cancel s id)) ∧
    (∀ (fuel count : Nat) (w w1 : W) (s1 : Scheduler W) (log : List Fired),
      Advance fuel count s w = some (s1, w1, log) → CacheLowerBound s1) ∧
    (∀ (C count : Nat) (w : W), NoOverflow C s → CallbacksProgress s → CacheIndexOk s →
      s.m_currCount + count ≤ C →
      ∃ fuel0 s1 w1 log, (∀ fuel, fuel0 ≤ fuel → Advance fuel count s w = some (s1, w1, log)) ∧
        CacheLowerBound s1) ∧
    (∀ (state : SchedulerState) (s1 : Scheduler W),
      LoadState k s state = some s1 → CacheLowerBound s1 ∧ CacheExact s1) ∧
    (CacheExact (RecalcSchedule s) ∧ (RecalcSchedule s).m_events = s.m_events ∧
      (RecalcSchedule s).NextCount = minDeadline s.m_events) ∧
    (∀ (i : Nat) (e : Event W), s.m_events[i]? = some e → e.target ≠ kNoDeadline →
      0 < e.countNumerator →
      s.NextCount ≤ (e.target * e.countDenominator + e.countNumerator - 1) / e.countNumerator) := by
  refine ⟨Reset_lowerBound s, ?_, fun id target => ScheduleEvent_lowerBound s id target hlb,
    fun id interval => ScheduleFromNow_lowerBound s id interval hlb,
    fun id => Cancel_lowerBound s id hlb, ?_, ?_, ?_, ?_, ?_⟩
  · intro userID id callback s1 hreg hun
    exact RegisterEvent_lowerBound k s s1 userID id callback hlb hreg hun
  · intro fuel count w w1 s1 log hadv
    exact Advance_lowerBound fuel count s s1 w w1 log hlb hadv
  · intro C count w hno hp hidx hC
    obtain ⟨fuel0, s1, w1, log, hall, _, _⟩ := Advance_terminates C count s w hno hp hidx hC
    exact ⟨fuel0, s1, w1, log, hall,
      Advance_lowerBound fuel0 count s s1 w w1 log hlb (hall fuel0 le_rfl)⟩
  · intro state s1 hload
    exact ⟨(LoadState_exact k s s1 state hload).1, LoadState_exact k s s1 state hload⟩
  · exact ⟨RecalcSchedule_exact s, rfl, RecalcSchedule_nextCount s⟩
  · intro i e he ha hp
    exact le_trans (hlb i e he ha) (calcTarget_le_ceil e hp)

/-- Witness for C34: `demoPending`, where event A has target 100 and the cache holds 100. -/
theorem C34_cache_lower_bound_preserved_witness :
    CacheLowerBound demoPending ∧ CacheLowerBound (Cancel demoPending 0) ∧
    CacheLowerBound (ScheduleAt demoPending 1 50) ∧
    CacheExact (RecalcSchedule demoPending) :=
  have hlb : CacheLowerBound demoPending :=
    (Reachable_invariant 255 demoPending
      (Reachable.scheduleAt demoTwo 0 100 demoTwo_reachable (by decide))).1
  have h := C34_cache_lower_bound_preserved 255 demoPending hlb
  ⟨hlb, h.2.2.2.2.1 0, h.2.2.1 1 50, h.2.2.2.2.2.2.2.2.1.1⟩

end Scheduler

/-! ## The cached index -/

namespace Scheduler

variable {W : Type}

theorem indexOk_of_same (s s1 : Scheduler W) (hc : s1.m_nextCount = s.m_nextCount)
    (he : s1.m_nextEvent = s.m_nextEvent) (hl : s1.m_events.length = s.m_events.length)
    (h : s.m_nextCount ≤ kNoDeadline ∧ CacheIndexOk s) :
    s1.m_nextCount ≤ kNoDeadline ∧ CacheIndexOk s1 := by
  refine ⟨by rw [hc]; exact h.1, ?_⟩
  intro hlt
  rw [he, hl]
  exact h.2 (by rw [← hc]; exact hlt)

theorem indexOk_of_exact (s : Scheduler W) (hx : CacheExact s) :
    s.m_nextCount ≤ kNoDeadline ∧ CacheIndexOk s :=
  ⟨hx.2.1, CacheExact_indexOk s hx⟩

theorem SetEventCountFactor_indexOk (s : Scheduler W) (id numerator denominator : Nat)
    (h : s.m_nextCount ≤ kNoDeadline ∧ CacheIndexOk s) :
    (SetEventCountFactor s id numerator denominator).m_nextCount ≤ kNoDeadline ∧
    CacheIndexOk (SetEventCountFactor s id numerator denominator) := by
  unfold SetEventCountFactor
  cases hev : s.m_events[id]? with
  | none => exact h
  | some event =>
    simp only
    split
    · split
      · exact indexOk_of_exact _ (RecalcSchedule_exact _)
      · exact indexOk_of_same s _ rfl rfl (by simp) h
    · exact indexOk_of_same s _ rfl rfl (by simp) h

theorem ScheduleEvent_indexInv (s : Scheduler W) (id target : Nat)
    (h : s.m_nextCount ≤ kNoDeadline ∧ CacheIndexOk s) :
    (ScheduleEvent s id target).m_nextCount ≤ kNoDeadline ∧
    CacheIndexOk (ScheduleEvent s id target) := by
  cases hev : s.m_events[id]? with
  | none =>
    have : ScheduleEvent s id target = s := by
      unfold ScheduleEvent
      rw [hev]
    rw [this]
    exact h
  | some event =>
    obtain ⟨_, _, _, h4, _⟩ := ScheduleEvent_spec s id target event hev
    exact ⟨le_trans h4 h.1, ScheduleEvent_indexOk s id target event hev h.2⟩

/-- The cached deadline is at most the sentinel and the cached index is in range when
the deadline is below it, in every state of a scheduler used through its handles. -/
theorem HandleReachable_indexOk (k : Nat) (s : Scheduler W) (hr : HandleReachable k s) :
    s.m_nextCount ≤ kNoDeadline ∧ CacheIndexOk s := by
  induction hr with
  | create n events userIDs => exact indexOk_of_exact _ (RecalcSchedule_exact _)
  | registerEvent s s1 userID id callback _ hreg ih =>
    unfold RegisterEvent at hreg
    cases hp : s.m_eventPtrs[userID]? with
    | none => rw [hp] at hreg; simp at hreg
    | some ptr =>
      cases hev : s.m_events[s.m_nextEventIndex]? with
      | none => rw [hp, hev] at hreg; simp at hreg
      | some event =>
        rw [hp, hev] at hreg
        simp only at hreg
        by_cases hk : ptr = k
        · rw [if_pos hk] at hreg
          simp only [Option.some.injEq, Prod.mk.injEq] at hreg
          obtain ⟨hs1, _⟩ := hreg
          subst hs1
          exact indexOk_of_same s _ rfl rfl (by simp) ih
        · rw [if_neg hk] at hreg
          simp at hreg
  | setEventCallback s id callback _ _ ih =>
    unfold SetEventCallback
    cases hev : s.m_events[id]? with
    | none => exact ih
    | some event => exact indexOk_of_same s _ rfl rfl (by simp) ih
  | setEventCountFactor s id numerator denominator _ _ ih =>
    exact SetEventCountFactor_indexOk s id numerator denominator ih
  | scheduleFromNow s id interval _ _ ih =>
    unfold ScheduleFromNow
    cases hev : s.m_events[id]? with
    | none => exact ih
    | some event => exact ScheduleEvent_indexInv s id _ ih
  | scheduleAt s id target _ _ ih => exact ScheduleEvent_indexInv s id target ih
  | cancel s id _ _ ih =>
    unfold Cancel
    cases hev : s.m_events[id]? with
    | none => exact ih
    | some event => exact indexOk_of_same s _ rfl rfl (by simp) ih
  | reset s _ _ => exact indexOk_of_exact _ (RecalcSchedule_exact _)
  | advance s s1 w w1 fuel count log _ hadv ih =>
    obtain ⟨fuel1, hx⟩ := Advance_inv fuel count s s1 w w1 log hadv
    obtain ⟨_, _, hor, _⟩ := Execute_facts _ _ _ _ _ _ hx
    rcases hor with ⟨hs, _, _⟩ | hex
    · subst hs; exact indexOk_of_same s _ rfl rfl rfl ih
    · exact indexOk_of_exact _ hex
  | loadState s s1 state _ hload _ =>
    exact indexOk_of_exact _ (LoadState_exact k s s1 state hload)

/-- While the base counter is below the sentinel, every read of the loop of `Execute`
is in range. -/
theorem ExecuteReads_in_range (fuel : Nat) (s : Scheduler W) (w : W)
    (hcur : s.m_currCount < kNoDeadline) (hidx : CacheIndexOk s) :
    ∀ i ∈ ExecuteReads fuel s w, i < s.m_events.length := by
  induction fuel generalizing s w with
  | zero => intro i hi; simp [ExecuteReads] at hi
  | succ n ih =>
    intro i hi
    rw [ExecuteReads] at hi
    by_cases hc : s.m_currCount ≥ s.m_nextCount
    · rw [if_pos hc] at hi
      rcases List.mem_cons.1 hi with h0 | hrest
      · rw [h0]
        exact hidx (by omega)
      · cases hb : ExecuteBody s w with
        | none => rw [hb] at hrest; simp at hrest
        | some r =>
          obtain ⟨s1, w1, fired⟩ := r
          rw [hb] at hrest
          simp only at hrest
          obtain ⟨e, e1, _, hs1, _⟩ := ExecuteBody_spec s s1 w w1 fired hb
          have hx : CacheExact s1 := by rw [hs1]; exact RecalcSchedule_exact _
          have hcur1 : s1.m_currCount = s.m_currCount := by rw [hs1]; rfl
          have hlen : s1.m_events.length = s.m_events.length := by
            rw [hs1]
            show (s.m_events.set s.m_nextEvent e1).length = s.m_events.length
            exact List.length_set _ _ _
          have := ih s1 w1 (by rw [hcur1]; exact hcur) (CacheExact_indexOk s1 hx) i hrest
          omega
    · rw [if_neg hc] at hi
      simp at hi

/-- Counterexample to C35 as stated: `demoTwo` is reachable, has no active event, and
its cached index is 2, the size of its table.  `Advance(2^64 - 1)` raises the counter to
the sentinel, `m_currCount >= m_nextCount` holds, and `Execute` reads `m_events[2]`; the
model has no result for this call, whatever the fuel. -/
theorem C35_counter_at_sentinel_counterexample :
    HandleReachable 255 demoTwo ∧ Reachable 255 demoTwo ∧
    demoTwo.NextCount = kNoDeadline ∧ demoTwo.m_nextEvent = 2 ∧
    kNumScheduledEvents demoTwo = 2 ∧
    add64 demoTwo.CurrentCount 18446744073709551615 ≥ demoTwo.NextCount ∧
    AdvanceReads 1 18446744073709551615 demoTwo () = [2] ∧
    ExecuteBody { demoTwo with m_currCount := 18446744073709551615 } () = none ∧
    (∀ fuel, Advance fuel 18446744073709551615 demoTwo () = none) := by
  refine ⟨?_, demoTwo_reachable, rfl, rfl, rfl, by decide, rfl, rfl, ?_⟩
  · exact HandleReachable.registerEvent demoOne demoTwo 2 1 oneShot
      (HandleReachable.registerEvent demoFresh demoOne 1 0 oneShot
        (HandleReachable.create 4 _ _) rfl) rfl
  · intro fuel
    cases fuel with
    | zero => rfl
    | succ n => rfl

/-- C35 (amended): in every reachable state, whenever `NextCount()` is not the sentinel
the cached index is below `kNumScheduledEvents`; and during an `Advance` that leaves the
base counter different from `2^64 - 1`, every index with which the loop body of
`Execute` reads `m_events` is below `kNumScheduledEvents`. -/
theorem C35_cached_index_in_range (k : Nat) (s : Scheduler W)
    (hr : HandleReachable k s ∨ Reachable k s) :
    (s.NextCount ≠ kNoDeadline → s.m_nextEvent < kNumScheduledEvents s) ∧
    (∀ (fuel count : Nat) (w : W), add64 s.m_currCount count ≠ kNoDeadline →
      ∀ i ∈ AdvanceReads fuel count s w, i < kNumScheduledEvents s) := by
  have hk : kNoDeadline = 18446744073709551615 := rfl
  have hinv : s.m_nextCount ≤ kNoDeadline ∧ CacheIndexOk s := by
    rcases hr with h | h
    · exact HandleReachable_indexOk k s h
    · exact (Reachable_invariant k s h).2
  constructor
  · intro hne
    have hne2 : s.m_nextCount ≠ kNoDeadline := hne
    exact hinv.2 (by omega)
  · intro fuel count w hcount i hi
    unfold AdvanceReads at hi
    by_cases hc : add64 s.m_currCount count ≥ s.m_nextCount
    · rw [if_pos hc] at hi
      have hlt := add64_lt s.m_currCount count
      exact ExecuteReads_in_range fuel { s with m_currCount := add64 s.m_currCount count } w
        (by show add64 s.m_currCount count < kNoDeadline
            omega)
        (fun h => hinv.2 h) i hi
    · rw [if_neg hc] at hi
      simp at hi

/-- Witness for C35: `Advance(100)` on `demoPending`, where event A is due at 100. -/
theorem C35_cached_index_in_range_witness :
    demoPending.m_nextEvent < kNumScheduledEvents demoPending ∧
    ∀ i ∈ AdvanceReads 5 100 demoPending (), i < kNumScheduledEvents demoPending :=
  ⟨(C35_cached_index_in_range 255 demoPending (Or.inr demoPending_reachable)).1 (by decide),
   (C35_cached_index_in_range 255 demoPending (Or.inr demoPending_reachable)).2 5 100 ()
     (by decide)⟩

end Scheduler

/-! ## Snapshots of a partly registered scheduler -/

namespace Scheduler

variable {W : Type}

/-- C36, the code at the failing input: in `demoPartial u` one of the two slots is
registered (user ID 1) and `m_userIDs[1]` still holds the value `u` it had before
construction.  `SaveState` writes one entry per slot, with the IDs `[1, u]`, and
`ValidateState` on the same scheduler rejects the snapshot for every `u` that is not the
registered ID, for instance `u = 0`.  With both slots registered (`demoTwo`) the
snapshot is accepted. -/
theorem C36_partial_registration_snapshot_rejected :
    HandleReachable 255 (demoPartial 0) ∧
    (demoPartial 0).m_nextEventIndex = 1 ∧ kNumScheduledEvents (demoPartial 0) = 2 ∧
    (SaveState (demoPartial 0)).events.map (fun entry => entry.id) = [1, 0] ∧
    ValidateState 255 (demoPartial 0) (SaveState (demoPartial 0)) = false ∧
    (∀ u, u < 4 → u ≠ 1 →
      (SaveState (demoPartial u)).events.map (fun entry => entry.id) = [1, u] ∧
      ValidateState 255 (demoPartial u) (SaveState (demoPartial u)) = false) ∧
    ValidateState 255 demoTwo (SaveState demoTwo) = true := by
  refine ⟨?_, rfl, rfl, by decide, by decide, by decide, by decide⟩
  have h0 : HandleReachable 255 (demoBlank 0) := HandleReachable.create 4 _ _
  exact HandleReachable.registerEvent (demoBlank 0) (demoPartial 0) 1 0 oneShot h0 rfl

end Scheduler

/-! ## The SH-2 cache: true LRU -/

namespace Cache

theorem updatedLRU_bits : ∀ (b01 b02 b03 b12 b13 b23 : Bool),
    updatedLRU (lruBits b01 b02 b03 b12 b13 b23) 0 = lruBits false false false b12 b13 b23 ∧
    updatedLRU (lruBits b01 b02 b03 b12 b13 b23) 1 = lruBits true b02 b03 false false b23 ∧
    updatedLRU (lruBits b01 b02 b03 b12 b13 b23) 2 = lruBits b01 true b03 true b13 false ∧
    updatedLRU (lruBits b01 b02 b03 b12 b13 b23) 3 = lruBits b01 b02 true b12 true true := by
  decide

theorem waySelect_bits : ∀ (x y z : Bool),
    (kCacheLRUWaySelect[lruBits true true true x y z &&& 0x3F]?).getD kCacheWays = 0 ∧
    (kCacheLRUWaySelect[lruBits false x y true true z &&& 0x3F]?).getD kCacheWays = 1 ∧
    (kCacheLRUWaySelect[lruBits x false y false z true &&& 0x3F]?).getD kCacheWays = 2 ∧
    (kCacheLRUWaySelect[lruBits x y false z false false &&& 0x3F]?).getD kCacheWays = 3 := by
  decide

theorem lastUpdate_concat (ws : List Nat) (x way : Nat) :
    lastUpdate (ws ++ [x]) way = if x = way then ws.length + 1 else lastUpdate ws way := by
  simp [lastUpdate, lastUpdateRev]

theorem lastUpdateRev_le (ws : List Nat) (way : Nat) : lastUpdateRev ws way ≤ ws.length := by
  induction ws with
  | nil => simp [lastUpdateRev]
  | cons x older ih =>
    simp only [lastUpdateRev, List.length_cons]
    split
    · omega
    · omega

theorem lastUpdate_le (ws : List Nat) (way : Nat) : lastUpdate ws way ≤ ws.length := by
  have := lastUpdateRev_le ws.reverse way
  simpa [lastUpdate] using this

theorem recency_concat_self (ws : List Nat) (x : Nat) :
    recency (ws ++ [x]) x = 3 + (ws.length + 1) := by
  simp [recency, lastUpdate_concat]

theorem recency_concat_other (ws : List Nat) (x way : Nat) (h : x ≠ way) :
    recency (ws ++ [x]) way = recency ws way := by
  simp [recency, lastUpdate_concat, h]

theorem recency_le (ws : List Nat) (way : Nat) : recency ws way ≤ 3 + ws.length := by
  have := lastUpdate_le ws way
  unfold recency
  split <;> omega

/-- The LRU value after the updates `ws` of one cache index, starting from the reset
value 0, holds for each pair of ways which of the two was used more recently, and no
two ways are equally recent. -/
theorem lru_invariant (ws : List Nat) (hws : ∀ w ∈ ws, w < 4) :
    (recency ws 0 ≠ recency ws 1 ∧ recency ws 0 ≠ recency ws 2 ∧ recency ws 0 ≠ recency ws 3 ∧
      recency ws 1 ≠ recency ws 2 ∧ recency ws 1 ≠ recency ws 3 ∧
      recency ws 2 ≠ recency ws 3) ∧
    ws.foldl updatedLRU 0 =
      lruBits (decide (recency ws 0 < recency ws 1)) (decide (recency ws 0 < recency ws 2))
        (decide (recency ws 0 < recency ws 3)) (decide (recency ws 1 < recency ws 2))
        (decide (recency ws 1 < recency ws 3)) (decide (recency ws 2 < recency ws 3)) := by
  induction ws using List.reverseRecOn with
  | nil => exact ⟨by decide, by decide⟩
  | append_singleton ws x ih =>
    obtain ⟨hd, hl⟩ := ih (fun w hw => hws w (List.mem_append_left _ hw))
    have hx : x < 4 := hws x (List.mem_append_right _ (List.mem_singleton.2 rfl))
    have h0 := recency_le ws 0
    have h1 := recency_le ws 1
    have h2 := recency_le ws 2
    have h3 := recency_le ws 3
    rw [List.foldl_append, List.foldl_cons, List.foldl_nil, hl]
    have hb := updatedLRU_bits (decide (recency ws 0 < recency ws 1))
      (decide (recency ws 0 < recency ws 2)) (decide (recency ws 0 < recency ws 3))
      (decide (recency ws 1 < recency ws 2)) (decide (recency ws 1 < recency ws 3))
      (decide (recency ws 2 < recency ws 3))
    have hx4 : x = 0 ∨ x = 1 ∨ x = 2 ∨ x = 3 := by omega
    rcases hx4 with h | h | h | h
    · subst h
      rw [hb.1, recency_concat_self, recency_concat_other ws 0 1 (by decide),
        recency_concat_other ws 0 2 (by decide), recency_concat_other ws 0 3 (by decide)]
      refine ⟨⟨by omega, by omega, by omega, hd.2.2.2.1, hd.2.2.2.2.1, hd.2.2.2.2.2⟩, ?_⟩
      congr 1 <;> simp <;> omega
    · subst h
      rw [hb.2.1, recency_concat_self, recency_concat_other ws 1 0 (by decide),
        recency_concat_other ws 1 2 (by decide), recency_concat_other ws 1 3 (by decide)]
      refine ⟨⟨by omega, hd.2.1, hd.2.2.1, by omega, by omega, hd.2.2.2.2.2⟩, ?_⟩
      congr 1 <;> simp <;> omega
    · subst h
      rw [hb.2.2.1, recency_concat_self, recency_concat_other ws 2 0 (by decide),
        recency_concat_other ws 2 1 (by decide), recency_concat_other ws 2 3 (by decide)]
      refine ⟨⟨hd.1, by omega, hd.2.2.1, by omega, hd.2.2.2.2.1, by omega⟩, ?_⟩
      congr 1 <;> simp <;> omega
    · subst h
      rw [hb.2.2.2, recency_concat_self, recency_concat_other ws 3 0 (by decide),
        recency_concat_other ws 3 1 (by decide), recency_concat_other ws 3 2 (by decide)]
      refine ⟨⟨hd.1, hd.2.1, by omega, hd.2.2.2.1, by omega, by omega⟩, ?_⟩
      congr 1 <;> simp <;> omega

end Cache

namespace Cache

/-- With replacement enabled in four-way mode, the way selected from the LRU value
that the updates `ws` leave is the least recently used way. -/
theorem lru_selects_oldest (c : Cache) (instrFetch : Bool) (hand : c.m_replaceANDMask = 0x3F)
    (hor : c.m_replaceORMask instrFetch = 0) (ws : List Nat) (hws : ∀ w ∈ ws, w < 4) :
    IsLeastRecentlyUsed ws (GetWayFromLRU c instrFetch (ws.foldl updatedLRU 0)) := by
  obtain ⟨⟨d01, d02, d03, d12, d13, d23⟩, hl⟩ := lru_invariant ws hws
  have hmin : (recency ws 0 < recency ws 1 ∧ recency ws 0 < recency ws 2 ∧
        recency ws 0 < recency ws 3) ∨
      (recency ws 1 < recency ws 0 ∧ recency ws 1 < recency ws 2 ∧
        recency ws 1 < recency ws 3) ∨
      (recency ws 2 < recency ws 0 ∧ recency ws 2 < recency ws 1 ∧
        recency ws 2 < recency ws 3) ∨
      (recency ws 3 < recency ws 0 ∧ recency ws 3 < recency ws 1 ∧
        recency ws 3 < recency ws 2) := by omega
  unfold GetWayFromLRU
  rw [hand, hor, hl]
  rcases hmin with ⟨h1, h2, h3⟩ | ⟨h1, h2, h3⟩ | ⟨h1, h2, h3⟩ | ⟨h1, h2, h3⟩
  · rw [decide_eq_true h1, decide_eq_true h2, decide_eq_true h3, (waySelect_bits _ _ _).1]
    refine ⟨by decide, ?_⟩
    intro other ho hne
    have ho4 : other < 4 := ho
    have hne0 : other ≠ 0 := hne
    have : other = 1 ∨ other = 2 ∨ other = 3 := by omega
    rcases this with h | h | h <;> subst h <;> assumption
  · rw [decide_eq_false (by omega : ¬ recency ws 0 < recency ws 1), decide_eq_true h2,
      decide_eq_true h3, (waySelect_bits _ _ _).2.1]
    refine ⟨by decide, ?_⟩
    intro other ho hne
    have ho4 : other < 4 := ho
    have hne0 : other ≠ 1 := hne
    have : other = 0 ∨ other = 2 ∨ other = 3 := by omega
    rcases this with h | h | h <;> subst h <;> assumption
  · rw [decide_eq_false (by omega : ¬ recency ws 0 < recency ws 2),
      decide_eq_false (by omega : ¬ recency ws 1 < recency ws 2), decide_eq_true h3,
      (waySelect_bits _ _ _).2.2.1]
    refine ⟨by decide, ?_⟩
    intro other ho hne
    have ho4 : other < 4 := ho
    have hne0 : other ≠ 2 := hne
    have : other = 0 ∨ other = 1 ∨ other = 3 := by omega
    rcases this with h | h | h <;> subst h <;> assumption
  · rw [decide_eq_false (by omega : ¬ recency ws 0 < recency ws 3),
      decide_eq_false (by omega : ¬ recency ws 1 < recency ws 3),
      decide_eq_false (by omega : ¬ recency ws 2 < recency ws 3),
      (waySelect_bits _ _ _).2.2.2]
    refine ⟨by decide, ?_⟩
    intro other ho hne
    have ho4 : other < 4 := ho
    have hne0 : other ≠ 3 := hne
    have : other = 0 ∨ other = 1 ∨ other = 2 := by omega
    rcases this with h | h | h <;> subst h <;> assumption

/-- The least recently used way is not the way updated last. -/
theorem lru_not_last (ws : List Nat) (x way : Nat) (hx : x < 4)
    (h : IsLeastRecentlyUsed (ws ++ [x]) way) : way ≠ x := by
  intro hxe
  subst hxe
  obtain ⟨_, hall⟩ := h
  have hself := recency_concat_self ws way
  by_cases h0 : way = 0
  · have := hall 1 (by decide) (by omega)
    have := recency_le (ws ++ [way]) 1
    simp only [List.length_append, List.length_singleton] at this
    omega
  · have := hall 0 (by decide) (fun h => h0 h.symm)
    have := recency_le (ws ++ [way]) 0
    simp only [List.length_append, List.length_singleton] at this
    omega

/-- After a reset and no update, the least recently used way is way 3. -/
theorem lru_of_reset (way : Nat) (h : IsLeastRecentlyUsed [] way) : way = 3 := by
  obtain ⟨hw, hall⟩ := h
  have hw4 : way < 4 := hw
  by_contra hne
  have := hall 3 (by decide) (fun h => hne h.symm)
  simp [recency, lastUpdate, lastUpdateRev] at this

theorem extract_index_lt (address : Nat) : extract 4 9 address < kCacheEntries := by
  unfold extract kCacheEntries
  exact Nat.mod_lt _ (by decide)

theorem UpdateLRU_spec (c : Cache) (address way index : Nat)
    (hlen : c.m_lru.length = kCacheEntries) :
    (UpdateLRU c address way).m_lru.length = kCacheEntries ∧
    (UpdateLRU c address way).m_replaceANDMask = c.m_replaceANDMask ∧
    (UpdateLRU c address way).m_replaceORMask = c.m_replaceORMask ∧
    GetLRU (UpdateLRU c address way) index =
      (if extract 4 9 address = index then updatedLRU (GetLRU c index) way
       else GetLRU c index) := by
  have hlt : extract 4 9 address < c.m_lru.length := by
    rw [hlen]; exact extract_index_lt address
  unfold UpdateLRU
  rw [List.getElem?_eq_getElem hlt]
  refine ⟨by simp [hlen], rfl, rfl, ?_⟩
  unfold GetLRU
  by_cases hi : extract 4 9 address = index
  · rw [if_pos hi]
    subst hi
    simp only [List.getElem?_set_self hlt, List.getElem?_eq_getElem hlt, Option.getD_some]
  · rw [if_neg hi]
    simp only [List.getElem?_set_ne hi]

/-- The LRU value of one cache index after a sequence of calls is the value its own
updates give; the replacement masks are left alone. -/
theorem updateAll_spec (calls : List (Nat × Nat)) (c : Cache) (index : Nat)
    (hlen : c.m_lru.length = kCacheEntries) :
    (updateAll c calls).m_lru.length = kCacheEntries ∧
    (updateAll c calls).m_replaceANDMask = c.m_replaceANDMask ∧
    (updateAll c calls).m_replaceORMask = c.m_replaceORMask ∧
    GetLRU (updateAll c calls) index =
      (waysAt index calls).foldl updatedLRU (GetLRU c index) := by
  induction calls generalizing c with
  | nil => exact ⟨hlen, rfl, rfl, rfl⟩
  | cons call rest ih =>
    obtain ⟨h1, h2, h3, h4⟩ := UpdateLRU_spec c call.1 call.2 index hlen
    obtain ⟨i1, i2, i3, i4⟩ := ih (UpdateLRU c call.1 call.2) h1
    have hstep : updateAll c (call :: rest) = updateAll (UpdateLRU c call.1 call.2) rest := rfl
    rw [hstep]
    refine ⟨i1, by rw [i2, h2], by rw [i3, h3], ?_⟩
    rw [i4, h4]
    unfold waysAt
    by_cases hi : extract 4 9 call.1 = index
    · rw [if_pos hi]
      simp [List.filter_cons, hi]
    · rw [if_neg hi]
      simp [List.filter_cons, hi]

theorem waysAt_valid (index : Nat) (calls : List (Nat × Nat))
    (hways : ∀ call ∈ calls, call.2 < kCacheWays) : ∀ w ∈ waysAt index calls, w < 4 := by
  intro w hw
  unfold waysAt at hw
  obtain ⟨call, hc, rfl⟩ := List.mem_map.1 hw
  exact hways call (List.mem_filter.1 hc).1

/-- C37: after `Reset` (four-way mode with replacement enabled: AND mask `0x3F`, OR
masks 0) and any sequence of `UpdateLRU(address, way)` calls with valid ways, for every
cache index `GetWayFromLRU` applied to the LRU value of that index returns a valid way,
and it is the least recently used one among the updates that addressed the index: the
way whose most recent update is the oldest, a way never updated since reset counting as
older than every updated way and way 3 as the oldest of all.  It is way 3 when the index
was never updated, and it is never the way updated last. -/
theorem C37_replacement_is_true_lru (c0 : Cache) (calls : List (Nat × Nat))
    (index : Nat) (instrFetch : Bool) (hways : ∀ call ∈ calls, call.2 < kCacheWays)
    (hidx : index < kCacheEntries) :
    IsValidCacheWay
      (GetWayFromLRU (updateAll (Reset c0) calls) instrFetch
        (GetLRU (updateAll (Reset c0) calls) index)) = true ∧
    IsLeastRecentlyUsed (waysAt index calls)
      (GetWayFromLRU (updateAll (Reset c0) calls) instrFetch
        (GetLRU (updateAll (Reset c0) calls) index)) ∧
    (waysAt index calls = [] →
      GetWayFromLRU (updateAll (Reset c0) calls) instrFetch
        (GetLRU (updateAll (Reset c0) calls) index) = 3) ∧
    (∀ (ws : List Nat) (last : Nat), waysAt index calls = ws ++ [last] →
      GetWayFromLRU (updateAll (Reset c0) calls) instrFetch
        (GetLRU (updateAll (Reset c0) calls) index) ≠ last) := by
  have hlen : (Reset c0).m_lru.length = kCacheEntries := by simp [Reset]
  obtain ⟨_, hand, hor, hlru⟩ := updateAll_spec calls (Reset c0) index hlen
  have hreset : GetLRU (Reset c0) index = 0 := by
    unfold GetLRU Reset
    simp only [List.getElem?_replicate]
    rw [if_pos hidx]
    rfl
  rw [hreset] at hlru
  have hvalid := waysAt_valid index calls hways
  have hmain := lru_selects_oldest (updateAll (Reset c0) calls) instrFetch
    (by rw [hand]; rfl) (by rw [hor]; rfl) (waysAt index calls) hvalid
  rw [hlru]
  refine ⟨?_, hmain, ?_, ?_⟩
  · unfold IsValidCacheWay
    exact decide_eq_true hmain.1
  · intro hnil
    rw [hnil] at hmain
    rw [hnil]
    exact lru_of_reset _ hmain
  · intro ws last hsplit
    have hlast : last < 4 :=
      hvalid last (by rw [hsplit]; exact List.mem_append_right _ (List.mem_singleton.2 rfl))
    rw [hsplit] at hmain
    rw [hsplit]
    exact lru_not_last ws last _ hlast hmain

/-- Witness for C37: after a reset, `UpdateLRU` of way 3 and then of way 1 at cache
index 1 (addresses `0x10` and `0x14`) and of way 2 at cache index 2 (address `0x20`). -/
theorem C37_replacement_is_true_lru_witness :
    IsValidCacheWay
      (GetWayFromLRU (updateAll (Reset ⟨[], 0, fun _ => 0⟩) [(0x10, 3), (0x20, 2), (0x14, 1)])
        false
        (GetLRU (updateAll (Reset ⟨[], 0, fun _ => 0⟩) [(0x10, 3), (0x20, 2), (0x14, 1)]) 1))
      = true ∧
    IsLeastRecentlyUsed (waysAt 1 [(0x10, 3), (0x20, 2), (0x14, 1)])
      (GetWayFromLRU (updateAll (Reset ⟨[], 0, fun _ => 0⟩) [(0x10, 3), (0x20, 2), (0x14, 1)])
        false
        (GetLRU (updateAll (Reset ⟨[], 0, fun _ => 0⟩) [(0x10, 3), (0x20, 2), (0x14, 1)]) 1)) ∧
    GetWayFromLRU (updateAll (Reset ⟨[], 0, fun _ => 0⟩) [(0x10, 3), (0x20, 2), (0x14, 1)])
        false
        (GetLRU (updateAll (Reset ⟨[], 0, fun _ => 0⟩) [(0x10, 3), (0x20, 2), (0x14, 1)]) 1)
      = 2 :=
  have h := C37_replacement_is_true_lru ⟨[], 0, fun _ => 0⟩ [(0x10, 3), (0x20, 2), (0x14, 1)]
    1 false (by decide) (by decide)
  ⟨h.1, h.2.1, by decide⟩

end Cache

/-! ## Slope stepping -/

namespace Slope

theorem wrapS64_eq {z : Int} (h1 : -9223372036854775808 ≤ z) (h2 : z < 9223372036854775808) :
    wrapS64 z = z := by
  unfold wrapS64; omega

theorem wrapS32_eq {z : Int} (h1 : -2147483648 ≤ z) (h2 : z < 2147483648) :
    wrapS32 z = z := by
  unfold wrapS32; omega

theorem shift_eq (z : Int) : z >>> kFracBits = z / 16777216 := by
  rw [Int.shiftRight_eq_div_pow]
  rfl

/-- Bound of a product by the bounds of its factors. -/
theorem mul_bound (k inc K B : Int) (hk0 : 0 ≤ k) (hk : k ≤ K) (hB : |inc| ≤ B) :
    -(K * B) ≤ k * inc ∧ k * inc ≤ K * B := by
  have hB0 : 0 ≤ B := le_trans (abs_nonneg _) hB
  have h1 : |k * inc| ≤ K * B := by
    rw [abs_mul, abs_of_nonneg hk0]
    exact mul_le_mul hk hB (abs_nonneg _) (le_trans hk0 hk)
  exact abs_le.1 h1

/-- Without wrapping, `k` steps add `k` increments to both counters. -/
theorem iterate_Step (s : Slope) (k : Nat) (hk : (k : Int) ≤ 16777216)
    (hmaj : |s.majinc| ≤ 16777216) (hmin : |s.mininc| ≤ 16777216)
    (hc1 : |s.majcounter| ≤ 72057594037927936) (hc2 : |s.mincounter| ≤ 72057594037927936) :
    Step^[k] s =
      { s with majcounter := s.majcounter + k * s.majinc
               mincounter := s.mincounter + k * s.mininc } := by
  induction k with
  | zero => simp
  | succ n ih =>
    have hn : (n : Int) ≤ 16777216 := by push_cast at hk; omega
    rw [Function.iterate_succ_apply', ih hn]
    have b1 := mul_bound (n + 1) s.majinc 16777216 16777216 (by omega) (by push_cast at hk; omega) hmaj
    have b2 := mul_bound (n + 1) s.mininc 16777216 16777216 (by omega) (by push_cast at hk; omega) hmin
    have c1 := abs_le.1 hc1
    have c2 := abs_le.1 hc2
    unfold Step
    simp only
    have e1 : s.majcounter + (n : Int) * s.majinc + s.majinc
        = s.majcounter + ((n : Int) + 1) * s.majinc := by ring
    have e2 : s.mincounter + (n : Int) * s.mininc + s.mininc
        = s.mincounter + ((n : Int) + 1) * s.mininc := by ring
    rw [e1, e2, wrapS64_eq (by omega) (by omega), wrapS64_eq (by omega) (by omega)]
    push_cast
    rfl

/-- The quotient rounded toward zero, times the divisor, misses the dividend by less
than the divisor, on the side of zero. -/
theorem tdiv_bounds (a d : Int) (hd : 0 < d) :
    (0 ≤ a → d * a.tdiv d ≤ a ∧ a < d * a.tdiv d + d) ∧
    (a ≤ 0 → a ≤ d * a.tdiv d ∧ d * a.tdiv d < a + d) := by
  have key : ∀ b : Int, 0 ≤ b → d * b.tdiv d ≤ b ∧ b < d * b.tdiv d + d := by
    intro b hb
    have h1 := Int.tdiv_add_tmod b d
    have h2 := Int.tmod_lt_of_pos b hd
    have h3 := Int.tmod_nonneg d hb
    constructor <;> omega
  refine ⟨key a, ?_⟩
  intro ha
  have h := key (-a) (by omega)
  rw [Int.neg_tdiv, mul_neg] at h
  constructor <;> omega

end Slope

namespace Slope

theorem iterate_Step_fields (s : Slope) (k : Nat) :
    (Step^[k] s).xmajor = s.xmajor ∧ (Step^[k] s).majcounterend = s.majcounterend ∧
    (Step^[k] s).dmaj = s.dmaj := by
  induction k with
  | zero => simp
  | succ n ih =>
    rw [Function.iterate_succ_apply']
    exact ih

/-- The minor increment is at most one pixel per step. -/
theorem mininc_bound (d : Int) (n : Nat) (hd : |d| ≤ n) :
    |if (n : Int) ≠ 0 then Int.tdiv (d * 16777216) n else 0| ≤ 16777216 := by
  by_cases hn : (n : Int) ≠ 0
  · rw [if_pos hn]
    have hpos : (0 : Int) < n := by omega
    obtain ⟨hp, hm⟩ := tdiv_bounds (d * 16777216) n hpos
    have hd2 := abs_le.1 hd
    rw [abs_le]
    by_cases h0 : 0 ≤ d
    · obtain ⟨h1, h2⟩ := hp (by omega)
      constructor
      · by_contra hc
        have : Int.tdiv (d * 16777216) n ≤ -16777217 := by omega
        have := Int.mul_le_mul_of_nonneg_left this (le_of_lt hpos)
        have e : (n : Int) * -16777217 = -(16777217 * n) := by ring
        rw [e] at this
        omega
      · by_contra hc
        have : (16777217 : Int) ≤ Int.tdiv (d * 16777216) n := by omega
        have := Int.mul_le_mul_of_nonneg_left this (le_of_lt hpos)
        have e : (n : Int) * 16777217 = 16777217 * n := by ring
        rw [e] at this
        omega
    · obtain ⟨h1, h2⟩ := hm (by omega)
      constructor
      · by_contra hc
        have : Int.tdiv (d * 16777216) n ≤ -16777217 := by omega
        have := Int.mul_le_mul_of_nonneg_left this (le_of_lt hpos)
        have e : (n : Int) * -16777217 = -(16777217 * n) := by ring
        rw [e] at this
        omega
      · by_contra hc
        have : (16777217 : Int) ≤ Int.tdiv (d * 16777216) n := by omega
        have := Int.mul_le_mul_of_nonneg_left this (le_of_lt hpos)
        have e : (n : Int) * 16777217 = 16777217 * n := by ring
        rw [e] at this
        omega
  · rw [if_neg hn]
    simp

/-- A slope whose counters and increments are those the constructor computes for a
major span from `a1` to `a2` and a minor span from `b1` to `b2`: the major counter
passes through every pixel from `a1` to `a2`, the minor counter starts at `b1` and is at
`b2` after `n` steps, and the end of the major counter is met after `n + 1` steps and
not before. -/
theorem slope_core (s : Slope) (a1 a2 b1 b2 : Int) (n : Nat)
    (ha1 : -2147483648 ≤ a1 ∧ a1 < 2147483648) (hb1 : -2147483648 ≤ b1 ∧ b1 < 2147483648)
    (hn : |a2 - a1| = n) (hb : |b2 - b1| ≤ n) (hn23 : (n : Int) < 8388608)
    (hmajinc : s.majinc = if a2 - a1 ≥ 0 then 16777216 else -16777216)
    (hmininc : s.mininc = if (n : Int) ≠ 0 then Int.tdiv ((b2 - b1) * 16777216) n else 0)
    (hmc : s.majcounter = a1 * 16777216)
    (hend : s.majcounterend = a2 * 16777216 + s.majinc)
    (hmin : s.mincounter = (2 * b1 + 1) * 8388608) :
    s.majcounter >>> kFracBits = a1 ∧ s.mincounter >>> kFracBits = b1 ∧
    (∀ k : Nat, k ≤ n → (Step^[k] s).majcounter >>> kFracBits
      = a1 + k * (if a2 - a1 ≥ 0 then 1 else -1)) ∧
    (Step^[n] s).majcounter >>> kFracBits = a2 ∧
    (Step^[n] s).mincounter >>> kFracBits = b2 ∧
    (∀ k : Nat, k ≤ n → CanStep (Step^[k] s) = true) ∧
    CanStep (Step^[n + 1] s) = false := by
  have hmajb : |s.majinc| ≤ 16777216 := by
    rw [hmajinc]
    split <;> simp
  have hminb : |s.mininc| ≤ 16777216 := by
    rw [hmininc]
    exact mininc_bound (b2 - b1) n hb
  have hc1 : |s.majcounter| ≤ 72057594037927936 := by
    rw [hmc, abs_le]; omega
  have hc2 : |s.mincounter| ≤ 72057594037927936 := by
    rw [hmin, abs_le]; omega
  have hiter : ∀ k : Nat, k ≤ n + 1 → Step^[k] s =
      { s with majcounter := s.majcounter + k * s.majinc
               mincounter := s.mincounter + k * s.mininc } := by
    intro k hk
    exact iterate_Step s k (by omega) hmajb hminb hc1 hc2
  have hn2 := abs_le.1 (le_of_eq hn)
  have hb2a := abs_le.1 hb
  have hmajk : ∀ k : Nat, k ≤ n + 1 → (Step^[k] s).majcounter
      = (a1 + k * (if a2 - a1 ≥ 0 then 1 else -1)) * 16777216 := by
    intro k hk
    rw [hiter k hk]
    show s.majcounter + k * s.majinc = _
    rw [hmc, hmajinc]
    split <;> ring
  have hdir : a2 = a1 + (n : Int) * (if a2 - a1 ≥ 0 then 1 else -1) := by
    by_cases h : a2 - a1 ≥ 0
    · rw [if_pos h]
      rw [abs_of_nonneg h] at hn
      omega
    · rw [if_neg h]
      rw [abs_of_neg (by omega)] at hn
      omega
  refine ⟨?_, ?_, ?_, ?_, ?_, ?_, ?_⟩
  · rw [shift_eq, hmc]; omega
  · rw [shift_eq, hmin]; omega
  · intro k hk
    rw [shift_eq, hmajk k (by omega)]
    omega
  · rw [shift_eq, hmajk n (by omega), ← hdir]
    omega
  · rw [shift_eq, hiter n (by omega)]
    show (s.mincounter + n * s.mininc) / 16777216 = b2
    rw [hmin, hmininc]
    by_cases hn0 : (n : Int) ≠ 0
    · rw [if_pos hn0]
      have hpos : (0 : Int) < n := by omega
      obtain ⟨hp, hm⟩ := tdiv_bounds ((b2 - b1) * 16777216) n hpos
      by_cases h0 : 0 ≤ b2 - b1
      · obtain ⟨h1, h2⟩ := hp (by omega)
        generalize (n : Int) * Int.tdiv ((b2 - b1) * 16777216) n = p at h1 h2 ⊢
        omega
      · obtain ⟨h1, h2⟩ := hm (by omega)
        generalize (n : Int) * Int.tdiv ((b2 - b1) * 16777216) n = p at h1 h2 ⊢
        omega
    · rw [if_neg hn0]
      have : (n : Int) = 0 := by omega
      omega
  · intro k hk
    unfold CanStep
    rw [decide_eq_true_iff, hmajk k (by omega), (iterate_Step_fields s k).2.1, hend, hmajinc]
    have hkn : (k : Int) ≤ n := by exact_mod_cast hk
    by_cases h : a2 - a1 ≥ 0
    · rw [if_pos h, if_pos h]
      rw [if_pos h] at hdir
      omega
    · rw [if_neg h, if_neg h]
      rw [if_neg h] at hdir
      omega
  · unfold CanStep
    rw [decide_eq_false_iff_not, not_not, hmajk (n + 1) le_rfl,
      (iterate_Step_fields s (n + 1)).2.1, hend, hmajinc]
    by_cases h : a2 - a1 ≥ 0
    · rw [if_pos h, if_pos h]
      rw [if_pos h] at hdir
      push_cast
      omega
    · rw [if_neg h, if_neg h]
      rw [if_neg h] at hdir
      push_cast
      omega

end Slope

namespace Slope

/-- The same facts read through the `sint32` conversion of `X` and `Y`. -/
theorem slope_axes (s : Slope) (a1 a2 b1 b2 : Int) (n : Nat)
    (ha1 : -2147483648 ≤ a1 ∧ a1 < 2147483648) (ha2 : -2147483648 ≤ a2 ∧ a2 < 2147483648)
    (hb1 : -2147483648 ≤ b1 ∧ b1 < 2147483648) (hb2 : -2147483648 ≤ b2 ∧ b2 < 2147483648)
    (hn : |a2 - a1| = n) (hb : |b2 - b1| ≤ n) (hn23 : (n : Int) < 8388608)
    (hmajinc : s.majinc = if a2 - a1 ≥ 0 then 16777216 else -16777216)
    (hmininc : s.mininc = if (n : Int) ≠ 0 then Int.tdiv ((b2 - b1) * 16777216) n else 0)
    (hmc : s.majcounter = a1 * 16777216)
    (hend : s.majcounterend = a2 * 16777216 + s.majinc)
    (hmin : s.mincounter = (2 * b1 + 1) * 8388608) :
    wrapS32 (s.majcounter >>> kFracBits) = a1 ∧ wrapS32 (s.mincounter >>> kFracBits) = b1 ∧
    (∀ k : Nat, k < n →
      |wrapS32 ((Step^[k + 1] s).majcounter >>> kFracBits)
        - wrapS32 ((Step^[k] s).majcounter >>> kFracBits)| = 1) ∧
    wrapS32 ((Step^[n] s).majcounter >>> kFracBits) = a2 ∧
    wrapS32 ((Step^[n] s).mincounter >>> kFracBits) = b2 ∧
    (∀ k : Nat, k ≤ n → CanStep (Step^[k] s) = true) ∧
    CanStep (Step^[n + 1] s) = false := by
  obtain ⟨c1, c2, c3, c4, c5, c6, c7⟩ :=
    slope_core s a1 a2 b1 b2 n ha1 hb1 hn hb hn23 hmajinc hmininc hmc hend hmin
  have hn2 := abs_le.1 (le_of_eq hn)
  have hrange : ∀ k : Nat, k ≤ n →
      wrapS32 ((Step^[k] s).majcounter >>> kFracBits)
        = a1 + k * (if a2 - a1 ≥ 0 then 1 else -1) := by
    intro k hk
    rw [c3 k hk]
    have hkn : (k : Int) ≤ n := by exact_mod_cast hk
    by_cases h : a2 - a1 ≥ 0
    · rw [if_pos h]
      rw [abs_of_nonneg h] at hn
      exact wrapS32_eq (by omega) (by omega)
    · rw [if_neg h]
      rw [abs_of_neg (by omega)] at hn
      exact wrapS32_eq (by omega) (by omega)
  refine ⟨?_, ?_, ?_, ?_, ?_, c6, c7⟩
  · rw [c1]; exact wrapS32_eq ha1.1 ha1.2
  · rw [c2]; exact wrapS32_eq hb1.1 hb1.2
  · intro k hk
    rw [hrange (k + 1) (by omega), hrange k (by omega)]
    by_cases h : a2 - a1 ≥ 0
    · rw [if_pos h]
      push_cast
      have : a1 + ((k : Int) + 1) * 1 - (a1 + (k : Int) * 1) = 1 := by ring
      rw [this]
      rfl
    · rw [if_neg h]
      push_cast
      have : a1 + ((k : Int) + 1) * -1 - (a1 + (k : Int) * -1) = -1 := by ring
      rw [this]
      rfl
  · rw [c4]; exact wrapS32_eq ha2.1 ha2.2
  · rw [c5]; exact wrapS32_eq hb2.1 hb2.2

/-- The fields the constructor computes when no difference wraps. -/
theorem Slope_create_spec (coord1 coord2 : CoordS32)
    (hx1 : -2147483648 ≤ coord1.x ∧ coord1.x < 2147483648)
    (hy1 : -2147483648 ≤ coord1.y ∧ coord1.y < 2147483648)
    (hx2 : -2147483648 ≤ coord2.x ∧ coord2.x < 2147483648)
    (hy2 : -2147483648 ≤ coord2.y ∧ coord2.y < 2147483648)
    (hdx : |coord2.x - coord1.x| < 8388608) (hdy : |coord2.y - coord1.y| < 8388608) :
    (|coord2.x - coord1.x| ≥ |coord2.y - coord1.y| →
      (create coord1 coord2).xmajor = true ∧
      (create coord1 coord2).dmaj = |coord2.x - coord1.x| ∧
      (create coord1 coord2).majinc
        = (if coord2.x - coord1.x ≥ 0 then 16777216 else -16777216) ∧
      (create coord1 coord2).mininc
        = (if |coord2.x - coord1.x| ≠ 0 then
            Int.tdiv ((coord2.y - coord1.y) * 16777216) |coord2.x - coord1.x| else 0) ∧
      (create coord1 coord2).majcounter = coord1.x * 16777216 ∧
      (create coord1 coord2).majcounterend
        = coord2.x * 16777216 + (create coord1 coord2).majinc ∧
      (create coord1 coord2).mincounter = (2 * coord1.y + 1) * 8388608) ∧
    (¬ |coord2.x - coord1.x| ≥ |coord2.y - coord1.y| →
      (create coord1 coord2).xmajor = false ∧
      (create coord1 coord2).dmaj = |coord2.y - coord1.y| ∧
      (create coord1 coord2).majinc
        = (if coord2.y - coord1.y ≥ 0 then 16777216 else -16777216) ∧
      (create coord1 coord2).mininc
        = (if |coord2.y - coord1.y| ≠ 0 then
            Int.tdiv ((coord2.x - coord1.x) * 16777216) |coord2.y - coord1.y| else 0) ∧
      (create coord1 coord2).majcounter = coord1.y * 16777216 ∧
      (create coord1 coord2).majcounterend
        = coord2.y * 16777216 + (create coord1 coord2).majinc ∧
      (create coord1 coord2).mincounter = (2 * coord1.x + 1) * 8388608) := by
  have ax := abs_le.1 (le_of_lt hdx)
  have ay := abs_le.1 (le_of_lt hdy)
  have ax0 := abs_nonneg (coord2.x - coord1.x)
  have ay0 := abs_nonneg (coord2.y - coord1.y)
  have hdxw : wrapS32 (coord2.x - coord1.x) = coord2.x - coord1.x :=
    wrapS32_eq (by omega) (by omega)
  have hdyw : wrapS32 (coord2.y - coord1.y) = coord2.y - coord1.y :=
    wrapS32_eq (by omega) (by omega)
  have hax : absS32 (coord2.x - coord1.x) = |coord2.x - coord1.x| :=
    wrapS32_eq (by omega) (by omega)
  have hay : absS32 (coord2.y - coord1.y) = |coord2.y - coord1.y| :=
    wrapS32_eq (by omega) (by omega)
  have hneg : wrapS64 (-kFracOne) = -16777216 := by decide
  have hone : kFracOne = 16777216 := rfl
  have hfrac : ∀ v : Int, -2147483648 ≤ v → v < 2147483648 → ToFrac v = v * 16777216 := by
    intro v h1 h2
    unfold ToFrac
    have : (2 : Int) ^ kFracBits = 16777216 := by decide
    rw [this]
    exact wrapS64_eq (by omega) (by omega)
  have hhalf : ∀ v : Int, -2147483648 ≤ v → v < 2147483648 →
      ToFracHalfBias v = (2 * v + 1) * 8388608 := by
    intro v h1 h2
    unfold ToFracHalfBias
    have : (2 : Int) ^ (kFracBits - 1) = 8388608 := by decide
    have e1 : wrapS64 (v * 2) = v * 2 := wrapS64_eq (by omega) (by omega)
    have e2 : wrapS64 (v * 2 + 1) = v * 2 + 1 := wrapS64_eq (by omega) (by omega)
    have e3 : wrapS64 ((v * 2 + 1) * 8388608) = (v * 2 + 1) * 8388608 :=
      wrapS64_eq (by omega) (by omega)
    rw [this, e1, e2, e3]
    ring
  have hdiv : ∀ d n : Int, |d| ≤ n → -2147483648 ≤ d → d < 2147483648 →
      SafeDiv (ToFrac d) n = if n ≠ 0 then Int.tdiv (d * 16777216) n else 0 := by
    intro d n hd h1 h2
    unfold SafeDiv
    rw [hfrac d h1 h2]
    by_cases hn : n ≠ 0
    · rw [if_pos hn, if_pos hn]
      have hn0 : 0 ≤ n := le_trans (abs_nonneg _) hd
      have hb := mininc_bound d n.toNat (by rw [Int.toNat_of_nonneg hn0]; exact hd)
      rw [Int.toNat_of_nonneg hn0, if_pos hn] at hb
      have hb2 := abs_le.1 hb
      exact wrapS64_eq (by omega) (by omega)
    · rw [if_neg hn, if_neg hn]
  constructor
  · intro hmaj
    have hmaj2 : absS32 (wrapS32 (coord2.x - coord1.x)) ≥ absS32 (wrapS32 (coord2.y - coord1.y)) := by
      rw [hdxw, hdyw, hax, hay]; exact hmaj
    unfold create
    simp only [hmaj2, decide_True, if_true]
    rw [hdxw, hdyw, hax, hneg, hone, hfrac _ hx1.1 hx1.2, hfrac _ hx2.1 hx2.2,
      hhalf _ hy1.1 hy1.2, hdiv _ _ hmaj (by omega) (by omega)]
    refine ⟨trivial, rfl, rfl, rfl, rfl, ?_, rfl⟩
    split
    · exact wrapS64_eq (by omega) (by omega)
    · exact wrapS64_eq (by omega) (by omega)
  · intro hmaj
    have hmaj2 : ¬ absS32 (wrapS32 (coord2.x - coord1.x)) ≥ absS32 (wrapS32 (coord2.y - coord1.y)) := by
      rw [hdxw, hdyw, hax, hay]; exact hmaj
    unfold create
    simp only [hmaj2, decide_False, Bool.false_eq_true, if_false]
    rw [hdxw, hdyw, hay, hneg, hone, hfrac _ hy1.1 hy1.2, hfrac _ hy2.1 hy2.2,
      hhalf _ hx1.1 hx1.2, hdiv _ _ (by omega) (by omega) (by omega)]
    refine ⟨by simp, rfl, rfl, rfl, rfl, ?_, rfl⟩
    split
    · exact wrapS64_eq (by omega) (by omega)
    · exact wrapS64_eq (by omega) (by omega)

end Slope

namespace Slope

/-- C38: for coordinates in `sint32` range whose differences are below `2^23` in absolute
value, the slope built by the constructor (no clipping) has `dmaj = max(|dx|, |dy|)` and
is X-major exactly when `|dx| >= |dy|`; `X()` and `Y()` are the coordinates of the first
point before any `Step`; each of the first `dmaj` steps moves the coordinate of the major
axis by exactly one pixel; after `dmaj` steps `X()` and `Y()` are the coordinates of the
second point; and `CanStep()` is true after 0 to `dmaj` steps and false after
`dmaj + 1` steps. -/
theorem C38_slope_hits_both_endpoints (coord1 coord2 : CoordS32)
    (hx1 : -2147483648 ≤ coord1.x ∧ coord1.x < 2147483648)
    (hy1 : -2147483648 ≤ coord1.y ∧ coord1.y < 2147483648)
    (hx2 : -2147483648 ≤ coord2.x ∧ coord2.x < 2147483648)
    (hy2 : -2147483648 ≤ coord2.y ∧ coord2.y < 2147483648)
    (hdx : |coord2.x - coord1.x| < 8388608) (hdy : |coord2.y - coord1.y| < 8388608) :
    (create coord1 coord2).dmaj = max |coord2.x - coord1.x| |coord2.y - coord1.y| ∧
    (create coord1 coord2).xmajor = decide (|coord2.x - coord1.x| ≥ |coord2.y - coord1.y|) ∧
    X (create coord1 coord2) = coord1.x ∧ Y (create coord1 coord2) = coord1.y ∧
    (∀ k : Nat, (k : Int) < (create coord1 coord2).dmaj →
      |major (Step^[k + 1] (create coord1 coord2))
        - major (Step^[k] (create coord1 coord2))| = 1) ∧
    X (Step^[(create coord1 coord2).dmaj.toNat] (create coord1 coord2)) = coord2.x ∧
    Y (Step^[(create coord1 coord2).dmaj.toNat] (create coord1 coord2)) = coord2.y ∧
    (∀ k : Nat, (k : Int) ≤ (create coord1 coord2).dmaj →
      CanStep (Step^[k] (create coord1 coord2)) = true) ∧
    CanStep (Step^[(create coord1 coord2).dmaj.toNat + 1] (create coord1 coord2)) = false := by
  have ax0 := abs_nonneg (coord2.x - coord1.x)
  have ay0 := abs_nonneg (coord2.y - coord1.y)
  by_cases hmaj : |coord2.x - coord1.x| ≥ |coord2.y - coord1.y|
  · obtain ⟨hxm, hdm, hmj, hmn, hmc, hend, hmin⟩ :=
      (Slope_create_spec coord1 coord2 hx1 hy1 hx2 hy2 hdx hdy).1 hmaj
    have hcast : ((|coord2.x - coord1.x|.toNat : Nat) : Int) = |coord2.x - coord1.x| :=
      Int.toNat_of_nonneg ax0
    obtain ⟨c1, c2, c3, c4, c5, c6, c7⟩ :=
      slope_axes (create coord1 coord2) coord1.x coord2.x coord1.y coord2.y
        |coord2.x - coord1.x|.toNat hx1 hx2 hy1 hy2 hcast.symm (by rw [hcast]; exact hmaj)
        (by rw [hcast]; exact hdx) hmj (by rw [hcast]; exact hmn) hmc hend hmin
    have hX : ∀ k : Nat, X (Step^[k] (create coord1 coord2))
        = wrapS32 ((Step^[k] (create coord1 coord2)).majcounter >>> kFracBits) := by
      intro k
      unfold X
      rw [(iterate_Step_fields _ k).1, hxm]
      rfl
    have hY : ∀ k : Nat, Y (Step^[k] (create coord1 coord2))
        = wrapS32 ((Step^[k] (create coord1 coord2)).mincounter >>> kFracBits) := by
      intro k
      unfold Y
      rw [(iterate_Step_fields _ k).1, hxm]
      rfl
    have hM : ∀ k : Nat, major (Step^[k] (create coord1 coord2))
        = X (Step^[k] (create coord1 coord2)) := by
      intro k
      unfold major
      rw [(iterate_Step_fields _ k).1, hxm]
      rfl
    rw [hdm]
    refine ⟨(max_eq_left hmaj).symm, by rw [hxm, decide_eq_true hmaj], ?_, ?_, ?_, ?_, ?_,
      ?_, ?_⟩
    · exact (hX 0).trans c1
    · exact (hY 0).trans c2
    · intro k hk
      rw [hM, hM, hX, hX]
      exact c3 k (by omega)
    · rw [hX]; exact c4
    · rw [hY]; exact c5
    · intro k hk
      exact c6 k (by omega)
    · exact c7
  · obtain ⟨hxm, hdm, hmj, hmn, hmc, hend, hmin⟩ :=
      (Slope_create_spec coord1 coord2 hx1 hy1 hx2 hy2 hdx hdy).2 hmaj
    have hcast : ((|coord2.y - coord1.y|.toNat : Nat) : Int) = |coord2.y - coord1.y| :=
      Int.toNat_of_nonneg ay0
    obtain ⟨c1, c2, c3, c4, c5, c6, c7⟩ :=
      slope_axes (create coord1 coord2) coord1.y coord2.y coord1.x coord2.x
        |coord2.y - coord1.y|.toNat hy1 hy2 hx1 hx2 hcast.symm (by rw [hcast]; omega)
        (by rw [hcast]; exact hdy) hmj (by rw [hcast]; exact hmn) hmc hend hmin
    have hX : ∀ k : Nat, X (Step^[k] (create coord1 coord2))
        = wrapS32 ((Step^[k] (create coord1 coord2)).mincounter >>> kFracBits) := by
      intro k
      unfold X
      rw [(iterate_Step_fields _ k).1, hxm]
      rfl
    have hY : ∀ k : Nat, Y (Step^[k] (create coord1 coord2))
        = wrapS32 ((Step^[k] (create coord1 coord2)).majcounter >>> kFracBits) := by
      intro k
      unfold Y
      rw [(iterate_Step_fields _ k).1, hxm]
      rfl
    have hM : ∀ k : Nat, major (Step^[k] (create coord1 coord2))
        = Y (Step^[k] (create coord1 coord2)) := by
      intro k
      unfold major
      rw [(iterate_Step_fields _ k).1, hxm]
      rfl
    rw [hdm]
    refine ⟨(max_eq_right (by omega)).symm, by rw [hxm, decide_eq_false hmaj], ?_, ?_, ?_, ?_,
      ?_, ?_, ?_⟩
    · exact (hX 0).trans c2
    · exact (hY 0).trans c1
    · intro k hk
      rw [hM, hM, hY, hY]
      exact c3 k (by omega)
    · rw [hX]; exact c5
    · rw [hY]; exact c4
    · intro k hk
      exact c6 k (by omega)
    · exact c7

/-- Witness for C38: the slope from (0, 0) to (5, -2). -/
theorem C38_slope_hits_both_endpoints_witness :
    X (create ⟨0, 0⟩ ⟨5, -2⟩) = 0 ∧ Y (create ⟨0, 0⟩ ⟨5, -2⟩) = 0 ∧
    X (Step^[(create ⟨0, 0⟩ ⟨5, -2⟩).dmaj.toNat] (create ⟨0, 0⟩ ⟨5, -2⟩)) = 5 ∧
    Y (Step^[(create ⟨0, 0⟩ ⟨5, -2⟩).dmaj.toNat] (create ⟨0, 0⟩ ⟨5, -2⟩)) = -2 ∧
    CanStep (Step^[(create ⟨0, 0⟩ ⟨5, -2⟩).dmaj.toNat + 1] (create ⟨0, 0⟩ ⟨5, -2⟩)) = false :=
  have h := C38_slope_hits_both_endpoints ⟨0, 0⟩ ⟨5, -2⟩ (by decide) (by decide) (by decide)
    (by decide) (by decide) (by decide)
  ⟨h.2.2.1, h.2.2.2.1, h.2.2.2.2.2.1, h.2.2.2.2.2.2.1, h.2.2.2.2.2.2.2.2⟩

end Slope

/-! ## The DMA of the SCU DSP runs to the end -/

namespace SCUDSP

variable {B : Type}

theorem mask27 (x : Nat) : x &&& 0x7FFFFFF = x % 134217728 :=
  Nat.and_pow_two_sub_one_eq_mod x 27

/-- A transfer unit on a valid bus that does not stall is carried out: it advances
`dmaAddrD0` by the stride of the bus, masked to 27 bits, and leaves `dmaCount`, `dmaRun`
and `dmaAddrInc` alone. -/
theorem dmaUnit_some (ops : DSPBus B) (toD0 : Bool) (bus : BusID) (ctIndex : Nat)
    (useDataRAM useProgramRAM : Bool) (index : Nat) (d : SCUDSP) (b : B)
    (hwait : ∀ (b1 : B) (a : Nat), ops.IsBusWait b1 a 4 toD0 = false)
    (hbus : bus ≠ BusID.None) :
    ∃ d1 b1 index1,
      dmaUnit ops toD0 bus ctIndex useDataRAM useProgramRAM index d b = some (d1, b1, index1) ∧
      d1.dmaCount = d.dmaCount ∧ d1.dmaRun = d.dmaRun ∧ d1.dmaAddrInc = d.dmaAddrInc ∧
      d1.dmaAddrD0 = (d.dmaAddrD0 + unitStride toD0 bus d.dmaAddrInc) % 134217728 := by
  have hadd : ∀ a i : Nat, add32 a i &&& 0x7FFFFFF = (a + i) % 134217728 := by
    intro a i
    rw [mask27]
    unfold add32
    omega
  have hadd2 : ∀ a i : Nat, add32 (add32 a i) i &&& 0x7FFFFFF = (a + 2 * i) % 134217728 := by
    intro a i
    rw [mask27]
    unfold add32
    omega
  unfold dmaUnit
  cases toD0
  · have hw := hwait b d.dmaAddrD0
    simp only [Bool.false_eq_true, if_false, hw]
    cases bus
    · cases useDataRAM
      · cases useProgramRAM
        · exact ⟨_, _, _, rfl, rfl, rfl, rfl, hadd _ _⟩
        · exact ⟨_, _, _, rfl, rfl, rfl, rfl, hadd _ _⟩
      · exact ⟨_, _, _, rfl, rfl, rfl, rfl, hadd _ _⟩
    · cases useDataRAM
      · cases useProgramRAM
        · exact ⟨_, _, _, rfl, rfl, rfl, rfl, hadd _ _⟩
        · exact ⟨_, _, _, rfl, rfl, rfl, rfl, hadd _ _⟩
      · exact ⟨_, _, _, rfl, rfl, rfl, rfl, hadd _ _⟩
    · cases useDataRAM
      · cases useProgramRAM
        · exact ⟨_, _, _, rfl, rfl, rfl, rfl, hadd _ _⟩
        · exact ⟨_, _, _, rfl, rfl, rfl, rfl, hadd _ _⟩
      · exact ⟨_, _, _, rfl, rfl, rfl, rfl, hadd _ _⟩
    · exact absurd rfl hbus
  · have hw := hwait b d.dmaAddrD0
    simp only [if_true, hw, Bool.false_eq_true, if_false]
    cases bus
    · cases useDataRAM <;> exact ⟨_, _, _, rfl, rfl, rfl, rfl, hadd _ _⟩
    · cases useDataRAM <;> exact ⟨_, _, _, rfl, rfl, rfl, rfl, hadd2 _ _⟩
    · cases useDataRAM <;> exact ⟨_, _, _, rfl, rfl, rfl, rfl, hadd _ _⟩
    · exact absurd rfl hbus

theorem unitAddr_succ (a s k : Nat) :
    unitAddr ((a + s) % 134217728) s k = unitAddr a s (k + 1) := by
  unfold unitAddr
  rw [if_neg (Nat.succ_ne_zero k), Nat.succ_mul]
  split
  · next h => subst h; simp
  · omega

/-- The loop of `RunDMA` started with `cycles` zero, or not below `dmaCount`, on a valid
bus that does not stall: it carries out exactly `dmaCount` transfer units, at the D0
addresses `unitAddr`, and ends with `dmaCount` zero. -/
theorem dmaLoop_runs_all (countMod : Nat) (ops : DSPBus B) (toD0 : Bool) (bus : BusID)
    (ctIndex : Nat) (useDataRAM useProgramRAM : Bool)
    (hwait : ∀ (b1 : B) (a : Nat), ops.IsBusWait b1 a 4 toD0 = false)
    (hbus : bus ≠ BusID.None) (n : Nat) :
    ∀ (cycles index : Nat) (d : SCUDSP) (b : B), d.dmaCount = n + 1 → n + 1 < countMod →
      (cycles = 0 ∨ n + 1 ≤ cycles) → cycles < 18446744073709551616 →
      countMod ≤ 18446744073709551616 →
      (∀ fuel, n + 1 ≤ fuel →
        dmaLoop countMod ops toD0 bus ctIndex useDataRAM useProgramRAM fuel cycles index d b
          = some (false,
              ((transferUnit countMod ops toD0 bus ctIndex useDataRAM useProgramRAM)^[n + 1]
                (d, b, index)).1,
              ((transferUnit countMod ops toD0 bus ctIndex useDataRAM useProgramRAM)^[n + 1]
                (d, b, index)).2.1,
              (List.range (n + 1)).map
                (unitAddr d.dmaAddrD0 (unitStride toD0 bus d.dmaAddrInc)))) ∧
      ((transferUnit countMod ops toD0 bus ctIndex useDataRAM useProgramRAM)^[n + 1]
        (d, b, index)).1.dmaCount = 0 ∧
      ((transferUnit countMod ops toD0 bus ctIndex useDataRAM useProgramRAM)^[n + 1]
        (d, b, index)).1.dmaRun = d.dmaRun := by
  induction n with
  | zero =>
    intro cycles index d b hcount hlt _ _ _
    obtain ⟨d1, b1, index1, hu, hc, hr, _, _⟩ :=
      dmaUnit_some ops toD0 bus ctIndex useDataRAM useProgramRAM index d b hwait hbus
    have hzero : (d1.dmaCount + countMod - 1) % countMod = 0 := by
      rw [hc, hcount]
      have : 0 + 1 + countMod - 1 = countMod := by omega
      rw [this, Nat.mod_self]
    have hT : (transferUnit countMod ops toD0 bus ctIndex useDataRAM useProgramRAM)^[0 + 1]
        (d, b, index)
        = ({ d1 with dmaCount := (d1.dmaCount + countMod - 1) % countMod }, b1, index1) := by
      show transferUnit countMod ops toD0 bus ctIndex useDataRAM useProgramRAM (d, b, index) = _
      unfold transferUnit
      simp only
      rw [hu]
    rw [hT]
    refine ⟨?_, hzero, hr⟩
    intro fuel hf
    obtain ⟨f, rfl⟩ : ∃ f, fuel = f + 1 := ⟨fuel - 1, by omega⟩
    rw [dmaLoop, hu]
    simp only
    rw [if_neg (by rw [hzero]; simp)]
    rfl
  | succ m ih =>
    intro cycles index d b hcount hlt hcyc hc64 hmod
    obtain ⟨d1, b1, index1, hu, hc, hr, hinc, haddr⟩ :=
      dmaUnit_some ops toD0 bus ctIndex useDataRAM useProgramRAM index d b hwait hbus
    have hdec : (d1.dmaCount + countMod - 1) % countMod = m + 1 := by
      rw [hc, hcount]
      have : m + 1 + 1 + countMod - 1 = (m + 1) + countMod := by omega
      rw [this, Nat.add_mod_right, Nat.mod_eq_of_lt (by omega)]
    have hsub : sub64 cycles 1 ≠ 0 ∧ (sub64 cycles 1 = 0 ∨ m + 1 ≤ sub64 cycles 1) ∧
        sub64 cycles 1 < 18446744073709551616 := by
      unfold sub64
      omega
    have hT : transferUnit countMod ops toD0 bus ctIndex useDataRAM useProgramRAM (d, b, index)
        = ({ d1 with dmaCount := (d1.dmaCount + countMod - 1) % countMod }, b1, index1) := by
      unfold transferUnit
      simp only
      rw [hu]
    obtain ⟨hall, hc3, hr3⟩ :=
      ih (sub64 cycles 1) index1 { d1 with dmaCount := (d1.dmaCount + countMod - 1) % countMod }
        b1 hdec (by omega) hsub.2.1 hsub.2.2 hmod
    rw [Function.iterate_succ_apply, hT]
    refine ⟨?_, hc3, by rw [hr3]; exact hr⟩
    intro fuel hf
    obtain ⟨f, rfl⟩ : ∃ f, fuel = f + 1 := ⟨fuel - 1, by omega⟩
    rw [dmaLoop, hu]
    simp only
    rw [if_pos ⟨by rw [hdec]; omega, hsub.1⟩, hall f (by omega)]
    simp only [Option.some.injEq, Prod.mk.injEq, true_and]
    rw [List.range_succ_eq_map (m + 1), List.map_cons, List.map_map]
    have h0 : unitAddr d.dmaAddrD0 (unitStride toD0 bus d.dmaAddrInc) 0 = d.dmaAddrD0 := rfl
    rw [h0]
    congr 1
    apply List.map_congr_left
    intro k _
    show unitAddr d1.dmaAddrD0 (unitStride toD0 bus d1.dmaAddrInc) k = _
    rw [haddr, hinc]
    exact unitAddr_succ _ _ _

theorem dmaFinish_dmaRun (toD0 : Bool) (bus : BusID) (useProgramRAM : Bool) (d : SCUDSP) :
    (dmaFinish toD0 bus useProgramRAM d).dmaRun = false ∧
    (dmaFinish toD0 bus useProgramRAM d).dmaCount = d.dmaCount := by
  unfold dmaFinish
  simp only
  split <;> split <;> (try split) <;> (try split) <;> exact ⟨rfl, rfl⟩

/-- With a transfer pending on a valid bus that does not stall, `RunDMA(0)` returns
`false` having made the entire transfer: exactly `dmaCount` units at the D0 addresses
`unitAddr`, with `dmaRun` cleared and `dmaCount` zero. -/
theorem RunDMA_runs_all (countMod : Nat) (ops : DSPBus B) (d : SCUDSP) (b : B)
    (hmod : countMod ≤ 18446744073709551616) (hrun : d.dmaRun = true)
    (hbus : ops.GetBusID d.dmaAddrD0 ≠ BusID.None)
    (hwait : ∀ (b1 : B) (a : Nat), ops.IsBusWait b1 a 4 d.dmaToD0 = false)
    (hcount : 1 ≤ d.dmaCount) (hlt : d.dmaCount < countMod) :
    (∀ fuel, d.dmaCount ≤ fuel → RunDMA countMod ops fuel 0 d b =
      some (false, (entireTransfer countMod ops d b).1, (entireTransfer countMod ops d b).2,
        (List.range d.dmaCount).map (unitAddr d.dmaAddrD0
          (unitStride d.dmaToD0 (ops.GetBusID d.dmaAddrD0) d.dmaAddrInc)))) ∧
    (entireTransfer countMod ops d b).1.dmaRun = false ∧
    (entireTransfer countMod ops d b).1.dmaCount = 0 := by
  obtain ⟨n, hn⟩ : ∃ n, d.dmaCount = n + 1 := ⟨d.dmaCount - 1, by omega⟩
  obtain ⟨hall, hc, _⟩ :=
    dmaLoop_runs_all countMod ops d.dmaToD0 (ops.GetBusID d.dmaAddrD0)
      (if d.dmaToD0 then d.dmaSrc else d.dmaDst)
      (decide ((if d.dmaToD0 then d.dmaSrc else d.dmaDst) ≤ 3))
      (!d.dmaToD0 && decide ((if d.dmaToD0 then d.dmaSrc else d.dmaDst) = 4))
      hwait hbus n 0 d.dmaPC d b hn (by omega) (Or.inl rfl) (by decide) hmod
  have hfin := dmaFinish_dmaRun d.dmaToD0 (ops.GetBusID d.dmaAddrD0)
    (!d.dmaToD0 && decide ((if d.dmaToD0 then d.dmaSrc else d.dmaDst) = 4))
    ((transferUnit countMod ops d.dmaToD0 (ops.GetBusID d.dmaAddrD0)
      (if d.dmaToD0 then d.dmaSrc else d.dmaDst)
      (decide ((if d.dmaToD0 then d.dmaSrc else d.dmaDst) ≤ 3))
      (!d.dmaToD0 && decide ((if d.dmaToD0 then d.dmaSrc else d.dmaDst) = 4)))^[n + 1]
      (d, b, d.dmaPC)).1
  unfold entireTransfer
  simp only
  rw [hn]
  refine ⟨?_, hfin.1, by rw [hfin.2, hc]⟩
  intro fuel hf
  unfold RunDMA
  rw [if_neg (by rw [hrun]; simp)]
  simp only
  rw [if_neg hbus, hall fuel (by omega)]
  simp only
  rw [if_pos hc]

end SCUDSP

namespace SCUDSP

variable {B : Type}

/-- C32: in a cycle of `SCUDSP::Run` in which an instruction is about to execute (the
program is executing or stepping and is not paused) while a DMA is pending (`dmaRun`
set, `GetBusID(dmaAddrD0)` not `None`, no bus wait, `dmaCount >= 1`), the call
`RunDMA(0)` returns `false` having performed the entire remaining transfer: its result
is that of `dmaCount` transfer units one after the other followed by the end of the
transfer, the units are made at the D0 addresses `dmaAddrD0`, then
`(dmaAddrD0 + k * stride) mod 2^27` for `k = 1, ..., dmaCount - 1`, `dmaCount` is zero
and `dmaRun` is cleared; and the instruction fetched before is executed on that state.
So the transfer never stops after one unit when `dmaCount > 1`.  `countMod` is the
number of values of the type of `dmaCount`, at most `2^64`. -/
theorem C32_pending_dma_runs_to_end (countMod : Nat) (ops : DSPBus B)
    (execute : Nat → SCUDSP → B → SCUDSP × B) (d : SCUDSP) (b : B)
    (hmod : countMod ≤ 18446744073709551616)
    (hexec : d.programExecuting = true ∨ d.programStep = true)
    (hpause : d.programPaused = false) (hrun : d.dmaRun = true)
    (hbus : ops.GetBusID d.dmaAddrD0 ≠ BusID.None)
    (hwait : ∀ (b1 : B) (a : Nat), ops.IsBusWait b1 a 4 d.dmaToD0 = false)
    (hcount : 1 ≤ d.dmaCount) (hlt : d.dmaCount < countMod) :
    ∃ d1 b1 trace,
      (d1, b1) = entireTransfer countMod ops
        { d with nextInstr := d.programRAM.getD d.PC 0, dmaPC := d.PC } b ∧
      trace = (List.range d.dmaCount).map (unitAddr d.dmaAddrD0
        (unitStride d.dmaToD0 (ops.GetBusID d.dmaAddrD0) d.dmaAddrInc)) ∧
      (∀ fuel, d.dmaCount ≤ fuel →
        RunDMA countMod ops fuel 0
          { d with nextInstr := d.programRAM.getD d.PC 0, dmaPC := d.PC } b
          = some (false, d1, b1, trace)) ∧
      trace.length = d.dmaCount ∧ (1 < d.dmaCount → 1 < trace.length) ∧
      d1.dmaRun = false ∧ d1.dmaCount = 0 ∧
      (∀ fuel, d.dmaCount ≤ fuel →
        RunCycle countMod ops execute fuel d b
          = some (true, { (execute d.nextInstr d1 b1).1 with programStep := false },
              (execute d.nextInstr d1 b1).2, trace)) := by
  obtain ⟨hall, hr, hc⟩ :=
    RunDMA_runs_all countMod ops
      { d with nextInstr := d.programRAM.getD d.PC 0, dmaPC := d.PC } b hmod hrun hbus hwait
      hcount hlt
  have hlen : ((List.range d.dmaCount).map (unitAddr d.dmaAddrD0
      (unitStride d.dmaToD0 (ops.GetBusID d.dmaAddrD0) d.dmaAddrInc))).length = d.dmaCount := by
    simp
  refine ⟨(entireTransfer countMod ops
      { d with nextInstr := d.programRAM.getD d.PC 0, dmaPC := d.PC } b).1,
    (entireTransfer countMod ops
      { d with nextInstr := d.programRAM.getD d.PC 0, dmaPC := d.PC } b).2,
    _, rfl, rfl, hall, hlen, fun h => by rw [hlen]; exact h, hr, hc, ?_⟩
  intro fuel hf
  have h1 : (!d.programExecuting && !d.programStep) = false := by
    rcases hexec with h | h <;> simp [h]
  have h2 : ¬ d.programPaused = true := by rw [hpause]; simp
  unfold RunCycle
  rw [if_neg (by rw [h1]; simp), if_neg h2]
  simp only
  rw [if_pos hrun]
  have := hall fuel hf
  simp only at this
  rw [this]

/-- Witness for C32.  On `demoDSP` the cycle reads the three words at the A-Bus
addresses 256, 260 and 264 into data RAM bank 0, leaves `CT0 = 3`, `dmaReadAddr = 268`,
`dmaCount = 0` and `dmaRun` clear, and then executes instruction 7.  On `demoDSPOut` it
writes the words 11, 22 and 33 of data RAM bank 1 to the addresses 512, 516 and 520 and
leaves `CT1 = 3` and `dmaWriteAddr = 524`. -/
theorem C32_pending_dma_runs_to_end_witness :
    (∃ (d1 : SCUDSP) (b1 : List (Nat × Nat)) (trace : List Nat),
      RunCycle 256 demoBus demoExecute 3 demoDSP []
        = some (true, { (demoExecute 7 d1 b1).1 with programStep := false },
            (demoExecute 7 d1 b1).2, trace) ∧
      trace = [256, 260, 264] ∧ d1.dmaRun = false ∧ d1.dmaCount = 0 ∧
      d1.dataRAM = [[1256, 1260, 1264, 0], [0, 0, 0, 0], [0, 0, 0, 0], [0, 0, 0, 0]] ∧
      d1.CT = [3, 0, 0, 0] ∧ d1.dmaAddrD0 = 268 ∧ d1.dmaReadAddr = 268 ∧ b1 = []) ∧
    (RunCycle 256 demoBus demoExecute 3 demoDSP []).map
        (fun r => (r.1, r.2.1.loopTop, r.2.1.dataRAM.getD 0 [], r.2.2.2))
      = some (true, 7, [1256, 1260, 1264, 0], [256, 260, 264]) ∧
    (∃ (d1 : SCUDSP) (b1 : List (Nat × Nat)) (trace : List Nat),
      RunCycle 256 demoBus demoExecute 3 demoDSPOut []
        = some (true, { (demoExecute 7 d1 b1).1 with programStep := false },
            (demoExecute 7 d1 b1).2, trace) ∧
      trace = [512, 516, 520] ∧ d1.dmaRun = false ∧ d1.dmaCount = 0 ∧
      b1 = [(512, 11), (516, 22), (520, 33)] ∧
      d1.CT = [0, 3, 0, 0] ∧ d1.dmaAddrD0 = 520 ∧ d1.dmaWriteAddr = 524) ∧
    (RunCycle 256 demoBus demoExecute 3 demoDSPOut []).map
        (fun r => (r.1, r.2.1.loopTop, r.2.2.1, r.2.2.2))
      = some (true, 7, [(512, 11), (516, 22), (520, 33)], [512, 516, 520]) := by
  obtain ⟨d1, b1, trace, he, ht, _, _, _, hr, hc, hcycle⟩ :=
    C32_pending_dma_runs_to_end 256 demoBus demoExecute demoDSP []
      (by decide) (Or.inl rfl) rfl rfl (by decide) (fun _ _ => rfl) (by decide) (by decide)
  obtain ⟨d2, b2, trace2, he2, ht2, _, _, _, hr2, hc2, hcycle2⟩ :=
    C32_pending_dma_runs_to_end 256 demoBus demoExecute demoDSPOut []
      (by decide) (Or.inl rfl) rfl rfl (by decide) (fun _ _ => rfl) (by decide) (by decide)
  have hd1 := congrArg Prod.fst he
  have hb1 := congrArg Prod.snd he
  have hd2 := congrArg Prod.fst he2
  have hb2 := congrArg Prod.snd he2
  simp only at hd1 hb1 hd2 hb2
  refine ⟨⟨d1, b1, trace, hcycle 3 (le_refl 3), ?_, hr, hc, ?_, ?_, ?_, ?_, ?_⟩, by decide,
    ⟨d2, b2, trace2, hcycle2 3 (le_refl 3), ?_, hr2, hc2, ?_, ?_, ?_, ?_⟩, by decide⟩
  · rw [ht]; decide
  · rw [hd1]; decide
  · rw [hd1]; decide
  · rw [hd1]; decide
  · rw [hd1]; decide
  · rw [hb1]; decide
  · rw [ht2]; decide
  · rw [hb2]; decide
  · rw [hd2]; decide
  · rw [hd2]; decide
  · rw [hd2]; decide

end SCUDSP

/-! ## Accounting of master cycles against scheduler time -/

namespace Saturn

variable {R : Type}

theorem ExecuteBody_keeps (executed : R → Nat) (s s1 : Scheduler R) (w w1 : R)
    (fired : List Fired) (hb : Scheduler.ExecuteBody s w = some (s1, w1, fired))
    (hk : CallbacksKeep executed s) :
    CallbacksKeep executed s1 ∧ executed w1 = executed w := by
  obtain ⟨e, e1, he, hs1, _, _, hcb, hcase⟩ := Scheduler.ExecuteBody_spec s s1 w w1 fired hb
  have hev : s1.m_events = s.m_events.set s.m_nextEvent e1 := by rw [hs1]; rfl
  constructor
  · intro i x hi w0
    rw [hev, List.getElem?_set] at hi
    by_cases hn : s.m_nextEvent = i
    · rw [if_pos hn] at hi
      by_cases hl : s.m_nextEvent < s.m_events.length
      · rw [if_pos hl] at hi
        cases hi
        rw [hcb]
        exact hk s.m_nextEvent e he w0
      · rw [if_neg hl] at hi
        cases hi
    · rw [if_neg hn] at hi
      exact hk i x hi w0
  · rcases hcase with ⟨_, _, hw, _⟩ | ⟨_, _, hw, _⟩
    · rw [hw]; exact hk s.m_nextEvent e he w
    · rw [hw]

theorem Execute_keeps (executed : R → Nat) (fuel : Nat) (s s2 : Scheduler R) (w w2 : R)
    (log : List Fired) (h : Scheduler.Execute fuel s w = some (s2, w2, log))
    (hk : CallbacksKeep executed s) :
    CallbacksKeep executed s2 ∧ executed w2 = executed w := by
  induction fuel generalizing s w log with
  | zero => simp [Scheduler.Execute] at h
  | succ n ih =>
    rcases Scheduler.Execute_inv _ s s2 w w2 log h with
      ⟨_, hs, hw, _⟩ | ⟨_, m, s1, w1, fired, log1, hm, hb, hr, _⟩
    · rw [hs, hw]; exact ⟨hk, rfl⟩
    · have hm2 : m = n := by omega
      subst hm2
      obtain ⟨hk1, hw1⟩ := ExecuteBody_keeps executed s s1 w w1 fired hb hk
      obtain ⟨hk2, hw2⟩ := ih s1 w1 log1 hr hk1
      exact ⟨hk2, by rw [hw2, hw1]⟩

/-- The callbacks that `Scheduler::Advance` invokes leave the cycles of the master SH-2
alone, and the scheduler it leaves has the same property. -/
theorem Advance_keeps (executed : R → Nat) (fuel count : Nat) (s s2 : Scheduler R)
    (w w2 : R) (log : List Fired)
    (h : Scheduler.Advance fuel count s w = some (s2, w2, log))
    (hk : CallbacksKeep executed s) :
    CallbacksKeep executed s2 ∧ executed w2 = executed w := by
  obtain ⟨fuel1, hx⟩ := Scheduler.Advance_inv fuel count s s2 w w2 log h
  exact Execute_keeps executed fuel1 _ s2 w w2 log hx (fun i e hi => hk i e hi)

theorem sliceBody_executed (withSlave : Bool) (ops : RunOps R) (steps : StepOps R)
    (executed : R → Nat) (hacc : MasterAccounting ops steps executed) (cycles e sc : Nat)
    (r : R) :
    e ≤ (sliceBody withSlave ops cycles e sc r).1 ∧
    executed (sliceBody withSlave ops cycles e sc r).2.2.1
      = executed r + ((sliceBody withSlave ops cycles e sc r).1 - e) := by
  obtain ⟨hm, _, hsl, _, hscu, _, _⟩ := hacc
  obtain ⟨_, h2, h4⟩ := hm r (sliceTarget cycles e) e
  cases withSlave
  · simp only [sliceBody, Bool.false_eq_true, if_false]
    exact ⟨h2, by rw [hscu, h4]⟩
  · simp only [sliceBody, if_true]
    exact ⟨h2, by rw [hscu, hsl, h4]⟩

/-- The slice loop executes on the master SH-2 the cycles between the position it
starts at and the position it ends at. -/
theorem sliceLoop_executed (debug withSlave : Bool) (ops : RunOps R) (steps : StepOps R)
    (executed : R → Nat) (hacc : MasterAccounting ops steps executed) (cycles fuel e sc : Nat)
    (r : R) (e1 sc1 : Nat) (r1 : R) (calls : List Call)
    (h : sliceLoop debug withSlave ops cycles fuel e sc r = some (e1, sc1, r1, calls)) :
    e ≤ e1 ∧ executed r1 = executed r + (e1 - e) := by
  induction fuel generalizing e sc r calls with
  | zero => simp [sliceLoop] at h
  | succ n ih =>
    obtain ⟨hb1, hb2⟩ := sliceBody_executed withSlave ops steps executed hacc cycles e sc r
    rw [sliceLoop_succ] at h
    split at h
    · simp only [Option.some.injEq] at h
      rw [h] at hb1 hb2
      exact ⟨hb1, hb2⟩
    · split at h
      · cases hrec : sliceLoop debug withSlave ops cycles n
            (sliceBody withSlave ops cycles e sc r).1
            (sliceBody withSlave ops cycles e sc r).2.1
            (sliceBody withSlave ops cycles e sc r).2.2.1 with
        | none => rw [hrec] at h; simp at h
        | some res =>
          obtain ⟨e2, sc2, r2, rest⟩ := res
          rw [hrec] at h
          simp only [Option.some.injEq, Prod.mk.injEq] at h
          obtain ⟨h1, h2, h3, h4⟩ := h
          subst h1 h2 h3 h4
          obtain ⟨i1, i2⟩ := ih _ _ _ _ hrec
          exact ⟨by omega, by rw [i2, hb2]; omega⟩
      · simp only [Option.some.injEq] at h
        rw [h] at hb1 hb2
        exact ⟨hb1, hb2⟩

theorem schedulerCycles_append (l1 l2 : List Call) :
    schedulerCycles (l1 ++ l2) = schedulerCycles l1 + schedulerCycles l2 := by
  induction l1 with
  | nil => simp [schedulerCycles]
  | cons c rest ih =>
    cases c <;> simp [schedulerCycles, ih]
    omega

theorem schedulerCycles_of_none (l : List Call)
    (h : ∀ c ∈ l, c.isSchedulerAdvance = false) : schedulerCycles l = 0 := by
  induction l with
  | nil => rfl
  | cons c rest ih =>
    have hc := h c (List.mem_cons_self _ _)
    have hr := ih (fun x hx => h x (List.mem_cons_of_mem _ hx))
    cases c <;> first | exact hr | (simp [Call.isSchedulerAdvance] at hc)

theorem sh1Step_executed (ops : RunOps R) (steps : StepOps R)
    (executed : R → Nat) (hacc : MasterAccounting ops steps executed) (sat : Saturn R R)
    (r2 : R) (e : Nat) :
    executed (sh1Step ops sat r2 e).2.1 = executed r2 ∧
    schedulerCycles (sh1Step ops sat r2 e).2.2 = 0 := by
  obtain ⟨_, _, _, _, _, _, hsh1⟩ := hacc
  unfold sh1Step
  simp only
  split
  · exact ⟨hsh1 _ _ _, rfl⟩
  · exact ⟨rfl, rfl⟩

end Saturn

namespace Saturn

variable {R : Type}

/-- A non-debug `Run` keeps the relation between master cycles and scheduler time, and
leaves no master spillover. -/
theorem Run_balanced (cfg : RunConfig) (ops : RunOps R) (steps : StepOps R)
    (executed : R → Nat) (hacc : MasterAccounting ops steps executed)
    (hdebug : cfg.debug = false) (fuel : Nat) (sat sat1 : Saturn R R) (ok : Bool)
    (calls : List Call) (log : List Fired) (S : Nat)
    (hk : CallbacksKeep executed sat.m_scheduler) (hbal : Balanced executed S sat)
    (hrun : Run cfg ops fuel sat = some (ok, sat1, calls, log)) :
    Balanced executed (S + schedulerCycles calls) sat1 ∧
    CallbacksKeep executed sat1.m_scheduler ∧ sat1.m_msh2SpilloverCycles = 0 := by
  unfold Run at hrun
  simp only at hrun
  cases hsl : sliceLoop cfg.debug sat.slaveSH2Enabled ops (runBudget sat) fuel
      sat.m_msh2SpilloverCycles sat.m_ssh2SpilloverCycles sat.components with
  | none => rw [hsl] at hrun; simp at hrun
  | some res =>
    obtain ⟨e, sc, r1, slcalls⟩ := res
    rw [hsl] at hrun
    simp only at hrun
    cases hadv : Scheduler.Advance fuel e sat.m_scheduler
        (sh1Step ops sat (ops.vdpAdvance r1 e) e).2.1 with
    | none => rw [hadv] at hrun; simp at hrun
    | some res2 =>
      obtain ⟨scheduler, r3, log2⟩ := res2
      rw [hadv] at hrun
      simp only [Option.some.injEq, Prod.mk.injEq] at hrun
      obtain ⟨_, hsat, hcalls, _⟩ := hrun
      obtain ⟨hle, hex⟩ := sliceLoop_executed cfg.debug sat.slaveSH2Enabled ops steps executed
        hacc (runBudget sat) fuel _ _ _ e sc r1 slcalls hsl
      obtain ⟨hks, hw⟩ := Advance_keeps executed fuel e sat.m_scheduler scheduler _ r3 log2
        hadv hk
      obtain ⟨hsh1, hsh1c⟩ := sh1Step_executed ops steps executed hacc sat
        (ops.vdpAdvance r1 e) e
      have hvdp := hacc.2.2.2.2.2.1 r1 e
      have hslice : schedulerCycles slcalls = 0 := by
        apply schedulerCycles_of_none
        intro c hc
        have := (sliceLoop_spec cfg.debug sat.slaveSH2Enabled ops (runBudget sat) fuel _ _ _
          e sc r1 slcalls hsl).1 c hc
        cases c <;> simp [Call.isSlice] at this <;> rfl
      have hsum : schedulerCycles calls = e := by
        rw [← hcalls]
        simp only [schedulerCycles_append, hslice, hsh1c, schedulerCycles]
        omega
      have hspill : (spillover cfg sat e sc).1 = 0 := by
        unfold spillover
        rw [hdebug]
        simp
      rw [← hsat]
      refine ⟨?_, hks, hspill⟩
      unfold Balanced at hbal ⊢
      simp only [hdebug, Bool.false_eq_true, if_false]
      rw [hw, hsh1, hvdp, hex, hbal, hsum, hspill]
      omega

/-- `StepSlaveSH2Impl` keeps the relation between master cycles and scheduler time, the
position that the master SH-2 returns being a 64-bit value. -/
theorem StepSlaveSH2Impl_balanced (ops : RunOps R) (steps : StepOps R)
    (executed : R → Nat) (hacc : MasterAccounting ops steps executed) (fuel : Nat)
    (sat sat1 : Saturn R R) (ret : Nat) (calls : List Call) (log : List Fired) (S : Nat)
    (hk : CallbacksKeep executed sat.m_scheduler) (hbal : Balanced executed S sat)
    (h64 : (ops.masterSH2Advance (steps.slaveSH2Step sat.components).2
        (sub64 (steps.slaveSH2Step sat.components).1 sat.m_ssh2SpilloverCycles)
        sat.m_msh2SpilloverCycles).1 < 18446744073709551616)
    (hstep : StepSlaveSH2Impl ops steps fuel sat = some (ret, sat1, calls, log)) :
    Balanced executed (S + schedulerCycles calls) sat1 ∧
    CallbacksKeep executed sat1.m_scheduler := by
  have hss := hacc.2.2.2.1 sat.components
  unfold StepSlaveSH2Impl at hstep
  by_cases hen : sat.slaveSH2Enabled = false
  · rw [if_pos hen] at hstep
    simp only [Option.some.injEq, Prod.mk.injEq] at hstep
    obtain ⟨_, hsat, hcalls, _⟩ := hstep
    rw [← hsat, ← hcalls]
    exact ⟨hbal, hk⟩
  · rw [if_neg hen] at hstep
    simp only at hstep
    by_cases hge : (steps.slaveSH2Step sat.components).1 ≥ sat.m_ssh2SpilloverCycles
    · rw [if_pos hge] at hstep
      have ht64 := sub64_lt (steps.slaveSH2Step sat.components).1 sat.m_ssh2SpilloverCycles
      generalize sub64 (steps.slaveSH2Step sat.components).1 sat.m_ssh2SpilloverCycles = t
        at hstep ht64 h64
      obtain ⟨m1, m2, m4⟩ := hacc.1 (steps.slaveSH2Step sat.components).2 t
        sat.m_msh2SpilloverCycles
      generalize ops.masterSH2Advance (steps.slaveSH2Step sat.components).2 t
        sat.m_msh2SpilloverCycles = m at hstep m1 m2 h64 m4
      have hscu := hacc.2.2.2.2.1 m.2 t
      have hvdp := hacc.2.2.2.2.2.1 (ops.scuAdvance m.2 t) t
      obtain ⟨hsh1, hsh1c⟩ := sh1Step_executed ops steps executed hacc sat
        (ops.vdpAdvance (ops.scuAdvance m.2 t) t) t
      cases hadv : Scheduler.Advance fuel t sat.m_scheduler
          (sh1Step ops sat (ops.vdpAdvance (ops.scuAdvance m.2 t) t) t).2.1 with
      | none => rw [hadv] at hstep; simp at hstep
      | some res2 =>
        obtain ⟨scheduler, r3, log2⟩ := res2
        rw [hadv] at hstep
        simp only [Option.some.injEq, Prod.mk.injEq] at hstep
        obtain ⟨_, hsat, hcalls, _⟩ := hstep
        obtain ⟨hks, hw⟩ := Advance_keeps executed fuel t sat.m_scheduler scheduler _ r3 log2
          hadv hk
        have hsum : schedulerCycles calls = t := by
          rw [← hcalls, schedulerCycles_append, schedulerCycles_append, hsh1c]
          simp [schedulerCycles]
        rw [← hsat]
        refine ⟨?_, hks⟩
        unfold Balanced at hbal ⊢
        show executed r3 = S + schedulerCycles calls + sub64 m.1 t
        rw [hw, hsh1, hvdp, hscu, m4, hss, hbal, hsum]
        unfold sub64
        omega
    · rw [if_neg hge] at hstep
      simp only [Option.some.injEq, Prod.mk.injEq] at hstep
      obtain ⟨_, hsat, hcalls, _⟩ := hstep
      rw [← hsat, ← hcalls]
      refine ⟨?_, hk⟩
      unfold Balanced at hbal ⊢
      show executed (steps.slaveSH2Step sat.components).2
        = S + schedulerCycles [] + sat.m_msh2SpilloverCycles
      rw [hss, hbal]
      rfl

/-- `StepMasterSH2Impl` breaks the relation between master cycles and scheduler time
whenever the master SH-2 has spillover cycles and the instruction takes a cycle. -/
theorem StepMasterSH2Impl_unbalanced (ops : RunOps R) (steps : StepOps R)
    (executed : R → Nat) (hacc : MasterAccounting ops steps executed) (fuel : Nat)
    (sat sat1 : Saturn R R) (ret : Nat) (calls : List Call) (log : List Fired) (S : Nat)
    (hk : CallbacksKeep executed sat.m_scheduler) (hbal : Balanced executed S sat)
    (hspill : 0 < sat.m_msh2SpilloverCycles)
    (hs64 : sat.m_msh2SpilloverCycles < 18446744073709551616)
    (hcyc : 0 < (steps.masterSH2Step sat.components).1)
    (hstep : StepMasterSH2Impl ops steps fuel sat = some (ret, sat1, calls, log)) :
    ¬ Balanced executed (S + schedulerCycles calls) sat1 := by
  obtain ⟨c64, hc⟩ := hacc.2.1 sat.components
  unfold StepMasterSH2Impl at hstep
  simp only at hstep
  by_cases hge : (steps.masterSH2Step sat.components).1 ≥ sat.m_msh2SpilloverCycles
  · rw [if_pos hge] at hstep
    have ht : sub64 (steps.masterSH2Step sat.components).1 sat.m_msh2SpilloverCycles
        = (steps.masterSH2Step sat.components).1 - sat.m_msh2SpilloverCycles := by
      unfold sub64
      omega
    generalize sub64 (steps.masterSH2Step sat.components).1 sat.m_msh2SpilloverCycles = t
      at hstep ht
    have hsl : executed
        (if sat.slaveSH2Enabled = true then
          ops.slaveSH2Advance (steps.masterSH2Step sat.components).2 t sat.m_ssh2SpilloverCycles
        else (0, (steps.masterSH2Step sat.components).2)).2
        = executed (steps.masterSH2Step sat.components).2 := by
      split
      · exact hacc.2.2.1 _ _ _
      · rfl
    generalize (if sat.slaveSH2Enabled = true then
          ops.slaveSH2Advance (steps.masterSH2Step sat.components).2 t sat.m_ssh2SpilloverCycles
        else (0, (steps.masterSH2Step sat.components).2)) = sl at hstep hsl
    have hscu := hacc.2.2.2.2.1 sl.2 t
    have hvdp := hacc.2.2.2.2.2.1 (ops.scuAdvance sl.2 t) t
    obtain ⟨hsh1, hsh1c⟩ := sh1Step_executed ops steps executed hacc sat
      (ops.vdpAdvance (ops.scuAdvance sl.2 t) t) t
    cases hadv : Scheduler.Advance fuel t sat.m_scheduler
        (sh1Step ops sat (ops.vdpAdvance (ops.scuAdvance sl.2 t) t) t).2.1 with
    | none => rw [hadv] at hstep; simp at hstep
    | some res2 =>
      obtain ⟨scheduler, r3, log2⟩ := res2
      rw [hadv] at hstep
      simp only [Option.some.injEq, Prod.mk.injEq] at hstep
      obtain ⟨_, hsat, hcalls, _⟩ := hstep
      obtain ⟨_, hw⟩ := Advance_keeps executed fuel t sat.m_scheduler scheduler _ r3 log2
        hadv hk
      have hsum : schedulerCycles calls = t := by
        rw [← hcalls, schedulerCycles_append, schedulerCycles_append, schedulerCycles_append,
          hsh1c]
        have : schedulerCycles
            (if sat.slaveSH2Enabled = true then
              [Call.slaveSH2Advance t sat.m_ssh2SpilloverCycles] else []) = 0 := by
          split <;> rfl
        rw [this]
        simp [schedulerCycles]
      rw [← hsat]
      unfold Balanced at hbal ⊢
      show ¬ executed r3 = S + schedulerCycles calls + 0
      rw [hw, hsh1, hvdp, hscu, hsl, hc, hbal, hsum]
      omega
  · rw [if_neg hge] at hstep
    simp only [Option.some.injEq, Prod.mk.injEq] at hstep
    obtain ⟨_, hsat, hcalls, _⟩ := hstep
    rw [← hsat, ← hcalls]
    unfold Balanced at hbal ⊢
    show ¬ executed (steps.masterSH2Step sat.components).2
      = S + schedulerCycles [] + sub64 sat.m_msh2SpilloverCycles
          (steps.masterSH2Step sat.components).1
    rw [hc, hbal]
    have : schedulerCycles [] = 0 := rfl
    rw [this]
    unfold sub64
    omega

end Saturn

namespace Saturn

/-- C31, the code at the failing input.  On `demoStepSaturn` (master cycles `M = 0`,
scheduler time `S = 0`, no spillover) `StepSlaveSH2Impl` steps the slave SH-2 one cycle,
runs the master SH-2 to position 3 and advances the scheduler by 1: `M = 3`, `S = 1`,
`m_msh2SpilloverCycles = 2`, and `M = S + m_msh2SpilloverCycles` holds.  Then
`StepMasterSH2Impl` executes one more master cycle, lowers `m_msh2SpilloverCycles` to 1
and does not advance the scheduler: `M = 4`, `S = 1`, and the relation fails.  A `Run`
from the first state ends with `M = S = 3`; the same `Run` after the master step ends
with `M = 4` and `S = 2`.  In general a non-debug `Run` and `StepSlaveSH2Impl` keep the
relation, and `StepMasterSH2Impl` breaks it whenever the master SH-2 has spillover
cycles and the instruction takes a cycle. -/
theorem C31_master_step_breaks_spillover_balance :
    MasterAccounting demoCountingOps demoStepOps (fun r => r) ∧
    CallbacksKeep (fun r => r) demoStepSaturn.m_scheduler ∧
    Balanced (fun r => r) 0 demoStepSaturn ∧
    (StepSlaveSH2Impl demoCountingOps demoStepOps 2 demoStepSaturn).map
        (fun res => (res.1, res.2.2.1))
      = some (1, [Call.masterSH2Advance 1 0, Call.scuAdvance 1, Call.vdpAdvance 1,
          Call.sh1Advance 1 0, Call.schedulerAdvance 1]) ∧
    (demoAfterSlaveStep.components, demoAfterSlaveStep.m_msh2SpilloverCycles) = (3, 2) ∧
    Balanced (fun r => r) 1 demoAfterSlaveStep ∧
    (StepMasterSH2Impl demoCountingOps demoStepOps 2 demoAfterSlaveStep).map
        (fun res => (res.1, res.2.2.1)) = some (1, []) ∧
    (demoAfterMasterStep.components, demoAfterMasterStep.m_msh2SpilloverCycles) = (4, 1) ∧
    ¬ Balanced (fun r => r) 1 demoAfterMasterStep ∧
    (Run demoConfig demoCountingOps 2 demoAfterSlaveStep).map
        (fun res => (res.2.1.components, 1 + schedulerCycles res.2.2.1,
          res.2.1.m_msh2SpilloverCycles)) = some (3, 3, 0) ∧
    (Run demoConfig demoCountingOps 2 demoAfterMasterStep).map
        (fun res => (res.2.1.components, 1 + schedulerCycles res.2.2.1,
          res.2.1.m_msh2SpilloverCycles)) = some (4, 2, 0) ∧
    (∀ (R : Type) (cfg : RunConfig) (ops : RunOps R) (steps : StepOps R) (executed : R → Nat)
        (fuel S ret : Nat) (ok : Bool) (sat sat1 : Saturn R R) (calls : List Call)
        (log : List Fired),
      MasterAccounting ops steps executed → CallbacksKeep executed sat.m_scheduler →
      Balanced executed S sat →
      (cfg.debug = false → Run cfg ops fuel sat = some (ok, sat1, calls, log) →
        Balanced executed (S + schedulerCycles calls) sat1) ∧
      ((ops.masterSH2Advance (steps.slaveSH2Step sat.components).2
            (sub64 (steps.slaveSH2Step sat.components).1 sat.m_ssh2SpilloverCycles)
            sat.m_msh2SpilloverCycles).1 < 18446744073709551616 →
        StepSlaveSH2Impl ops steps fuel sat = some (ret, sat1, calls, log) →
        Balanced executed (S + schedulerCycles calls) sat1) ∧
      (0 < sat.m_msh2SpilloverCycles → sat.m_msh2SpilloverCycles < 18446744073709551616 →
        0 < (steps.masterSH2Step sat.components).1 →
        StepMasterSH2Impl ops steps fuel sat = some (ret, sat1, calls, log) →
        ¬ Balanced executed (S + schedulerCycles calls) sat1)) := by
  have hacc : MasterAccounting demoCountingOps demoStepOps (fun r => r) := by
    refine ⟨?_, fun r => ⟨show (1 : Nat) < 18446744073709551616 by decide, rfl⟩,
      fun _ _ _ => rfl, fun _ => rfl, fun _ _ => rfl,
      fun _ _ => rfl, fun _ _ _ => rfl⟩
    intro r t st
    show t ≤ (if st < t then (t + 2, r + (t + 2 - st)) else (st, r)).1 ∧
      st ≤ (if st < t then (t + 2, r + (t + 2 - st)) else (st, r)).1 ∧
      (if st < t then (t + 2, r + (t + 2 - st)) else (st, r)).2
        = r + ((if st < t then (t + 2, r + (t + 2 - st)) else (st, r)).1 - st)
    split <;> simp <;> omega
  have hkeep : CallbacksKeep (fun r => r) demoStepSaturn.m_scheduler := by
    intro i e he w
    have hmem : e ∈ demoStepSaturn.m_scheduler.m_events := List.mem_iff_getElem?.2 ⟨i, he⟩
    have hev : demoStepSaturn.m_scheduler.m_events =
        [{ target := kNoDeadline, countNumerator := 1, countDenominator := 1,
           callback := fun w => ({ reschedule := false, interval := 0 }, w) },
         { target := kNoDeadline, countNumerator := 1, countDenominator := 1,
           callback := fun w => ({ reschedule := false, interval := 0 }, w) }] := rfl
    rw [hev] at hmem
    simp only [List.mem_cons, List.mem_singleton, List.not_mem_nil, or_false, or_self] at hmem
    rw [hmem]
  have hnot : ¬ Balanced (fun r => r) 1 demoAfterMasterStep := by
    show ¬ demoAfterMasterStep.components = 1 + demoAfterMasterStep.m_msh2SpilloverCycles
    decide
  refine ⟨hacc, hkeep, rfl, by decide, by decide, rfl, by decide, by decide, hnot,
    by decide, by decide, ?_⟩
  intro R cfg ops steps executed fuel S ret ok sat sat1 calls log ha hk hb
  refine ⟨?_, ?_, ?_⟩
  · intro hd hrun
    exact (Run_balanced cfg ops steps executed ha hd fuel sat sat1 ok calls log S hk hb hrun).1
  · intro h64 hstep
    exact (StepSlaveSH2Impl_balanced ops steps executed ha fuel sat sat1 ret calls log S
      hk hb h64 hstep).1
  · intro h1 h2 h3 hstep
    exact StepMasterSH2Impl_unbalanced ops steps executed ha fuel sat sat1 ret calls log S
      hk hb h1 h2 h3 hstep

end Saturn

end Ymir
